import Mathlib

/-! Hessian LLE (`libraries/dimred/hessianLLE.cpp`), volume segmentation
(`libraries/reconstruction/volume_segment.cpp`) and wavelet blocks (`libraries/data/wavelet.h`).

A shallow embedding of the numerical core of `HessianLLE` and of the statements made
about it, followed by the smoothing and the threshold search of the volume segmentation and
by the index macros of the wavelet transform.  Matrices are the row-major containers of the
library, loops are counted loops folded over an explicit state, and `double` is read as an
element of a linearly ordered field (exact arithmetic).
-/

namespace HessianLLE

/-! ## Loops -/

/-- Counted loop `for (i = 0; i < n; ++i) body(i)`: the body is run for `i = 0, 1, ..., n-1`
in this order on the state `s`. -/
def forLoop {σ : Type} (n : Nat) (body : Nat → σ → σ) (s : σ) : σ :=
  match n with
  | 0 => s
  | k + 1 => body k (forLoop k body s)

/-! ## Containers -/

/-- Modelled from the spec: the container `Matrix2D<T>` is declared in a header that is not
among the sources.  It is a dense matrix with `mdimy` rows and `mdimx` columns stored row
by row in `mdata` (the row-wise `memcpy` calls of `hessianLLE.cpp` rely on this layout).
Storage is a function from the linear offset to the stored value, so that a cell which was
never written holds an arbitrary value. -/
structure Matrix2D (α : Type) where
  /-- Number of rows. -/
  mdimy : Nat
  /-- Number of columns. -/
  mdimx : Nat
  /-- Row-major storage. -/
  mdata : Nat → α

/-- Modelled from the spec: the container `Matrix1D<T>` (header not among the sources), a
vector of `vdim` entries stored in `vdata`. -/
structure Matrix1D (α : Type) where
  /-- Number of entries. -/
  vdim : Nat
  /-- Storage. -/
  vdata : Nat → α

section Access

variable {α : Type}

/-- Modelled from the spec: `MAT_XSIZE(m)`, the number of columns. -/
def MAT_XSIZE (m : Matrix2D α) : Nat := m.mdimx

/-- Modelled from the spec: `MAT_YSIZE(m)`, the number of rows. -/
def MAT_YSIZE (m : Matrix2D α) : Nat := m.mdimy

/-- Modelled from the spec: `MAT_ELEM(m,i,j)` read, the cell at offset `i*mdimx + j`. -/
def MAT_ELEM (m : Matrix2D α) (i j : Nat) : α := m.mdata (i * m.mdimx + j)

/-- Modelled from the spec: the assignment `MAT_ELEM(m,i,j) = v`. -/
def setMAT_ELEM (m : Matrix2D α) (i j : Nat) (v : α) : Matrix2D α :=
  { m with mdata := fun p => if p = i * m.mdimx + j then v else m.mdata p }

/-- Modelled from the spec: `VEC_ELEM(v,i)` read. -/
def VEC_ELEM (v : Matrix1D α) (i : Nat) : α := v.vdata i

/-- Modelled from the spec: the assignment `VEC_ELEM(v,i) = x`. -/
def setVEC_ELEM (v : Matrix1D α) (i : Nat) (x : α) : Matrix1D α :=
  { v with vdata := fun p => if p = i then x else v.vdata p }

/-- Modelled from the spec: `Matrix2D::resizeNoCopy(Ydim, Xdim)`; the shape changes and the
cells keep whatever they held (they are not initialised). -/
def Matrix2D.resizeNoCopy (m : Matrix2D α) (Ydim Xdim : Nat) : Matrix2D α :=
  { m with mdimy := Ydim, mdimx := Xdim }

/-- Modelled from the spec: `Matrix2D::getCol(j, v)`, the column `j` as a vector of `mdimy`
entries. -/
def Matrix2D.getCol (m : Matrix2D α) (j : Nat) : Matrix1D α :=
  { vdim := m.mdimy, vdata := fun k => MAT_ELEM m k j }

/-- Modelled from the spec: `Matrix2D::getRow(i, v)`, the row `i` as a vector of `mdimx`
entries. -/
def Matrix2D.getRow (m : Matrix2D α) (i : Nat) : Matrix1D α :=
  { vdim := m.mdimx, vdata := fun k => MAT_ELEM m i k }

/-- Modelled from the spec: `memcpy(&dst[dstOff], &src[srcOff], n*sizeof(T))` between two
distinct buffers: `n` consecutive cells are copied. -/
def memcpy (dst : Nat → α) (dstOff : Nat) (src : Nat → α) (srcOff n : Nat) : Nat → α :=
  fun p => if dstOff ≤ p ∧ p < dstOff + n then src (srcOff + (p - dstOff)) else dst p

end Access

/-! ## `buildYiHessianEstimator` -/

/-- The loop nest of `HessianLLE::buildYiHessianEstimator` (lines 157-175) with its counters
`ct`, `length`, `indle` and `column`; `visit mm indle column` stands for the work done for
one column (lines 168-171). The result carries the final `ct`. -/
def buildYiLoops {σ : Type} (no_dim : Nat) (visit : Nat → Nat → Nat → σ → σ) (s : σ) :
    Nat × σ :=
  forLoop no_dim (fun mm (st : Nat × σ) =>
    let ct := st.1
    let length := no_dim - mm
    let inner := forLoop length (fun nn (acc : Nat × σ) =>
      let indle := acc.1
      let column := ct + nn
      (indle + 1, visit mm indle column acc.2)) (mm, st.2)
    (ct + length, inner.2)) (0, s)

/-- Lines 168-171 of `buildYiHessianEstimator`: column `column` of `Yi` receives the
elementwise product of `startp` (column `mm` of `V`) and `vector` (column `indle` of `V`). -/
def writeYiColumn {α : Type} [Mul α] (V : Matrix2D α) (mm indle column : Nat)
    (Yi : Matrix2D α) : Matrix2D α :=
  let startp := V.getCol mm
  let vector := V.getCol indle
  forLoop (MAT_YSIZE V) (fun element Y =>
    setMAT_ELEM Y element column (VEC_ELEM startp element * VEC_ELEM vector element)) Yi

/-- `HessianLLE::buildYiHessianEstimator(V, Yi, no_dim, dp)`; the value returned is the new
content of the output argument `Yi`. -/
def buildYiHessianEstimator {α : Type} [Mul α] (V Yi : Matrix2D α) (no_dim dp : Nat) :
    Matrix2D α :=
  (buildYiLoops no_dim (writeYiColumn V) (Yi.resizeNoCopy (MAT_YSIZE V) dp)).2

/-- The sequence of column writes of `buildYiHessianEstimator`: one entry
`(mm, indle, column)` per execution of lines 168-171, in execution order. -/
def buildYiWrites (no_dim : Nat) : List (Nat × Nat × Nat) :=
  (buildYiLoops no_dim (fun mm indle column log => log ++ [(mm, indle, column)]) []).2

/-- Position of the pair `(m, n)` in the nested order of the specification:
`m*d - m(m-1)/2 + (n - m)`. -/
def columnIndex (d m n : Nat) : Nat := m * d - m * (m - 1) / 2 + (n - m)

/-- Value of the counter `ct` when the outer loop of `buildYiHessianEstimator` starts its
iteration `mm`. -/
def ctAt (d : Nat) : Nat → Nat
  | 0 => 0
  | mm + 1 => ctAt d mm + (d - mm)

/-- The writes of the outer iteration `m` of `buildYiHessianEstimator`, written out. -/
def triRow (d m : Nat) : List (Nat × Nat × Nat) :=
  (List.range (d - m)).map (fun nn => (m, m + nn, ctAt d m + nn))

/-- The writes of the outer iterations `0, ..., mm-1` of `buildYiHessianEstimator`,
written out. -/
def triUpTo (d : Nat) : Nat → List (Nat × Nat × Nat)
  | 0 => []
  | mm + 1 => triUpTo d mm ++ triRow d mm

/-- Loop invariant of `buildYiHessianEstimator`: the content of `Yi` once the outer
iterations before `t` and the first `u` inner iterations of the outer iteration `t` are
done. -/
def YiDone {α : Type} [Mul α] (V : Matrix2D α) (d : Nat) (Y : Matrix2D α) (t u : Nat) :
    Prop :=
  Y.mdimx = ctAt d d ∧ Y.mdimy = V.mdimy ∧
  ∀ m n e, m ≤ n → n < d → e < V.mdimy → (m < t ∨ (m = t ∧ n < t + u)) →
    MAT_ELEM Y e (ctAt d m + (n - m)) = MAT_ELEM V e m * MAT_ELEM V e n

/-! ## `completeYt` -/

/-- The call `memcpy(&MAT_ELEM(dst,i,j), &MAT_ELEM(src,i2,j2), n*sizeof(double))`. -/
def memcpyElems {α : Type} (dst : Matrix2D α) (i j : Nat) (src : Matrix2D α) (i2 j2 n : Nat) :
    Matrix2D α :=
  { dst with
    mdata := memcpy dst.mdata (i * dst.mdimx + j) src.mdata (i2 * src.mdimx + j2) n }

/-- `HessianLLE::completeYt(V, Yi, Yt_complete)`; the value returned is the new content of
the output argument `Yt_complete`. -/
def completeYt {α : Type} [One α] (V Yi Yt_complete : Matrix2D α) : Matrix2D α :=
  let Xdim := 1 + MAT_XSIZE V + MAT_XSIZE Yi
  let Ydim := MAT_YSIZE Yi
  forLoop Ydim (fun i Yt =>
    let Yt1 := setMAT_ELEM Yt i 0 1
    let Yt2 := memcpyElems Yt1 i 1 V i 0 (MAT_XSIZE V)
    memcpyElems Yt2 i (MAT_XSIZE V + 1) Yi i 0 (MAT_XSIZE Yi))
    (Yt_complete.resizeNoCopy Ydim Xdim)

/-! ## Vectors -/

section Vectors

variable {α : Type}

/-- Modelled from the spec: `Matrix1D::sum()`, the sum of the entries. -/
def Matrix1D.sum [Zero α] [Add α] (v : Matrix1D α) : α :=
  forLoop v.vdim (fun i acc => acc + VEC_ELEM v i) 0

/-- Modelled from the spec: `Matrix1D::module()`, the Euclidean norm: the square root of
the sum of the squared entries.  The square root is a parameter. -/
def Matrix1D.module [Zero α] [Add α] [Mul α] (sqrt : α → α) (v : Matrix1D α) : α :=
  sqrt (forLoop v.vdim (fun i acc => acc + VEC_ELEM v i * VEC_ELEM v i) 0)

/-- Modelled from the spec: `dotProduct(v1, v2)` of two vectors of the same size. -/
def dotProduct [Zero α] [Add α] [Mul α] (v1 v2 : Matrix1D α) : α :=
  forLoop v1.vdim (fun j acc => acc + VEC_ELEM v1 j * VEC_ELEM v2 j) 0

end Vectors

/-! ## `modifiedGramSchmidtOrtogonalization` -/

section GramSchmidt

variable {α : Type} [Field α]

/-- Lines 36-38: every entry of column `i` is divided by `columnModule`. -/
def divideColumn (m i : Nat) (columnModule : α) (matrix : Matrix2D α) : Matrix2D α :=
  forLoop m (fun k M => setMAT_ELEM M k i (MAT_ELEM M k i / columnModule)) matrix

/-- Lines 41-47: the body of the loop over `j`; the projection of column `j` on column `i`
is subtracted from column `j`. -/
def subtractProjection (m i j : Nat) (matrix : Matrix2D α) : Matrix2D α :=
  let columnI := matrix.getCol i
  let columnJ := matrix.getCol j
  let temp := dotProduct columnI columnJ
  forLoop m (fun k M => setMAT_ELEM M k j (MAT_ELEM M k j - temp * MAT_ELEM M k i)) matrix

/-- Lines 33-49: the body of the loop over `i` of `modifiedGramSchmidtOrtogonalization`. -/
def gramSchmidtColumn (sqrt : α → α) (n m i : Nat) (matrix : Matrix2D α) : Matrix2D α :=
  let columnI := matrix.getCol i
  let columnModule := columnI.module sqrt
  let M1 := divideColumn m i columnModule matrix
  if i < n - 1 then
    forLoop (n - (i + 1)) (fun t M => subtractProjection m i (i + 1 + t) M) M1
  else M1

/-- `HessianLLE::modifiedGramSchmidtOrtogonalization(matrix)`; the value returned is the new
content of `*matrix`.  `sqrt` is the square root used by `Matrix1D::module`. -/
def modifiedGramSchmidtOrtogonalization (sqrt : α → α) (matrix : Matrix2D α) : Matrix2D α :=
  let n := MAT_XSIZE matrix
  let m := MAT_YSIZE matrix
  forLoop n (fun i M => gramSchmidtColumn sqrt n m i M) matrix

/-- Column `j` of `M`, restricted to the rows `0, ..., m-1`, as a vector. -/
def columnVec (m : Nat) (M : Matrix2D α) (j : Nat) : Fin m → α :=
  fun e => MAT_ELEM M e.val j

end GramSchmidt

/-- The columns of the real matrix `M` are linearly independent. -/
def ColumnsIndependent (M : Matrix2D ℝ) : Prop :=
  LinearIndependent ℝ (fun j : Fin (MAT_XSIZE M) => columnVec (MAT_YSIZE M) M j.val)

/-! ## `reduceDimensionality`: the loop over the points -/

section PerPoint

variable {α : Type} [LinearOrderedField α]

/-- Lines 102-106: `Pii` receives the transpose of the columns of `Yt` from `indexExtra`
on.  (`MAT_XSIZE(Yt) - indexExtra` does not wrap around in `reduceDimensionality`, where
`Yt` has `1 + outputDim + dp` columns.) -/
def extractPii (Yt Pii : Matrix2D α) (outputDim : Nat) : Matrix2D α :=
  let indexExtra := outputDim + 1
  let Ydim := MAT_XSIZE Yt - indexExtra
  let P0 := Pii.resizeNoCopy Ydim (MAT_YSIZE Yt)
  forLoop (MAT_YSIZE P0) (fun i P =>
    forLoop (MAT_XSIZE P0) (fun j P2 =>
      setMAT_ELEM P2 i j (MAT_ELEM Yt j (indexExtra + i))) P) P0

/-- Lines 112-117: the row `vector` is divided by its sum when the sum exceeds `0.0001`.
The second component lists the divisors of the divisions carried out, in order. -/
def normaliseRow (vector : Matrix1D α) : Matrix1D α × List α :=
  let sum := vector.sum
  if sum > 0.0001 then
    forLoop vector.vdim (fun i (st : Matrix1D α × List α) =>
      (setVEC_ELEM st.1 i (VEC_ELEM st.1 i / sum), st.2 ++ [sum])) (vector, [])
  else (vector, [])

/-- Lines 120-123: the entries of `vector` are written into row `index*dp + j` of the
weight matrix, at the columns given by row `index` of `neighboursMatrix`. -/
def fillWeightRow (neighboursMatrix : Matrix2D Nat) (kNeighbours index dp j : Nat)
    (vector : Matrix1D α) (weightMatrix : Matrix2D α) : Matrix2D α :=
  forLoop kNeighbours (fun k W =>
    let neighbourElem := MAT_ELEM neighboursMatrix index k
    setMAT_ELEM W (index * dp + j) neighbourElem (VEC_ELEM vector k)) weightMatrix

/-- Lines 88-90: `V` receives the first `outputDim` entries of every row of `Vpr`. -/
def copyFirstColumns (Vpr V : Matrix2D α) (outputDim : Nat) : Matrix2D α :=
  let V0 := V.resizeNoCopy (MAT_YSIZE Vpr) outputDim
  forLoop (MAT_YSIZE V0) (fun y V1 => memcpyElems V1 y 0 Vpr y 0 outputDim) V0

/-- The variables of `reduceDimensionality` that live across the iterations of the loop
over the points: the target dimension `outputDim` (a member of the object), `dp`, the
weight matrix, the work matrices, and the lines "Target dimensionality reduced to ..."
written so far (each recorded by the number it prints). -/
structure LoopState (α : Type) where
  /-- Current target dimension. -/
  outputDim : Nat
  /-- Current block size. -/
  dp : Nat
  /-- The weight matrix under construction. -/
  weightMatrix : Matrix2D α
  /-- Work matrix `V`. -/
  V : Matrix2D α
  /-- Work matrix `Yi`. -/
  Yi : Matrix2D α
  /-- Work matrix `Yt`. -/
  Yt : Matrix2D α
  /-- Work matrix `Pii`. -/
  Pii : Matrix2D α
  /-- Notices written to the standard output. -/
  cout : List Nat

/-- Lines 80-85: when `Vpr` has fewer columns than `outputDim`, the dimension is lowered to
that number of columns, `dp` is recomputed and a notice is printed. -/
def adaptRank (Vpr : Matrix2D α) (s : LoopState α) : LoopState α :=
  if MAT_XSIZE Vpr < s.outputDim then
    { s with
      outputDim := MAT_XSIZE Vpr
      dp := MAT_XSIZE Vpr * (MAT_XSIZE Vpr + 1) / 2
      cout := s.cout ++ [MAT_XSIZE Vpr] }
  else s

/-- Lines 109-124: every row `j < dp` of `Pii` is normalised and written into the weight
matrix. -/
def fillWeightMatrix (neighboursMatrix : Matrix2D Nat) (kNeighbours index dp : Nat)
    (Pii weightMatrix : Matrix2D α) : Matrix2D α :=
  forLoop dp (fun j W =>
    let vector := (normaliseRow (Pii.getRow j)).1
    fillWeightRow neighboursMatrix kNeighbours index dp j vector W) weightMatrix

/-- Lines 80-124: the body of the loop over the points, for the point `index`.  `Vpr` is
the factor returned by `svdcmp` for this point (lines 75-78 call routines that are not
among the sources). -/
def processPoint (sqrt : α → α) (neighboursMatrix : Matrix2D Nat) (kNeighbours : Nat)
    (Vpr : Matrix2D α) (index : Nat) (s : LoopState α) : LoopState α :=
  let s1 := adaptRank Vpr s
  let V := copyFirstColumns Vpr s1.V s1.outputDim
  let Yi := buildYiHessianEstimator V s1.Yi s1.outputDim s1.dp
  let Yt := modifiedGramSchmidtOrtogonalization sqrt (completeYt V Yi s1.Yt)
  let Pii := extractPii Yt s1.Pii s1.outputDim
  let W := fillWeightMatrix neighboursMatrix kNeighbours index s1.dp Pii s1.weightMatrix
  { s1 with weightMatrix := W, V := V, Yi := Yi, Yt := Yt, Pii := Pii }

/-- Modelled from the spec: `Matrix2D::initZeros(Ydim, Xdim)`, a matrix of zeros. -/
def initZeros (Ydim Xdim : Nat) : Matrix2D α :=
  { mdimy := Ydim, mdimx := Xdim, mdata := fun _ => 0 }

/-- Modelled from the spec: a default-constructed `Matrix2D`, with no rows and no
columns. -/
def emptyMatrix : Matrix2D α :=
  { mdimy := 0, mdimx := 0, mdata := fun _ => 0 }

/-- Lines 65-70: the state before the loop over the points, for `sizeY` points and the
requested dimension `outputDim`. -/
def initialState (sizeY outputDim : Nat) : LoopState α :=
  { outputDim := outputDim
    dp := outputDim * (outputDim + 1) / 2
    weightMatrix := initZeros (outputDim * (outputDim + 1) / 2 * sizeY) sizeY
    V := emptyMatrix
    Yi := emptyMatrix
    Yt := emptyMatrix
    Pii := emptyMatrix
    cout := [] }

/-- Lines 73-125 after `t` iterations: the state when the points `0, ..., t-1` have been
processed.  `svdVpr index` is the factor `Vpr` that `svdcmp` returns for the point
`index`. -/
def pointLoop (sqrt : α → α) (neighboursMatrix : Matrix2D Nat) (kNeighbours : Nat)
    (svdVpr : Nat → Matrix2D α) (sizeY outputDim : Nat) (t : Nat) : LoopState α :=
  forLoop t (fun index s =>
    processPoint sqrt neighboursMatrix kNeighbours (svdVpr index) index s)
    (initialState sizeY outputDim)

end PerPoint

/-! ## Predicates used in the analysis of the orthogonalisation -/

/-- Relation between the columns `cur` before and the columns `cur2` after the iteration `i`
of the outer loop of `modifiedGramSchmidtOrtogonalization` on a matrix with `n` columns:
column `i` is divided by its norm, and every later column loses its projection on the new
column `i`. -/
def GSStep {m : Nat} (n i : Nat) (cur cur2 : Nat → Fin m → ℝ) : Prop :=
  cur2 i = (Real.sqrt (Matrix.dotProduct (cur i) (cur i)))⁻¹ • cur i ∧
  (∀ c, c < i → cur2 c = cur c) ∧
  (∀ c, i < c → c < n → cur2 c = cur c - Matrix.dotProduct (cur2 i) (cur c) • cur2 i)

/-- Invariant of the outer loop of `modifiedGramSchmidtOrtogonalization` before its
iteration `i`: the columns before `i` have norm one and are orthogonal to every other
column, and every leading block of columns spans what the same block of the input `A`
spans. -/
def GSInv {m : Nat} (n i : Nat) (A cur : Nat → Fin m → ℝ) : Prop :=
  (∀ a, a < i → Matrix.dotProduct (cur a) (cur a) = 1) ∧
  (∀ a b, a < i → b < n → a ≠ b → Matrix.dotProduct (cur a) (cur b) = 0) ∧
  (∀ j, j ≤ n → Submodule.span ℝ (Set.image cur {a | a < j})
      = Submodule.span ℝ (Set.image A {a | a < j}))

/-! ## Concrete inputs -/

/-- A `2×2` matrix of integers, `[[1, 2], [3, 4]]`. -/
def exampleV : Matrix2D Int :=
  { mdimy := 2, mdimx := 2, mdata := fun p => [1, 2, 3, 4].getD p 0 }

/-- A `2×3` matrix of integers, `[[1, 2, 4], [9, 12, 16]]`. -/
def exampleYi : Matrix2D Int :=
  { mdimy := 2, mdimx := 3, mdata := fun p => [1, 2, 4, 9, 12, 16].getD p 0 }

/-- A `2×3` matrix of integers standing for a matrix `Yt` with `d = 1` and `dp = 1`. -/
def exampleYt : Matrix2D Int :=
  { mdimy := 2, mdimx := 3, mdata := fun p => [1, 5, 7, 1, 6, 8].getD p 0 }

/-- A weight row with a negative sum: `(-1, 0)`. -/
def negativeRow : Matrix1D ℚ :=
  { vdim := 2, vdata := fun p => if p = 0 then -1 else 0 }

/-- A weight row with a positive sum: `(3, 1)`. -/
def positiveRow : Matrix1D ℚ :=
  { vdim := 2, vdata := fun p => if p = 0 then 3 else 1 }

/-- A weight row whose sum is `0.00001`: `(0.00001, 0)`. -/
def tinyRow : Matrix1D ℚ :=
  { vdim := 2, vdata := fun p => if p = 0 then 1 / 100000 else 0 }

/-- Neighbour table of four points with three neighbours each: every other point. -/
def exampleNeighbours : Matrix2D Nat :=
  { mdimy := 4, mdimx := 3, mdata := fun p => [1, 2, 3, 0, 2, 3, 0, 1, 3, 0, 1, 2].getD p 0 }

/-- A `3×3` factor `Vpr` for every point of the example run. -/
def exampleVpr (i : Nat) : Matrix2D ℚ :=
  { mdimy := 3, mdimx := 3, mdata := fun p => [-1, 2, 3, 0, 5, 6, 1, 8, 9 + (i : ℚ)].getD p 0 }

/-- A real `2×2` matrix with independent columns, `[[3, 1], [4, 1]]`. -/
def exampleMatrix : Matrix2D ℝ :=
  { mdimy := 2, mdimx := 2,
    mdata := fun p => if p = 0 then 3 else if p = 1 then 1 else if p = 2 then 4 else 1 }

/-- Tangent coordinates of three neighbours on a line: the `3×1` matrix `(-1, 0, 1)`. -/
def exampleTangent : Matrix2D ℝ :=
  { mdimy := 3, mdimx := 1, mdata := fun p => if p = 0 then -1 else if p = 1 then 0 else 1 }

/-! ## `modifiedGramSchmidtOrtogonalization` with its divisions recorded -/

section GramSchmidtLogged

variable {α : Type} [Field α]

/-- Lines 36-38 with a record: every entry of column `i` is divided by `columnModule`, and
each division appends its divisor to the second component. -/
def divideColumnLogged (m i : Nat) (columnModule : α) (st : Matrix2D α × List α) :
    Matrix2D α × List α :=
  forLoop m (fun k (acc : Matrix2D α × List α) =>
    (setMAT_ELEM acc.1 k i (MAT_ELEM acc.1 k i / columnModule), acc.2 ++ [columnModule])) st

/-- Lines 33-49 with the record of the divisions; the statements are those of
`gramSchmidtColumn`. -/
def gramSchmidtColumnLogged (sqrt : α → α) (n m i : Nat) (st : Matrix2D α × List α) :
    Matrix2D α × List α :=
  let columnI := st.1.getCol i
  let columnModule := columnI.module sqrt
  let st1 := divideColumnLogged m i columnModule st
  if i < n - 1 then
    (forLoop (n - (i + 1)) (fun t M => subtractProjection m i (i + 1 + t) M) st1.1, st1.2)
  else st1

/-- `modifiedGramSchmidtOrtogonalization` together with the list of the divisors of all the
divisions it carries out (line 37), in order.  The source has no statement that leaves the
function early or raises an error, so the result is always a matrix. -/
def modifiedGramSchmidtLogged (sqrt : α → α) (matrix : Matrix2D α) : Matrix2D α × List α :=
  let n := MAT_XSIZE matrix
  let m := MAT_YSIZE matrix
  forLoop n (fun i st => gramSchmidtColumnLogged sqrt n m i st) (matrix, [])

/-- The matrix held by `modifiedGramSchmidtOrtogonalization` when the outer loop has done
its iterations `0, ..., i-1`. -/
def gramSchmidtPrefix (sqrt : α → α) (matrix : Matrix2D α) (i : Nat) : Matrix2D α :=
  forLoop i (fun i2 M => gramSchmidtColumn sqrt (MAT_XSIZE matrix) (MAT_YSIZE matrix) i2 M)
    matrix

/-- The norm by which `modifiedGramSchmidtOrtogonalization` divides column `i`: the value
of `columnModule` in the iteration `i` of the outer loop. -/
def columnModuleAt (sqrt : α → α) (matrix : Matrix2D α) (i : Nat) : α :=
  ((gramSchmidtPrefix sqrt matrix i).getCol i).module sqrt

/-- The divisors used by the iterations `0, ..., i-1` of the outer loop, written out: each
iteration divides the `MAT_YSIZE` entries of its column by the norm of the column. -/
def divisorsUpTo (sqrt : α → α) (matrix : Matrix2D α) : Nat → List α
  | 0 => []
  | i + 1 => divisorsUpTo sqrt matrix i
      ++ List.replicate (MAT_YSIZE matrix) (columnModuleAt sqrt matrix i)

end GramSchmidtLogged

/-! ## `reduceDimensionality`: after the loop over the points -/

/-- Modelled from the spec: the error kinds of the specification.  No statement of
`hessianLLE.cpp` raises any of them. -/
inductive ErrorKind where
  | InvalidConfiguration
  | DegenerateNeighborhood
  | NumericalInstability
  deriving DecidableEq

section Embedding

variable {α : Type} [LinearOrderedField α]

/-- Modelled from the spec: `matrixOperation_AtA(A, G)`, which is not among the sources;
the specification has it compute the Gram matrix `G = AᵗA`, with as many rows and columns
as `A` has columns: `G[a][b]` is the sum over the rows `r` of `A[r][a] * A[r][b]`.  The
offsets that are not cells of `G` are given the value zero. -/
def matrixOperation_AtA (A : Matrix2D α) : Matrix2D α :=
  { mdimy := MAT_XSIZE A
    mdimx := MAT_XSIZE A
    mdata := fun p =>
      if p < MAT_XSIZE A * MAT_XSIZE A then
        forLoop (MAT_YSIZE A) (fun r acc =>
          acc + MAT_ELEM A r (p / MAT_XSIZE A) * MAT_ELEM A r (p % MAT_XSIZE A)) 0
      else 0 }

/-- Lines 132-133: every entry of `Y` is multiplied by `sqrt(sizeY)`. -/
def scaleEmbedding (sqrt : α → α) (sizeY : Nat) (Y : Matrix2D α) : Matrix2D α :=
  forLoop (MAT_YSIZE Y) (fun i Y1 =>
    forLoop (MAT_XSIZE Y) (fun j Y2 =>
      setMAT_ELEM Y2 i j (MAT_ELEM Y2 i j * sqrt (sizeY : α))) Y1) Y

/-- Lines 126-133: the Gram matrix of the weight matrix is formed, the eigenvectors of the
indices `1` to `outputDim` are requested from `eigsBetween` (a routine that is not among the
sources: `eigsBetween G I1 I2` stands for the matrix it leaves in `Y`), and `Y` is scaled. -/
def embedding (sqrt : α → α) (eigsBetween : Matrix2D α → Nat → Nat → Matrix2D α) (sizeY : Nat)
    (s : LoopState α) : Matrix2D α :=
  let G := matrixOperation_AtA s.weightMatrix
  let Y := eigsBetween G 1 s.outputDim
  scaleEmbedding sqrt sizeY Y

/-- `HessianLLE::reduceDimensionality()` for `sizeY` points: `neighboursMatrix` is what
`kNearestNeighbours` returns at line 63, `svdVpr index` the factor `svdcmp` returns for the
point `index`.  The result is the final state of the loop and the matrix `Y`.  No statement
of the function tests the configuration or raises an error, so the result is always
`Except.ok`. -/
def reduceDimensionality (sqrt : α → α) (neighboursMatrix : Matrix2D Nat)
    (svdVpr : Nat → Matrix2D α) (eigsBetween : Matrix2D α → Nat → Nat → Matrix2D α)
    (sizeY outputDim kNeighbours : Nat) : Except ErrorKind (LoopState α × Matrix2D α) :=
  let s := pointLoop sqrt neighboursMatrix kNeighbours svdVpr sizeY outputDim sizeY
  Except.ok (s, embedding sqrt eigsBetween sizeY s)

end Embedding

/-! ## Concrete runs -/

/-- Neighbour table of three points with two neighbours each: the two other points. -/
def pairNeighbours : Matrix2D Nat :=
  { mdimy := 3, mdimx := 2, mdata := fun p => [1, 2, 0, 2, 0, 1].getD p 0 }

/-- Factors `Vpr` with two rows whose numbers of columns are `2, 1, 1, ...`. -/
def shrinkingVpr (i : Nat) : Matrix2D ℚ :=
  { mdimy := 2, mdimx := 2 - min i 1, mdata := fun p => [1, 2, 3, 5].getD p 0 }

/-- Factors `Vpr` with two rows and two columns, one column per neighbour, for a run with
two neighbours per point. -/
def pairVpr (_i : Nat) : Matrix2D ℚ :=
  { mdimy := 2, mdimx := 2, mdata := fun p => [1, 2, 3, 5].getD p 0 }

/-- A real `1×1` matrix whose only column is the zero vector. -/
def zeroColumn : Matrix2D ℝ :=
  { mdimy := 1, mdimx := 1, mdata := fun _ => 0 }

/-- The real `2×2` identity matrix. -/
def identityMatrix : Matrix2D ℝ :=
  { mdimy := 2, mdimx := 2, mdata := fun p => if p = 0 then 1 else if p = 3 then 1 else 0 }

/-- Factors `Vpr` for a real run with three neighbours per point: tangent coordinates
`-1, 0, 1` for every point. -/
def lineVpr (_i : Nat) : Matrix2D ℝ := exampleTangent

/-- A stand-in for `eigsBetween` in the example run of four points: whatever the matrix and
the indices, `Y` is the `4×1` matrix with entries `1/2`, a column of norm one. -/
def halfEigs {α : Type} [Field α] (_G : Matrix2D α) (_I1 _I2 : Nat) : Matrix2D α :=
  { mdimy := 4, mdimx := 1, mdata := fun _ => 1 / 2 }

/-! ## The combined basis of a point -/

section BasisDefs

variable {α : Type} [LinearOrderedField α]

/-- Lines 88-98: the matrix `Yt = [1 | V | Yi]` built for a point from the factor `Vpr`,
before it is orthogonalised; `s` is the state after the rank-adaptation step (its work
matrices are the ones that are resized and overwritten). -/
def pointBasis (Vpr : Matrix2D α) (s : LoopState α) : Matrix2D α :=
  completeYt (copyFirstColumns Vpr s.V s.outputDim)
    (buildYiHessianEstimator (copyFirstColumns Vpr s.V s.outputDim) s.Yi s.outputDim s.dp)
    s.Yt

/-- The matrix `Yt = [1 | V | Yi]` that lines 88-98 build from `Vpr` for the dimension `d`,
starting from empty work matrices. -/
def localBasis (Vpr : Matrix2D α) (d : Nat) : Matrix2D α :=
  pointBasis Vpr (initialState 0 d)

/-- The matrix `B` is the matrix `A` with some of its first `d` columns negated: same
shape, and every column `x < d` of `B` is the column `x` of `A` or its opposite. -/
def SignFlipped (d : Nat) (A B : Matrix2D α) : Prop :=
  MAT_YSIZE B = MAT_YSIZE A ∧ MAT_XSIZE B = MAT_XSIZE A ∧
  ∀ x, x < d → ∃ sg : α, (sg = 1 ∨ sg = -1) ∧
    ∀ y, y < MAT_YSIZE A → MAT_ELEM B y x = sg * MAT_ELEM A y x

end BasisDefs

/-! ## A run in which the dimension is lowered at the last point -/

/-- Tangent coordinates of six neighbours in a plane: the `6×2` matrix with the rows
`(0,0), (1,0), (0,1), (1,1), (2,1), (1,2)`. -/
def planeTangent : Matrix2D ℝ :=
  { mdimy := 6, mdimx := 2,
    mdata := fun p => [0, 0, 1, 0, 0, 1, 1, 1, 2, 1, 1, 2].getD p 0 }

/-- The matrix `planeTangent` with its first column negated. -/
def planeTangentFlipped : Matrix2D ℝ :=
  { mdimy := 6, mdimx := 2,
    mdata := fun p => [0, 0, -1, 0, 0, 1, -1, 1, -2, 1, -1, 2].getD p 0 }

/-- Tangent coordinates of six neighbours on a line: the `6×1` matrix `(0, 1, 2, 3, 4, 5)`. -/
def lineTangent : Matrix2D ℝ :=
  { mdimy := 6, mdimx := 1, mdata := fun p => [0, 1, 2, 3, 4, 5].getD p 0 }

/-- Factors `Vpr` of a run of fourteen points with six neighbours each: two columns for the
points `0..12`, one column for the point `13`. -/
def lateVpr (i : Nat) : Matrix2D ℝ := if i < 13 then planeTangent else lineTangent

/-- The factors `lateVpr` with the first column of every two-column factor negated. -/
def lateVprFlipped (i : Nat) : Matrix2D ℝ :=
  if i < 13 then planeTangentFlipped else lineTangent

/-- Neighbour table of fourteen points with six neighbours each: the point `i < 13` has the
neighbours `i+1, ..., i+6` modulo `14`, and the point `13` has the neighbours
`11, 12, 0, 1, 2, 3`. -/
def lateNeighbours : Matrix2D Nat :=
  { mdimy := 14, mdimx := 6,
    mdata := fun p => if p / 6 = 13 then (p % 6 + 11) % 13 else (p / 6 + 1 + p % 6) % 14 }

/-- Signs of the columns of `[1 | V | Yi]` when the first of two columns of `V` is negated:
the columns `1` (the first column of `V`) and `4` (the product of the two columns). -/
def planeSign (c : Nat) : ℝ := if c = 1 ∨ c = 4 then -1 else 1

/-! ## The writes into the weight matrix -/

section WriteLog

variable {α : Type} [LinearOrderedField α]

/-- Lines 120-123 with a record: the statements are those of `fillWeightRow`, and every
assignment to `MAT_ELEM(weightMatrix, index*dp+j, neighbourElem)` appends its row and its
column to the second component. -/
def fillWeightRowLogged (neighboursMatrix : Matrix2D Nat) (kNeighbours index dp j : Nat)
    (vector : Matrix1D α) (st : Matrix2D α × List (Nat × Nat)) :
    Matrix2D α × List (Nat × Nat) :=
  forLoop kNeighbours (fun k (acc : Matrix2D α × List (Nat × Nat)) =>
    let neighbourElem := MAT_ELEM neighboursMatrix index k
    (setMAT_ELEM acc.1 (index * dp + j) neighbourElem (VEC_ELEM vector k),
      acc.2 ++ [(index * dp + j, neighbourElem)])) st

/-- Lines 109-124 with the record of the cells written; the statements are those of
`fillWeightMatrix`. -/
def fillWeightMatrixLogged (neighboursMatrix : Matrix2D Nat) (kNeighbours index dp : Nat)
    (Pii : Matrix2D α) (st : Matrix2D α × List (Nat × Nat)) :
    Matrix2D α × List (Nat × Nat) :=
  forLoop dp (fun j acc =>
    let vector := (normaliseRow (Pii.getRow j)).1
    fillWeightRowLogged neighboursMatrix kNeighbours index dp j vector acc) st

/-- The cells `(row, column)` of the weight matrix written while the points `0, ..., t-1`
are processed, in the order of the writes: the point `index` writes with the value of `dp`
and the matrix `Pii` it has after its rank-adaptation step. -/
def pointLoopWrites (sqrt : α → α) (neighboursMatrix : Matrix2D Nat) (kNeighbours : Nat)
    (svdVpr : Nat → Matrix2D α) (sizeY outputDim : Nat) : Nat → List (Nat × Nat)
  | 0 => []
  | t + 1 =>
    (fillWeightMatrixLogged neighboursMatrix kNeighbours t
      (processPoint sqrt neighboursMatrix kNeighbours (svdVpr t) t
        (pointLoop sqrt neighboursMatrix kNeighbours svdVpr sizeY outputDim t)).dp
      (processPoint sqrt neighboursMatrix kNeighbours (svdVpr t) t
        (pointLoop sqrt neighboursMatrix kNeighbours svdVpr sizeY outputDim t)).Pii
      ((pointLoop sqrt neighboursMatrix kNeighbours svdVpr sizeY outputDim t).weightMatrix,
        pointLoopWrites sqrt neighboursMatrix kNeighbours svdVpr sizeY outputDim t)).2

end WriteLog

/-! ## Classical Gram–Schmidt -/

section ClassicalDefs

variable {α : Type} [Field α]

/-- The vector `v` divided by its norm. -/
def normalise (sqrt : α → α) {m : Nat} (v : Fin m → α) : Fin m → α :=
  (sqrt (Matrix.dotProduct v v))⁻¹ • v

/-- Classical Gram–Schmidt, as the statement about it is worded: the table
`classicalColumns sqrt a j` holds the columns `q_0, ..., q_(j-1)`, where
`q_c = normalise (a_c - Σ_(t<c) (q_t · a_c) q_t)` is computed from the input column `a_c`
and the columns found before. -/
def classicalColumns (sqrt : α → α) {m : Nat} (a : Nat → Fin m → α) :
    Nat → Nat → Fin m → α
  | 0 => fun _ => 0
  | j + 1 =>
    let q := classicalColumns sqrt a j
    fun c =>
      if c = j then
        normalise sqrt (a j - ∑ t in Finset.range j, Matrix.dotProduct (q t) (a j) • q t)
      else q c

/-- The entry `e` of a vector with `m` entries, and `0` beyond. -/
def vecAt {m : Nat} (v : Fin m → α) (e : Nat) : α :=
  if h : e < m then v ⟨e, h⟩ else 0

/-- The matrix of the shape of `A` whose columns are those of classical Gram–Schmidt on the
columns of `A`. -/
def classicalGramSchmidt (sqrt : α → α) (A : Matrix2D α) : Matrix2D α :=
  { mdimy := A.mdimy
    mdimx := A.mdimx
    mdata := fun p =>
      vecAt (classicalColumns sqrt (columnVec A.mdimy A) A.mdimx (p % A.mdimx))
        (p / A.mdimx) }

end ClassicalDefs

/-! ## Matrices for the instances of the statements on the orthogonalisation -/

/-- The matrix `exampleMatrix` with its first column multiplied by `2` and its second column
by `-1`: `[[6, -1], [8, -1]]`. -/
def scaledMatrix : Matrix2D ℝ :=
  { mdimy := 2, mdimx := 2,
    mdata := fun p => if p = 0 then 6 else if p = 1 then -1 else if p = 2 then 8 else -1 }

/-- The factors of the columns of `scaledMatrix`: `2` and `-1`. -/
def scaledFactors (c : Nat) : ℝ := if c = 0 then 2 else -1

/-- A real matrix with one row and two columns, `[[1, 1]]`. -/
def wideMatrix : Matrix2D ℝ :=
  { mdimy := 1, mdimx := 2, mdata := fun _ => 1 }

/-! ## A run with two reductions of the dimension -/

/-- The cells `(row, column)` of the weight matrix written while the point `t` is processed
(lines 109-124 for `index = t`), in the order of the writes. -/
def pointWrites {α : Type} [LinearOrderedField α] (sqrt : α → α) (neighboursMatrix : Matrix2D Nat)
    (kNeighbours : Nat) (svdVpr : Nat → Matrix2D α) (sizeY outputDim t : Nat) :
    List (Nat × Nat) :=
  (fillWeightMatrixLogged neighboursMatrix kNeighbours t
    (processPoint sqrt neighboursMatrix kNeighbours (svdVpr t) t
      (pointLoop sqrt neighboursMatrix kNeighbours svdVpr sizeY outputDim t)).dp
    (processPoint sqrt neighboursMatrix kNeighbours (svdVpr t) t
      (pointLoop sqrt neighboursMatrix kNeighbours svdVpr sizeY outputDim t)).Pii
    ((pointLoop sqrt neighboursMatrix kNeighbours svdVpr sizeY outputDim t).weightMatrix,
      [])).2

/-- The last of the points `0, ..., N-1` that writes the cell, if any: the point whose value
the cell holds after `N` points. -/
def cellOwner {α : Type} [LinearOrderedField α] (sqrt : α → α) (neighboursMatrix : Matrix2D Nat)
    (kNeighbours : Nat) (svdVpr : Nat → Matrix2D α) (sizeY outputDim N : Nat)
    (cell : Nat × Nat) : Option Nat :=
  (List.range N).reverse.find? (fun t =>
    decide (cell ∈ pointWrites sqrt neighboursMatrix kNeighbours svdVpr sizeY outputDim t))

/-- Neighbours of five points, two per point: `2, 3` for the points `0`, `1` and `4`, and
`0, 1` for the points `2` and `3`. -/
def sharedNeighbours : Matrix2D Nat :=
  { mdimy := 5, mdimx := 2, mdata := fun p => [2, 3, 2, 3, 0, 1, 0, 1, 2, 3].getD p 0 }

/-- Factors `Vpr` with two rows whose numbers of columns are `3, 2, 2, 2, 1, 1, ...`. -/
def twiceShrinkingVpr (i : Nat) : Matrix2D ℚ :=
  { mdimy := 2, mdimx := [3, 2, 2, 2].getD i 1, mdata := fun p => [1, 2, 3, 5, 7, 11].getD p 0 }

end HessianLLE

/-! Volume segmentation (`libraries/reconstruction/volume_segment.cpp`). -/

namespace VolumeSegment

/-- The loop `for (int x = lo; x < hi; x++) body(x)` over `int` values. -/
def forRange {σ : Type} (lo hi : Int) (body : Int → σ → σ) (s : σ) : σ :=
  HessianLLE.forLoop (hi - lo).toNat (fun t acc => body (lo + (t : Int)) acc) s

/-- Modelled from the spec: the container `Image<double>` and the macros `A3D_ELEM`,
`STARTINGZ`, `FINISHINGZ`, ... are declared in headers that are not among the sources.  A
volume is given by the first and the last logical index of each axis and by the voxel
stored at every logical index `(k, i, j)`. -/
structure Volume (α : Type) where
  /-- First slice index: `STARTINGZ`. -/
  startZ : Int
  /-- Last slice index: `FINISHINGZ`. -/
  finishZ : Int
  /-- First row index: `STARTINGY`. -/
  startY : Int
  /-- Last row index: `FINISHINGY`. -/
  finishY : Int
  /-- First column index: `STARTINGX`. -/
  startX : Int
  /-- Last column index: `FINISHINGX`. -/
  finishX : Int
  /-- The voxel `A3D_ELEM(V, k, i, j)`. -/
  elem : Int → Int → Int → α

section Wang

variable {α : Type} [LinearOrderedField α]

/-- Line 188: `weight = 1. - sqrt((double)(r2 / radius2))`; the quotient `r2 / radius2` is
the quotient of two `int` values, which discards the fractional part, and is converted to
`double` afterwards. -/
def wangWeight (sqrt : α → α) (r2 radius2 : Int) : α :=
  1 - sqrt ((Int.tdiv r2 radius2 : Int) : α)

/-- Lines 186-192: the statements run for the neighbour `(kp, ip, jp)` of the voxel
`(k, i, j)`; the state is the pair of the output voxel and `sumw`. -/
def wangVisit (sqrt : α → α) (V : Volume α) (radius2 k i j kp ip jp : Int) (acc : α × α) :
    α × α :=
  let r2 := (kp - k) * (kp - k) + (ip - i) * (ip - i) + (jp - j) * (jp - j)
  if r2 < radius2 ∧ V.elem kp ip jp > 0 then
    let weight := wangWeight sqrt r2 radius2
    (acc.1 + weight * max 0 (V.elem kp ip jp), acc.2 + weight)
  else acc

/-- Lines 172-196: the three loops over the window of the voxel `(k, i, j)`, started with
the output voxel and `sumw` at zero. -/
def wangWindow (sqrt : α → α) (V : Volume α) (radius k i j : Int) : α × α :=
  let radius2 := radius * radius
  forRange (k - radius) (k + radius) (fun kp a1 =>
    if kp > V.startZ ∧ kp < V.finishZ then
      forRange (i - radius) (i + radius) (fun ip a2 =>
        if ip > V.startY ∧ ip < V.finishY then
          forRange (j - radius) (j + radius) (fun jp a3 =>
            if jp > V.startX ∧ jp < V.finishX then
              wangVisit sqrt V radius2 k i j kp ip jp a3
            else a3) a2
        else a2) a1
    else a1) (0, 0)

/-- Lines 170-204: the value that `wang_smoothing` stores in the output voxel `(k, i, j)`. -/
def wangVoxel (sqrt : α → α) (V : Volume α) (radius k i j : Int) : α :=
  let acc := wangWindow sqrt V radius k i j
  if acc.2 > 0 then acc.1 / acc.2 else 0

/-- The function `wang_smoothing(V_in, V_out, radius)`: the output volume has the shape of
the input volume and every voxel of it is computed by `wangVoxel`. -/
def wang_smoothing (sqrt : α → α) (V_in : Volume α) (radius : Int) : Volume α :=
  { V_in with
    elem := fun k i j =>
      if V_in.startZ ≤ k ∧ k ≤ V_in.finishZ ∧ V_in.startY ≤ i ∧ i ≤ V_in.finishY ∧
          V_in.startX ≤ j ∧ j ≤ V_in.finishX then
        wangVoxel sqrt V_in radius k i j
      else 0 }

/-- The neighbours of the voxel `(k, i, j)` that the tests of lines 175-187 admit: those of
the window `[k-radius, k+radius) × [i-radius, i+radius) × [j-radius, j+radius)` strictly
inside the volume, at a squared distance smaller than `radius²`, with a positive voxel. -/
def wangAdmitted (V : Volume α) (radius k i j : Int) : Finset (Int × Int × Int) :=
  (Finset.Ico (k - radius) (k + radius) ×ˢ Finset.Ico (i - radius) (i + radius) ×ˢ
      Finset.Ico (j - radius) (j + radius)).filter
    (fun p => (p.1 > V.startZ ∧ p.1 < V.finishZ) ∧ (p.2.1 > V.startY ∧ p.2.1 < V.finishY) ∧
      (p.2.2 > V.startX ∧ p.2.2 < V.finishX) ∧
      (p.1 - k) * (p.1 - k) + (p.2.1 - i) * (p.2.1 - i) + (p.2.2 - j) * (p.2.2 - j)
        < radius * radius ∧
      V.elem p.1 p.2.1 p.2.2 > 0)

end Wang

section Search

variable {α : Type} [LinearOrderedField α]

/-- The variables of the bracketing search of `Prog_segment_prm::segment` (lines 268-275),
together with the record of the calls of `segment_threshold`: every call is recorded with
the values of `th_min` and `th_max` at the call, the threshold `th_med` and the mass
returned. -/
structure SearchState (α : Type) where
  /-- Lower end of the bracket. -/
  th_min : α
  /-- Upper end of the bracket. -/
  th_max : α
  /-- Mass found at the lower end. -/
  mass_min : α
  /-- Mass found at the upper end. -/
  mass_max : α
  /-- Whether a threshold was accepted. -/
  ok : Bool
  /-- The calls of `segment_threshold` so far: `(th_min, th_max, th_med, mass_med)`. -/
  calls : List (α × α × α × α)

/-- Lines 282-305: the loop `do { ... } while (true)`.  `segment_threshold th` stands for the
mass returned by `segment_threshold(&V, &mask, th, do_prob)`, a routine that does not change
`V`.  The first argument bounds the number of iterations: the result is `none` when the
loop has not been left after that many iterations. -/
def bracketingSearch (segment_threshold : α → α) (voxel_mass val_min val_max : α) :
    Nat → SearchState α → Option (SearchState α)
  | 0, _ => none
  | fuel + 1, s =>
    let th_med := (s.th_min + s.th_max) * 0.5
    let mass_med := segment_threshold th_med
    let s1 := { s with calls := s.calls ++ [(s.th_min, s.th_max, th_med, mass_med)] }
    if |mass_med - voxel_mass| / voxel_mass < 0.001 then
      some { s1 with ok := true }
    else if (s.th_max - s.th_min) / (val_max - val_min) < 0.0001 then
      some s1
    else if mass_med < voxel_mass then
      bracketingSearch segment_threshold voxel_mass val_min val_max fuel
        { s1 with th_max := th_med, mass_max := mass_med }
    else
      bracketingSearch segment_threshold voxel_mass val_min val_max fuel
        { s1 with th_min := th_med, mass_min := mass_med }

/-- Lines 266-316 of `Prog_segment_prm::segment`: the choice of the threshold.  `val_min` and
`val_max` are the extreme values of the volume, `size` its number of voxels; with `-otsu`
no call of `segment_threshold` is made, with `-threshold` a single one. -/
def segment (segment_threshold : α → α) (otsu en_threshold : Bool)
    (threshold voxel_mass val_min val_max size : α) (fuel : Nat) : Option (SearchState α) :=
  let s0 : SearchState α :=
    { th_min := val_min, th_max := val_max, mass_min := size, mass_max := 1, ok := false,
      calls := [] }
  if !otsu then
    if !en_threshold then
      bracketingSearch segment_threshold voxel_mass val_min val_max fuel s0
    else
      some { s0 with
        ok := true
        calls := [(val_min, val_max, threshold, segment_threshold threshold)] }
  else some { s0 with ok := true }

end Search

/-- A volume of `3×3×3` voxels with the logical indices `0, 1, 2` on every axis; the voxel
`(k, i, j)` holds `k + 2i + 3j`. -/
def exampleVolume : Volume ℚ :=
  { startZ := 0, finishZ := 2, startY := 0, finishY := 2, startX := 0, finishX := 2,
    elem := fun k i j => ((k + 2 * i + 3 * j : Int) : ℚ) }

end VolumeSegment

/-! Wavelet blocks (`libraries/data/wavelet.h`). -/

namespace Wavelet

/-- The conversion `static_cast<int>(x)` of a `double`: the fractional part is discarded
(rounding towards zero). -/
def castToInt (x : ℚ) : Int := if 0 ≤ x then ⌊x⌋ else ⌈x⌉

/-- The macro `DWT_Imin(s, smax, l)` of lines 179-180: `0` for the letter `'0'`, and
`pow(2.0, smax - s - 1)` converted to `int` for every other letter.  `pow(2.0, e)` of the
C library is read as the exact power `2^e`. -/
def DWT_Imin (s smax : Int) (l : Char) : Int :=
  castToInt (if l = '0' then 0 else (2 : ℚ) ^ (smax - s - 1))

/-- The macro `DWT_Imax(s, smax, l)` of lines 181-182: `pow(2.0, smax - s - 1) - 1` for the
letter `'0'` and `pow(2.0, smax - s) - 1` for every other letter, converted to `int`. -/
def DWT_Imax (s smax : Int) (l : Char) : Int :=
  castToInt (if l = '0' then (2 : ℚ) ^ (smax - s - 1) - 1 else (2 : ℚ) ^ (smax - s) - 1)

end Wavelet

namespace HessianLLE

/-! ## Loops and counters -/

theorem forLoop_succ {σ : Type} (n : Nat) (body : Nat → σ → σ) (s : σ) :
    forLoop (n + 1) body s = body n (forLoop n body s) := rfl

theorem forLoop_invariant {σ : Type} (P : Nat → σ → Prop) (n : Nat) (body : Nat → σ → σ)
    (s : σ) (h0 : P 0 s) (hstep : ∀ i, i < n → ∀ t, P i t → P (i + 1) (body i t)) :
    P n (forLoop n body s) := by
  induction n with
  | zero => exact h0
  | succ k ih =>
    exact hstep k (Nat.lt_succ_self k) _
      (ih (fun i hi t ht => hstep i (Nat.lt_succ_of_lt hi) t ht))

theorem ctAt_mono (d : Nat) {a b : Nat} (h : a ≤ b) : ctAt d a ≤ ctAt d b := by
  induction b with
  | zero =>
    have : a = 0 := by omega
    subst this; exact le_refl _
  | succ k ih =>
    rcases Nat.eq_or_lt_of_le h with h1 | h1
    · subst h1; exact le_refl _
    · have := ih (by omega)
      simp only [ctAt]; omega

theorem ctAt_closed (d m : Nat) (h : m ≤ d) : 2 * ctAt d m + m * m = 2 * (m * d) + m := by
  induction m with
  | zero => simp [ctAt]
  | succ k ih =>
    have := ih (by omega)
    simp only [ctAt]
    have e1 : (k + 1) * (k + 1) = k * k + 2 * k + 1 := by ring
    have e2 : (k + 1) * d = k * d + d := by ring
    omega

theorem ctAt_self (d : Nat) : ctAt d d = d * (d + 1) / 2 := by
  have := ctAt_closed d d (le_refl d)
  have e : d * (d + 1) = d * d + d := by ring
  omega

theorem even_mul_pred (m : Nat) : m * (m - 1) % 2 = 0 := by
  rcases Nat.even_or_odd m with ⟨k, hk⟩ | ⟨k, hk⟩
  · subst hk
    have : (k + k) * (k + k - 1) = 2 * (k * (k + k - 1)) := by ring
    omega
  · subst hk
    have : (2 * k + 1) * (2 * k + 1 - 1) = 2 * ((2 * k + 1) * k) := by
      have : 2 * k + 1 - 1 = 2 * k := by omega
      rw [this]; ring
    omega

theorem columnIndex_eq_ctAt (d m n : Nat) (h : m ≤ d) :
    columnIndex d m n = ctAt d m + (n - m) := by
  have h1 := ctAt_closed d m h
  have h2 := even_mul_pred m
  unfold columnIndex
  have e : m * (m - 1) + m = m * m := by
    cases m with
    | zero => rfl
    | succ k => simp; ring
  omega

/-! ## The sequence of writes of `buildYiHessianEstimator` -/

theorem buildYi_inner_log (mm ct : Nat) (log : List (Nat × Nat × Nat)) (len : Nat) :
    forLoop len (fun nn (acc : Nat × List (Nat × Nat × Nat)) =>
      (acc.1 + 1, acc.2 ++ [(mm, acc.1, ct + nn)])) (mm, log)
    = (mm + len, log ++ (List.range len).map (fun nn => (mm, mm + nn, ct + nn))) := by
  induction len with
  | zero => simp [forLoop]
  | succ k ih =>
    rw [forLoop_succ, ih]
    simp [List.range_succ, Nat.add_assoc]

theorem buildYi_outer_log (d t : Nat) :
    forLoop t (fun mm (st : Nat × List (Nat × Nat × Nat)) =>
      (st.1 + (d - mm),
        (forLoop (d - mm) (fun nn (acc : Nat × List (Nat × Nat × Nat)) =>
          (acc.1 + 1, acc.2 ++ [(mm, acc.1, st.1 + nn)])) (mm, st.2)).2)) (0, [])
    = (ctAt d t, triUpTo d t) := by
  induction t with
  | zero => rfl
  | succ k ih =>
    rw [forLoop_succ, ih]
    simp only [buildYi_inner_log, ctAt, triUpTo, triRow]

theorem buildYiWrites_eq (d : Nat) : buildYiWrites d = triUpTo d d := by
  unfold buildYiWrites buildYiLoops
  exact congrArg Prod.snd (buildYi_outer_log d d)

theorem triUpTo_columns (d t : Nat) :
    (triUpTo d t).map (fun w => w.2.2) = List.range (ctAt d t) := by
  induction t with
  | zero => rfl
  | succ k ih =>
    simp only [triUpTo, List.map_append, ih, ctAt, List.range_add, triRow, List.map_map]
    rfl

theorem mem_triUpTo (d t m n c : Nat) :
    (m, n, c) ∈ triUpTo d t ↔ m < t ∧ m ≤ n ∧ n < d ∧ c = ctAt d m + (n - m) := by
  induction t with
  | zero => simp [triUpTo]
  | succ k ih =>
    simp only [triUpTo, List.mem_append, ih, triRow, List.mem_map, List.mem_range,
      Prod.mk.injEq]
    constructor
    · rintro (⟨h1, h2, h3, h4⟩ | ⟨nn, h1, h2, h3, h4⟩)
      · exact ⟨by omega, h2, h3, h4⟩
      · subst h2 h3 h4
        exact ⟨by omega, by omega, by omega, by rw [Nat.add_sub_cancel_left]⟩
    · rintro ⟨h1, h2, h3, h4⟩
      rcases Nat.lt_succ_iff_lt_or_eq.mp h1 with h | h
      · exact Or.inl ⟨h, h2, h3, h4⟩
      · subst h
        exact Or.inr ⟨n - m, by omega, rfl, by omega, by omega⟩

theorem triUpTo_pairs_nodup (d t : Nat) :
    ((triUpTo d t).map (fun w => (w.1, w.2.1))).Nodup := by
  induction t with
  | zero => simp [triUpTo]
  | succ k ih =>
    simp only [triUpTo, List.map_append]
    refine List.Nodup.append ih ?_ ?_
    · simp only [triRow, List.map_map]
      refine (List.nodup_range _).map ?_
      intro a b hab
      simp only [Function.comp, Prod.mk.injEq] at hab
      omega
    · intro p hp hq
      simp only [List.mem_map] at hp hq
      obtain ⟨⟨m, n, c⟩, hm, rfl⟩ := hp
      obtain ⟨⟨m', n', c'⟩, hm', he⟩ := hq
      rw [mem_triUpTo] at hm
      simp only [triRow, List.mem_map, List.mem_range, Prod.mk.injEq] at hm'
      simp only [Prod.mk.injEq] at he
      obtain ⟨nn, -, h1, -, -⟩ := hm'
      omega

theorem buildYi_inner_fold {σ : Type} (visit : Nat → Nat → Nat → σ → σ) (mm ct : Nat) (s : σ)
    (len : Nat) :
    forLoop len (fun nn (acc : Nat × σ) => (acc.1 + 1, visit mm acc.1 (ct + nn) acc.2)) (mm, s)
    = (mm + len, ((List.range len).map (fun nn => (mm, mm + nn, ct + nn))).foldl
        (fun acc w => visit w.1 w.2.1 w.2.2 acc) s) := by
  induction len with
  | zero => rfl
  | succ k ih =>
    rw [forLoop_succ, ih]
    simp [List.range_succ, Nat.add_assoc]

theorem buildYi_outer_fold {σ : Type} (visit : Nat → Nat → Nat → σ → σ) (d t : Nat) (s : σ) :
    forLoop t (fun mm (st : Nat × σ) =>
      (st.1 + (d - mm),
        (forLoop (d - mm) (fun nn (acc : Nat × σ) =>
          (acc.1 + 1, visit mm acc.1 (st.1 + nn) acc.2)) (mm, st.2)).2)) (0, s)
    = (ctAt d t, (triUpTo d t).foldl (fun acc w => visit w.1 w.2.1 w.2.2 acc) s) := by
  induction t with
  | zero => rfl
  | succ k ih =>
    rw [forLoop_succ, ih]
    simp only [buildYi_inner_fold, ctAt, triUpTo, triRow, List.foldl_append]

/-- The loop nest of `buildYiHessianEstimator` does the work of its sequence of writes, in
order. -/
theorem buildYiLoops_eq_foldl {σ : Type} (visit : Nat → Nat → Nat → σ → σ) (d : Nat) (s : σ) :
    (buildYiLoops d visit s).2
      = (buildYiWrites d).foldl (fun acc w => visit w.1 w.2.1 w.2.2 acc) s := by
  rw [buildYiWrites_eq]
  unfold buildYiLoops
  exact congrArg Prod.snd (buildYi_outer_fold visit d d s)

/-! ## Writing cells -/

section MatrixLemmas

variable {α : Type}

theorem offset_inj {w i j i' j' : Nat} (hj : j < w) (hj' : j' < w)
    (h : i * w + j = i' * w + j') : i = i' ∧ j = j' := by
  have hi : i = i' := by
    rcases Nat.lt_trichotomy i i' with h1 | h1 | h1
    · have := Nat.mul_le_mul_right w (Nat.succ_le_of_lt h1)
      rw [Nat.succ_mul] at this
      omega
    · exact h1
    · have := Nat.mul_le_mul_right w (Nat.succ_le_of_lt h1)
      rw [Nat.succ_mul] at this
      omega
  subst hi
  exact ⟨rfl, by omega⟩

theorem MAT_ELEM_setMAT_ELEM (M : Matrix2D α) (i j : Nat) (v : α) (i' j' : Nat)
    (hj : j < M.mdimx) (hj' : j' < M.mdimx) :
    MAT_ELEM (setMAT_ELEM M i j v) i' j' = if i' = i ∧ j' = j then v else MAT_ELEM M i' j' := by
  unfold MAT_ELEM setMAT_ELEM
  by_cases h : i' = i ∧ j' = j
  · obtain ⟨h1, h2⟩ := h
    subst h1 h2
    simp
  · have : ¬ (i' * M.mdimx + j' = i * M.mdimx + j) := fun e => h (offset_inj hj' hj e)
    simp [this, h]

theorem setMAT_ELEM_mdimx (M : Matrix2D α) (i j : Nat) (v : α) :
    (setMAT_ELEM M i j v).mdimx = M.mdimx := rfl

theorem setMAT_ELEM_mdimy (M : Matrix2D α) (i j : Nat) (v : α) :
    (setMAT_ELEM M i j v).mdimy = M.mdimy := rfl

/-- A loop over the rows that assigns the cell of column `c` in each row: if the value
assigned in row `k` only depends on cells that the earlier iterations did not write, the
loop rewrites column `c` and nothing else. -/
theorem columnLoop_spec (m c : Nat) (g : Nat → Matrix2D α → α) (val : Nat → α)
    (M0 : Matrix2D α) (hc : c < M0.mdimx)
    (hg : ∀ k, k < m → ∀ M : Matrix2D α, M.mdimx = M0.mdimx →
      (∀ e col, col < M0.mdimx → (col ≠ c ∨ k ≤ e) → MAT_ELEM M e col = MAT_ELEM M0 e col) →
      g k M = val k) :
    (forLoop m (fun k M => setMAT_ELEM M k c (g k M)) M0).mdimx = M0.mdimx ∧
    (forLoop m (fun k M => setMAT_ELEM M k c (g k M)) M0).mdimy = M0.mdimy ∧
    ∀ e col, col < M0.mdimx →
      MAT_ELEM (forLoop m (fun k M => setMAT_ELEM M k c (g k M)) M0) e col
        = if col = c ∧ e < m then val e else MAT_ELEM M0 e col := by
  refine forLoop_invariant
    (fun t M => M.mdimx = M0.mdimx ∧ M.mdimy = M0.mdimy ∧ ∀ e col, col < M0.mdimx →
      MAT_ELEM M e col = if col = c ∧ e < t then val e else MAT_ELEM M0 e col)
    m _ M0 ⟨rfl, rfl, fun e col _ => by simp⟩ ?_
  rintro t ht M ⟨hx, hy, hM⟩
  have hv : g t M = val t := by
    refine hg t ht M hx (fun e col hcol hor => ?_)
    rw [hM e col hcol]
    have : ¬ (col = c ∧ e < t) := by
      rintro ⟨h1, h2⟩
      rcases hor with h | h
      · exact h h1
      · omega
    simp [this]
  refine ⟨hx, hy, fun e col hcol => ?_⟩
  rw [MAT_ELEM_setMAT_ELEM M t c _ e col (hx ▸ hc) (hx ▸ hcol), hv, hM e col hcol]
  by_cases h1 : col = c
  · by_cases h2 : e = t
    · subst h1 h2; simp
    · by_cases h3 : e < t
      · have : e < t + 1 := by omega
        simp [h1, h2, h3, this]
      · have : ¬ e < t + 1 := by omega
        simp [h1, h2, h3, this]
  · simp [h1]

end MatrixLemmas

/-! ## Content of `Yi` -/

section BuildYi

variable {α : Type} [Mul α]

theorem writeYiColumn_spec (V : Matrix2D α) (mm indle column : Nat) (Y : Matrix2D α)
    (hc : column < Y.mdimx) :
    (writeYiColumn V mm indle column Y).mdimx = Y.mdimx ∧
    (writeYiColumn V mm indle column Y).mdimy = Y.mdimy ∧
    ∀ e col, col < Y.mdimx → MAT_ELEM (writeYiColumn V mm indle column Y) e col
      = if col = column ∧ e < V.mdimy then MAT_ELEM V e mm * MAT_ELEM V e indle
        else MAT_ELEM Y e col :=
  columnLoop_spec V.mdimy column _ (fun e => MAT_ELEM V e mm * MAT_ELEM V e indle) Y hc
    (fun _ _ _ _ _ => rfl)

theorem ctAt_add_lt (d m n : Nat) (h1 : m ≤ n) (h2 : n < d) :
    ctAt d m + (n - m) < ctAt d (m + 1) := by
  simp only [ctAt]; omega

theorem YiDone_step (V : Matrix2D α) (d : Nat) (Y : Matrix2D α) (mm nn : Nat)
    (hnn : nn < d - mm) (h : YiDone V d Y mm nn) :
    YiDone V d (writeYiColumn V mm (mm + nn) (ctAt d mm + nn) Y) mm (nn + 1) := by
  obtain ⟨hx, hy, hY⟩ := h
  have hlt : ctAt d mm + nn < ctAt d d := by
    have h1 := ctAt_add_lt d mm (mm + nn) (by omega) (by omega)
    have h2 := ctAt_mono d (show mm + 1 ≤ d by omega)
    have : mm + nn - mm = nn := by omega
    omega
  obtain ⟨wx, wy, wY⟩ := writeYiColumn_spec V mm (mm + nn) (ctAt d mm + nn) Y (hx ▸ hlt)
  refine ⟨wx.trans hx, wy.trans hy, fun m n e hmn hn he hor => ?_⟩
  have hcol : ctAt d m + (n - m) < ctAt d d := by
    have h1 := ctAt_add_lt d m n hmn hn
    have h2 := ctAt_mono d (show m + 1 ≤ d by omega)
    omega
  rw [wY e _ (hx ▸ hcol)]
  by_cases hnew : m = mm ∧ n = mm + nn
  · obtain ⟨h1, h2⟩ := hnew
    subst h1 h2
    have : m + nn - m = nn := by omega
    simp [this, he]
  · have hne : ctAt d m + (n - m) ≠ ctAt d mm + nn := by
      rcases hor with h | ⟨h, h'⟩
      · have h1 := ctAt_add_lt d m n hmn hn
        have h2 := ctAt_mono d (show m + 1 ≤ mm by omega)
        omega
      · subst h
        omega
    have hold : m < mm ∨ (m = mm ∧ n < mm + nn) := by
      rcases hor with h | ⟨h, h'⟩
      · exact Or.inl h
      · refine Or.inr ⟨h, ?_⟩
        by_contra hc
        exact hnew ⟨h, by omega⟩
    simp [hne, hY m n e hmn hn he hold]

theorem buildYi_inner (V : Matrix2D α) (d mm : Nat) (Y : Matrix2D α)
    (h : YiDone V d Y mm 0) :
    YiDone V d (forLoop (d - mm) (fun nn (acc : Nat × Matrix2D α) =>
      (acc.1 + 1, writeYiColumn V mm acc.1 (ctAt d mm + nn) acc.2)) (mm, Y)).2 (mm + 1) 0 := by
  have key := forLoop_invariant
    (fun nn (acc : Nat × Matrix2D α) => acc.1 = mm + nn ∧ YiDone V d acc.2 mm nn)
    (d - mm) (fun nn (acc : Nat × Matrix2D α) =>
      (acc.1 + 1, writeYiColumn V mm acc.1 (ctAt d mm + nn) acc.2)) (mm, Y) ⟨rfl, h⟩
    (by
      rintro nn hnn ⟨indle, Y'⟩ ⟨h1, h2⟩
      simp only at h1 h2
      subst h1
      exact ⟨by simp only; omega, YiDone_step V d Y' mm nn hnn h2⟩)
  obtain ⟨-, hx, hy, hY⟩ := key
  refine ⟨hx, hy, fun m n e hmn hn he hor => hY m n e hmn hn he ?_⟩
  rcases hor with h | ⟨h, h'⟩
  · rcases Nat.lt_succ_iff_lt_or_eq.mp h with h1 | h1
    · exact Or.inl h1
    · exact Or.inr ⟨h1, by omega⟩
  · omega

theorem buildYi_outer (V Y : Matrix2D α) (d t : Nat)
    (hx : Y.mdimx = ctAt d d) (hy : Y.mdimy = V.mdimy) :
    (forLoop t (fun mm (st : Nat × Matrix2D α) =>
      (st.1 + (d - mm),
        (forLoop (d - mm) (fun nn (acc : Nat × Matrix2D α) =>
          (acc.1 + 1, writeYiColumn V mm acc.1 (st.1 + nn) acc.2)) (mm, st.2)).2)) (0, Y)).1
      = ctAt d t ∧
    YiDone V d (forLoop t (fun mm (st : Nat × Matrix2D α) =>
      (st.1 + (d - mm),
        (forLoop (d - mm) (fun nn (acc : Nat × Matrix2D α) =>
          (acc.1 + 1, writeYiColumn V mm acc.1 (st.1 + nn) acc.2)) (mm, st.2)).2)) (0, Y)).2
      t 0 := by
  induction t with
  | zero =>
    exact ⟨rfl, hx, hy, fun m n e _ _ _ hor => by omega⟩
  | succ k ih =>
    obtain ⟨h1, h2⟩ := ih
    rw [forLoop_succ]
    simp only [h1]
    exact ⟨rfl, buildYi_inner V d k _ h2⟩

theorem buildYiHessianEstimator_spec (V Yi : Matrix2D α) (d : Nat) :
    YiDone V d (buildYiHessianEstimator V Yi d (ctAt d d)) d 0 :=
  (buildYi_outer V (Yi.resizeNoCopy (MAT_YSIZE V) (ctAt d d)) d d rfl rfl).2

end BuildYi

/-! ## Content of `Yt` -/

theorem row_offset_lt {e i X c : Nat} (h : e < i) (hc : c < X) : e * X + c < i * X := by
  have := Nat.mul_le_mul_right X (Nat.succ_le_of_lt h)
  rw [Nat.succ_mul] at this
  omega

/-- Content of the rows `0, ..., t-1` of `Yt` in `completeYt`. -/
theorem completeYt_rows {α : Type} [One α] (V Yi Y0 : Matrix2D α) (X t : Nat)
    (hX : X = 1 + V.mdimx + Yi.mdimx) (h0 : Y0.mdimx = X) :
    (forLoop t (fun i Yt =>
        memcpyElems (memcpyElems (setMAT_ELEM Yt i 0 1) i 1 V i 0 (MAT_XSIZE V)) i
          (MAT_XSIZE V + 1) Yi i 0 (MAT_XSIZE Yi)) Y0).mdimx = X ∧
    (forLoop t (fun i Yt =>
        memcpyElems (memcpyElems (setMAT_ELEM Yt i 0 1) i 1 V i 0 (MAT_XSIZE V)) i
          (MAT_XSIZE V + 1) Yi i 0 (MAT_XSIZE Yi)) Y0).mdimy = Y0.mdimy ∧
    ∀ e, e < t →
      MAT_ELEM (forLoop t (fun i Yt =>
        memcpyElems (memcpyElems (setMAT_ELEM Yt i 0 1) i 1 V i 0 (MAT_XSIZE V)) i
          (MAT_XSIZE V + 1) Yi i 0 (MAT_XSIZE Yi)) Y0) e 0 = 1 ∧
      (∀ c, c < V.mdimx → MAT_ELEM (forLoop t (fun i Yt =>
        memcpyElems (memcpyElems (setMAT_ELEM Yt i 0 1) i 1 V i 0 (MAT_XSIZE V)) i
          (MAT_XSIZE V + 1) Yi i 0 (MAT_XSIZE Yi)) Y0) e (1 + c) = MAT_ELEM V e c) ∧
      (∀ c, c < Yi.mdimx → MAT_ELEM (forLoop t (fun i Yt =>
        memcpyElems (memcpyElems (setMAT_ELEM Yt i 0 1) i 1 V i 0 (MAT_XSIZE V)) i
          (MAT_XSIZE V + 1) Yi i 0 (MAT_XSIZE Yi)) Y0) e (1 + V.mdimx + c)
          = MAT_ELEM Yi e c) := by
  refine forLoop_invariant
    (fun t (R : Matrix2D α) => R.mdimx = X ∧ R.mdimy = Y0.mdimy ∧ ∀ e, e < t →
      MAT_ELEM R e 0 = 1 ∧ (∀ c, c < V.mdimx → MAT_ELEM R e (1 + c) = MAT_ELEM V e c) ∧
      (∀ c, c < Yi.mdimx → MAT_ELEM R e (1 + V.mdimx + c) = MAT_ELEM Yi e c))
    t _ Y0 ⟨h0, rfl, fun e he => by omega⟩ ?_
  rintro i - R ⟨hx, hy, hR⟩
  refine ⟨hx, hy, fun e he => ?_⟩
  simp only [MAT_ELEM, memcpyElems, memcpy, setMAT_ELEM, MAT_XSIZE, hx]
  rcases Nat.lt_succ_iff_lt_or_eq.mp he with h | h
  · obtain ⟨r1, r2, r3⟩ := hR e h
    simp only [MAT_ELEM, hx] at r1 r2 r3
    have b0 : e * X + 0 < i * X := row_offset_lt h (by omega)
    refine ⟨?_, fun c hc => ?_, fun c hc => ?_⟩
    · rw [if_neg (by omega), if_neg (by omega), if_neg (by omega)]
      exact r1
    · have b : e * X + (1 + c) < i * X := row_offset_lt h (by omega)
      rw [if_neg (by omega), if_neg (by omega), if_neg (by omega)]
      exact r2 c hc
    · have b : e * X + (1 + V.mdimx + c) < i * X := row_offset_lt h (by omega)
      rw [if_neg (by omega), if_neg (by omega), if_neg (by omega)]
      exact r3 c hc
  · subst h
    refine ⟨?_, fun c hc => ?_, fun c hc => ?_⟩
    · rw [if_neg (by omega), if_neg (by omega), if_pos (by omega)]
    · rw [if_neg (by omega), if_pos (by omega)]
      congr 1
      omega
    · rw [if_pos (by omega)]
      congr 1
      omega

/-! ## Content of `Pii` -/

/-- A loop over the columns that assigns the cells of row `i`. -/
theorem rowLoop_spec {α : Type} (u i : Nat) (f : Nat → α) (P : Matrix2D α)
    (hu : u ≤ P.mdimx) :
    (forLoop u (fun j P2 => setMAT_ELEM P2 i j (f j)) P).mdimx = P.mdimx ∧
    (forLoop u (fun j P2 => setMAT_ELEM P2 i j (f j)) P).mdimy = P.mdimy ∧
    ∀ e c, c < P.mdimx → MAT_ELEM (forLoop u (fun j P2 => setMAT_ELEM P2 i j (f j)) P) e c
      = if e = i ∧ c < u then f c else MAT_ELEM P e c := by
  induction u with
  | zero => exact ⟨rfl, rfl, fun e c _ => by simp [forLoop]⟩
  | succ k ih =>
    obtain ⟨hx, hy, hR⟩ := ih (by omega)
    rw [forLoop_succ]
    refine ⟨hx, hy, fun e c hc => ?_⟩
    rw [MAT_ELEM_setMAT_ELEM _ i k _ e c (by rw [hx]; omega) (by rw [hx]; exact hc), hR e c hc]
    by_cases h1 : e = i
    · by_cases h2 : c = k
      · subst h1 h2; simp
      · by_cases h3 : c < k
        · have : c < k + 1 := by omega
          simp [h1, h2, h3, this]
        · have : ¬ c < k + 1 := by omega
          simp [h1, h2, h3, this]
    · simp [h1]

/-- A loop nest over all the cells of the first `t` rows. -/
theorem fillLoop_spec {α : Type} (t : Nat) (f : Nat → Nat → α) (P0 : Matrix2D α) :
    (forLoop t (fun i P =>
      forLoop P0.mdimx (fun j P2 => setMAT_ELEM P2 i j (f i j)) P) P0).mdimx = P0.mdimx ∧
    (forLoop t (fun i P =>
      forLoop P0.mdimx (fun j P2 => setMAT_ELEM P2 i j (f i j)) P) P0).mdimy = P0.mdimy ∧
    ∀ e c, e < t → c < P0.mdimx → MAT_ELEM (forLoop t (fun i P =>
      forLoop P0.mdimx (fun j P2 => setMAT_ELEM P2 i j (f i j)) P) P0) e c = f e c := by
  induction t with
  | zero => exact ⟨rfl, rfl, fun e c he => by omega⟩
  | succ k ih =>
    obtain ⟨hx, hy, hR⟩ := ih
    rw [forLoop_succ]
    obtain ⟨rx, ry, rR⟩ := rowLoop_spec P0.mdimx k (f k) _ (le_of_eq hx.symm)
    refine ⟨rx.trans hx, ry.trans hy, fun e c he hc => ?_⟩
    rw [rR e c (by rw [hx]; exact hc)]
    by_cases h1 : e = k
    · subst h1; simp [hc]
    · simp only [h1, false_and, if_false]
      exact hR e c (by omega) hc

theorem extractPii_spec {α : Type} (Yt Pii : Matrix2D α) (d : Nat) :
    (extractPii Yt Pii d).mdimx = Yt.mdimy ∧
    (extractPii Yt Pii d).mdimy = Yt.mdimx - (d + 1) ∧
    ∀ r c, r < Yt.mdimx - (d + 1) → c < Yt.mdimy →
      MAT_ELEM (extractPii Yt Pii d) r c = MAT_ELEM Yt c (d + 1 + r) :=
  fillLoop_spec (Yt.mdimx - (d + 1)) (fun i j => MAT_ELEM Yt j (d + 1 + i))
    (Pii.resizeNoCopy (Yt.mdimx - (d + 1)) Yt.mdimy)

/-! ## Normalisation of the weight rows -/

theorem forLoop_sum {β : Type} [AddCommMonoid β] (n : Nat) (f : Nat → β) :
    forLoop n (fun i acc => acc + f i) 0 = ∑ i in Finset.range n, f i := by
  induction n with
  | zero => rfl
  | succ k ih => rw [forLoop_succ, ih, Finset.sum_range_succ]

section Normalise

variable {α : Type} [LinearOrderedField α]

theorem Matrix1D.sum_eq (v : Matrix1D α) :
    v.sum = ∑ i in Finset.range v.vdim, v.vdata i :=
  forLoop_sum v.vdim v.vdata

theorem divideLoop_spec (v : Matrix1D α) (s : α) (n : Nat) :
    (forLoop n (fun i (st : Matrix1D α × List α) =>
      (setVEC_ELEM st.1 i (VEC_ELEM st.1 i / s), st.2 ++ [s])) (v, [])).1.vdim = v.vdim ∧
    (∀ p, (forLoop n (fun i (st : Matrix1D α × List α) =>
      (setVEC_ELEM st.1 i (VEC_ELEM st.1 i / s), st.2 ++ [s])) (v, [])).1.vdata p
        = if p < n then v.vdata p / s else v.vdata p) ∧
    (forLoop n (fun i (st : Matrix1D α × List α) =>
      (setVEC_ELEM st.1 i (VEC_ELEM st.1 i / s), st.2 ++ [s])) (v, [])).2
        = List.replicate n s := by
  induction n with
  | zero => exact ⟨rfl, fun p => by simp [forLoop], rfl⟩
  | succ k ih =>
    rw [forLoop_succ]
    revert ih
    generalize forLoop k (fun i (st : Matrix1D α × List α) =>
      (setVEC_ELEM st.1 i (VEC_ELEM st.1 i / s), st.2 ++ [s])) (v, []) = L
    rintro ⟨h1, h2, h3⟩
    refine ⟨h1, fun p => ?_, ?_⟩
    · simp only [setVEC_ELEM, VEC_ELEM, h2]
      by_cases hp : p = k
      · subst hp; simp
      · by_cases hlt : p < k
        · have : p < k + 1 := by omega
          simp [hp, hlt, this]
        · have : ¬ p < k + 1 := by omega
          simp [hp, hlt, this]
    · simp only [h3]
      exact (List.replicate_succ' k s).symm

theorem normaliseRow_of_gt (v : Matrix1D α) (h : v.sum > 0.0001) :
    (normaliseRow v).1.vdim = v.vdim ∧
    (∀ p, (normaliseRow v).1.vdata p = if p < v.vdim then v.vdata p / v.sum else v.vdata p) ∧
    (normaliseRow v).2 = List.replicate v.vdim v.sum := by
  unfold normaliseRow
  simp only [if_pos h]
  exact divideLoop_spec v v.sum v.vdim

theorem normaliseRow_of_not_gt (v : Matrix1D α) (h : ¬ v.sum > 0.0001) :
    normaliseRow v = (v, []) := by
  unfold normaliseRow
  simp only [if_neg h]

theorem normaliseRow_sum_of_gt (v : Matrix1D α) (h : v.sum > 0.0001) :
    (normaliseRow v).1.sum = 1 := by
  obtain ⟨h1, h2, -⟩ := normaliseRow_of_gt v h
  have hpos : (0 : α) < v.sum := lt_trans (by norm_num) h
  rw [Matrix1D.sum_eq, h1]
  have : ∀ i ∈ Finset.range v.vdim, (normaliseRow v).1.vdata i = v.vdata i / v.sum := by
    intro i hi
    rw [h2 i, if_pos (Finset.mem_range.mp hi)]
  rw [Finset.sum_congr rfl this, ← Finset.sum_div, ← Matrix1D.sum_eq]
  exact div_self (ne_of_gt hpos)

end Normalise

/-! ## The loop over the points: dimension and block size -/

theorem adaptRank_outputDim {α : Type} (Vpr : Matrix2D α) (s : LoopState α) :
    (adaptRank Vpr s).outputDim = min s.outputDim (MAT_XSIZE Vpr) := by
  unfold adaptRank
  by_cases h : MAT_XSIZE Vpr < s.outputDim
  · rw [if_pos h]
    exact (Nat.min_eq_right (Nat.le_of_lt h)).symm
  · rw [if_neg h]
    exact (Nat.min_eq_left (Nat.le_of_not_lt h)).symm

theorem adaptRank_dp {α : Type} (Vpr : Matrix2D α) (s : LoopState α)
    (h : s.dp = s.outputDim * (s.outputDim + 1) / 2) :
    (adaptRank Vpr s).dp = (adaptRank Vpr s).outputDim * ((adaptRank Vpr s).outputDim + 1) / 2 := by
  unfold adaptRank
  by_cases hlt : MAT_XSIZE Vpr < s.outputDim
  · rw [if_pos hlt]
  · rw [if_neg hlt]; exact h

theorem adaptRank_weightMatrix {α : Type} (Vpr : Matrix2D α) (s : LoopState α) :
    (adaptRank Vpr s).weightMatrix = s.weightMatrix := by
  unfold adaptRank
  by_cases hlt : MAT_XSIZE Vpr < s.outputDim
  · rw [if_pos hlt]
  · rw [if_neg hlt]

theorem adaptRank_of_not_lt {α : Type} (Vpr : Matrix2D α) (s : LoopState α)
    (h : ¬ MAT_XSIZE Vpr < s.outputDim) : adaptRank Vpr s = s := by
  unfold adaptRank
  rw [if_neg h]

section Rank

variable {α : Type} [LinearOrderedField α]

theorem processPoint_outputDim (sqrt : α → α) (nbm : Matrix2D Nat) (k : Nat)
    (Vpr : Matrix2D α) (index : Nat) (s : LoopState α) :
    (processPoint sqrt nbm k Vpr index s).outputDim = (adaptRank Vpr s).outputDim := rfl

theorem processPoint_dp (sqrt : α → α) (nbm : Matrix2D Nat) (k : Nat)
    (Vpr : Matrix2D α) (index : Nat) (s : LoopState α) :
    (processPoint sqrt nbm k Vpr index s).dp = (adaptRank Vpr s).dp := rfl

theorem processPoint_weightMatrix (sqrt : α → α) (nbm : Matrix2D Nat) (k : Nat)
    (Vpr : Matrix2D α) (index : Nat) (s : LoopState α) :
    (processPoint sqrt nbm k Vpr index s).weightMatrix
      = fillWeightMatrix nbm k index (processPoint sqrt nbm k Vpr index s).dp
          (processPoint sqrt nbm k Vpr index s).Pii s.weightMatrix := by
  rw [← adaptRank_weightMatrix Vpr s]
  rfl

theorem pointLoop_succ (sqrt : α → α) (nbm : Matrix2D Nat) (k : Nat)
    (svdVpr : Nat → Matrix2D α) (sizeY d0 t : Nat) :
    pointLoop sqrt nbm k svdVpr sizeY d0 (t + 1)
      = processPoint sqrt nbm k (svdVpr t) t (pointLoop sqrt nbm k svdVpr sizeY d0 t) := rfl

theorem pointLoop_dims (sqrt : α → α) (nbm : Matrix2D Nat) (k : Nat)
    (svdVpr : Nat → Matrix2D α) (sizeY d0 t : Nat) :
    (pointLoop sqrt nbm k svdVpr sizeY d0 t).outputDim
      = (List.range t).foldl (fun a i => min a (MAT_XSIZE (svdVpr i))) d0 ∧
    (pointLoop sqrt nbm k svdVpr sizeY d0 t).dp
      = (pointLoop sqrt nbm k svdVpr sizeY d0 t).outputDim
          * ((pointLoop sqrt nbm k svdVpr sizeY d0 t).outputDim + 1) / 2 := by
  induction t with
  | zero => exact ⟨rfl, rfl⟩
  | succ n ih =>
    obtain ⟨h1, h2⟩ := ih
    rw [pointLoop_succ, processPoint_outputDim, processPoint_dp]
    refine ⟨?_, adaptRank_dp _ _ h2⟩
    rw [adaptRank_outputDim, h1, List.range_succ, List.foldl_append]
    rfl

end Rank

/-! ## The loop over the points: content of the weight matrix -/

section Scatter

variable {α : Type} [LinearOrderedField α]

/-- Effect of lines 120-123 on the weight matrix, when the neighbour indices of the point
are distinct and smaller than the number of columns. -/
theorem fillWeightRow_spec (nbm : Matrix2D Nat) (index dp j : Nat) (vector : Matrix1D α)
    (W : Matrix2D α) (u : Nat)
    (hlt : ∀ c, c < u → MAT_ELEM nbm index c < W.mdimx)
    (hinj : ∀ c c2, c < u → c2 < u → MAT_ELEM nbm index c = MAT_ELEM nbm index c2 → c = c2) :
    (fillWeightRow nbm u index dp j vector W).mdimx = W.mdimx ∧
    (fillWeightRow nbm u index dp j vector W).mdimy = W.mdimy ∧
    (∀ c, c < u → MAT_ELEM (fillWeightRow nbm u index dp j vector W) (index * dp + j)
        (MAT_ELEM nbm index c) = VEC_ELEM vector c) ∧
    (∀ e col, col < W.mdimx → (e ≠ index * dp + j ∨ ∀ c, c < u → MAT_ELEM nbm index c ≠ col) →
      MAT_ELEM (fillWeightRow nbm u index dp j vector W) e col = MAT_ELEM W e col) := by
  induction u with
  | zero => exact ⟨rfl, rfl, fun c hc => by omega, fun e col _ _ => rfl⟩
  | succ n ih =>
    obtain ⟨hx, hy, ha, hb⟩ := ih (fun c hc => hlt c (by omega))
      (fun c c2 hc hc2 => hinj c c2 (by omega) (by omega))
    have hstep : fillWeightRow nbm (n + 1) index dp j vector W
        = setMAT_ELEM (fillWeightRow nbm n index dp j vector W) (index * dp + j)
            (MAT_ELEM nbm index n) (VEC_ELEM vector n) := rfl
    rw [hstep]
    have hn : MAT_ELEM nbm index n < (fillWeightRow nbm n index dp j vector W).mdimx := by
      rw [hx]; exact hlt n (by omega)
    refine ⟨hx, hy, fun c hc => ?_, fun e col hcol hor => ?_⟩
    · rw [MAT_ELEM_setMAT_ELEM _ _ _ _ _ _ hn (by rw [hx]; exact hlt c hc)]
      by_cases hcn : c = n
      · subst hcn; simp
      · have hne : MAT_ELEM nbm index c ≠ MAT_ELEM nbm index n :=
          fun h => hcn (hinj c n hc (by omega) h)
        simp only [hne, and_false, if_false]
        exact ha c (by omega)
    · rw [MAT_ELEM_setMAT_ELEM _ _ _ _ _ _ hn (by rw [hx]; exact hcol)]
      have hne : ¬ (e = index * dp + j ∧ col = MAT_ELEM nbm index n) := by
        rintro ⟨h1, h2⟩
        rcases hor with h | h
        · exact h h1
        · exact h n (by omega) h2.symm
      rw [if_neg hne]
      refine hb e col hcol ?_
      rcases hor with h | h
      · exact Or.inl h
      · exact Or.inr (fun c hc => h c (by omega))

/-- Effect of lines 109-124 on the weight matrix. -/
theorem fillWeightMatrix_spec (nbm : Matrix2D Nat) (k index dp : Nat) (Pii W : Matrix2D α)
    (hlt : ∀ c, c < k → MAT_ELEM nbm index c < W.mdimx)
    (hinj : ∀ c c2, c < k → c2 < k → MAT_ELEM nbm index c = MAT_ELEM nbm index c2 → c = c2)
    (t : Nat) :
    (forLoop t (fun j W2 => fillWeightRow nbm k index dp j
        (normaliseRow (Pii.getRow j)).1 W2) W).mdimx = W.mdimx ∧
    (forLoop t (fun j W2 => fillWeightRow nbm k index dp j
        (normaliseRow (Pii.getRow j)).1 W2) W).mdimy = W.mdimy ∧
    (∀ j c, j < t → c < k →
      MAT_ELEM (forLoop t (fun j W2 => fillWeightRow nbm k index dp j
        (normaliseRow (Pii.getRow j)).1 W2) W) (index * dp + j) (MAT_ELEM nbm index c)
        = VEC_ELEM (normaliseRow (Pii.getRow j)).1 c) ∧
    (∀ e col, col < W.mdimx →
      ((∀ j, j < t → e ≠ index * dp + j) ∨ ∀ c, c < k → MAT_ELEM nbm index c ≠ col) →
      MAT_ELEM (forLoop t (fun j W2 => fillWeightRow nbm k index dp j
        (normaliseRow (Pii.getRow j)).1 W2) W) e col = MAT_ELEM W e col) := by
  induction t with
  | zero => exact ⟨rfl, rfl, fun j c hj => by omega, fun e col _ _ => rfl⟩
  | succ n ih =>
    obtain ⟨hx, hy, ha, hb⟩ := ih
    rw [forLoop_succ]
    obtain ⟨rx, ry, ra, rb⟩ := fillWeightRow_spec nbm index dp n
      (normaliseRow (Pii.getRow n)).1 _ k (fun c hc => by rw [hx]; exact hlt c hc) hinj
    refine ⟨rx.trans hx, ry.trans hy, fun j c hj hc => ?_, fun e col hcol hor => ?_⟩
    · by_cases hjn : j = n
      · subst hjn; exact ra c hc
      · rw [rb _ _ (by rw [hx]; exact hlt c hc) (Or.inl (by omega))]
        exact ha j c (by omega) hc
    · rw [rb e col (by rw [hx]; exact hcol) ?_]
      · refine hb e col hcol ?_
        rcases hor with h | h
        · exact Or.inl (fun j hj => h j (by omega))
        · exact Or.inr h
      · rcases hor with h | h
        · exact Or.inl (h n (by omega))
        · exact Or.inr h

/-- State of the weight matrix after `t` points, when the dimension is not lowered at these
points and the neighbour indices of every point are distinct and smaller than the number
of points. -/
theorem pointLoop_weights_upTo (sqrt : α → α) (nbm : Matrix2D Nat) (k : Nat)
    (svdVpr : Nat → Matrix2D α) (N d0 : Nat)
    (t : Nat)
    (hnr : ∀ i, i < t → ¬ MAT_XSIZE (svdVpr i) < d0)
    (hlt : ∀ i c, i < t → c < k → MAT_ELEM nbm i c < N)
    (hinj : ∀ i c c2, i < t → c < k → c2 < k → MAT_ELEM nbm i c = MAT_ELEM nbm i c2 → c = c2) :
    (pointLoop sqrt nbm k svdVpr N d0 t).outputDim = d0 ∧
    (pointLoop sqrt nbm k svdVpr N d0 t).dp = d0 * (d0 + 1) / 2 ∧
    (pointLoop sqrt nbm k svdVpr N d0 t).weightMatrix.mdimx = N ∧
    (pointLoop sqrt nbm k svdVpr N d0 t).weightMatrix.mdimy = d0 * (d0 + 1) / 2 * N ∧
    (∀ i r c, i < t → r < d0 * (d0 + 1) / 2 → c < k →
      MAT_ELEM (pointLoop sqrt nbm k svdVpr N d0 t).weightMatrix
        (i * (d0 * (d0 + 1) / 2) + r) (MAT_ELEM nbm i c)
        = VEC_ELEM (normaliseRow
            ((pointLoop sqrt nbm k svdVpr N d0 (i + 1)).Pii.getRow r)).1 c) ∧
    (∀ i r col, r < d0 * (d0 + 1) / 2 → col < N →
      (t ≤ i ∨ ∀ c, c < k → MAT_ELEM nbm i c ≠ col) →
      MAT_ELEM (pointLoop sqrt nbm k svdVpr N d0 t).weightMatrix
        (i * (d0 * (d0 + 1) / 2) + r) col = 0) := by
  induction t with
  | zero =>
    exact ⟨rfl, rfl, rfl, rfl, fun i r c hi => by omega, fun i r col _ _ _ => rfl⟩
  | succ n ih =>
    obtain ⟨h1, h2, h3, h4, h5, h6⟩ := ih (fun i hi => hnr i (by omega))
      (fun i c hi hc => hlt i c (by omega) hc)
      (fun i c c2 hi hc hc2 => hinj i c c2 (by omega) hc hc2)
    have hs : adaptRank (svdVpr n) (pointLoop sqrt nbm k svdVpr N d0 n)
        = pointLoop sqrt nbm k svdVpr N d0 n :=
      adaptRank_of_not_lt _ _ (by rw [h1]; exact hnr n (by omega))
    have e1 : (pointLoop sqrt nbm k svdVpr N d0 (n + 1)).outputDim = d0 := by
      rw [pointLoop_succ, processPoint_outputDim, hs, h1]
    have e2 : (pointLoop sqrt nbm k svdVpr N d0 (n + 1)).dp = d0 * (d0 + 1) / 2 := by
      rw [pointLoop_succ, processPoint_dp, hs, h2]
    have e3 : (pointLoop sqrt nbm k svdVpr N d0 (n + 1)).weightMatrix
        = fillWeightMatrix nbm k n (d0 * (d0 + 1) / 2)
            (pointLoop sqrt nbm k svdVpr N d0 (n + 1)).Pii
            (pointLoop sqrt nbm k svdVpr N d0 n).weightMatrix := by
      rw [← e2]
      exact processPoint_weightMatrix sqrt nbm k (svdVpr n) n _
    obtain ⟨fx, fy, fa, fb⟩ := fillWeightMatrix_spec nbm k n (d0 * (d0 + 1) / 2)
      (pointLoop sqrt nbm k svdVpr N d0 (n + 1)).Pii
      (pointLoop sqrt nbm k svdVpr N d0 n).weightMatrix
      (fun c hc => by rw [h3]; exact hlt n c (by omega) hc)
      (fun c c2 hc hc2 => hinj n c c2 (by omega) hc hc2) (d0 * (d0 + 1) / 2)
    rw [e3]
    refine ⟨e1, e2, fx.trans h3, fy.trans h4, fun i r c hi hr hc => ?_,
      fun i r col hr hcol hor => ?_⟩
    · by_cases hin : i = n
      · subst hin
        exact fa r c hr hc
      · have hrow : ∀ j, j < d0 * (d0 + 1) / 2 →
            i * (d0 * (d0 + 1) / 2) + r ≠ n * (d0 * (d0 + 1) / 2) + j :=
          fun j hj h => hin (offset_inj hr hj h).1
        have := fb (i * (d0 * (d0 + 1) / 2) + r) (MAT_ELEM nbm i c)
          (by rw [h3]; exact hlt i c (by omega) hc) (Or.inl hrow)
        unfold fillWeightMatrix
        rw [this]
        exact h5 i r c (by omega) hr hc
    · have hside : (∀ j, j < d0 * (d0 + 1) / 2 →
            i * (d0 * (d0 + 1) / 2) + r ≠ n * (d0 * (d0 + 1) / 2) + j)
          ∨ ∀ c, c < k → MAT_ELEM nbm n c ≠ col := by
        by_cases hin : i = n
        · subst hin
          rcases hor with h | h
          · omega
          · exact Or.inr h
        · exact Or.inl (fun j hj h => hin (offset_inj hr hj h).1)
      have := fb (i * (d0 * (d0 + 1) / 2) + r) col (by rw [h3]; exact hcol) hside
      unfold fillWeightMatrix
      rw [this]
      refine h6 i r col hr hcol ?_
      rcases hor with h | h
      · exact Or.inl (by omega)
      · exact Or.inr h

/-- State of the weight matrix after `t` points, in a run in which the dimension is never
lowered and the neighbour indices of every point are distinct and smaller than the number
of points. -/
theorem pointLoop_weights (sqrt : α → α) (nbm : Matrix2D Nat) (k : Nat)
    (svdVpr : Nat → Matrix2D α) (N d0 : Nat)
    (hnr : ∀ i, i < N → ¬ MAT_XSIZE (svdVpr i) < d0)
    (hlt : ∀ i c, i < N → c < k → MAT_ELEM nbm i c < N)
    (hinj : ∀ i c c2, i < N → c < k → c2 < k → MAT_ELEM nbm i c = MAT_ELEM nbm i c2 → c = c2)
    (t : Nat) (ht : t ≤ N) :
    (pointLoop sqrt nbm k svdVpr N d0 t).outputDim = d0 ∧
    (pointLoop sqrt nbm k svdVpr N d0 t).dp = d0 * (d0 + 1) / 2 ∧
    (pointLoop sqrt nbm k svdVpr N d0 t).weightMatrix.mdimx = N ∧
    (pointLoop sqrt nbm k svdVpr N d0 t).weightMatrix.mdimy = d0 * (d0 + 1) / 2 * N ∧
    (∀ i r c, i < t → r < d0 * (d0 + 1) / 2 → c < k →
      MAT_ELEM (pointLoop sqrt nbm k svdVpr N d0 t).weightMatrix
        (i * (d0 * (d0 + 1) / 2) + r) (MAT_ELEM nbm i c)
        = VEC_ELEM (normaliseRow
            ((pointLoop sqrt nbm k svdVpr N d0 (i + 1)).Pii.getRow r)).1 c) ∧
    (∀ i r col, r < d0 * (d0 + 1) / 2 → col < N →
      (t ≤ i ∨ ∀ c, c < k → MAT_ELEM nbm i c ≠ col) →
      MAT_ELEM (pointLoop sqrt nbm k svdVpr N d0 t).weightMatrix
        (i * (d0 * (d0 + 1) / 2) + r) col = 0) :=
  pointLoop_weights_upTo sqrt nbm k svdVpr N d0 t (fun i hi => hnr i (by omega))
    (fun i c hi hc => hlt i c (by omega) hc)
    (fun i c c2 hi hc hc2 => hinj i c c2 (by omega) hc hc2)

end Scatter

/-! ## Orthogonalisation: the algebra of one step -/

section GramSchmidtAlgebra

variable {m : Nat}

theorem GSInv_init (n : Nat) (A : Nat → Fin m → ℝ) : GSInv n 0 A A :=
  ⟨fun a ha => by omega, fun a b ha => by omega, fun _ _ => rfl⟩

theorem image_fin_lt (n i : Nat) (hi : i ≤ n) (A : Nat → Fin m → ℝ) :
    Set.image (fun j : Fin n => A j.val) {a : Fin n | a.val < i} = Set.image A {a | a < i} := by
  ext x
  constructor
  · rintro ⟨a, ha, rfl⟩
    exact ⟨a.val, ha, rfl⟩
  · rintro ⟨a, ha, rfl⟩
    exact ⟨⟨a, lt_of_lt_of_le ha hi⟩, ha, rfl⟩

/-- With linearly independent input columns, the column about to be normalised is not the
zero vector. -/
theorem GSInv_ne_zero (n i : Nat) (hi : i < n) (A cur : Nat → Fin m → ℝ)
    (hA : LinearIndependent ℝ (fun j : Fin n => A j.val)) (h : GSInv n i A cur) :
    cur i ≠ 0 := by
  obtain ⟨-, -, h3⟩ := h
  intro hz
  have hnot : A i ∉ Submodule.span ℝ (Set.image A {a | a < i}) := by
    have := hA.not_mem_span_image (s := {a : Fin n | a.val < i}) (x := ⟨i, hi⟩)
      (by simp)
    rwa [image_fin_lt n i (le_of_lt hi) A] at this
  apply hnot
  have hmem : A i ∈ Submodule.span ℝ (Set.image A {a | a < i + 1}) :=
    Submodule.subset_span ⟨i, by simp, rfl⟩
  rw [← h3 (i + 1) hi] at hmem
  rw [← h3 i (le_of_lt hi)]
  refine (Submodule.span_le.mpr ?_) hmem
  rintro x ⟨a, ha, rfl⟩
  have ha' : a < i + 1 := ha
  rcases Nat.lt_succ_iff_lt_or_eq.mp ha' with hlt | heq
  · exact Submodule.subset_span ⟨a, hlt, rfl⟩
  · subst heq
    rw [hz]
    exact Submodule.zero_mem _

theorem normalised_dot_self (v : Fin m → ℝ) (hv : v ≠ 0) :
    Matrix.dotProduct ((Real.sqrt (Matrix.dotProduct v v))⁻¹ • v)
      ((Real.sqrt (Matrix.dotProduct v v))⁻¹ • v) = 1 := by
  have hnn : 0 ≤ Matrix.dotProduct v v := by
    unfold Matrix.dotProduct
    exact Finset.sum_nonneg (fun i _ => mul_self_nonneg (v i))
  have hne : Matrix.dotProduct v v ≠ 0 := fun h => hv (Matrix.dotProduct_self_eq_zero.mp h)
  have hs : Real.sqrt (Matrix.dotProduct v v) * Real.sqrt (Matrix.dotProduct v v)
      = Matrix.dotProduct v v := Real.mul_self_sqrt hnn
  rw [Matrix.smul_dotProduct, Matrix.dotProduct_smul, smul_eq_mul, smul_eq_mul]
  rw [← mul_assoc, ← mul_inv, hs]
  exact inv_mul_cancel₀ hne

theorem sqrt_dot_ne_zero (v : Fin m → ℝ) (hv : v ≠ 0) :
    Real.sqrt (Matrix.dotProduct v v) ≠ 0 := by
  have hnn : 0 ≤ Matrix.dotProduct v v := by
    unfold Matrix.dotProduct
    exact Finset.sum_nonneg (fun i _ => mul_self_nonneg (v i))
  have hne : Matrix.dotProduct v v ≠ 0 := fun h => hv (Matrix.dotProduct_self_eq_zero.mp h)
  intro h0
  have hs := Real.mul_self_sqrt hnn
  rw [h0, mul_zero] at hs
  exact hne hs.symm

end GramSchmidtAlgebra

section GramSchmidtStep

variable {m : Nat}

/-- One iteration of the outer loop keeps the invariant. -/
theorem GSInv_step (n i : Nat) (hi : i < n) (A cur cur2 : Nat → Fin m → ℝ)
    (hA : LinearIndependent ℝ (fun j : Fin n => A j.val)) (h : GSInv n i A cur)
    (hs : GSStep n i cur cur2) : GSInv n (i + 1) A cur2 := by
  have hnz : cur i ≠ 0 := GSInv_ne_zero n i hi A cur hA h
  obtain ⟨h1, h2, h3⟩ := h
  obtain ⟨s1, s2, s3⟩ := hs
  have hc : Real.sqrt (Matrix.dotProduct (cur i) (cur i)) ≠ 0 := sqrt_dot_ne_zero (cur i) hnz
  have hq : Matrix.dotProduct (cur2 i) (cur2 i) = 1 := by
    rw [s1]; exact normalised_dot_self (cur i) hnz
  have f1 : ∀ a, a < i → Matrix.dotProduct (cur a) (cur2 i) = 0 := by
    intro a ha
    rw [s1, Matrix.dotProduct_smul, h2 a i ha hi (by omega), smul_zero]
  have f2 : ∀ b, i < b → b < n → Matrix.dotProduct (cur2 i) (cur2 b) = 0 := by
    intro b hb hbn
    rw [s3 b hb hbn, Matrix.dotProduct_sub, Matrix.dotProduct_smul, hq, smul_eq_mul, mul_one,
      sub_self]
  refine ⟨fun a ha => ?_, fun a b ha hb hab => ?_, fun j hj => ?_⟩
  · rcases Nat.lt_succ_iff_lt_or_eq.mp ha with hlt | heq
    · rw [s2 a hlt]; exact h1 a hlt
    · subst heq; exact hq
  · rcases Nat.lt_succ_iff_lt_or_eq.mp ha with hlt | heq
    · rw [s2 a hlt]
      rcases Nat.lt_trichotomy b i with hbi | hbi | hbi
      · rw [s2 b hbi]; exact h2 a b hlt hb hab
      · subst hbi; exact f1 a hlt
      · rw [s3 b hbi hb, Matrix.dotProduct_sub, Matrix.dotProduct_smul, f1 a hlt,
          h2 a b hlt hb hab, smul_zero, sub_zero]
    · subst heq
      rcases Nat.lt_trichotomy b a with hbi | hbi | hbi
      · rw [s2 b hbi, Matrix.dotProduct_comm]; exact f1 b hbi
      · exact absurd hbi.symm hab
      · exact f2 b hbi hb
  · rw [← h3 j hj]
    apply le_antisymm
    · refine Submodule.span_le.mpr ?_
      rintro x ⟨a, ha, rfl⟩
      have ha' : a < j := ha
      rcases Nat.lt_trichotomy a i with hai | hai | hai
      · rw [s2 a hai]; exact Submodule.subset_span ⟨a, ha, rfl⟩
      · subst hai
        rw [s1]
        exact Submodule.smul_mem _ _ (Submodule.subset_span ⟨a, ha, rfl⟩)
      · rw [s3 a hai (by omega), s1]
        refine Submodule.sub_mem _ (Submodule.subset_span ⟨a, ha, rfl⟩) ?_
        refine Submodule.smul_mem _ _ (Submodule.smul_mem _ _ ?_)
        exact Submodule.subset_span ⟨i, show i < j by omega, rfl⟩
    · refine Submodule.span_le.mpr ?_
      rintro x ⟨a, ha, rfl⟩
      have ha' : a < j := ha
      have hback : cur i = Real.sqrt (Matrix.dotProduct (cur i) (cur i)) • cur2 i := by
        rw [s1, smul_smul, mul_inv_cancel₀ hc, one_smul]
      rcases Nat.lt_trichotomy a i with hai | hai | hai
      · rw [← s2 a hai]; exact Submodule.subset_span ⟨a, ha, rfl⟩
      · subst hai
        rw [hback]
        exact Submodule.smul_mem _ _ (Submodule.subset_span ⟨a, ha, rfl⟩)
      · have e : cur a = cur2 a + Matrix.dotProduct (cur2 i) (cur a) • cur2 i := by
          rw [s3 a hai (by omega)]; abel
        rw [e]
        refine Submodule.add_mem _ (Submodule.subset_span ⟨a, ha, rfl⟩) ?_
        refine Submodule.smul_mem _ _ ?_
        exact Submodule.subset_span ⟨i, show i < j by omega, rfl⟩

end GramSchmidtStep

/-! ## Orthogonalisation: what the loops do to the columns -/

section GramSchmidtModel

variable {α : Type} [Field α]

theorem dotProduct_getCol (m : Nat) (M M2 : Matrix2D α) (hy : M.mdimy = m) (a b : Nat) :
    dotProduct (M.getCol a) (M2.getCol b)
      = Matrix.dotProduct (columnVec m M a) (columnVec m M2 b) := by
  subst hy
  unfold dotProduct Matrix.dotProduct columnVec
  rw [forLoop_sum]
  exact Finset.sum_range (fun k => MAT_ELEM M k a * MAT_ELEM M2 k b)

theorem module_getCol (sqrt : α → α) (m : Nat) (M : Matrix2D α) (hy : M.mdimy = m) (a : Nat) :
    (M.getCol a).module sqrt
      = sqrt (Matrix.dotProduct (columnVec m M a) (columnVec m M a)) := by
  subst hy
  unfold Matrix1D.module Matrix.dotProduct columnVec
  rw [forLoop_sum]
  exact congrArg sqrt (Finset.sum_range (fun k => MAT_ELEM M k a * MAT_ELEM M k a))

theorem sum_getCol (m : Nat) (M : Matrix2D α) (hy : M.mdimy = m) (a : Nat) :
    (M.getCol a).sum = ∑ e : Fin m, columnVec m M a e := by
  subst hy
  unfold Matrix1D.sum columnVec
  rw [forLoop_sum]
  exact Finset.sum_range (fun k => MAT_ELEM M k a)

theorem divideColumn_cols (n m i : Nat) (cm : α) (M : Matrix2D α) (hx : M.mdimx = n)
    (hi : i < n) :
    (divideColumn m i cm M).mdimx = n ∧ (divideColumn m i cm M).mdimy = M.mdimy ∧
    ∀ c, c < n → columnVec m (divideColumn m i cm M) c
      = if c = i then cm⁻¹ • columnVec m M i else columnVec m M c := by
  obtain ⟨rx, ry, rR⟩ := columnLoop_spec m i (fun k M2 => MAT_ELEM M2 k i / cm)
    (fun k => MAT_ELEM M k i / cm) M (by omega)
    (fun k _ M2 _ hM2 => by
      show MAT_ELEM M2 k i / cm = MAT_ELEM M k i / cm
      rw [hM2 k i (by omega) (Or.inr (le_refl k))])
  refine ⟨rx.trans hx, ry, fun c hc => ?_⟩
  funext e
  refine (rR e.val c (by omega)).trans ?_
  by_cases hci : c = i
  · subst hci
    rw [if_pos ⟨rfl, e.isLt⟩, if_pos rfl, div_eq_inv_mul]
    rfl
  · rw [if_neg (fun h => hci h.1), if_neg hci]
    rfl

theorem subtractProjection_cols (n m i j : Nat) (M : Matrix2D α) (hx : M.mdimx = n)
    (hy : M.mdimy = m) (hi : i < n) (hj : j < n) (hij : i ≠ j) :
    (subtractProjection m i j M).mdimx = n ∧ (subtractProjection m i j M).mdimy = m ∧
    ∀ c, c < n → columnVec m (subtractProjection m i j M) c
      = if c = j then columnVec m M j
          - Matrix.dotProduct (columnVec m M i) (columnVec m M j) • columnVec m M i
        else columnVec m M c := by
  obtain ⟨rx, ry, rR⟩ := columnLoop_spec m j
    (fun k M2 => MAT_ELEM M2 k j - dotProduct (M.getCol i) (M.getCol j) * MAT_ELEM M2 k i)
    (fun k => MAT_ELEM M k j - dotProduct (M.getCol i) (M.getCol j) * MAT_ELEM M k i) M
    (by omega)
    (fun k _ M2 _ hM2 => by
      show MAT_ELEM M2 k j - _ * MAT_ELEM M2 k i = MAT_ELEM M k j - _ * MAT_ELEM M k i
      rw [hM2 k j (by omega) (Or.inr (le_refl k)), hM2 k i (by omega) (Or.inl hij)])
  refine ⟨rx.trans hx, ry.trans hy, fun c hc => ?_⟩
  funext e
  refine (rR e.val c (by omega)).trans ?_
  rw [dotProduct_getCol m M M hy]
  by_cases hcj : c = j
  · subst hcj
    rw [if_pos ⟨rfl, e.isLt⟩, if_pos rfl]
    rfl
  · rw [if_neg (fun h => hcj h.1), if_neg hcj]
    rfl

/-- The columns after `u` iterations of the loop over `j` (lines 40-48). -/
theorem projectionLoop_cols (n m i : Nat) (M1 : Matrix2D α) (hx : M1.mdimx = n)
    (hy : M1.mdimy = m) (hi : i < n) (u : Nat) (hu : i + 1 + u ≤ n) :
    (forLoop u (fun t M => subtractProjection m i (i + 1 + t) M) M1).mdimx = n ∧
    (forLoop u (fun t M => subtractProjection m i (i + 1 + t) M) M1).mdimy = m ∧
    ∀ c, c < n → columnVec m (forLoop u (fun t M => subtractProjection m i (i + 1 + t) M) M1) c
      = if i < c ∧ c < i + 1 + u then columnVec m M1 c
          - Matrix.dotProduct (columnVec m M1 i) (columnVec m M1 c) • columnVec m M1 i
        else columnVec m M1 c := by
  induction u with
  | zero => exact ⟨hx, hy, fun c _ => by rw [if_neg (by omega)]; rfl⟩
  | succ k ih =>
    obtain ⟨ix, iy, iR⟩ := ih (by omega)
    rw [forLoop_succ]
    obtain ⟨sx, sy, sR⟩ := subtractProjection_cols n m i (i + 1 + k) _ ix iy hi (by omega)
      (by omega)
    refine ⟨sx, sy, fun c hc => ?_⟩
    rw [sR c hc]
    by_cases hck : c = i + 1 + k
    · subst hck
      rw [if_pos rfl, iR _ hc, iR i hi, if_neg (by omega), if_neg (by omega),
        if_pos ⟨by omega, by omega⟩]
    · rw [if_neg hck, iR c hc]
      by_cases hin : i < c ∧ c < i + 1 + k
      · rw [if_pos hin, if_pos ⟨hin.1, by omega⟩]
      · rw [if_neg hin, if_neg (by omega)]

end GramSchmidtModel

/-! ## Orthogonalisation: the whole loop -/

theorem gramSchmidtColumn_eq {α : Type} [Field α] (sqrt : α → α) (n m i : Nat)
    (M : Matrix2D α) :
    gramSchmidtColumn sqrt n m i M
      = forLoop (n - (i + 1)) (fun t M2 => subtractProjection m i (i + 1 + t) M2)
          (divideColumn m i ((M.getCol i).module sqrt) M) := by
  unfold gramSchmidtColumn
  by_cases h : i < n - 1
  · simp only [if_pos h]
  · simp only [if_neg h]
    have : n - (i + 1) = 0 := by omega
    rw [this]
    rfl

theorem gramSchmidtColumn_step (n m i : Nat) (M : Matrix2D ℝ) (hx : M.mdimx = n)
    (hy : M.mdimy = m) (hi : i < n) :
    (gramSchmidtColumn Real.sqrt n m i M).mdimx = n ∧
    (gramSchmidtColumn Real.sqrt n m i M).mdimy = m ∧
    GSStep n i (columnVec m M) (columnVec m (gramSchmidtColumn Real.sqrt n m i M)) := by
  rw [gramSchmidtColumn_eq]
  obtain ⟨dx, dy, dR⟩ := divideColumn_cols n m i ((M.getCol i).module Real.sqrt) M hx hi
  obtain ⟨px, py, pR⟩ := projectionLoop_cols n m i _ dx (dy.trans hy) hi (n - (i + 1))
    (by omega)
  have hi2 : columnVec m (forLoop (n - (i + 1))
      (fun t M2 => subtractProjection m i (i + 1 + t) M2)
      (divideColumn m i ((M.getCol i).module Real.sqrt) M)) i
      = (Real.sqrt (Matrix.dotProduct (columnVec m M i) (columnVec m M i)))⁻¹
          • columnVec m M i := by
    rw [pR i hi, if_neg (by omega), dR i hi, if_pos rfl, module_getCol Real.sqrt m M hy]
  refine ⟨px, py, hi2, fun c hc => ?_, fun c hc hcn => ?_⟩
  · rw [pR c (by omega), if_neg (by omega), dR c (by omega), if_neg (by omega)]
  · rw [hi2, pR c hcn, if_pos ⟨hc, by omega⟩, dR c hcn, if_neg (by omega), dR i hi,
      if_pos rfl, module_getCol Real.sqrt m M hy]

/-- The invariant holds when `modifiedGramSchmidtOrtogonalization` returns. -/
theorem modifiedGramSchmidt_inv (M : Matrix2D ℝ) (n m : Nat) (hx : M.mdimx = n)
    (hy : M.mdimy = m) (hA : LinearIndependent ℝ (fun j : Fin n => columnVec m M j.val)) :
    (modifiedGramSchmidtOrtogonalization Real.sqrt M).mdimx = n ∧
    (modifiedGramSchmidtOrtogonalization Real.sqrt M).mdimy = m ∧
    GSInv n n (columnVec m M)
      (columnVec m (modifiedGramSchmidtOrtogonalization Real.sqrt M)) := by
  unfold modifiedGramSchmidtOrtogonalization
  simp only [MAT_XSIZE, MAT_YSIZE, hx, hy]
  refine forLoop_invariant
    (fun t (Q : Matrix2D ℝ) => Q.mdimx = n ∧ Q.mdimy = m ∧
      GSInv n t (columnVec m M) (columnVec m Q))
    n _ M ⟨hx, hy, GSInv_init n _⟩ ?_
  rintro i hi Q ⟨qx, qy, qI⟩
  obtain ⟨sx, sy, sS⟩ := gramSchmidtColumn_step n m i Q qx qy hi
  exact ⟨sx, sy, GSInv_step n i hi _ _ _ hA qI sS⟩

/-! ## The Hessian estimator and the combined basis -/

/-- C1: for a `k×d` matrix `V` and `dp = d(d+1)/2`, `buildYiHessianEstimator(V, Yi, d, dp)`
leaves in `Yi` a `k×dp` matrix in which, for every pair `m ≤ n < d` and every row `e`, the
entry of row `e` in column `m*d - m(m-1)/2 + (n - m)` is `V[e][m] * V[e][n]`. -/
theorem buildYiHessianEstimator_products {α : Type} [Mul α] (V Yi : Matrix2D α) (d : Nat)
    (_hV : MAT_XSIZE V = d) :
    MAT_YSIZE (buildYiHessianEstimator V Yi d (d * (d + 1) / 2)) = MAT_YSIZE V ∧
    MAT_XSIZE (buildYiHessianEstimator V Yi d (d * (d + 1) / 2)) = d * (d + 1) / 2 ∧
    ∀ m n e, m ≤ n → n < d → e < MAT_YSIZE V →
      MAT_ELEM (buildYiHessianEstimator V Yi d (d * (d + 1) / 2)) e (columnIndex d m n)
        = MAT_ELEM V e m * MAT_ELEM V e n := by
  rw [← ctAt_self d]
  obtain ⟨hx, hy, hY⟩ := buildYiHessianEstimator_spec V Yi d
  refine ⟨hy, hx, fun m n e hmn hn he => ?_⟩
  rw [columnIndex_eq_ctAt d m n (by omega)]
  exact hY m n e hmn hn he (Or.inl (by omega))

/-- Instance of C1: `V = [[1, 2], [3, 4]]`, `d = 2`, the pair `(0, 1)` and the row `1`. -/
theorem buildYiHessianEstimator_products_witness :
    MAT_XSIZE exampleV = 2 ∧
    MAT_ELEM (buildYiHessianEstimator exampleV exampleYi 2 (2 * (2 + 1) / 2)) 1
      (columnIndex 2 0 1) = MAT_ELEM exampleV 1 0 * MAT_ELEM exampleV 1 1 :=
  ⟨rfl, (buildYiHessianEstimator_products exampleV exampleYi 2 rfl).2.2 0 1 1
    (by decide) (by decide) (by decide)⟩

/-- C2: the columns written by `buildYiHessianEstimator` for the pairs `(m, n)`, `m ≤ n < d`,
are in bijection with `0, ..., dp-1`, `dp = d(d+1)/2` (an exact division): the function is
the succession of its column writes, the sequence of written columns is `0, 1, ..., dp-1`,
every pair `m ≤ n < d` occurs in it, once, with the column `m*d - m(m-1)/2 + (n - m)`, and
nothing else occurs. -/
theorem buildYiWrites_bijection {α : Type} [Mul α] (V Yi : Matrix2D α) (d dp : Nat) :
    d * (d + 1) % 2 = 0 ∧
    buildYiHessianEstimator V Yi d dp
      = (buildYiWrites d).foldl (fun Y w => writeYiColumn V w.1 w.2.1 w.2.2 Y)
          (Yi.resizeNoCopy (MAT_YSIZE V) dp) ∧
    (buildYiWrites d).map (fun w => w.2.2) = List.range (d * (d + 1) / 2) ∧
    ((buildYiWrites d).map (fun w => (w.1, w.2.1))).Nodup ∧
    ∀ m n c, (m, n, c) ∈ buildYiWrites d ↔ (m ≤ n ∧ n < d ∧ c = columnIndex d m n) := by
  refine ⟨?_, buildYiLoops_eq_foldl (writeYiColumn V) d _, ?_, ?_, fun m n c => ?_⟩
  · have := even_mul_pred (d + 1)
    rw [Nat.add_sub_cancel, Nat.mul_comm] at this
    exact this
  · rw [buildYiWrites_eq, triUpTo_columns, ctAt_self]
  · rw [buildYiWrites_eq]
    exact triUpTo_pairs_nodup d d
  · rw [buildYiWrites_eq, mem_triUpTo]
    constructor
    · rintro ⟨h1, h2, h3, h4⟩
      exact ⟨h2, h3, by rw [columnIndex_eq_ctAt d m n (by omega)]; exact h4⟩
    · rintro ⟨h2, h3, h4⟩
      exact ⟨by omega, h2, h3, by rw [← columnIndex_eq_ctAt d m n (by omega)]; exact h4⟩

/-- C3: for a `k×d` matrix `V` and a `k×dp` matrix `Yi`, `completeYt(V, Yi, Yt)` leaves in
`Yt` a `k×(1+d+dp)` matrix whose column `0` holds ones, whose column `1+c` is the column
`c` of `V` (`c < d`) and whose column `1+d+c` is the column `c` of `Yi` (`c < dp`). -/
theorem completeYt_layout {α : Type} [One α] (V Yi Yt : Matrix2D α) (k d dp : Nat)
    (_hVy : MAT_YSIZE V = k) (hVx : MAT_XSIZE V = d) (hYy : MAT_YSIZE Yi = k)
    (hYx : MAT_XSIZE Yi = dp) :
    MAT_YSIZE (completeYt V Yi Yt) = k ∧ MAT_XSIZE (completeYt V Yi Yt) = 1 + d + dp ∧
    ∀ e, e < k →
      MAT_ELEM (completeYt V Yi Yt) e 0 = 1 ∧
      (∀ c, c < d → MAT_ELEM (completeYt V Yi Yt) e (1 + c) = MAT_ELEM V e c) ∧
      (∀ c, c < dp → MAT_ELEM (completeYt V Yi Yt) e (1 + d + c) = MAT_ELEM Yi e c) := by
  subst hVx hYy hYx
  obtain ⟨hx, hy, hR⟩ := completeYt_rows V Yi
    (Yt.resizeNoCopy (MAT_YSIZE Yi) (1 + MAT_XSIZE V + MAT_XSIZE Yi))
    (1 + MAT_XSIZE V + MAT_XSIZE Yi) (MAT_YSIZE Yi) rfl rfl
  exact ⟨hy, hx, hR⟩

/-- Instance of C3: `V = [[1, 2], [3, 4]]`, `Yi = [[1, 2, 4], [9, 12, 16]]`, row `1`,
columns `1 + 1` and `1 + 2 + 2`. -/
theorem completeYt_layout_witness :
    (MAT_YSIZE exampleV = 2 ∧ MAT_XSIZE exampleV = 2 ∧ MAT_YSIZE exampleYi = 2 ∧
      MAT_XSIZE exampleYi = 3) ∧
    MAT_ELEM (completeYt exampleV exampleYi exampleYt) 1 0 = 1 ∧
    MAT_ELEM (completeYt exampleV exampleYi exampleYt) 1 (1 + 1) = MAT_ELEM exampleV 1 1 ∧
    MAT_ELEM (completeYt exampleV exampleYi exampleYt) 1 (1 + 2 + 2)
      = MAT_ELEM exampleYi 1 2 :=
  ⟨⟨rfl, rfl, rfl, rfl⟩,
    ((completeYt_layout exampleV exampleYi exampleYt 2 2 3 rfl rfl rfl rfl).2.2 1
      (by decide)).1,
    ((completeYt_layout exampleV exampleYi exampleYt 2 2 3 rfl rfl rfl rfl).2.2 1
      (by decide)).2.1 1 (by decide),
    ((completeYt_layout exampleV exampleYi exampleYt 2 2 3 rfl rfl rfl rfl).2.2 1
      (by decide)).2.2 2 (by decide)⟩

/-! ## Extraction, normalisation and scattering of the local weights -/

/-- C9: for a matrix `Yt` with `k` rows and `1+d+dp` columns, the matrix `Pii` extracted at
lines 102-106 has `dp` rows and `k` columns, and `Pii[r][c] = Yt[c][d+1+r]` for `r < dp`,
`c < k`: it is the transpose of the last `dp` columns of `Yt`. -/
theorem extractPii_transpose {α : Type} (Yt Pii : Matrix2D α) (k d dp : Nat)
    (hy : MAT_YSIZE Yt = k) (hx : MAT_XSIZE Yt = 1 + d + dp) :
    MAT_YSIZE (extractPii Yt Pii d) = dp ∧ MAT_XSIZE (extractPii Yt Pii d) = k ∧
    ∀ r c, r < dp → c < k → MAT_ELEM (extractPii Yt Pii d) r c = MAT_ELEM Yt c (d + 1 + r) := by
  obtain ⟨px, py, pR⟩ := extractPii_spec Yt Pii d
  have hdp : Yt.mdimx - (d + 1) = dp := by
    have : Yt.mdimx = 1 + d + dp := hx
    omega
  rw [hdp] at py pR
  have hk : Yt.mdimy = k := hy
  rw [hk] at px pR
  exact ⟨py, px, pR⟩

/-- Instance of C9: a `2×3` matrix `Yt` with `d = 1`, `dp = 1`, entry `(0, 1)` of `Pii`. -/
theorem extractPii_transpose_witness :
    (MAT_YSIZE exampleYt = 2 ∧ MAT_XSIZE exampleYt = 1 + 1 + 1) ∧
    MAT_YSIZE (extractPii exampleYt exampleYi 1) = 1 ∧
    MAT_XSIZE (extractPii exampleYt exampleYi 1) = 2 ∧
    MAT_ELEM (extractPii exampleYt exampleYi 1) 0 1 = MAT_ELEM exampleYt 1 (1 + 1 + 0) :=
  ⟨⟨rfl, rfl⟩, (extractPii_transpose exampleYt exampleYi 2 1 1 rfl rfl).1,
    (extractPii_transpose exampleYt exampleYi 2 1 1 rfl rfl).2.1,
    (extractPii_transpose exampleYt exampleYi 2 1 1 rfl rfl).2.2 0 1 (by decide) (by decide)⟩

/-- C6, as the code has it: a weight row whose sum `s` exceeds `0.0001` is replaced by the
row divided by `s`, whose entries sum to `1`; hence every row handed on to the weight
matrix sums to `1` or had a sum of at most `0.0001` (the test is on `s`, not on `|s|`). -/
theorem normaliseRow_rescales {α : Type} [LinearOrderedField α] (vector : Matrix1D α) :
    (vector.sum > 0.0001 →
      (normaliseRow vector).1.vdim = vector.vdim ∧
      (∀ i, i < vector.vdim →
        VEC_ELEM (normaliseRow vector).1 i = VEC_ELEM vector i / vector.sum) ∧
      (normaliseRow vector).1.sum = 1) ∧
    ((normaliseRow vector).1.sum = 1 ∨ vector.sum ≤ 0.0001) := by
  refine ⟨fun h => ?_, ?_⟩
  · obtain ⟨h1, h2, -⟩ := normaliseRow_of_gt vector h
    refine ⟨h1, fun i hi => ?_, normaliseRow_sum_of_gt vector h⟩
    show (normaliseRow vector).1.vdata i = vector.vdata i / vector.sum
    rw [h2 i, if_pos hi]
  · by_cases h : vector.sum > 0.0001
    · exact Or.inl (normaliseRow_sum_of_gt vector h)
    · exact Or.inr (le_of_not_lt h)

theorem positiveRow_sum : positiveRow.sum = 4 := by
  norm_num [Matrix1D.sum, forLoop, VEC_ELEM, positiveRow]

theorem negativeRow_sum : negativeRow.sum = -1 := by
  norm_num [Matrix1D.sum, forLoop, VEC_ELEM, negativeRow]

theorem tinyRow_sum : tinyRow.sum = 1 / 100000 := by
  norm_num [Matrix1D.sum, forLoop, VEC_ELEM, tinyRow]

/-- Instance of C6 as the code has it: the row `(3, 1)`, of sum `4`. -/
theorem normaliseRow_rescales_witness :
    positiveRow.sum > 0.0001 ∧
    (normaliseRow positiveRow).1.vdim = positiveRow.vdim ∧
    (∀ i, i < positiveRow.vdim →
      VEC_ELEM (normaliseRow positiveRow).1 i = VEC_ELEM positiveRow i / positiveRow.sum) ∧
    (normaliseRow positiveRow).1.sum = 1 :=
  ⟨by rw [positiveRow_sum]; norm_num,
    (normaliseRow_rescales positiveRow).1 (by rw [positiveRow_sum]; norm_num)⟩

/-- C6 as stated fails: the row `(-1, 0)` has a sum `s = -1` with `|s| > 0.0001`, yet it is
handed on unchanged, and its entries sum to `-1`, not to `1`. -/
theorem normaliseRow_negative_sum :
    |negativeRow.sum| > 0.0001 ∧ normaliseRow negativeRow = (negativeRow, []) ∧
    (normaliseRow negativeRow).1.sum = -1 ∧ (normaliseRow negativeRow).1.sum ≠ 1 ∧
    ¬ |negativeRow.sum| ≤ 0.0001 := by
  have hnot : ¬ negativeRow.sum > 0.0001 := by rw [negativeRow_sum]; norm_num
  have hrow : normaliseRow negativeRow = (negativeRow, []) :=
    normaliseRow_of_not_gt negativeRow hnot
  refine ⟨?_, hrow, ?_, ?_, ?_⟩
  · rw [negativeRow_sum]; norm_num
  · rw [hrow]; exact negativeRow_sum
  · rw [hrow, negativeRow_sum]; norm_num
  · rw [negativeRow_sum]; norm_num

/-- C7: a weight row whose sum `s` has `|s| ≤ 0.0001` is left unchanged by the normalisation
step, and every divisor used by the step has a magnitude above `0.0001`. -/
theorem normaliseRow_skips_small_sum {α : Type} [LinearOrderedField α] (vector : Matrix1D α) :
    (|vector.sum| ≤ 0.0001 → normaliseRow vector = (vector, [])) ∧
    ∀ x, x ∈ (normaliseRow vector).2 → 0.0001 < |x| := by
  refine ⟨fun h => normaliseRow_of_not_gt vector ?_, fun x hx => ?_⟩
  · exact not_lt.mpr (le_trans (le_abs_self _) h)
  · by_cases h : vector.sum > 0.0001
    · rw [(normaliseRow_of_gt vector h).2.2] at hx
      rw [List.eq_of_mem_replicate hx]
      exact lt_of_lt_of_le h (le_abs_self _)
    · rw [normaliseRow_of_not_gt vector h] at hx
      exact absurd hx (List.not_mem_nil x)

theorem positiveRow_divisors : positiveRow.sum ∈ (normaliseRow positiveRow).2 := by
  rw [(normaliseRow_of_gt positiveRow (by rw [positiveRow_sum]; norm_num)).2.2]
  exact List.mem_replicate.mpr ⟨by decide, rfl⟩

/-- Instances of C7: the row `(0.00001, 0)` is left unchanged; the row `(3, 1)` is divided
by its sum, which exceeds `0.0001`. -/
theorem normaliseRow_skips_small_sum_witness :
    (|tinyRow.sum| ≤ 0.0001 ∧ normaliseRow tinyRow = (tinyRow, [])) ∧
    (positiveRow.sum ∈ (normaliseRow positiveRow).2 ∧ 0.0001 < |positiveRow.sum|) :=
  ⟨⟨by rw [tinyRow_sum]; norm_num [abs_of_pos],
      (normaliseRow_skips_small_sum tinyRow).1 (by rw [tinyRow_sum]; norm_num [abs_of_pos])⟩,
    ⟨positiveRow_divisors,
      (normaliseRow_skips_small_sum positiveRow).2 _ positiveRow_divisors⟩⟩

/-! ## The loop over the points -/

section PointLoopClaims

variable {α : Type} [LinearOrderedField α]

/-- C8: in a run in which the dimension is never lowered and the `k` neighbour indices of
every point are distinct and smaller than `N`, after the loop over the points the row
`i*dp + r` of the weight matrix holds, in the column of the `c`-th neighbour of the point
`i`, the entry `c` of the `r`-th normalised row of the matrix `Pii` of the point `i`, and
zero in every column that is not a neighbour of the point `i`. -/
theorem weightMatrix_scatter (sqrt : α → α) (neighboursMatrix : Matrix2D Nat)
    (kNeighbours : Nat) (svdVpr : Nat → Matrix2D α) (N d : Nat)
    (hd : ∀ i, i < N → ¬ MAT_XSIZE (svdVpr i) < d)
    (hlt : ∀ i, i < N → ∀ c, c < kNeighbours → MAT_ELEM neighboursMatrix i c < N)
    (hinj : ∀ i, i < N → ∀ c, c < kNeighbours → ∀ c2, c2 < kNeighbours →
      MAT_ELEM neighboursMatrix i c = MAT_ELEM neighboursMatrix i c2 → c = c2)
    (i r : Nat) (hi : i < N) (hr : r < d * (d + 1) / 2) :
    (∀ c, c < kNeighbours →
      MAT_ELEM (pointLoop sqrt neighboursMatrix kNeighbours svdVpr N d N).weightMatrix
        (i * (d * (d + 1) / 2) + r) (MAT_ELEM neighboursMatrix i c)
        = VEC_ELEM (normaliseRow
            ((pointLoop sqrt neighboursMatrix kNeighbours svdVpr N d (i + 1)).Pii.getRow r)).1
            c) ∧
    (∀ col, col < N → (∀ c, c < kNeighbours → MAT_ELEM neighboursMatrix i c ≠ col) →
      MAT_ELEM (pointLoop sqrt neighboursMatrix kNeighbours svdVpr N d N).weightMatrix
        (i * (d * (d + 1) / 2) + r) col = 0) := by
  obtain ⟨-, -, -, -, h5, h6⟩ := pointLoop_weights sqrt neighboursMatrix kNeighbours svdVpr
    N d hd (fun i c hi hc => hlt i hi c hc)
    (fun i c c2 hi hc hc2 => hinj i hi c hc c2 hc2) N (le_refl N)
  exact ⟨fun c hc => h5 i r c hi hr hc, fun col hcol hn => h6 i r col hr hcol (Or.inr hn)⟩

/-- Instance of C8: four points with three neighbours each (all the other points),
`d = 1`, factors `Vpr` with three columns; the row of the point `2`. -/
theorem weightMatrix_scatter_witness :
    ((∀ i, i < 4 → ¬ MAT_XSIZE (exampleVpr i) < 1) ∧
      (∀ i, i < 4 → ∀ c, c < 3 → MAT_ELEM exampleNeighbours i c < 4) ∧
      (∀ i, i < 4 → ∀ c, c < 3 → ∀ c2, c2 < 3 →
        MAT_ELEM exampleNeighbours i c = MAT_ELEM exampleNeighbours i c2 → c = c2) ∧
      2 < 4 ∧ 0 < 1 * (1 + 1) / 2) ∧
    MAT_ELEM (pointLoop (fun x => x) exampleNeighbours 3 exampleVpr 4 1 4).weightMatrix
      (2 * (1 * (1 + 1) / 2) + 0) (MAT_ELEM exampleNeighbours 2 1)
      = VEC_ELEM (normaliseRow
          ((pointLoop (fun x => x) exampleNeighbours 3 exampleVpr 4 1 (2 + 1)).Pii.getRow 0)).1
          1 ∧
    MAT_ELEM (pointLoop (fun x => x) exampleNeighbours 3 exampleVpr 4 1 4).weightMatrix
      (2 * (1 * (1 + 1) / 2) + 0) 2 = 0 :=
  have h1 : ∀ i, i < 4 → ¬ MAT_XSIZE (exampleVpr i) < 1 := fun _ _ => (by decide : ¬ 3 < 1)
  have h2 : ∀ i, i < 4 → ∀ c, c < 3 → MAT_ELEM exampleNeighbours i c < 4 := by decide
  have h3 : ∀ i, i < 4 → ∀ c, c < 3 → ∀ c2, c2 < 3 →
      MAT_ELEM exampleNeighbours i c = MAT_ELEM exampleNeighbours i c2 → c = c2 := by decide
  ⟨⟨h1, h2, h3, by decide, by decide⟩,
    (weightMatrix_scatter (fun x => x) exampleNeighbours 3 exampleVpr 4 1 h1 h2 h3 2 0
      (by decide) (by decide)).1 1 (by decide),
    (weightMatrix_scatter (fun x => x) exampleNeighbours 3 exampleVpr 4 1 h1 h2 h3 2 0
      (by decide) (by decide)).2 2 (by decide) (by decide)⟩

/-- C10: after the points `0, ..., t` the dimension is the minimum of the requested
dimension `d` and of the numbers of columns `c_0, ..., c_t` of the factors `Vpr`, and
`dp = d_t(d_t+1)/2`; the dimension never grows, and it changes at the point `t` only when
`c_t` is smaller than the dimension reached before that point. -/
theorem outputDim_is_running_min (sqrt : α → α) (neighboursMatrix : Matrix2D Nat)
    (kNeighbours : Nat) (svdVpr : Nat → Matrix2D α) (N d t : Nat) :
    (pointLoop sqrt neighboursMatrix kNeighbours svdVpr N d (t + 1)).outputDim
      = (List.range (t + 1)).foldl (fun a i => min a (MAT_XSIZE (svdVpr i))) d ∧
    (pointLoop sqrt neighboursMatrix kNeighbours svdVpr N d (t + 1)).dp
      = (pointLoop sqrt neighboursMatrix kNeighbours svdVpr N d (t + 1)).outputDim
          * ((pointLoop sqrt neighboursMatrix kNeighbours svdVpr N d (t + 1)).outputDim + 1)
          / 2 ∧
    (pointLoop sqrt neighboursMatrix kNeighbours svdVpr N d (t + 1)).outputDim
      ≤ (pointLoop sqrt neighboursMatrix kNeighbours svdVpr N d t).outputDim ∧
    ((pointLoop sqrt neighboursMatrix kNeighbours svdVpr N d (t + 1)).outputDim
        = (pointLoop sqrt neighboursMatrix kNeighbours svdVpr N d t).outputDim ∨
      MAT_XSIZE (svdVpr t)
        < (pointLoop sqrt neighboursMatrix kNeighbours svdVpr N d t).outputDim) := by
  obtain ⟨h1, h2⟩ := pointLoop_dims sqrt neighboursMatrix kNeighbours svdVpr N d (t + 1)
  refine ⟨h1, h2, ?_, ?_⟩
  · rw [pointLoop_succ, processPoint_outputDim, adaptRank_outputDim]
    exact Nat.min_le_left _ _
  · rw [pointLoop_succ, processPoint_outputDim, adaptRank_outputDim]
    by_cases h : MAT_XSIZE (svdVpr t)
        < (pointLoop sqrt neighboursMatrix kNeighbours svdVpr N d t).outputDim
    · exact Or.inr h
    · exact Or.inl (Nat.min_eq_left (Nat.le_of_not_lt h))

end PointLoopClaims

/-! ## The orthogonalisation -/

/-- C4: for a real matrix with linearly independent columns, after
`modifiedGramSchmidtOrtogonalization` (exact arithmetic) the columns are pairwise
orthogonal, each has Euclidean norm `1`, and for every `j` the first `j` columns span what
the first `j` columns of the input span. -/
theorem modifiedGramSchmidt_orthonormal (matrix : Matrix2D ℝ)
    (h : ColumnsIndependent matrix) :
    MAT_XSIZE (modifiedGramSchmidtOrtogonalization Real.sqrt matrix) = MAT_XSIZE matrix ∧
    MAT_YSIZE (modifiedGramSchmidtOrtogonalization Real.sqrt matrix) = MAT_YSIZE matrix ∧
    (∀ a b, a < MAT_XSIZE matrix → b < MAT_XSIZE matrix → a ≠ b →
      dotProduct ((modifiedGramSchmidtOrtogonalization Real.sqrt matrix).getCol a)
        ((modifiedGramSchmidtOrtogonalization Real.sqrt matrix).getCol b) = 0) ∧
    (∀ a, a < MAT_XSIZE matrix →
      ((modifiedGramSchmidtOrtogonalization Real.sqrt matrix).getCol a).module Real.sqrt
        = 1) ∧
    (∀ j, j ≤ MAT_XSIZE matrix →
      Submodule.span ℝ (Set.image
        (columnVec (MAT_YSIZE matrix) (modifiedGramSchmidtOrtogonalization Real.sqrt matrix))
        {a | a < j})
      = Submodule.span ℝ (Set.image (columnVec (MAT_YSIZE matrix) matrix) {a | a < j})) := by
  obtain ⟨hx, hy, h1, h2, h3⟩ :=
    modifiedGramSchmidt_inv matrix (MAT_XSIZE matrix) (MAT_YSIZE matrix) rfl rfl h
  refine ⟨hx, hy, fun a b ha hb hab => ?_, fun a ha => ?_, h3⟩
  · rw [dotProduct_getCol (MAT_YSIZE matrix) _ _ hy]
    exact h2 a b ha hb hab
  · rw [module_getCol Real.sqrt (MAT_YSIZE matrix) _ hy, h1 a ha]
    exact Real.sqrt_one

theorem exampleMatrix_independent : ColumnsIndependent exampleMatrix := by
  show LinearIndependent ℝ (fun j : Fin 2 => columnVec 2 exampleMatrix j.val)
  rw [Fintype.linearIndependent_iff]
  intro g hg
  have h0 := congrFun hg 0
  have h1 := congrFun hg 1
  simp [Fin.sum_univ_two, columnVec, MAT_ELEM, exampleMatrix] at h0 h1
  intro i
  fin_cases i
  · show g 0 = 0
    linarith
  · show g 1 = 0
    linarith

/-- Instance of C4: the matrix `[[3, 1], [4, 1]]`. -/
theorem modifiedGramSchmidt_orthonormal_witness :
    ColumnsIndependent exampleMatrix ∧
    dotProduct ((modifiedGramSchmidtOrtogonalization Real.sqrt exampleMatrix).getCol 0)
      ((modifiedGramSchmidtOrtogonalization Real.sqrt exampleMatrix).getCol 1) = 0 ∧
    ((modifiedGramSchmidtOrtogonalization Real.sqrt exampleMatrix).getCol 1).module Real.sqrt
      = 1 ∧
    Submodule.span ℝ (Set.image
      (columnVec (MAT_YSIZE exampleMatrix)
        (modifiedGramSchmidtOrtogonalization Real.sqrt exampleMatrix)) {a | a < 2})
    = Submodule.span ℝ (Set.image (columnVec (MAT_YSIZE exampleMatrix) exampleMatrix)
        {a | a < 2}) :=
  ⟨exampleMatrix_independent,
    (modifiedGramSchmidt_orthonormal exampleMatrix exampleMatrix_independent).2.2.1 0 1
      (by decide) (by decide) (by decide),
    (modifiedGramSchmidt_orthonormal exampleMatrix exampleMatrix_independent).2.2.2.1 1
      (by decide),
    (modifiedGramSchmidt_orthonormal exampleMatrix exampleMatrix_independent).2.2.2.2 2
      (by decide)⟩

theorem dot_eq_zero_of_mem_span {m : Nat} (w : Fin m → ℝ) (S : Set (Fin m → ℝ))
    (h : ∀ x, x ∈ S → Matrix.dotProduct x w = 0) (y : Fin m → ℝ)
    (hy : y ∈ Submodule.span ℝ S) : Matrix.dotProduct y w = 0 := by
  refine Submodule.span_induction (p := fun y _ => Matrix.dotProduct y w = 0)
    (fun x hx => h x hx) (Matrix.zero_dotProduct w) (fun x y _ _ hx hy => ?_)
    (fun a x _ hx => ?_) hy
  · show Matrix.dotProduct (x + y) w = 0
    have hx2 : Matrix.dotProduct x w = 0 := hx
    have hy2 : Matrix.dotProduct y w = 0 := hy
    rw [Matrix.add_dotProduct, hx2, hy2, add_zero]
  · show Matrix.dotProduct (a • x) w = 0
    have hx2 : Matrix.dotProduct x w = 0 := hx
    rw [Matrix.smul_dotProduct, hx2, smul_zero]

theorem columnsIndependent_of_dims (M : Matrix2D ℝ) (m n : Nat) (hm : MAT_YSIZE M = m)
    (hn : MAT_XSIZE M = n)
    (h : LinearIndependent ℝ (fun j : Fin n => columnVec m M j.val)) :
    ColumnsIndependent M := by
  subst hm hn
  exact h

/-- C5: when the columns of `Yt = [1 | V | Yi]` are linearly independent, every column of
index `≥ d+1` of the orthonormalised `Yt` is orthogonal to the vector of ones (its entries
sum to zero) and to every column of `V`. -/
theorem trailing_columns_annihilate_affine (V Yi Yt : Matrix2D ℝ) (d : Nat)
    (hV : MAT_XSIZE V = d)
    (hli : ColumnsIndependent
      (completeYt V (buildYiHessianEstimator V Yi d (d * (d + 1) / 2)) Yt))
    (c : Nat) (hc1 : d + 1 ≤ c) (hc2 : c < 1 + d + d * (d + 1) / 2) :
    ((modifiedGramSchmidtOrtogonalization Real.sqrt
      (completeYt V (buildYiHessianEstimator V Yi d (d * (d + 1) / 2)) Yt)).getCol c).sum = 0 ∧
    ∀ x, x < d →
      dotProduct ((modifiedGramSchmidtOrtogonalization Real.sqrt
        (completeYt V (buildYiHessianEstimator V Yi d (d * (d + 1) / 2)) Yt)).getCol c)
        (V.getCol x) = 0 := by
  have hdp : d * (d + 1) / 2 = ctAt d d := (ctAt_self d).symm
  rw [hdp] at hli hc2 ⊢
  obtain ⟨yx, yy, -⟩ := buildYiHessianEstimator_spec V Yi d
  have hX : 1 + V.mdimx + (buildYiHessianEstimator V Yi d (ctAt d d)).mdimx
      = 1 + d + ctAt d d := by
    have : V.mdimx = d := hV
    rw [yx, this]
  obtain ⟨tx, ty, tR⟩ := completeYt_rows V (buildYiHessianEstimator V Yi d (ctAt d d))
    (Yt.resizeNoCopy (MAT_YSIZE (buildYiHessianEstimator V Yi d (ctAt d d)))
      (1 + MAT_XSIZE V + MAT_XSIZE (buildYiHessianEstimator V Yi d (ctAt d d))))
    (1 + V.mdimx + (buildYiHessianEstimator V Yi d (ctAt d d)).mdimx)
    (MAT_YSIZE (buildYiHessianEstimator V Yi d (ctAt d d))) rfl rfl
  have tx2 : (completeYt V (buildYiHessianEstimator V Yi d (ctAt d d)) Yt).mdimx
      = 1 + d + ctAt d d := tx.trans hX
  have ty2 : (completeYt V (buildYiHessianEstimator V Yi d (ctAt d d)) Yt).mdimy
      = V.mdimy := ty.trans yy
  obtain ⟨qx, qy, -, q2, q3⟩ := modifiedGramSchmidt_inv
    (completeYt V (buildYiHessianEstimator V Yi d (ctAt d d)) Yt)
    (1 + d + ctAt d d) V.mdimy tx2 ty2
    (by
      have := hli
      unfold ColumnsIndependent at this
      rw [show MAT_XSIZE (completeYt V (buildYiHessianEstimator V Yi d (ctAt d d)) Yt)
        = 1 + d + ctAt d d from tx2,
        show MAT_YSIZE (completeYt V (buildYiHessianEstimator V Yi d (ctAt d d)) Yt)
        = V.mdimy from ty2] at this
      exact this)
  have horth : ∀ y, y ∈ Submodule.span ℝ (Set.image
      (columnVec V.mdimy (completeYt V (buildYiHessianEstimator V Yi d (ctAt d d)) Yt))
      {a | a < d + 1}) →
      Matrix.dotProduct y (columnVec V.mdimy (modifiedGramSchmidtOrtogonalization Real.sqrt
        (completeYt V (buildYiHessianEstimator V Yi d (ctAt d d)) Yt)) c) = 0 := by
    intro y hy
    rw [← q3 (d + 1) (by omega)] at hy
    refine dot_eq_zero_of_mem_span _ _ ?_ y hy
    rintro x ⟨a, ha, rfl⟩
    have ha2 : a < d + 1 := ha
    exact q2 a c (by omega) hc2 (by omega)
  have hrow : MAT_YSIZE (buildYiHessianEstimator V Yi d (ctAt d d)) = V.mdimy := yy
  constructor
  · rw [sum_getCol V.mdimy _ qy]
    have hones : columnVec V.mdimy
        (completeYt V (buildYiHessianEstimator V Yi d (ctAt d d)) Yt) 0 = fun _ => 1 := by
      funext e
      exact (tR e.val (by rw [hrow]; exact e.isLt)).1
    have := horth _ (Submodule.subset_span ⟨0, show 0 < d + 1 by omega, rfl⟩)
    rw [hones] at this
    simpa [Matrix.dotProduct] using this
  · intro x hx
    rw [dotProduct_getCol V.mdimy _ _ qy, Matrix.dotProduct_comm]
    have hcol : columnVec V.mdimy
        (completeYt V (buildYiHessianEstimator V Yi d (ctAt d d)) Yt) (1 + x)
        = columnVec V.mdimy V x := by
      funext e
      exact (tR e.val (by rw [hrow]; exact e.isLt)).2.1 x (by rw [show V.mdimx = d from hV]; exact hx)
    have := horth _ (Submodule.subset_span ⟨1 + x, show 1 + x < d + 1 by omega, rfl⟩)
    rw [hcol] at this
    exact this

theorem exampleTangent_independent :
    ColumnsIndependent (completeYt exampleTangent
      (buildYiHessianEstimator exampleTangent exampleMatrix 1 (1 * (1 + 1) / 2))
      exampleMatrix) := by
  refine columnsIndependent_of_dims _ 3 3 rfl rfl ?_
  rw [Fintype.linearIndependent_iff]
  intro g hg
  have h0 := congrFun hg 0
  have h1 := congrFun hg 1
  have h2 := congrFun hg 2
  simp [Fin.sum_univ_three, columnVec, MAT_ELEM, completeYt, buildYiHessianEstimator,
    buildYiLoops, writeYiColumn, forLoop, memcpyElems, memcpy, setMAT_ELEM, exampleTangent,
    MAT_XSIZE, MAT_YSIZE, Matrix2D.resizeNoCopy, Matrix2D.getCol, VEC_ELEM] at h0 h1 h2
  intro i
  fin_cases i
  · show g 0 = 0
    linarith
  · show g 1 = 0
    linarith
  · show g 2 = 0
    linarith

/-- Instance of C5: three neighbours with tangent coordinates `-1, 0, 1` (`d = 1`,
`dp = 1`), so that `Yt = [[1, -1, 1], [1, 0, 0], [1, 1, 1]]`; the column `2`. -/
theorem trailing_columns_annihilate_affine_witness :
    (MAT_XSIZE exampleTangent = 1 ∧
      ColumnsIndependent (completeYt exampleTangent
        (buildYiHessianEstimator exampleTangent exampleMatrix 1 (1 * (1 + 1) / 2))
        exampleMatrix) ∧
      1 + 1 ≤ 2 ∧ 2 < 1 + 1 + 1 * (1 + 1) / 2) ∧
    ((modifiedGramSchmidtOrtogonalization Real.sqrt (completeYt exampleTangent
        (buildYiHessianEstimator exampleTangent exampleMatrix 1 (1 * (1 + 1) / 2))
        exampleMatrix)).getCol 2).sum = 0 ∧
    dotProduct ((modifiedGramSchmidtOrtogonalization Real.sqrt (completeYt exampleTangent
        (buildYiHessianEstimator exampleTangent exampleMatrix 1 (1 * (1 + 1) / 2))
        exampleMatrix)).getCol 2) (exampleTangent.getCol 0) = 0 :=
  ⟨⟨rfl, exampleTangent_independent, by decide, by decide⟩,
    (trailing_columns_annihilate_affine exampleTangent exampleMatrix exampleMatrix 1 rfl
      exampleTangent_independent 2 (by decide) (by decide)).1,
    (trailing_columns_annihilate_affine exampleTangent exampleMatrix exampleMatrix 1 rfl
      exampleTangent_independent 2 (by decide) (by decide)).2 0 (by decide)⟩

/-! ## The loop over the points: notices and the copy of the tangent basis -/

theorem adaptRank_cout {α : Type} (Vpr : Matrix2D α) (s : LoopState α) :
    (adaptRank Vpr s).cout
      = s.cout ++ (if MAT_XSIZE Vpr < s.outputDim then [MAT_XSIZE Vpr] else []) := by
  unfold adaptRank
  by_cases h : MAT_XSIZE Vpr < s.outputDim
  · rw [if_pos h, if_pos h]
  · rw [if_neg h, if_neg h, List.append_nil]

section Notices

variable {α : Type} [LinearOrderedField α]

theorem processPoint_cout (sqrt : α → α) (nbm : Matrix2D Nat) (k : Nat)
    (Vpr : Matrix2D α) (index : Nat) (s : LoopState α) :
    (processPoint sqrt nbm k Vpr index s).cout = (adaptRank Vpr s).cout := rfl

theorem pointLoop_cout_succ (sqrt : α → α) (nbm : Matrix2D Nat) (k : Nat)
    (svdVpr : Nat → Matrix2D α) (N d t : Nat) :
    (pointLoop sqrt nbm k svdVpr N d (t + 1)).cout
      = (pointLoop sqrt nbm k svdVpr N d t).cout
        ++ (if MAT_XSIZE (svdVpr t) < (pointLoop sqrt nbm k svdVpr N d t).outputDim
            then [MAT_XSIZE (svdVpr t)] else []) := by
  rw [pointLoop_succ, processPoint_cout, adaptRank_cout]

theorem pointLoop_outputDim_succ (sqrt : α → α) (nbm : Matrix2D Nat) (k : Nat)
    (svdVpr : Nat → Matrix2D α) (N d t : Nat) :
    (pointLoop sqrt nbm k svdVpr N d (t + 1)).outputDim
      = min (pointLoop sqrt nbm k svdVpr N d t).outputDim (MAT_XSIZE (svdVpr t)) := by
  rw [pointLoop_succ, processPoint_outputDim, adaptRank_outputDim]

/-- The notices written so far: they announce strictly decreasing dimensions, the last one
is the current dimension, and there is none exactly when the dimension is the requested
one. -/
theorem pointLoop_cout_inv (sqrt : α → α) (nbm : Matrix2D Nat) (k : Nat)
    (svdVpr : Nat → Matrix2D α) (N d t : Nat) :
    (pointLoop sqrt nbm k svdVpr N d t).outputDim ≤ d ∧
    List.Pairwise (fun a b => b < a) (pointLoop sqrt nbm k svdVpr N d t).cout ∧
    (∀ x, x ∈ (pointLoop sqrt nbm k svdVpr N d t).cout →
      (pointLoop sqrt nbm k svdVpr N d t).outputDim ≤ x) ∧
    ((pointLoop sqrt nbm k svdVpr N d t).cout = [] ↔
      (pointLoop sqrt nbm k svdVpr N d t).outputDim = d) := by
  induction t with
  | zero =>
    exact ⟨le_refl d, List.Pairwise.nil, fun x hx => absurd hx (List.not_mem_nil x),
      ⟨fun _ => rfl, fun _ => rfl⟩⟩
  | succ n ih =>
    obtain ⟨h1, h2, h3, h4⟩ := ih
    rw [pointLoop_cout_succ, pointLoop_outputDim_succ]
    by_cases hlt : MAT_XSIZE (svdVpr n) < (pointLoop sqrt nbm k svdVpr N d n).outputDim
    · rw [if_pos hlt, Nat.min_eq_right (Nat.le_of_lt hlt)]
      refine ⟨by omega, ?_, ?_, ?_⟩
      · rw [List.pairwise_append]
        refine ⟨h2, List.pairwise_singleton _ _, fun a ha b hb => ?_⟩
        rw [List.mem_singleton] at hb
        have := h3 a ha
        omega
      · intro x hx
        rw [List.mem_append, List.mem_singleton] at hx
        rcases hx with hx | hx
        · have := h3 x hx
          omega
        · omega
      · constructor
        · intro h
          exact absurd h (by simp)
        · intro h
          omega
    · rw [if_neg hlt, List.append_nil, Nat.min_eq_left (Nat.le_of_not_lt hlt)]
      exact ⟨h1, h2, h3, h4⟩

/-- When every factor `Vpr` has the same number `c` of columns, the dimension after at
least one point is `min d c`, and the notices are `[c]` if `c < d` and none otherwise. -/
theorem pointLoop_constant_columns (sqrt : α → α) (nbm : Matrix2D Nat) (k : Nat)
    (svdVpr : Nat → Matrix2D α) (N d c t : Nat)
    (hc : ∀ i, i < t + 1 → MAT_XSIZE (svdVpr i) = c) :
    (pointLoop sqrt nbm k svdVpr N d (t + 1)).outputDim = min d c ∧
    (pointLoop sqrt nbm k svdVpr N d (t + 1)).cout = (if c < d then [c] else []) := by
  induction t with
  | zero =>
    rw [pointLoop_cout_succ, pointLoop_outputDim_succ, hc 0 (by omega)]
    exact ⟨rfl, rfl⟩
  | succ n ih =>
    obtain ⟨h1, h2⟩ := ih (fun i hi => hc i (by omega))
    rw [pointLoop_cout_succ, pointLoop_outputDim_succ, hc (n + 1) (by omega), h1, h2]
    have hle : min d c ≤ c := Nat.min_le_right d c
    refine ⟨Nat.min_eq_left hle, ?_⟩
    rw [if_neg (Nat.not_lt.mpr hle), List.append_nil]

end Notices

/-- Content of the rows `0, ..., t-1` of `V` in the copy of lines 88-90. -/
theorem copyFirstColumns_rows {α : Type} (Vpr V0 : Matrix2D α) (d t : Nat)
    (h0 : V0.mdimx = d) :
    (forLoop t (fun y V1 => memcpyElems V1 y 0 Vpr y 0 d) V0).mdimx = d ∧
    (forLoop t (fun y V1 => memcpyElems V1 y 0 Vpr y 0 d) V0).mdimy = V0.mdimy ∧
    ∀ y x, y < t → x < d →
      MAT_ELEM (forLoop t (fun y V1 => memcpyElems V1 y 0 Vpr y 0 d) V0) y x
        = MAT_ELEM Vpr y x := by
  refine forLoop_invariant
    (fun t (R : Matrix2D α) => R.mdimx = d ∧ R.mdimy = V0.mdimy ∧
      ∀ y x, y < t → x < d → MAT_ELEM R y x = MAT_ELEM Vpr y x)
    t _ V0 ⟨h0, rfl, fun y x hy => by omega⟩ ?_
  rintro i - R ⟨hx, hy, hR⟩
  refine ⟨hx, hy, fun y x hyi hxd => ?_⟩
  simp only [MAT_ELEM, memcpyElems, memcpy, hx]
  rcases Nat.lt_succ_iff_lt_or_eq.mp hyi with h | h
  · have b : y * d + x < i * d := row_offset_lt h hxd
    rw [if_neg (by omega)]
    have := hR y x h hxd
    simp only [MAT_ELEM, hx] at this
    exact this
  · subst h
    rw [if_pos (by omega)]
    congr 1
    omega

theorem copyFirstColumns_spec {α : Type} (Vpr V : Matrix2D α) (d : Nat) :
    (copyFirstColumns Vpr V d).mdimx = d ∧
    (copyFirstColumns Vpr V d).mdimy = Vpr.mdimy ∧
    ∀ y x, y < Vpr.mdimy → x < d →
      MAT_ELEM (copyFirstColumns Vpr V d) y x = MAT_ELEM Vpr y x :=
  copyFirstColumns_rows Vpr (V.resizeNoCopy (MAT_YSIZE Vpr) d) d (MAT_YSIZE Vpr) rfl

theorem processPoint_V {α : Type} [LinearOrderedField α] (sqrt : α → α) (nbm : Matrix2D Nat)
    (k : Nat) (Vpr : Matrix2D α) (index : Nat) (s : LoopState α) :
    (processPoint sqrt nbm k Vpr index s).V
      = copyFirstColumns Vpr (adaptRank Vpr s).V
          (processPoint sqrt nbm k Vpr index s).outputDim := rfl

/-- A loop that only assigns cells keeps the shape of the matrix. -/
theorem assignLoop_dims {α : Type} (u : Nat) (f : Nat → Matrix2D α → Matrix2D α) (M : Matrix2D α)
    (hf : ∀ k M2, (f k M2).mdimx = M2.mdimx ∧ (f k M2).mdimy = M2.mdimy) :
    (forLoop u f M).mdimx = M.mdimx ∧ (forLoop u f M).mdimy = M.mdimy := by
  induction u with
  | zero => exact ⟨rfl, rfl⟩
  | succ k ih =>
    rw [forLoop_succ]
    exact ⟨(hf k _).1.trans ih.1, (hf k _).2.trans ih.2⟩

section LoggedLemmas

variable {α : Type} [Field α]

theorem divideColumnLogged_eq (m i : Nat) (cm : α) (M : Matrix2D α) (log : List α) :
    divideColumnLogged m i cm (M, log)
      = (divideColumn m i cm M, log ++ List.replicate m cm) := by
  unfold divideColumnLogged divideColumn
  induction m with
  | zero => simp [forLoop]
  | succ k ih =>
    rw [forLoop_succ, forLoop_succ, ih]
    simp [List.replicate_succ', List.append_assoc]

theorem gramSchmidtColumnLogged_eq (sqrt : α → α) (n m i : Nat) (M : Matrix2D α)
    (log : List α) :
    gramSchmidtColumnLogged sqrt n m i (M, log)
      = (gramSchmidtColumn sqrt n m i M,
          log ++ List.replicate m ((M.getCol i).module sqrt)) := by
  unfold gramSchmidtColumnLogged gramSchmidtColumn
  simp only [divideColumnLogged_eq]
  by_cases h : i < n - 1
  · simp only [if_pos h]
  · simp only [if_neg h]

theorem modifiedGramSchmidtLogged_upTo (sqrt : α → α) (matrix : Matrix2D α) (t : Nat) :
    forLoop t (fun i st =>
      gramSchmidtColumnLogged sqrt (MAT_XSIZE matrix) (MAT_YSIZE matrix) i st) (matrix, [])
    = (gramSchmidtPrefix sqrt matrix t, divisorsUpTo sqrt matrix t) := by
  induction t with
  | zero => rfl
  | succ k ih =>
    rw [forLoop_succ, ih, gramSchmidtColumnLogged_eq]
    rfl

theorem modifiedGramSchmidtLogged_eq (sqrt : α → α) (matrix : Matrix2D α) :
    modifiedGramSchmidtLogged sqrt matrix
      = (modifiedGramSchmidtOrtogonalization sqrt matrix,
          divisorsUpTo sqrt matrix (MAT_XSIZE matrix)) :=
  modifiedGramSchmidtLogged_upTo sqrt matrix (MAT_XSIZE matrix)

theorem mem_divisorsUpTo (sqrt : α → α) (matrix : Matrix2D α) (t i : Nat) (hi : i < t)
    (hm : 0 < MAT_YSIZE matrix) :
    columnModuleAt sqrt matrix i ∈ divisorsUpTo sqrt matrix t := by
  induction t with
  | zero => omega
  | succ k ih =>
    simp only [divisorsUpTo, List.mem_append]
    rcases Nat.lt_succ_iff_lt_or_eq.mp hi with h | h
    · exact Or.inl (ih h)
    · subst h
      exact Or.inr (List.mem_replicate.mpr ⟨by omega, rfl⟩)

theorem gramSchmidtColumn_dims (sqrt : α → α) (n m i : Nat) (M : Matrix2D α) :
    (gramSchmidtColumn sqrt n m i M).mdimx = M.mdimx ∧
    (gramSchmidtColumn sqrt n m i M).mdimy = M.mdimy := by
  rw [gramSchmidtColumn_eq]
  have h1 := assignLoop_dims m
    (fun k M2 => setMAT_ELEM M2 k i (MAT_ELEM M2 k i / (M.getCol i).module sqrt)) M
    (fun _ _ => ⟨rfl, rfl⟩)
  have h2 := assignLoop_dims (n - (i + 1))
    (fun t M2 => subtractProjection m i (i + 1 + t) M2)
    (divideColumn m i ((M.getCol i).module sqrt) M)
    (fun t M2 => assignLoop_dims m
      (fun k M3 => setMAT_ELEM M3 k (i + 1 + t)
        (MAT_ELEM M3 k (i + 1 + t)
          - dotProduct (M2.getCol i) (M2.getCol (i + 1 + t)) * MAT_ELEM M3 k i)) M2
      (fun _ _ => ⟨rfl, rfl⟩))
  exact ⟨h2.1.trans h1.1, h2.2.trans h1.2⟩

theorem modifiedGramSchmidt_dims (sqrt : α → α) (matrix : Matrix2D α) :
    (modifiedGramSchmidtOrtogonalization sqrt matrix).mdimx = matrix.mdimx ∧
    (modifiedGramSchmidtOrtogonalization sqrt matrix).mdimy = matrix.mdimy :=
  assignLoop_dims (MAT_XSIZE matrix)
    (fun i M => gramSchmidtColumn sqrt (MAT_XSIZE matrix) (MAT_YSIZE matrix) i M) matrix
    (fun i M => gramSchmidtColumn_dims sqrt _ _ i M)

end LoggedLemmas

/-! ## Orthogonalisation: orthonormal input and sign changes -/

theorem forLoop_invariant2 {σ τ : Type} (P : Nat → σ → τ → Prop) (n : Nat)
    (f : Nat → σ → σ) (g : Nat → τ → τ) (s : σ) (t : τ) (h0 : P 0 s t)
    (hstep : ∀ i, i < n → ∀ a b, P i a b → P (i + 1) (f i a) (g i b)) :
    P n (forLoop n f s) (forLoop n g t) := by
  induction n with
  | zero => exact h0
  | succ k ih =>
    exact hstep k (Nat.lt_succ_self k) _ _
      (ih (fun i hi a b hab => hstep i (Nat.lt_succ_of_lt hi) a b hab))

section GramSchmidtRelations

variable {m : Nat}

/-- One iteration of the outer loop on columns that are orthonormal leaves them as they
are. -/
theorem GSStep_orthonormal (n i : Nat) (hi : i < n) (A cur cur2 : Nat → Fin m → ℝ)
    (h1 : ∀ a, a < n → Matrix.dotProduct (A a) (A a) = 1)
    (h2 : ∀ a b, a < n → b < n → a ≠ b → Matrix.dotProduct (A a) (A b) = 0)
    (hcur : ∀ c, c < n → cur c = A c) (hs : GSStep n i cur cur2) :
    ∀ c, c < n → cur2 c = A c := by
  obtain ⟨s1, s2, s3⟩ := hs
  have hi2 : cur2 i = A i := by
    rw [s1, hcur i hi, h1 i hi, Real.sqrt_one, inv_one, one_smul]
  intro c hc
  rcases Nat.lt_trichotomy c i with h | h | h
  · rw [s2 c h, hcur c hc]
  · subst h; exact hi2
  · rw [s3 c h hc, hi2, hcur c hc, h2 i c hi hc (by omega), zero_smul, sub_zero]

/-- One iteration of the outer loop commutes with a change of sign of the columns. -/
theorem GSStep_sign (n i : Nat) (hi : i < n) (sg : Nat → ℝ) (hsg : ∀ c, c < n → sg c * sg c = 1)
    (cur cur2 curB cur2B : Nat → Fin m → ℝ)
    (hrel : ∀ c, c < n → curB c = sg c • cur c)
    (hs : GSStep n i cur cur2) (hsB : GSStep n i curB cur2B) :
    ∀ c, c < n → cur2B c = sg c • cur2 c := by
  obtain ⟨s1, s2, s3⟩ := hs
  obtain ⟨t1, t2, t3⟩ := hsB
  have hdot : Matrix.dotProduct (curB i) (curB i) = Matrix.dotProduct (cur i) (cur i) := by
    rw [hrel i hi, Matrix.smul_dotProduct, Matrix.dotProduct_smul, smul_eq_mul, smul_eq_mul,
      ← mul_assoc, hsg i hi, one_mul]
  have hi2 : cur2B i = sg i • cur2 i := by
    rw [t1, hdot, hrel i hi, s1, smul_comm]
  intro c hc
  rcases Nat.lt_trichotomy c i with h | h | h
  · rw [t2 c h, s2 c h, hrel c hc]
  · subst h; exact hi2
  · rw [t3 c h hc, s3 c h hc, hi2, hrel c hc, Matrix.smul_dotProduct, Matrix.dotProduct_smul,
      smul_eq_mul, smul_eq_mul, smul_sub, smul_smul, smul_smul]
    congr 2
    have := hsg i hi
    calc sg i * (sg c * Matrix.dotProduct (cur2 i) (cur c)) * sg i
        = (sg i * sg i) * (sg c * Matrix.dotProduct (cur2 i) (cur c)) := by ring
      _ = sg c * Matrix.dotProduct (cur2 i) (cur c) := by rw [this, one_mul]

end GramSchmidtRelations

/-- On a matrix with orthonormal columns `modifiedGramSchmidtOrtogonalization` returns the
same columns. -/
theorem modifiedGramSchmidt_of_orthonormal (M : Matrix2D ℝ) (n m : Nat) (hx : M.mdimx = n)
    (hy : M.mdimy = m)
    (h1 : ∀ a, a < n → Matrix.dotProduct (columnVec m M a) (columnVec m M a) = 1)
    (h2 : ∀ a b, a < n → b < n → a ≠ b →
      Matrix.dotProduct (columnVec m M a) (columnVec m M b) = 0) :
    (modifiedGramSchmidtOrtogonalization Real.sqrt M).mdimx = n ∧
    (modifiedGramSchmidtOrtogonalization Real.sqrt M).mdimy = m ∧
    ∀ c, c < n →
      columnVec m (modifiedGramSchmidtOrtogonalization Real.sqrt M) c = columnVec m M c := by
  unfold modifiedGramSchmidtOrtogonalization
  simp only [MAT_XSIZE, MAT_YSIZE, hx, hy]
  refine forLoop_invariant
    (fun _ (Q : Matrix2D ℝ) => Q.mdimx = n ∧ Q.mdimy = m ∧
      ∀ c, c < n → columnVec m Q c = columnVec m M c)
    n _ M ⟨hx, hy, fun _ _ => rfl⟩ ?_
  rintro i hi Q ⟨qx, qy, qI⟩
  obtain ⟨sx, sy, sS⟩ := gramSchmidtColumn_step n m i Q qx qy hi
  exact ⟨sx, sy, GSStep_orthonormal n i hi _ _ _ h1 h2 qI sS⟩

/-- `modifiedGramSchmidtOrtogonalization` commutes with a change of sign of the columns. -/
theorem modifiedGramSchmidt_sign (M MB : Matrix2D ℝ) (n m : Nat) (hx : M.mdimx = n)
    (hy : M.mdimy = m) (hxB : MB.mdimx = n) (hyB : MB.mdimy = m) (sg : Nat → ℝ)
    (hsg : ∀ c, c < n → sg c * sg c = 1)
    (hrel : ∀ c, c < n → columnVec m MB c = sg c • columnVec m M c) :
    ∀ c, c < n →
      columnVec m (modifiedGramSchmidtOrtogonalization Real.sqrt MB) c
        = sg c • columnVec m (modifiedGramSchmidtOrtogonalization Real.sqrt M) c := by
  unfold modifiedGramSchmidtOrtogonalization
  simp only [MAT_XSIZE, MAT_YSIZE, hx, hy, hxB, hyB]
  have key := forLoop_invariant2
    (fun _ (Q QB : Matrix2D ℝ) => (Q.mdimx = n ∧ Q.mdimy = m) ∧ (QB.mdimx = n ∧ QB.mdimy = m) ∧
      ∀ c, c < n → columnVec m QB c = sg c • columnVec m Q c)
    n (fun i Q => gramSchmidtColumn Real.sqrt n m i Q)
    (fun i Q => gramSchmidtColumn Real.sqrt n m i Q) M MB ⟨⟨hx, hy⟩, ⟨hxB, hyB⟩, hrel⟩
    (by
      rintro i hi Q QB ⟨⟨qx, qy⟩, ⟨bx, by2⟩, hQ⟩
      obtain ⟨sx, sy, sS⟩ := gramSchmidtColumn_step n m i Q qx qy hi
      obtain ⟨tx, ty, tS⟩ := gramSchmidtColumn_step n m i QB bx by2 hi
      exact ⟨⟨sx, sy⟩, ⟨tx, ty⟩, GSStep_sign n i hi sg hsg _ _ _ _ hQ sS tS⟩)
  exact key.2.2

/-! ## The Gram matrix and the scaling of the embedding -/

/-- A loop over the columns that replaces each cell of row `i` by its image under `g`. -/
theorem rowMapLoop_spec {α : Type} (u i : Nat) (g : α → α) (P : Matrix2D α) (hu : u ≤ P.mdimx) :
    (forLoop u (fun j P2 => setMAT_ELEM P2 i j (g (MAT_ELEM P2 i j))) P).mdimx = P.mdimx ∧
    (forLoop u (fun j P2 => setMAT_ELEM P2 i j (g (MAT_ELEM P2 i j))) P).mdimy = P.mdimy ∧
    ∀ e c, c < P.mdimx →
      MAT_ELEM (forLoop u (fun j P2 => setMAT_ELEM P2 i j (g (MAT_ELEM P2 i j))) P) e c
        = if e = i ∧ c < u then g (MAT_ELEM P e c) else MAT_ELEM P e c := by
  induction u with
  | zero => exact ⟨rfl, rfl, fun e c _ => by simp [forLoop]⟩
  | succ k ih =>
    obtain ⟨hx, hy, hR⟩ := ih (by omega)
    rw [forLoop_succ]
    refine ⟨hx, hy, fun e c hc => ?_⟩
    rw [MAT_ELEM_setMAT_ELEM _ i k _ e c (by rw [hx]; omega) (by rw [hx]; exact hc), hR e c hc,
      hR i k (by omega)]
    by_cases h1 : e = i
    · by_cases h2 : c = k
      · subst h1 h2; simp
      · by_cases h3 : c < k
        · have : c < k + 1 := by omega
          simp [h1, h2, h3, this]
        · have : ¬ c < k + 1 := by omega
          simp [h1, h2, h3, this]
    · simp [h1]

/-- A loop nest that replaces each cell of the first `t` rows by its image under `g`. -/
theorem mapLoop_spec {α : Type} (t : Nat) (g : α → α) (P0 : Matrix2D α) :
    (forLoop t (fun i P => forLoop P0.mdimx
      (fun j P2 => setMAT_ELEM P2 i j (g (MAT_ELEM P2 i j))) P) P0).mdimx = P0.mdimx ∧
    (forLoop t (fun i P => forLoop P0.mdimx
      (fun j P2 => setMAT_ELEM P2 i j (g (MAT_ELEM P2 i j))) P) P0).mdimy = P0.mdimy ∧
    ∀ e c, c < P0.mdimx → MAT_ELEM (forLoop t (fun i P => forLoop P0.mdimx
      (fun j P2 => setMAT_ELEM P2 i j (g (MAT_ELEM P2 i j))) P) P0) e c
        = if e < t then g (MAT_ELEM P0 e c) else MAT_ELEM P0 e c := by
  induction t with
  | zero => exact ⟨rfl, rfl, fun e c _ => by simp [forLoop]⟩
  | succ k ih =>
    obtain ⟨hx, hy, hR⟩ := ih
    rw [forLoop_succ]
    obtain ⟨rx, ry, rR⟩ := rowMapLoop_spec P0.mdimx k g _ (le_of_eq hx.symm)
    refine ⟨rx.trans hx, ry.trans hy, fun e c hc => ?_⟩
    rw [rR e c (by rw [hx]; exact hc), hR e c hc]
    by_cases h1 : e = k
    · subst h1
      simp [hc]
    · by_cases h2 : e < k
      · have : e < k + 1 := by omega
        simp [h1, h2, this]
      · have : ¬ e < k + 1 := by omega
        simp [h1, h2, this]

section GramLemmas

variable {α : Type} [LinearOrderedField α]

theorem matrixOperation_AtA_data (A : Matrix2D α) (p : Nat) (hp : p < A.mdimx * A.mdimx) :
    (matrixOperation_AtA A).mdata p
      = ∑ r in Finset.range A.mdimy,
          MAT_ELEM A r (p / A.mdimx) * MAT_ELEM A r (p % A.mdimx) := by
  show (if p < MAT_XSIZE A * MAT_XSIZE A then
      forLoop (MAT_YSIZE A) (fun r acc =>
        acc + MAT_ELEM A r (p / MAT_XSIZE A) * MAT_ELEM A r (p % MAT_XSIZE A)) 0
    else 0) = _
  rw [if_pos (show p < MAT_XSIZE A * MAT_XSIZE A from hp)]
  exact forLoop_sum A.mdimy
    (fun r => MAT_ELEM A r (p / A.mdimx) * MAT_ELEM A r (p % A.mdimx))

theorem matrixOperation_AtA_entry (A : Matrix2D α) (a b : Nat) (ha : a < A.mdimx)
    (hb : b < A.mdimx) :
    MAT_ELEM (matrixOperation_AtA A) a b
      = ∑ r in Finset.range A.mdimy, MAT_ELEM A r a * MAT_ELEM A r b := by
  have hpos : 0 < A.mdimx := by omega
  have h1 : (a * A.mdimx + b) / A.mdimx = a := by
    rw [Nat.add_comm, Nat.add_mul_div_right _ _ hpos, Nat.div_eq_of_lt hb, Nat.zero_add]
  have h2 : (a * A.mdimx + b) % A.mdimx = b := by
    rw [Nat.add_comm, Nat.add_mul_mod_self_right, Nat.mod_eq_of_lt hb]
  have hp : a * A.mdimx + b < A.mdimx * A.mdimx := by
    have := row_offset_lt ha hb
    exact this
  have := matrixOperation_AtA_data A (a * A.mdimx + b) hp
  rw [h1, h2] at this
  exact this

theorem quadratic_form_AtA (A : Matrix2D α) (x : Nat → α) :
    ∑ a in Finset.range A.mdimx, ∑ b in Finset.range A.mdimx,
        x a * MAT_ELEM (matrixOperation_AtA A) a b * x b
      = ∑ r in Finset.range A.mdimy,
          (∑ a in Finset.range A.mdimx, MAT_ELEM A r a * x a) ^ 2 := by
  have hsq : ∀ r, (∑ a in Finset.range A.mdimx, MAT_ELEM A r a * x a) ^ 2
      = ∑ a in Finset.range A.mdimx, ∑ b in Finset.range A.mdimx,
          x a * (MAT_ELEM A r a * MAT_ELEM A r b) * x b := by
    intro r
    rw [pow_two, Finset.sum_mul_sum]
    refine Finset.sum_congr rfl (fun a _ => Finset.sum_congr rfl (fun b _ => ?_))
    ring
  have hlhs : ∀ a, a ∈ Finset.range A.mdimx →
      ∑ b in Finset.range A.mdimx, x a * MAT_ELEM (matrixOperation_AtA A) a b * x b
        = ∑ r in Finset.range A.mdimy, ∑ b in Finset.range A.mdimx,
            x a * (MAT_ELEM A r a * MAT_ELEM A r b) * x b := by
    intro a ha
    rw [Finset.sum_comm]
    refine Finset.sum_congr rfl (fun b hb => ?_)
    rw [matrixOperation_AtA_entry A a b (Finset.mem_range.mp ha) (Finset.mem_range.mp hb),
      Finset.mul_sum, Finset.sum_mul]
  rw [Finset.sum_congr rfl hlhs, Finset.sum_comm]
  exact Finset.sum_congr rfl (fun r _ => (hsq r).symm)

theorem scaleEmbedding_spec (sqrt : α → α) (sizeY : Nat) (Y : Matrix2D α) :
    (scaleEmbedding sqrt sizeY Y).mdimx = Y.mdimx ∧
    (scaleEmbedding sqrt sizeY Y).mdimy = Y.mdimy ∧
    ∀ i j, i < Y.mdimy → j < Y.mdimx →
      MAT_ELEM (scaleEmbedding sqrt sizeY Y) i j = MAT_ELEM Y i j * sqrt (sizeY : α) := by
  obtain ⟨hx, hy, hR⟩ := mapLoop_spec Y.mdimy (fun v => v * sqrt (sizeY : α)) Y
  refine ⟨hx, hy, fun i j hi hj => ?_⟩
  have := hR i j hj
  rw [if_pos hi] at this
  exact this

end GramLemmas

/-! ## The combined basis of a point and the matrix `Pii` -/

section PointBasis

variable {α : Type} [LinearOrderedField α]

theorem processPoint_Yt (sqrt : α → α) (nbm : Matrix2D Nat) (k : Nat)
    (Vpr : Matrix2D α) (index : Nat) (s : LoopState α) :
    (processPoint sqrt nbm k Vpr index s).Yt
      = modifiedGramSchmidtOrtogonalization sqrt (pointBasis Vpr (adaptRank Vpr s)) := rfl

theorem processPoint_Pii (sqrt : α → α) (nbm : Matrix2D Nat) (k : Nat)
    (Vpr : Matrix2D α) (index : Nat) (s : LoopState α) :
    (processPoint sqrt nbm k Vpr index s).Pii
      = extractPii (processPoint sqrt nbm k Vpr index s).Yt (adaptRank Vpr s).Pii
          (adaptRank Vpr s).outputDim := rfl

/-- Every column index below `dp` is the column of a pair `a ≤ b < d`. -/
theorem exists_pair_of_column (d j : Nat) (hj : j < ctAt d d) :
    ∃ a b, a ≤ b ∧ b < d ∧ j = ctAt d a + (b - a) := by
  have hmem : j ∈ (triUpTo d d).map (fun w => w.2.2) := by
    rw [triUpTo_columns]
    exact List.mem_range.mpr hj
  obtain ⟨⟨a, b, c⟩, hw, hc⟩ := List.mem_map.mp hmem
  have hc2 : c = j := hc
  subst hc2
  obtain ⟨-, h2, h3, h4⟩ := (mem_triUpTo d d a b c).mp hw
  exact ⟨a, b, h2, h3, h4⟩

theorem completeYt_spec {β : Type} [One β] (V Yi Yt : Matrix2D β) :
    (completeYt V Yi Yt).mdimx = 1 + V.mdimx + Yi.mdimx ∧
    (completeYt V Yi Yt).mdimy = Yi.mdimy ∧
    ∀ e, e < Yi.mdimy →
      MAT_ELEM (completeYt V Yi Yt) e 0 = 1 ∧
      (∀ c, c < V.mdimx → MAT_ELEM (completeYt V Yi Yt) e (1 + c) = MAT_ELEM V e c) ∧
      (∀ c, c < Yi.mdimx →
        MAT_ELEM (completeYt V Yi Yt) e (1 + V.mdimx + c) = MAT_ELEM Yi e c) :=
  completeYt_rows V Yi (Yt.resizeNoCopy (MAT_YSIZE Yi) (1 + MAT_XSIZE V + MAT_XSIZE Yi))
    (1 + V.mdimx + Yi.mdimx) (MAT_YSIZE Yi) rfl rfl

/-- Shape and content of the combined basis of a point. -/
theorem pointBasis_spec (Vpr : Matrix2D α) (s : LoopState α) (d : Nat)
    (hd : s.outputDim = d) (hdp : s.dp = ctAt d d) :
    (pointBasis Vpr s).mdimy = Vpr.mdimy ∧
    (pointBasis Vpr s).mdimx = 1 + d + ctAt d d ∧
    ∀ e, e < Vpr.mdimy →
      MAT_ELEM (pointBasis Vpr s) e 0 = 1 ∧
      (∀ x, x < d → MAT_ELEM (pointBasis Vpr s) e (1 + x) = MAT_ELEM Vpr e x) ∧
      (∀ a b, a ≤ b → b < d →
        MAT_ELEM (pointBasis Vpr s) e (1 + d + (ctAt d a + (b - a)))
          = MAT_ELEM Vpr e a * MAT_ELEM Vpr e b) := by
  unfold pointBasis
  rw [hd, hdp]
  obtain ⟨vx, vy, vR⟩ := copyFirstColumns_spec Vpr s.V d
  obtain ⟨yx, yy, yR⟩ := buildYiHessianEstimator_spec (copyFirstColumns Vpr s.V d) s.Yi d
  obtain ⟨tx, ty, tR⟩ := completeYt_spec (copyFirstColumns Vpr s.V d)
    (buildYiHessianEstimator (copyFirstColumns Vpr s.V d) s.Yi d (ctAt d d)) s.Yt
  have hrows : (buildYiHessianEstimator (copyFirstColumns Vpr s.V d) s.Yi d
      (ctAt d d)).mdimy = Vpr.mdimy := yy.trans vy
  refine ⟨ty.trans hrows, tx.trans (by rw [vx, yx]), fun e he => ?_⟩
  obtain ⟨r1, r2, r3⟩ := tR e (by rw [hrows]; exact he)
  refine ⟨r1, fun x hx => ?_, fun a b hab hb => ?_⟩
  · rw [r2 x (by rw [vx]; exact hx)]
    exact vR e x he hx
  · have hcol : ctAt d a + (b - a) < ctAt d d := by
      have h1 := ctAt_add_lt d a b hab hb
      have h2 := ctAt_mono d (show a + 1 ≤ d by omega)
      omega
    have := r3 (ctAt d a + (b - a)) (by rw [yx]; exact hcol)
    rw [vx] at this
    rw [this, yR a b e hab hb (by rw [vy]; exact he) (Or.inl (by omega)),
      vR e a he (by omega), vR e b he hb]

/-- Shape and content of the matrix `Pii` of a point, in terms of the orthogonalised
matrix `Yt` of the point. -/
theorem processPoint_Pii_spec (sqrt : α → α) (nbm : Matrix2D Nat) (k : Nat)
    (Vpr : Matrix2D α) (index : Nat) (s : LoopState α) (d : Nat)
    (hd : (adaptRank Vpr s).outputDim = d) (hdp : (adaptRank Vpr s).dp = ctAt d d) :
    (processPoint sqrt nbm k Vpr index s).Pii.mdimx = Vpr.mdimy ∧
    (processPoint sqrt nbm k Vpr index s).Pii.mdimy = ctAt d d ∧
    ∀ r e, r < ctAt d d → e < Vpr.mdimy →
      MAT_ELEM (processPoint sqrt nbm k Vpr index s).Pii r e
        = MAT_ELEM (modifiedGramSchmidtOrtogonalization sqrt
            (pointBasis Vpr (adaptRank Vpr s))) e (d + 1 + r) := by
  rw [processPoint_Pii, processPoint_Yt, hd]
  obtain ⟨by1, bx1, -⟩ := pointBasis_spec Vpr (adaptRank Vpr s) d hd hdp
  obtain ⟨qx, qy⟩ := modifiedGramSchmidt_dims sqrt (pointBasis Vpr (adaptRank Vpr s))
  obtain ⟨px, py, pR⟩ := extractPii_spec
    (modifiedGramSchmidtOrtogonalization sqrt (pointBasis Vpr (adaptRank Vpr s)))
    (adaptRank Vpr s).Pii d
  rw [qx, bx1] at py pR
  rw [qy, by1] at px pR
  have hsub : 1 + d + ctAt d d - (d + 1) = ctAt d d := by omega
  rw [hsub] at py pR
  exact ⟨px, py, pR⟩

end PointBasis

/-! ## Sign changes of the tangent basis -/

/-- Columns of the combined bases of two points whose factors `Vpr` differ by the signs
`sgn` of their first `d` columns: the columns differ by the sign `1` (constant column),
`sgn x` (tangent column `x`) or `sgn a * sgn b` (product column of the pair `a ≤ b`). -/
theorem pointBasis_column_rel (Vpr VprB : Matrix2D ℝ) (sA sB : LoopState ℝ) (d : Nat)
    (hdA : sA.outputDim = d) (hpA : sA.dp = ctAt d d)
    (hdB : sB.outputDim = d) (hpB : sB.dp = ctAt d d)
    (hrows : VprB.mdimy = Vpr.mdimy) (sgn : Nat → ℝ)
    (hrel : ∀ x, x < d → ∀ y, y < Vpr.mdimy → MAT_ELEM VprB y x = sgn x * MAT_ELEM Vpr y x)
    (c : Nat) (hc : c < 1 + d + ctAt d d) :
    ∃ t : ℝ, ((c = 0 ∧ t = 1) ∨ (∃ x, x < d ∧ c = 1 + x ∧ t = sgn x) ∨
        (∃ a b, a ≤ b ∧ b < d ∧ c = 1 + d + (ctAt d a + (b - a)) ∧ t = sgn a * sgn b)) ∧
      columnVec Vpr.mdimy (pointBasis VprB sB) c
        = t • columnVec Vpr.mdimy (pointBasis Vpr sA) c := by
  obtain ⟨-, -, aR⟩ := pointBasis_spec Vpr sA d hdA hpA
  obtain ⟨-, -, bR⟩ := pointBasis_spec VprB sB d hdB hpB
  rw [hrows] at bR
  by_cases h0 : c = 0
  · subst h0
    refine ⟨1, Or.inl ⟨rfl, rfl⟩, ?_⟩
    funext e
    show MAT_ELEM (pointBasis VprB sB) e.val 0 = 1 * MAT_ELEM (pointBasis Vpr sA) e.val 0
    rw [(aR e.val e.isLt).1, (bR e.val e.isLt).1, one_mul]
  · by_cases h1 : c ≤ d
    · obtain ⟨x, hx, hcx⟩ : ∃ x, x < d ∧ c = 1 + x := ⟨c - 1, by omega, by omega⟩
      subst hcx
      refine ⟨sgn x, Or.inr (Or.inl ⟨x, hx, rfl, rfl⟩), ?_⟩
      funext e
      show MAT_ELEM (pointBasis VprB sB) e.val (1 + x)
        = sgn x * MAT_ELEM (pointBasis Vpr sA) e.val (1 + x)
      rw [(aR e.val e.isLt).2.1 _ hx, (bR e.val e.isLt).2.1 _ hx]
      exact hrel x hx e.val e.isLt
    · obtain ⟨a, b, hab, hb, hj⟩ := exists_pair_of_column d (c - 1 - d) (by omega)
      have hcj : c = 1 + d + (ctAt d a + (b - a)) := by omega
      refine ⟨sgn a * sgn b, Or.inr (Or.inr ⟨a, b, hab, hb, hcj, rfl⟩), ?_⟩
      funext e
      show MAT_ELEM (pointBasis VprB sB) e.val c
        = sgn a * sgn b * MAT_ELEM (pointBasis Vpr sA) e.val c
      rw [hcj, (aR e.val e.isLt).2.2 a b hab hb, (bR e.val e.isLt).2.2 a b hab hb,
        hrel a (by omega) e.val e.isLt, hrel b hb e.val e.isLt]
      ring

/-- The combined basis of a point does not depend on the former content of the work
matrices. -/
theorem pointBasis_congr (Vpr : Matrix2D ℝ) (sA sB : LoopState ℝ) (d : Nat)
    (hdA : sA.outputDim = d) (hpA : sA.dp = ctAt d d)
    (hdB : sB.outputDim = d) (hpB : sB.dp = ctAt d d)
    (c : Nat) (hc : c < 1 + d + ctAt d d) :
    columnVec Vpr.mdimy (pointBasis Vpr sB) c = columnVec Vpr.mdimy (pointBasis Vpr sA) c := by
  obtain ⟨t, ht, hcol⟩ := pointBasis_column_rel Vpr Vpr sA sB d hdA hpA hdB hpB rfl
    (fun _ => 1) (fun _ _ _ _ => (one_mul _).symm) c hc
  have ht1 : t = 1 := by
    rcases ht with ⟨-, h⟩ | ⟨x, -, -, h⟩ | ⟨a, b, -, -, -, h⟩
    · exact h
    · exact h
    · rw [h, one_mul]
  rw [hcol, ht1, one_smul]

/-- The rows of the matrices `Pii` of two points whose combined bases differ by the signs
`sg` of their columns differ by the signs of the trailing columns. -/
theorem processPoint_Pii_rel (nbm nbmB : Matrix2D Nat) (k kB : Nat) (Vpr VprB : Matrix2D ℝ)
    (index indexB : Nat) (sA sB : LoopState ℝ) (d : Nat)
    (hdA : (adaptRank Vpr sA).outputDim = d) (hpA : (adaptRank Vpr sA).dp = ctAt d d)
    (hdB : (adaptRank VprB sB).outputDim = d) (hpB : (adaptRank VprB sB).dp = ctAt d d)
    (hrows : VprB.mdimy = Vpr.mdimy) (sg : Nat → ℝ)
    (hsg : ∀ c, c < 1 + d + ctAt d d → sg c * sg c = 1)
    (hcol : ∀ c, c < 1 + d + ctAt d d →
      columnVec Vpr.mdimy (pointBasis VprB (adaptRank VprB sB)) c
        = sg c • columnVec Vpr.mdimy (pointBasis Vpr (adaptRank Vpr sA)) c)
    (r e : Nat) (hr : r < ctAt d d) (he : e < Vpr.mdimy) :
    MAT_ELEM (processPoint Real.sqrt nbmB kB VprB indexB sB).Pii r e
      = sg (d + 1 + r) * MAT_ELEM (processPoint Real.sqrt nbm k Vpr index sA).Pii r e := by
  obtain ⟨-, -, aP⟩ := processPoint_Pii_spec Real.sqrt nbm k Vpr index sA d hdA hpA
  obtain ⟨-, -, bP⟩ := processPoint_Pii_spec Real.sqrt nbmB kB VprB indexB sB d hdB hpB
  rw [hrows] at bP
  obtain ⟨ay, ax, -⟩ := pointBasis_spec Vpr (adaptRank Vpr sA) d hdA hpA
  obtain ⟨by1, bx, -⟩ := pointBasis_spec VprB (adaptRank VprB sB) d hdB hpB
  have key := modifiedGramSchmidt_sign (pointBasis Vpr (adaptRank Vpr sA))
    (pointBasis VprB (adaptRank VprB sB)) (1 + d + ctAt d d) Vpr.mdimy ax ay bx
    (by1.trans hrows) sg hsg hcol (d + 1 + r) (by omega)
  rw [aP r e hr he, bP r e hr he]
  exact congrFun key ⟨e, he⟩

/-! ## The rows of `Pii`: sums and norms -/

theorem columnsIndependent_dims (M : Matrix2D ℝ) (m n : Nat) (hm : MAT_YSIZE M = m)
    (hn : MAT_XSIZE M = n) (h : ColumnsIndependent M) :
    LinearIndependent ℝ (fun j : Fin n => columnVec m M j.val) := by
  subst hm hn
  exact h

/-- With independent columns of which the first is the vector of ones, the entries of every
other column of the orthogonalised matrix sum to zero. -/
theorem trailing_sum_zero (M : Matrix2D ℝ) (n m : Nat) (hx : M.mdimx = n) (hy : M.mdimy = m)
    (hA : LinearIndependent ℝ (fun j : Fin n => columnVec m M j.val))
    (hones : ∀ e, e < m → MAT_ELEM M e 0 = 1) (c : Nat) (hc1 : 1 ≤ c) (hc : c < n) :
    ∑ e : Fin m, columnVec m (modifiedGramSchmidtOrtogonalization Real.sqrt M) c e = 0 := by
  obtain ⟨-, -, -, q2, q3⟩ := modifiedGramSchmidt_inv M n m hx hy hA
  have hmem : columnVec m M 0 ∈ Submodule.span ℝ (Set.image
      (columnVec m (modifiedGramSchmidtOrtogonalization Real.sqrt M)) {a | a < 1}) := by
    rw [q3 1 (by omega)]
    exact Submodule.subset_span ⟨0, show 0 < 1 by omega, rfl⟩
  have horth := dot_eq_zero_of_mem_span
    (columnVec m (modifiedGramSchmidtOrtogonalization Real.sqrt M) c) _
    (by
      rintro x ⟨a, ha, rfl⟩
      have ha2 : a < 1 := ha
      exact q2 a c (by omega) hc (by omega)) _ hmem
  have h1 : columnVec m M 0 = fun _ => 1 := by
    funext e
    exact hones e.val e.isLt
  rw [h1] at horth
  simpa [Matrix.dotProduct] using horth

/-- With independent columns, every column of the orthogonalised matrix has an entry that
is not zero. -/
theorem column_entry_ne_zero (M : Matrix2D ℝ) (n m : Nat) (hx : M.mdimx = n)
    (hy : M.mdimy = m) (hA : LinearIndependent ℝ (fun j : Fin n => columnVec m M j.val))
    (c : Nat) (hc : c < n) :
    ∃ e, e < m ∧ MAT_ELEM (modifiedGramSchmidtOrtogonalization Real.sqrt M) e c ≠ 0 := by
  obtain ⟨-, -, q1, -, -⟩ := modifiedGramSchmidt_inv M n m hx hy hA
  by_contra hall
  push_neg at hall
  have hz : columnVec m (modifiedGramSchmidtOrtogonalization Real.sqrt M) c = 0 := by
    funext e
    exact hall e.val e.isLt
  have := q1 c hc
  rw [hz, Matrix.zero_dotProduct] at this
  exact zero_ne_one this

/-- Independence of the columns of the combined basis of a point, from that of the basis
built from empty work matrices. -/
theorem pointBasis_independent (Vpr : Matrix2D ℝ) (s : LoopState ℝ) (d : Nat)
    (hd : s.outputDim = d) (hdp : s.dp = ctAt d d)
    (hli : ColumnsIndependent (localBasis Vpr d)) :
    LinearIndependent ℝ (fun j : Fin (1 + d + ctAt d d) =>
      columnVec Vpr.mdimy (pointBasis Vpr s) j.val) := by
  have h0d : (initialState 0 d : LoopState ℝ).outputDim = d := rfl
  have h0p : (initialState 0 d : LoopState ℝ).dp = ctAt d d := (ctAt_self d).symm
  obtain ⟨ly, lx, -⟩ := pointBasis_spec Vpr (initialState 0 d) d h0d h0p
  have key := columnsIndependent_dims (localBasis Vpr d) Vpr.mdimy (1 + d + ctAt d d) ly lx hli
  have hfam : (fun j : Fin (1 + d + ctAt d d) => columnVec Vpr.mdimy (pointBasis Vpr s) j.val)
      = (fun j : Fin (1 + d + ctAt d d) => columnVec Vpr.mdimy (localBasis Vpr d) j.val) := by
    funext j
    exact pointBasis_congr Vpr (initialState 0 d) s d h0d h0p hd hdp j.val j.isLt
  rw [hfam]
  exact key

/-- When the combined basis of a point has independent columns, every row of its matrix
`Pii` sums to zero, is handed on unchanged by the normalisation, and has an entry that is
not zero. -/
theorem processPoint_Pii_rows (nbm : Matrix2D Nat) (k : Nat) (Vpr : Matrix2D ℝ)
    (index : Nat) (s : LoopState ℝ) (d : Nat)
    (hd : (adaptRank Vpr s).outputDim = d) (hdp : (adaptRank Vpr s).dp = ctAt d d)
    (hli : ColumnsIndependent (localBasis Vpr d)) (r : Nat) (hr : r < ctAt d d) :
    ((processPoint Real.sqrt nbm k Vpr index s).Pii.getRow r).sum = 0 ∧
    normaliseRow ((processPoint Real.sqrt nbm k Vpr index s).Pii.getRow r)
      = ((processPoint Real.sqrt nbm k Vpr index s).Pii.getRow r, []) ∧
    ∃ e, e < Vpr.mdimy ∧ MAT_ELEM (processPoint Real.sqrt nbm k Vpr index s).Pii r e ≠ 0 := by
  obtain ⟨px, -, pR⟩ := processPoint_Pii_spec Real.sqrt nbm k Vpr index s d hd hdp
  obtain ⟨by1, bx, bR⟩ := pointBasis_spec Vpr (adaptRank Vpr s) d hd hdp
  have hA := pointBasis_independent Vpr (adaptRank Vpr s) d hd hdp hli
  have hsum : ((processPoint Real.sqrt nbm k Vpr index s).Pii.getRow r).sum = 0 := by
    rw [Matrix1D.sum_eq]
    show ∑ e in Finset.range (processPoint Real.sqrt nbm k Vpr index s).Pii.mdimx,
      MAT_ELEM (processPoint Real.sqrt nbm k Vpr index s).Pii r e = 0
    rw [px, Finset.sum_congr rfl (fun e he => pR r e hr (Finset.mem_range.mp he))]
    rw [Finset.sum_range (fun e => MAT_ELEM (modifiedGramSchmidtOrtogonalization Real.sqrt
      (pointBasis Vpr (adaptRank Vpr s))) e (d + 1 + r))]
    exact trailing_sum_zero (pointBasis Vpr (adaptRank Vpr s)) (1 + d + ctAt d d) Vpr.mdimy
      bx by1 hA (fun e he => (bR e he).1) (d + 1 + r) (by omega) (by omega)
  refine ⟨hsum, normaliseRow_of_not_gt _ (by rw [hsum]; norm_num), ?_⟩
  obtain ⟨e, he, hne⟩ := column_entry_ne_zero (pointBasis Vpr (adaptRank Vpr s))
    (1 + d + ctAt d d) Vpr.mdimy bx by1 hA (d + 1 + r) (by omega)
  exact ⟨e, he, by rw [pR r e hr he]; exact hne⟩

/-! ## Two runs whose tangent bases differ by signs -/

theorem sign_mul_self (t : ℝ) (h : t = 1 ∨ t = -1) : t * t = 1 := by
  rcases h with h | h <;> rw [h] <;> norm_num

/-- The basis built from empty work matrices stands for the basis of any state. -/
theorem localBasis_column_rel (Vpr VprB : Matrix2D ℝ) (sA sB : LoopState ℝ) (d : Nat)
    (hdA : sA.outputDim = d) (hpA : sA.dp = ctAt d d)
    (hdB : sB.outputDim = d) (hpB : sB.dp = ctAt d d)
    (hrows : VprB.mdimy = Vpr.mdimy) (sg : Nat → ℝ)
    (hcol : ∀ c, c < 1 + d + ctAt d d →
      columnVec Vpr.mdimy (localBasis VprB d) c = sg c • columnVec Vpr.mdimy (localBasis Vpr d) c)
    (c : Nat) (hc : c < 1 + d + ctAt d d) :
    columnVec Vpr.mdimy (pointBasis VprB sB) c
      = sg c • columnVec Vpr.mdimy (pointBasis Vpr sA) c := by
  have h0d : (initialState 0 d : LoopState ℝ).outputDim = d := rfl
  have h0p : (initialState 0 d : LoopState ℝ).dp = ctAt d d := (ctAt_self d).symm
  have hA := pointBasis_congr Vpr (initialState 0 d) sA d h0d h0p hdA hpA c hc
  have hB := pointBasis_congr VprB (initialState 0 d) sB d h0d h0p hdB hpB c hc
  rw [hrows] at hB
  rw [hA, hB]
  exact hcol c hc

/-- The weight rows of a point in two runs whose combined bases differ by the signs `sg`
of their columns: the rows differ by the signs of the trailing columns. -/
theorem processPoint_rows_signed (nbm : Matrix2D Nat) (k : Nat) (Vpr VprB : Matrix2D ℝ)
    (index : Nat) (sA sB : LoopState ℝ) (d : Nat)
    (hdA : (adaptRank Vpr sA).outputDim = d) (hpA : (adaptRank Vpr sA).dp = ctAt d d)
    (hdB : (adaptRank VprB sB).outputDim = d) (hpB : (adaptRank VprB sB).dp = ctAt d d)
    (hk : k ≤ MAT_YSIZE Vpr) (hrows : VprB.mdimy = Vpr.mdimy)
    (hli : ColumnsIndependent (localBasis Vpr d)) (sg : Nat → ℝ)
    (hsg : ∀ c, c < 1 + d + ctAt d d → sg c * sg c = 1)
    (hcol : ∀ c, c < 1 + d + ctAt d d →
      columnVec Vpr.mdimy (localBasis VprB d) c = sg c • columnVec Vpr.mdimy (localBasis Vpr d) c)
    (r : Nat) (hr : r < ctAt d d) (c : Nat) (hc : c < k) :
    VEC_ELEM (normaliseRow
        ((processPoint Real.sqrt nbm k VprB index sB).Pii.getRow r)).1 c
      = sg (d + 1 + r) * VEC_ELEM (normaliseRow
        ((processPoint Real.sqrt nbm k Vpr index sA).Pii.getRow r)).1 c := by
  have rel := processPoint_Pii_rel nbm nbm k k Vpr VprB index index sA sB d hdA hpA hdB
    hpB hrows sg hsg
    (localBasis_column_rel Vpr VprB _ _ d hdA hpA hdB hpB hrows sg hcol) r
  obtain ⟨aS, aN, -⟩ := processPoint_Pii_rows nbm k Vpr index sA d hdA hpA hli r hr
  obtain ⟨ax, -, -⟩ := processPoint_Pii_spec Real.sqrt nbm k Vpr index sA d hdA hpA
  obtain ⟨bx, -, -⟩ := processPoint_Pii_spec Real.sqrt nbm k VprB index sB d hdB hpB
  have aS2 : ∑ e in Finset.range Vpr.mdimy,
      MAT_ELEM (processPoint Real.sqrt nbm k Vpr index sA).Pii r e = 0 := by
    have := aS
    rw [Matrix1D.sum_eq] at this
    rw [← ax]
    exact this
  have bS : ((processPoint Real.sqrt nbm k VprB index sB).Pii.getRow r).sum = 0 := by
    rw [Matrix1D.sum_eq]
    show ∑ e in Finset.range (processPoint Real.sqrt nbm k VprB index sB).Pii.mdimx,
      MAT_ELEM (processPoint Real.sqrt nbm k VprB index sB).Pii r e = 0
    rw [bx, hrows, Finset.sum_congr rfl (fun e he => rel e hr (Finset.mem_range.mp he)),
      ← Finset.mul_sum, aS2, mul_zero]
  have bN := normaliseRow_of_not_gt
    ((processPoint Real.sqrt nbm k VprB index sB).Pii.getRow r) (by rw [bS]; norm_num)
  rw [aN, bN]
  exact rel c hr (lt_of_lt_of_le hc hk)

/-- Column signs of the bases of two factors `Vpr` that differ by signs of their first `d`
columns. -/
theorem localBasis_flipped (Vpr VprB : Matrix2D ℝ) (d : Nat) (hflip : SignFlipped d Vpr VprB) :
    ∃ sg : Nat → ℝ, (∀ c, c < 1 + d + ctAt d d → sg c * sg c = 1) ∧
      ∀ c, c < 1 + d + ctAt d d →
        columnVec Vpr.mdimy (localBasis VprB d) c
          = sg c • columnVec Vpr.mdimy (localBasis Vpr d) c := by
  obtain ⟨fy, -, fR⟩ := hflip
  have fy2 : VprB.mdimy = Vpr.mdimy := fy
  have h0d : (initialState 0 d : LoopState ℝ).outputDim = d := rfl
  have h0p : (initialState 0 d : LoopState ℝ).dp = ctAt d d := (ctAt_self d).symm
  choose! sgn hsgn using fR
  have hcols : ∀ c, c < 1 + d + ctAt d d → ∃ t : ℝ, t * t = 1 ∧
      columnVec Vpr.mdimy (localBasis VprB d) c
        = t • columnVec Vpr.mdimy (localBasis Vpr d) c := by
    intro c hc
    obtain ⟨t, ht, hcol⟩ := pointBasis_column_rel Vpr VprB (initialState 0 d)
      (initialState 0 d) d h0d h0p h0d h0p fy2 sgn
      (fun x hx y hy => (hsgn x hx).2 y hy) c hc
    refine ⟨t, ?_, hcol⟩
    rcases ht with ⟨-, h⟩ | ⟨x, hx, -, h⟩ | ⟨a, b, hab, hb, -, h⟩
    · rw [h, one_mul]
    · rw [h]; exact sign_mul_self _ (hsgn x hx).1
    · rw [h]
      have h1 := sign_mul_self _ (hsgn a (by omega)).1
      have h2 := sign_mul_self _ (hsgn b hb).1
      calc sgn a * sgn b * (sgn a * sgn b) = (sgn a * sgn a) * (sgn b * sgn b) := by ring
        _ = 1 := by rw [h1, h2, one_mul]
  choose! tau htau using hcols
  exact ⟨tau, fun c hc => (htau c hc).1, fun c hc => (htau c hc).2⟩

theorem Matrix2D.eq_of_fields {β : Type} (A B : Matrix2D β) (h1 : A.mdimy = B.mdimy)
    (h2 : A.mdimx = B.mdimx) (h3 : A.mdata = B.mdata) : A = B := by
  cases A
  cases B
  simp only at h1 h2 h3
  subst h1 h2 h3
  rfl

/-- Two weight matrices whose rows differ by signs have the same Gram matrix. -/
theorem matrixOperation_AtA_congr (WA WB : Matrix2D ℝ) (hx : WB.mdimx = WA.mdimx)
    (hy : WB.mdimy = WA.mdimy)
    (hrow : ∀ r, r < WA.mdimy → ∀ a b, a < WA.mdimx → b < WA.mdimx →
      MAT_ELEM WB r a * MAT_ELEM WB r b = MAT_ELEM WA r a * MAT_ELEM WA r b) :
    matrixOperation_AtA WB = matrixOperation_AtA WA := by
  have hdata : (matrixOperation_AtA WB).mdata = (matrixOperation_AtA WA).mdata := by
    funext p
    by_cases hp : p < WA.mdimx * WA.mdimx
    · rw [matrixOperation_AtA_data WA p hp, matrixOperation_AtA_data WB p (by rw [hx]; exact hp),
        hx, hy]
      have hpos : 0 < WA.mdimx := by
        rcases Nat.eq_zero_or_pos WA.mdimx with h | h
        · rw [h] at hp; omega
        · exact h
      refine Finset.sum_congr rfl (fun r hr => ?_)
      exact hrow r (Finset.mem_range.mp hr) _ _ (Nat.div_lt_of_lt_mul hp)
        (Nat.mod_lt _ hpos)
    · show (if p < MAT_XSIZE WB * MAT_XSIZE WB then _ else (0 : ℝ))
        = (if p < MAT_XSIZE WA * MAT_XSIZE WA then _ else (0 : ℝ))
      rw [if_neg (show ¬ p < MAT_XSIZE WA * MAT_XSIZE WA from hp),
        if_neg (show ¬ p < MAT_XSIZE WB * MAT_XSIZE WB by
          rw [show MAT_XSIZE WB = WA.mdimx from hx]; exact hp)]
  exact Matrix2D.eq_of_fields _ _ hx hx hdata

/-- Weight matrices of two runs after `T` points, when the dimension is not lowered at
these points and the combined bases of the points differ by the column signs `sg`: the rows
of the points differ by the signs of the trailing columns. -/
theorem pointLoop_weights_signed (nbm : Matrix2D Nat) (k : Nat)
    (svdVpr svdVprB : Nat → Matrix2D ℝ) (N d T : Nat)
    (hnr : ∀ i, i < T → ¬ MAT_XSIZE (svdVpr i) < d)
    (hk : ∀ i, i < T → k ≤ MAT_YSIZE (svdVpr i))
    (hlt : ∀ i c, i < T → c < k → MAT_ELEM nbm i c < N)
    (hinj : ∀ i c c2, i < T → c < k → c2 < k → MAT_ELEM nbm i c = MAT_ELEM nbm i c2 → c = c2)
    (hli : ∀ i, i < T → ColumnsIndependent (localBasis (svdVpr i) d))
    (hdims : ∀ i, i < T → MAT_YSIZE (svdVprB i) = MAT_YSIZE (svdVpr i) ∧
      MAT_XSIZE (svdVprB i) = MAT_XSIZE (svdVpr i))
    (sg : Nat → Nat → ℝ)
    (hsg : ∀ i, i < T → ∀ c, c < 1 + d + ctAt d d → sg i c * sg i c = 1)
    (hcol : ∀ i, i < T → ∀ c, c < 1 + d + ctAt d d →
      columnVec (svdVpr i).mdimy (localBasis (svdVprB i) d) c
        = sg i c • columnVec (svdVpr i).mdimy (localBasis (svdVpr i) d) c)
    (i r col : Nat) (hi : i < T) (hr : r < d * (d + 1) / 2) (hc : col < N) :
    MAT_ELEM (pointLoop Real.sqrt nbm k svdVprB N d T).weightMatrix
        (i * (d * (d + 1) / 2) + r) col
      = sg i (d + 1 + r) * MAT_ELEM (pointLoop Real.sqrt nbm k svdVpr N d T).weightMatrix
        (i * (d * (d + 1) / 2) + r) col := by
  have hnrB : ∀ j, j < T → ¬ MAT_XSIZE (svdVprB j) < d := by
    intro j hj
    rw [(hdims j hj).2]
    exact hnr j hj
  obtain ⟨-, -, -, -, a5, a6⟩ := pointLoop_weights_upTo Real.sqrt nbm k svdVpr N d T
    hnr hlt hinj
  obtain ⟨-, -, -, -, b5, b6⟩ := pointLoop_weights_upTo Real.sqrt nbm k svdVprB N d T
    hnrB hlt hinj
  obtain ⟨ad, ap, -, -, -, -⟩ := pointLoop_weights_upTo Real.sqrt nbm k svdVpr N d i
    (fun j hj => hnr j (by omega)) (fun j c hj hc => hlt j c (by omega) hc)
    (fun j c c2 hj hc hc2 => hinj j c c2 (by omega) hc hc2)
  obtain ⟨bd, bp, -, -, -, -⟩ := pointLoop_weights_upTo Real.sqrt nbm k svdVprB N d i
    (fun j hj => hnrB j (by omega)) (fun j c hj hc => hlt j c (by omega) hc)
    (fun j c c2 hj hc hc2 => hinj j c c2 (by omega) hc hc2)
  by_cases hex : ∃ c, c < k ∧ MAT_ELEM nbm i c = col
  · obtain ⟨c, hck, hcc⟩ := hex
    subst hcc
    rw [a5 i r c hi hr hck, b5 i r c hi hr hck, pointLoop_succ, pointLoop_succ]
    have hA2 : adaptRank (svdVpr i) (pointLoop Real.sqrt nbm k svdVpr N d i)
        = pointLoop Real.sqrt nbm k svdVpr N d i :=
      adaptRank_of_not_lt _ _ (by rw [ad]; exact hnr i hi)
    have hB2 : adaptRank (svdVprB i) (pointLoop Real.sqrt nbm k svdVprB N d i)
        = pointLoop Real.sqrt nbm k svdVprB N d i :=
      adaptRank_of_not_lt _ _ (by rw [bd]; exact hnrB i hi)
    exact processPoint_rows_signed nbm k (svdVpr i) (svdVprB i) i _ _ d
      (by rw [hA2]; exact ad) (by rw [hA2, ap, ctAt_self])
      (by rw [hB2]; exact bd) (by rw [hB2, bp, ctAt_self])
      (hk i hi) (hdims i hi).1 (hli i hi) (sg i) (hsg i hi) (hcol i hi) r
      (by rw [ctAt_self]; exact hr) c hck
  · have hne : ∀ c, c < k → MAT_ELEM nbm i c ≠ col := fun c hck h => hex ⟨c, hck, h⟩
    rw [a6 i r col hr hc (Or.inr hne), b6 i r col hr hc (Or.inr hne), mul_zero]

/-! ## A run in which the dimension is lowered at the last point: the bases -/

/-- Entries of the basis `[1 | V | Yi]` built from empty work matrices. -/
theorem localBasis_spec (Vpr : Matrix2D ℝ) (d : Nat) :
    (localBasis Vpr d).mdimy = Vpr.mdimy ∧
    (localBasis Vpr d).mdimx = 1 + d + ctAt d d ∧
    ∀ e, e < Vpr.mdimy →
      MAT_ELEM (localBasis Vpr d) e 0 = 1 ∧
      (∀ x, x < d → MAT_ELEM (localBasis Vpr d) e (1 + x) = MAT_ELEM Vpr e x) ∧
      (∀ a b, a ≤ b → b < d →
        MAT_ELEM (localBasis Vpr d) e (1 + d + (ctAt d a + (b - a)))
          = MAT_ELEM Vpr e a * MAT_ELEM Vpr e b) :=
  pointBasis_spec Vpr (initialState 0 d) d rfl (ctAt_self d).symm

/-- The six columns of the basis for `d = 2`. -/
theorem localBasis_two (Vpr : Matrix2D ℝ) (e : Nat) (he : e < Vpr.mdimy) :
    MAT_ELEM (localBasis Vpr 2) e 0 = 1 ∧
    MAT_ELEM (localBasis Vpr 2) e 1 = MAT_ELEM Vpr e 0 ∧
    MAT_ELEM (localBasis Vpr 2) e 2 = MAT_ELEM Vpr e 1 ∧
    MAT_ELEM (localBasis Vpr 2) e 3 = MAT_ELEM Vpr e 0 * MAT_ELEM Vpr e 0 ∧
    MAT_ELEM (localBasis Vpr 2) e 4 = MAT_ELEM Vpr e 0 * MAT_ELEM Vpr e 1 ∧
    MAT_ELEM (localBasis Vpr 2) e 5 = MAT_ELEM Vpr e 1 * MAT_ELEM Vpr e 1 := by
  obtain ⟨h0, h1, h2⟩ := (localBasis_spec Vpr 2).2.2 e he
  exact ⟨h0, h1 0 (by decide), h1 1 (by decide), h2 0 0 (by decide) (by decide),
    h2 0 1 (by decide) (by decide), h2 1 1 (by decide) (by decide)⟩

/-- The three columns of the basis for `d = 1`. -/
theorem localBasis_one (Vpr : Matrix2D ℝ) (e : Nat) (he : e < Vpr.mdimy) :
    MAT_ELEM (localBasis Vpr 1) e 0 = 1 ∧
    MAT_ELEM (localBasis Vpr 1) e 1 = MAT_ELEM Vpr e 0 ∧
    MAT_ELEM (localBasis Vpr 1) e 2 = MAT_ELEM Vpr e 0 * MAT_ELEM Vpr e 0 := by
  obtain ⟨h0, h1, h2⟩ := (localBasis_spec Vpr 1).2.2 e he
  exact ⟨h0, h1 0 (by decide), h2 0 0 (by decide) (by decide)⟩

theorem planeBasis_independent : ColumnsIndependent (localBasis planeTangent 2) := by
  obtain ⟨hy, hx, -⟩ := localBasis_spec planeTangent 2
  refine columnsIndependent_of_dims _ 6 6 hy hx ?_
  rw [Fintype.linearIndependent_iff]
  intro g hg
  have e0 := localBasis_two planeTangent 0 (by decide)
  have e1 := localBasis_two planeTangent 1 (by decide)
  have e2 := localBasis_two planeTangent 2 (by decide)
  have e3 := localBasis_two planeTangent 3 (by decide)
  have e4 := localBasis_two planeTangent 4 (by decide)
  have e5 := localBasis_two planeTangent 5 (by decide)
  have h0 := congrFun hg 0
  have h1 := congrFun hg 1
  have h2 := congrFun hg 2
  have h3 := congrFun hg 3
  have h4 := congrFun hg 4
  have h5 := congrFun hg 5
  simp only [Fin.sum_univ_six, Pi.add_apply, Pi.smul_apply, smul_eq_mul, columnVec,
    Pi.zero_apply] at h0 h1 h2 h3 h4 h5
  simp only [Fin.isValue, Fin.val_zero, Fin.val_one, Fin.val_two,
    show ((3 : Fin 6) : Nat) = 3 from rfl, show ((4 : Fin 6) : Nat) = 4 from rfl,
    show ((5 : Fin 6) : Nat) = 5 from rfl, e0, e1, e2, e3, e4, e5] at h0 h1 h2 h3 h4 h5
  simp [MAT_ELEM, planeTangent] at h0 h1 h2 h3 h4 h5
  intro i
  fin_cases i
  · show g 0 = 0
    linarith
  · show g 1 = 0
    linarith
  · show g 2 = 0
    linarith
  · show g 3 = 0
    linarith
  · show g 4 = 0
    linarith
  · show g 5 = 0
    linarith

theorem lineBasis_independent : ColumnsIndependent (localBasis lineTangent 1) := by
  obtain ⟨hy, hx, -⟩ := localBasis_spec lineTangent 1
  refine columnsIndependent_of_dims _ 6 3 hy hx ?_
  rw [Fintype.linearIndependent_iff]
  intro g hg
  have e0 := localBasis_one lineTangent 0 (by decide)
  have e1 := localBasis_one lineTangent 1 (by decide)
  have e2 := localBasis_one lineTangent 2 (by decide)
  have h0 := congrFun hg 0
  have h1 := congrFun hg 1
  have h2 := congrFun hg 2
  simp only [Fin.sum_univ_three, Pi.add_apply, Pi.smul_apply, smul_eq_mul, columnVec,
    Pi.zero_apply] at h0 h1 h2
  simp only [Fin.isValue, Fin.val_zero, Fin.val_one, Fin.val_two, e0, e1, e2] at h0 h1 h2
  simp [MAT_ELEM, lineTangent] at h0 h1 h2
  intro i
  fin_cases i
  · show g 0 = 0
    linarith
  · show g 1 = 0
    linarith
  · show g 2 = 0
    linarith

theorem planeTangentFlipped_entries (e : Nat) (he : e < 6) :
    MAT_ELEM planeTangentFlipped e 0 = -1 * MAT_ELEM planeTangent e 0 ∧
    MAT_ELEM planeTangentFlipped e 1 = 1 * MAT_ELEM planeTangent e 1 := by
  interval_cases e <;> simp [MAT_ELEM, planeTangent, planeTangentFlipped]

theorem planeBasis_flipped (c : Nat) (hc : c < 1 + 2 + ctAt 2 2) :
    columnVec planeTangent.mdimy (localBasis planeTangentFlipped 2) c
      = planeSign c • columnVec planeTangent.mdimy (localBasis planeTangent 2) c := by
  funext e
  have he : e.val < 6 := e.isLt
  obtain ⟨a0, a1, a2, a3, a4, a5⟩ := localBasis_two planeTangent e.val he
  obtain ⟨b0, b1, b2, b3, b4, b5⟩ := localBasis_two planeTangentFlipped e.val he
  obtain ⟨f0, f1⟩ := planeTangentFlipped_entries e.val he
  have hc6 : c < 6 := hc
  show MAT_ELEM (localBasis planeTangentFlipped 2) e.val c
    = planeSign c * MAT_ELEM (localBasis planeTangent 2) e.val c
  interval_cases c
  · rw [a0, b0]; simp [planeSign]
  · rw [a1, b1, f0]; simp [planeSign]
  · rw [a2, b2, f1]; simp [planeSign]
  · rw [a3, b3, f0]; simp [planeSign]
  · rw [a4, b4, f0, f1]; simp [planeSign]
  · rw [a5, b5, f1]; simp [planeSign]

theorem planeSign_mul_self (c : Nat) : planeSign c * planeSign c = 1 := by
  unfold planeSign
  split <;> norm_num

/-! ## A run in which the dimension is lowered at the last point: the weight matrix -/

theorem lateNeighbours_lt (i c : Nat) (_hi : i < 14) (_hc : c < 6) :
    MAT_ELEM lateNeighbours i c < 14 := by
  show (if (i * 6 + c) / 6 = 13 then ((i * 6 + c) % 6 + 11) % 13
    else ((i * 6 + c) / 6 + 1 + (i * 6 + c) % 6) % 14) < 14
  split <;> omega

theorem lateNeighbours_inj (i c c2 : Nat) (_hi : i < 14) (hc : c < 6) (hc2 : c2 < 6)
    (h : MAT_ELEM lateNeighbours i c = MAT_ELEM lateNeighbours i c2) : c = c2 := by
  have h1 : (if (i * 6 + c) / 6 = 13 then ((i * 6 + c) % 6 + 11) % 13
      else ((i * 6 + c) / 6 + 1 + (i * 6 + c) % 6) % 14)
    = (if (i * 6 + c2) / 6 = 13 then ((i * 6 + c2) % 6 + 11) % 13
      else ((i * 6 + c2) / 6 + 1 + (i * 6 + c2) % 6) % 14) := h
  have q1 : (i * 6 + c) / 6 = i := by omega
  have q2 : (i * 6 + c2) / 6 = i := by omega
  have r1 : (i * 6 + c) % 6 = c := by omega
  have r2 : (i * 6 + c2) % 6 = c2 := by omega
  rw [q1, q2, r1, r2] at h1
  split at h1 <;> omega

/-- No neighbour of the point `4` is a neighbour of the point `13`. -/
theorem lateNeighbours_disjoint (c c2 : Nat) (hc : c < 6) (hc2 : c2 < 6) :
    MAT_ELEM lateNeighbours 13 c2 ≠ MAT_ELEM lateNeighbours 4 c := by
  show (if (13 * 6 + c2) / 6 = 13 then ((13 * 6 + c2) % 6 + 11) % 13
      else ((13 * 6 + c2) / 6 + 1 + (13 * 6 + c2) % 6) % 14)
    ≠ (if (4 * 6 + c) / 6 = 13 then ((4 * 6 + c) % 6 + 11) % 13
      else ((4 * 6 + c) / 6 + 1 + (4 * 6 + c) % 6) % 14)
  have q1 : (13 * 6 + c2) / 6 = 13 := by omega
  have q2 : (4 * 6 + c) / 6 = 4 := by omega
  rw [q1, q2, if_pos rfl, if_neg (by decide)]
  omega

theorem VEC_ELEM_getRow {β : Type} (M : Matrix2D β) (r c : Nat) :
    VEC_ELEM (M.getRow r) c = MAT_ELEM M r c := rfl

theorem lateVpr_of_lt (i : Nat) (hi : i < 13) : lateVpr i = planeTangent := if_pos hi

theorem lateVprFlipped_of_lt (i : Nat) (hi : i < 13) : lateVprFlipped i = planeTangentFlipped :=
  if_pos hi

/-- The last step of a run of fourteen points over the table `lateNeighbours` in which the
factors of the points `0..12` have two columns and the factor of the point `13` is
`lineTangent`: the block size becomes `1`, the point `13` writes its row of `Pii` into the
row `13` of the weight matrix, and every other entry is left as it was. -/
theorem lateRun_last_step (run : Nat → Matrix2D ℝ)
    (h2 : ∀ i, i < 13 → MAT_XSIZE (run i) = 2) (h13 : run 13 = lineTangent) :
    (pointLoop Real.sqrt lateNeighbours 6 run 14 2 14).outputDim = 1 ∧
    (pointLoop Real.sqrt lateNeighbours 6 run 14 2 14).dp = 1 ∧
    (pointLoop Real.sqrt lateNeighbours 6 run 14 2 14).weightMatrix.mdimx = 14 ∧
    (pointLoop Real.sqrt lateNeighbours 6 run 14 2 14).weightMatrix.mdimy = 42 ∧
    (∀ c, c < 6 →
      MAT_ELEM (pointLoop Real.sqrt lateNeighbours 6 run 14 2 14).weightMatrix 13
          (MAT_ELEM lateNeighbours 13 c)
        = MAT_ELEM (pointLoop Real.sqrt lateNeighbours 6 run 14 2 14).Pii 0 c) ∧
    (∀ e col, col < 14 → (e ≠ 13 ∨ ∀ c, c < 6 → MAT_ELEM lateNeighbours 13 c ≠ col) →
      MAT_ELEM (pointLoop Real.sqrt lateNeighbours 6 run 14 2 14).weightMatrix e col
        = MAT_ELEM (pointLoop Real.sqrt lateNeighbours 6 run 14 2 13).weightMatrix e col) ∧
    (∃ c, c < 6 ∧ MAT_ELEM (pointLoop Real.sqrt lateNeighbours 6 run 14 2 14).Pii 0 c ≠ 0) := by
  obtain ⟨p1, p2, p3, p4, -, -⟩ := pointLoop_weights_upTo Real.sqrt lateNeighbours 6 run 14 2
    13 (fun i hi => by rw [h2 i hi]; decide)
    (fun i c hi hc => lateNeighbours_lt i c (by omega) hc)
    (fun i c c2 hi hc hc2 => lateNeighbours_inj i c c2 (by omega) hc hc2)
  have hd : (adaptRank (run 13) (pointLoop Real.sqrt lateNeighbours 6 run 14 2 13)).outputDim
      = 1 := by
    rw [adaptRank_outputDim, p1, h13]
    rfl
  have hdp : (adaptRank (run 13) (pointLoop Real.sqrt lateNeighbours 6 run 14 2 13)).dp
      = ctAt 1 1 := by
    rw [adaptRank_dp _ _ (by rw [p2, p1]), hd]
    rfl
  have hli : ColumnsIndependent (localBasis (run 13) 1) := by
    rw [h13]
    exact lineBasis_independent
  have hstep : pointLoop Real.sqrt lateNeighbours 6 run 14 2 14
      = processPoint Real.sqrt lateNeighbours 6 (run 13) 13
          (pointLoop Real.sqrt lateNeighbours 6 run 14 2 13) :=
    pointLoop_succ Real.sqrt lateNeighbours 6 run 14 2 13
  obtain ⟨-, hN, e, he, hne⟩ := processPoint_Pii_rows lateNeighbours 6 (run 13) 13
    (pointLoop Real.sqrt lateNeighbours 6 run 14 2 13) 1 hd hdp hli 0 (by decide)
  have hdp1 : (processPoint Real.sqrt lateNeighbours 6 (run 13) 13
      (pointLoop Real.sqrt lateNeighbours 6 run 14 2 13)).dp = 1 :=
    (processPoint_dp Real.sqrt lateNeighbours 6 (run 13) 13 _).trans
      (hdp.trans (by decide))
  have hW := processPoint_weightMatrix Real.sqrt lateNeighbours 6 (run 13) 13
    (pointLoop Real.sqrt lateNeighbours 6 run 14 2 13)
  rw [hdp1] at hW
  obtain ⟨fx, fy, fa, fb⟩ := fillWeightMatrix_spec lateNeighbours 6 13 1
    (processPoint Real.sqrt lateNeighbours 6 (run 13) 13
      (pointLoop Real.sqrt lateNeighbours 6 run 14 2 13)).Pii
    (pointLoop Real.sqrt lateNeighbours 6 run 14 2 13).weightMatrix
    (fun c hc => by rw [p3]; exact lateNeighbours_lt 13 c (by decide) hc)
    (fun c c2 hc hc2 => lateNeighbours_inj 13 c c2 (by decide) hc hc2) 1
  rw [hstep]
  refine ⟨(processPoint_outputDim Real.sqrt lateNeighbours 6 (run 13) 13 _).trans hd, hdp1,
    ?_, ?_, fun c hc => ?_, fun e2 col hcol hor => ?_, ?_⟩
  · rw [hW]; unfold fillWeightMatrix; exact fx.trans p3
  · rw [hW]; unfold fillWeightMatrix; exact fy.trans p4
  · rw [hW]
    unfold fillWeightMatrix
    have hN1 := congrArg Prod.fst hN
    have := fa 0 c (by decide) hc
    rw [hN1, Nat.mul_one, Nat.add_zero] at this
    exact this.trans (VEC_ELEM_getRow _ 0 c)
  · rw [hW]
    unfold fillWeightMatrix
    simp only [Nat.mul_one] at fb
    refine fb e2 col (by rw [p3]; exact hcol) ?_
    rcases hor with h | h
    · exact Or.inl (fun j hj => by
        have : j = 0 := by omega
        subst this
        rw [Nat.add_zero]
        exact h)
    · exact Or.inr h
  · refine ⟨e, ?_, hne⟩
    have : (run 13).mdimy = 6 := by rw [h13]; rfl
    omega

theorem lateVpr_last : lateVpr 13 = lineTangent := if_neg (by decide)

theorem lateVprFlipped_last : lateVprFlipped 13 = lineTangent := if_neg (by decide)

theorem lateVpr_columns (i : Nat) (hi : i < 13) : MAT_XSIZE (lateVpr i) = 2 := by
  rw [lateVpr_of_lt i hi]
  rfl

theorem lateVprFlipped_columns (i : Nat) (hi : i < 13) : MAT_XSIZE (lateVprFlipped i) = 2 := by
  rw [lateVprFlipped_of_lt i hi]
  rfl

/-- The weight matrices of the two runs after thirteen points: the rows of the points differ
by the signs of the trailing columns of the bases. -/
theorem lateRun_signed (i r col : Nat) (hi : i < 13) (hr : r < 3) (hc : col < 14) :
    MAT_ELEM (pointLoop Real.sqrt lateNeighbours 6 lateVprFlipped 14 2 13).weightMatrix
        (i * 3 + r) col
      = planeSign (3 + r)
        * MAT_ELEM (pointLoop Real.sqrt lateNeighbours 6 lateVpr 14 2 13).weightMatrix
          (i * 3 + r) col := by
  have key := pointLoop_weights_signed lateNeighbours 6 lateVpr lateVprFlipped 14 2 13
    (fun j hj => by rw [lateVpr_columns j hj]; decide)
    (fun j hj => by rw [lateVpr_of_lt j hj]; exact Nat.le_refl 6)
    (fun j c hj hc => lateNeighbours_lt j c (by omega) hc)
    (fun j c c2 hj hc hc2 => lateNeighbours_inj j c c2 (by omega) hc hc2)
    (fun j hj => by rw [lateVpr_of_lt j hj]; exact planeBasis_independent)
    (fun j hj => by
      rw [lateVpr_of_lt j hj, lateVprFlipped_of_lt j hj]
      exact ⟨rfl, rfl⟩)
    (fun _ => planeSign) (fun j _ c _ => planeSign_mul_self c)
    (fun j hj c hc => by
      rw [lateVpr_of_lt j hj, lateVprFlipped_of_lt j hj]
      exact planeBasis_flipped c hc)
    i r col hi (by omega) hc
  have h3 : 2 * (2 + 1) / 2 = 3 := by decide
  have h4 : 2 + 1 = 3 := by decide
  rw [h3, h4] at key
  exact key

/-- The weight matrix of the run `lateVpr` after thirteen points: the rows `i*3 + r` hold
the rows of `Pii` of the point `i`, each with an entry that is not zero, and the rows
`39, 40, 41` are zero. -/
theorem lateRun_first_rows :
    (∀ i r, i < 13 → r < 3 → ∃ e, e < 6 ∧
      MAT_ELEM (pointLoop Real.sqrt lateNeighbours 6 lateVpr 14 2 13).weightMatrix
        (i * 3 + r) (MAT_ELEM lateNeighbours i e) ≠ 0) ∧
    (∀ r col, r < 3 → col < 14 →
      MAT_ELEM (pointLoop Real.sqrt lateNeighbours 6 lateVpr 14 2 13).weightMatrix
        (13 * 3 + r) col = 0) := by
  have h3 : 2 * (2 + 1) / 2 = 3 := by decide
  have hnr : ∀ j, j < 13 → ¬ MAT_XSIZE (lateVpr j) < 2 :=
    fun j hj => by rw [lateVpr_columns j hj]; decide
  have hlt : ∀ j c, j < 13 → c < 6 → MAT_ELEM lateNeighbours j c < 14 :=
    fun j c hj hc => lateNeighbours_lt j c (by omega) hc
  have hinj : ∀ j c c2, j < 13 → c < 6 → c2 < 6 →
      MAT_ELEM lateNeighbours j c = MAT_ELEM lateNeighbours j c2 → c = c2 :=
    fun j c c2 hj hc hc2 => lateNeighbours_inj j c c2 (by omega) hc hc2
  obtain ⟨-, -, -, -, a5, a6⟩ := pointLoop_weights_upTo Real.sqrt lateNeighbours 6 lateVpr
    14 2 13 hnr hlt hinj
  rw [h3] at a5 a6
  refine ⟨fun i r hi hr => ?_, fun r col hr hcol => a6 13 r col hr hcol (Or.inl (Nat.le_refl 13))⟩
  obtain ⟨ad, ap, -, -, -, -⟩ := pointLoop_weights_upTo Real.sqrt lateNeighbours 6 lateVpr
    14 2 i (fun j hj => hnr j (by omega)) (fun j c hj hc => hlt j c (by omega) hc)
    (fun j c c2 hj hc hc2 => hinj j c c2 (by omega) hc hc2)
  have hA : adaptRank (lateVpr i) (pointLoop Real.sqrt lateNeighbours 6 lateVpr 14 2 i)
      = pointLoop Real.sqrt lateNeighbours 6 lateVpr 14 2 i :=
    adaptRank_of_not_lt _ _ (by rw [ad]; exact hnr i hi)
  obtain ⟨-, hN, e, he, hne⟩ := processPoint_Pii_rows lateNeighbours 6 (lateVpr i) i
    (pointLoop Real.sqrt lateNeighbours 6 lateVpr 14 2 i) 2
    (by rw [hA]; exact ad) (by rw [hA, ap, ctAt_self])
    (by rw [lateVpr_of_lt i hi]; exact planeBasis_independent) r
    (by rw [ctAt_self, h3]; exact hr)
  have he6 : e < 6 := by
    have : (lateVpr i).mdimy = 6 := by rw [lateVpr_of_lt i hi]; rfl
    omega
  refine ⟨e, he6, ?_⟩
  rw [a5 i r e hi hr he6, pointLoop_succ, congrArg Prod.fst hN, VEC_ELEM_getRow]
  exact hne

/-- The rows of `Pii` written by the last point are the same in the two runs. -/
theorem lateRun_last_rows (c : Nat) (hc : c < 6) :
    MAT_ELEM (pointLoop Real.sqrt lateNeighbours 6 lateVprFlipped 14 2 14).Pii 0 c
      = MAT_ELEM (pointLoop Real.sqrt lateNeighbours 6 lateVpr 14 2 14).Pii 0 c := by
  obtain ⟨a1, a2, -⟩ := pointLoop_weights_upTo Real.sqrt lateNeighbours 6 lateVpr 14 2
    13 (fun j hj => by rw [lateVpr_columns j hj]; decide)
    (fun j c hj hc => lateNeighbours_lt j c (by omega) hc)
    (fun j c c2 hj hc hc2 => lateNeighbours_inj j c c2 (by omega) hc hc2)
  obtain ⟨b1, b2, -⟩ := pointLoop_weights_upTo Real.sqrt lateNeighbours 6 lateVprFlipped 14 2
    13 (fun j hj => by rw [lateVprFlipped_columns j hj]; decide)
    (fun j c hj hc => lateNeighbours_lt j c (by omega) hc)
    (fun j c c2 hj hc hc2 => lateNeighbours_inj j c c2 (by omega) hc hc2)
  have hdA : (adaptRank lineTangent
      (pointLoop Real.sqrt lateNeighbours 6 lateVpr 14 2 13)).outputDim = 1 := by
    rw [adaptRank_outputDim, a1]
    rfl
  have hdB : (adaptRank lineTangent
      (pointLoop Real.sqrt lateNeighbours 6 lateVprFlipped 14 2 13)).outputDim = 1 := by
    rw [adaptRank_outputDim, b1]
    rfl
  have hpA : (adaptRank lineTangent
      (pointLoop Real.sqrt lateNeighbours 6 lateVpr 14 2 13)).dp = ctAt 1 1 := by
    rw [adaptRank_dp _ _ (by rw [a2, a1]), hdA]
    rfl
  have hpB : (adaptRank lineTangent
      (pointLoop Real.sqrt lateNeighbours 6 lateVprFlipped 14 2 13)).dp = ctAt 1 1 := by
    rw [adaptRank_dp _ _ (by rw [b2, b1]), hdB]
    rfl
  have rel := processPoint_Pii_rel lateNeighbours lateNeighbours 6 6 lineTangent lineTangent
    13 13 (pointLoop Real.sqrt lateNeighbours 6 lateVpr 14 2 13)
    (pointLoop Real.sqrt lateNeighbours 6 lateVprFlipped 14 2 13) 1 hdA hpA hdB hpB rfl
    (fun _ => 1) (fun _ _ => one_mul 1)
    (localBasis_column_rel lineTangent lineTangent _ _ 1 hdA hpA hdB hpB rfl (fun _ => 1)
      (fun c _ => (one_smul ℝ _).symm))
    0 c (by decide) hc
  rw [one_mul] at rel
  rw [pointLoop_succ Real.sqrt lateNeighbours 6 lateVpr 14 2 13,
    pointLoop_succ Real.sqrt lateNeighbours 6 lateVprFlipped 14 2 13, lateVpr_last,
    lateVprFlipped_last]
  exact rel

/-- The rows `39, 40, 41` of the weight matrix are still zero after thirteen points. -/
theorem lateRun_tail_zero (run : Nat → Matrix2D ℝ) (h2 : ∀ i, i < 13 → MAT_XSIZE (run i) = 2)
    (r col : Nat) (hr : r < 3) (hcol : col < 14) :
    MAT_ELEM (pointLoop Real.sqrt lateNeighbours 6 run 14 2 13).weightMatrix
      (13 * 3 + r) col = 0 := by
  have h3 : 2 * (2 + 1) / 2 = 3 := by decide
  obtain ⟨-, -, -, -, -, a6⟩ := pointLoop_weights_upTo Real.sqrt lateNeighbours 6 run
    14 2 13 (fun j hj => by rw [h2 j hj]; decide)
    (fun j c hj hc => lateNeighbours_lt j c (by omega) hc)
    (fun j c c2 hj hc hc2 => lateNeighbours_inj j c c2 (by omega) hc hc2)
  rw [h3] at a6
  exact a6 13 r col hr hcol (Or.inl (Nat.le_refl 13))

/-- Outside the row `13`, the rows of the two final weight matrices differ by a sign. -/
theorem lateRun_other_rows (r a b : Nat) (hr : r < 42) (hne : r ≠ 13) (ha : a < 14)
    (hb : b < 14) :
    MAT_ELEM (pointLoop Real.sqrt lateNeighbours 6 lateVprFlipped 14 2 14).weightMatrix r a
        * MAT_ELEM (pointLoop Real.sqrt lateNeighbours 6 lateVprFlipped 14 2 14).weightMatrix r b
      = MAT_ELEM (pointLoop Real.sqrt lateNeighbours 6 lateVpr 14 2 14).weightMatrix r a
        * MAT_ELEM (pointLoop Real.sqrt lateNeighbours 6 lateVpr 14 2 14).weightMatrix r b := by
  obtain ⟨-, -, -, -, -, af, -⟩ := lateRun_last_step lateVpr lateVpr_columns lateVpr_last
  obtain ⟨-, -, -, -, -, bf, -⟩ := lateRun_last_step lateVprFlipped lateVprFlipped_columns
    lateVprFlipped_last
  rw [af r a ha (Or.inl hne), af r b hb (Or.inl hne), bf r a ha (Or.inl hne),
    bf r b hb (Or.inl hne)]
  by_cases h39 : r < 39
  · obtain ⟨i, q, hi, hq, rfl⟩ : ∃ i q, i < 13 ∧ q < 3 ∧ r = i * 3 + q :=
      ⟨r / 3, r % 3, by omega, by omega, by omega⟩
    rw [lateRun_signed i q a hi hq ha, lateRun_signed i q b hi hq hb]
    have hone := planeSign_mul_self (3 + q)
    generalize MAT_ELEM (pointLoop Real.sqrt lateNeighbours 6 lateVpr 14 2 13).weightMatrix
      (i * 3 + q) a = wa
    generalize MAT_ELEM (pointLoop Real.sqrt lateNeighbours 6 lateVpr 14 2 13).weightMatrix
      (i * 3 + q) b = wb
    generalize planeSign (3 + q) = t at hone
    linear_combination (wa * wb) * hone
  · obtain ⟨q, hq, rfl⟩ : ∃ q, q < 3 ∧ r = 13 * 3 + q := ⟨r - 39, by omega, by omega⟩
    rw [lateRun_tail_zero lateVpr lateVpr_columns q a hq ha,
      lateRun_tail_zero lateVprFlipped lateVprFlipped_columns q a hq ha]
    simp

/-- The matrix `planeTangentFlipped` is `planeTangent` with its first column negated. -/
theorem planeTangent_flipped : SignFlipped 2 planeTangent planeTangentFlipped := by
  refine ⟨rfl, rfl, fun x hx => ?_⟩
  interval_cases x
  · exact ⟨-1, Or.inr rfl, fun y hy => (planeTangentFlipped_entries y hy).1⟩
  · exact ⟨1, Or.inl rfl, fun y hy => (planeTangentFlipped_entries y hy).2⟩

/-! ## Rank adaptation: notices, dimension and tangent basis -/

section NoticeClaims

variable {α : Type} [LinearOrderedField α]

/-- C12, as the code has it: the notice is written once at every point at which the
dimension is lowered (lines 80-85), so the notices announce strictly decreasing dimensions
and there may be several of them in a run; there is at least one exactly when the dimension
is reduced at all, and at most one when all the factors `Vpr` have the same number of
columns. -/
theorem notice_at_every_reduction (sqrt : α → α) (neighboursMatrix : Matrix2D Nat)
    (kNeighbours : Nat) (svdVpr : Nat → Matrix2D α) (N d : Nat) :
    (∀ t, (pointLoop sqrt neighboursMatrix kNeighbours svdVpr N d (t + 1)).cout
      = (pointLoop sqrt neighboursMatrix kNeighbours svdVpr N d t).cout
        ++ (if MAT_XSIZE (svdVpr t)
              < (pointLoop sqrt neighboursMatrix kNeighbours svdVpr N d t).outputDim
            then [MAT_XSIZE (svdVpr t)] else [])) ∧
    List.Pairwise (fun a b => b < a)
      (pointLoop sqrt neighboursMatrix kNeighbours svdVpr N d N).cout ∧
    ((pointLoop sqrt neighboursMatrix kNeighbours svdVpr N d N).cout = [] ↔
      (pointLoop sqrt neighboursMatrix kNeighbours svdVpr N d N).outputDim = d) ∧
    (∀ c, (∀ i, i < N → MAT_XSIZE (svdVpr i) = c) →
      (pointLoop sqrt neighboursMatrix kNeighbours svdVpr N d N).cout.length ≤ 1) := by
  obtain ⟨-, h2, -, h4⟩ := pointLoop_cout_inv sqrt neighboursMatrix kNeighbours svdVpr N d N
  refine ⟨fun t => pointLoop_cout_succ sqrt neighboursMatrix kNeighbours svdVpr N d t,
    h2, h4, fun c hc => ?_⟩
  cases N with
  | zero => exact Nat.zero_le 1
  | succ n =>
    rw [(pointLoop_constant_columns sqrt neighboursMatrix kNeighbours svdVpr (n + 1) d c n
      hc).2]
    by_cases h : c < d
    · rw [if_pos h]; exact le_refl 1
    · rw [if_neg h]; exact Nat.zero_le 1

/-- C13, as the code has it: in a run with at least one point in which every factor `Vpr`
has two columns (two neighbours per point) and the requested dimension is `3`, the
dimension after the loop is `2`, the number of columns of `Vpr`, and one notice is
written. -/
theorem two_neighbours_reduce_to_two (sqrt : α → α) (neighboursMatrix : Matrix2D Nat)
    (svdVpr : Nat → Matrix2D α) (N : Nat) (hN : 0 < N)
    (hV : ∀ i, i < N → MAT_XSIZE (svdVpr i) = 2) :
    (pointLoop sqrt neighboursMatrix 2 svdVpr N 3 N).outputDim = 2 ∧
    (pointLoop sqrt neighboursMatrix 2 svdVpr N 3 N).cout = [2] := by
  cases N with
  | zero => omega
  | succ n => exact pointLoop_constant_columns sqrt neighboursMatrix 2 svdVpr (n + 1) 3 2 n hV

/-- C14: after the rank-adaptation step of a point the dimension is at most the number of
columns of `Vpr`; `V` has the rows of `Vpr` and as many columns as the dimension, with
`V[y][x] = Vpr[y][x]`, and the cell read for `V[y][x]` lies in the row `y` of `Vpr`. -/
theorem tangent_basis_copy (sqrt : α → α) (neighboursMatrix : Matrix2D Nat)
    (kNeighbours : Nat) (Vpr : Matrix2D α) (index : Nat) (s : LoopState α) :
    (processPoint sqrt neighboursMatrix kNeighbours Vpr index s).outputDim ≤ MAT_XSIZE Vpr ∧
    MAT_YSIZE (processPoint sqrt neighboursMatrix kNeighbours Vpr index s).V
      = MAT_YSIZE Vpr ∧
    MAT_XSIZE (processPoint sqrt neighboursMatrix kNeighbours Vpr index s).V
      = (processPoint sqrt neighboursMatrix kNeighbours Vpr index s).outputDim ∧
    ∀ y x, y < MAT_YSIZE Vpr →
      x < (processPoint sqrt neighboursMatrix kNeighbours Vpr index s).outputDim →
      MAT_ELEM (processPoint sqrt neighboursMatrix kNeighbours Vpr index s).V y x
        = MAT_ELEM Vpr y x ∧
      y * MAT_XSIZE Vpr + x < (y + 1) * MAT_XSIZE Vpr := by
  have hle : (processPoint sqrt neighboursMatrix kNeighbours Vpr index s).outputDim
      ≤ MAT_XSIZE Vpr := by
    rw [processPoint_outputDim, adaptRank_outputDim]
    exact Nat.min_le_right _ _
  rw [processPoint_V]
  obtain ⟨hx, hy, hR⟩ := copyFirstColumns_spec Vpr (adaptRank Vpr s).V
    (processPoint sqrt neighboursMatrix kNeighbours Vpr index s).outputDim
  refine ⟨hle, hy, hx, fun y x hyr hxd => ⟨hR y x hyr hxd, ?_⟩⟩
  rw [Nat.succ_mul]
  omega

end NoticeClaims

/-- Instance of C12 as the code has it: four points whose factors `Vpr` all have three
columns, requested dimension `1`. -/
theorem notice_at_every_reduction_witness :
    (∀ i, i < 4 → MAT_XSIZE (exampleVpr i) = 3) ∧
    (pointLoop (fun x => x) exampleNeighbours 3 exampleVpr 4 1 4).cout.length ≤ 1 :=
  ⟨fun _ _ => rfl,
    (notice_at_every_reduction (fun x => x) exampleNeighbours 3 exampleVpr 4 1).2.2.2 3
      (fun _ _ => rfl)⟩

/-- C12 as stated fails: with factors `Vpr` of `2, 1, 1` columns and the requested
dimension `3`, the dimension is lowered at the point `0` and again at the point `1`, and
two notices are written. -/
theorem notice_written_twice :
    (pointLoop (fun x => x) pairNeighbours 2 shrinkingVpr 3 3 3).cout = [2, 1] ∧
    ¬ (pointLoop (fun x => x) pairNeighbours 2 shrinkingVpr 3 3 3).cout.length ≤ 1 := by
  have h : (pointLoop (fun x => x) pairNeighbours 2 shrinkingVpr 3 3 3).cout = [2, 1] := by
    rw [pointLoop_cout_succ, pointLoop_cout_succ, pointLoop_cout_succ,
      pointLoop_outputDim_succ, pointLoop_outputDim_succ]
    rfl
  rw [h]
  exact ⟨rfl, by decide⟩

/-- Instance of C13 as the code has it: three points with two neighbours each. -/
theorem two_neighbours_reduce_to_two_witness :
    (0 < 3 ∧ ∀ i, i < 3 → MAT_XSIZE (pairVpr i) = 2) ∧
    (pointLoop (fun x => x) pairNeighbours 2 pairVpr 3 3 3).outputDim = 2 ∧
    (pointLoop (fun x => x) pairNeighbours 2 pairVpr 3 3 3).cout = [2] :=
  ⟨⟨by decide, fun _ _ => rfl⟩,
    two_neighbours_reduce_to_two (fun x => x) pairNeighbours pairVpr 3 (by decide)
      (fun _ _ => rfl)⟩

/-- C13 as stated fails: three points with two neighbours each, factors `Vpr` with two
columns, requested dimension `3`; the dimension after the loop is `2`, which is not at
most `1`. -/
theorem two_neighbours_not_reduced_to_one :
    (∀ i, i < 3 → MAT_XSIZE (pairVpr i) = 2) ∧
    (pointLoop (fun x => x) pairNeighbours 2 pairVpr 3 3 3).outputDim = 2 ∧
    ¬ (pointLoop (fun x => x) pairNeighbours 2 pairVpr 3 3 3).outputDim ≤ 1 := by
  have h := (pointLoop_constant_columns (fun x => x) pairNeighbours 2 pairVpr 3 3 2 2
    (fun _ _ => rfl)).1
  refine ⟨fun _ _ => rfl, h, ?_⟩
  rw [h]
  decide

/-- Instance of C14: the first point of the example run of four points, row `2` and
column `0`. -/
theorem tangent_basis_copy_witness :
    (2 < MAT_YSIZE (exampleVpr 0) ∧
      0 < (processPoint (fun x => x) exampleNeighbours 3 (exampleVpr 0) 0
        (initialState 4 1)).outputDim) ∧
    MAT_ELEM (processPoint (fun x => x) exampleNeighbours 3 (exampleVpr 0) 0
        (initialState 4 1)).V 2 0 = MAT_ELEM (exampleVpr 0) 2 0 ∧
    2 * MAT_XSIZE (exampleVpr 0) + 0 < (2 + 1) * MAT_XSIZE (exampleVpr 0) :=
  ⟨⟨by decide, by decide⟩,
    (tangent_basis_copy (fun x => x) exampleNeighbours 3 (exampleVpr 0) 0
      (initialState 4 1)).2.2.2 2 0 (by decide) (by decide)⟩

/-! ## Orthogonalisation: divisions and orthonormal input -/

/-- C15, as the code has it: `modifiedGramSchmidtOrtogonalization` has no test on the norm
and no failure path; for every matrix it returns a matrix of the same shape, and in the
iteration of every column it divides each entry of the column by the norm of the column,
whatever its value. -/
theorem modifiedGramSchmidt_divides_unguarded {α : Type} [Field α] (sqrt : α → α)
    (matrix : Matrix2D α) :
    (modifiedGramSchmidtLogged sqrt matrix).1
      = modifiedGramSchmidtOrtogonalization sqrt matrix ∧
    MAT_XSIZE (modifiedGramSchmidtOrtogonalization sqrt matrix) = MAT_XSIZE matrix ∧
    MAT_YSIZE (modifiedGramSchmidtOrtogonalization sqrt matrix) = MAT_YSIZE matrix ∧
    (modifiedGramSchmidtLogged sqrt matrix).2 = divisorsUpTo sqrt matrix (MAT_XSIZE matrix) ∧
    ∀ i, i < MAT_XSIZE matrix → 0 < MAT_YSIZE matrix →
      columnModuleAt sqrt matrix i ∈ (modifiedGramSchmidtLogged sqrt matrix).2 := by
  rw [modifiedGramSchmidtLogged_eq]
  exact ⟨rfl, (modifiedGramSchmidt_dims sqrt matrix).1, (modifiedGramSchmidt_dims sqrt matrix).2,
    rfl, fun i hi hm => mem_divisorsUpTo sqrt matrix _ i hi hm⟩

theorem zeroColumn_module : columnModuleAt Real.sqrt zeroColumn 0 = 0 := by
  simp [columnModuleAt, gramSchmidtPrefix, Matrix1D.module, Matrix2D.getCol, forLoop,
    VEC_ELEM, MAT_ELEM, zeroColumn]

/-- Instance of C15 as the code has it: the `2×2` matrix `[[3, 1], [4, 1]]`, column `1`. -/
theorem modifiedGramSchmidt_divides_unguarded_witness :
    (1 < MAT_XSIZE exampleMatrix ∧ 0 < MAT_YSIZE exampleMatrix) ∧
    columnModuleAt Real.sqrt exampleMatrix 1
      ∈ (modifiedGramSchmidtLogged Real.sqrt exampleMatrix).2 :=
  ⟨⟨by decide, by decide⟩,
    (modifiedGramSchmidt_divides_unguarded Real.sqrt exampleMatrix).2.2.2.2 1
      (by decide) (by decide)⟩

/-- C15 as stated fails: on the `1×1` zero matrix the norm of the column at its
normalisation step is `0`, the entry is divided by it all the same (the divisor `0` is
among the divisors used), and a matrix is returned. -/
theorem modifiedGramSchmidt_divides_by_zero :
    columnModuleAt Real.sqrt zeroColumn 0 = 0 ∧
    (0 : ℝ) ∈ (modifiedGramSchmidtLogged Real.sqrt zeroColumn).2 ∧
    (modifiedGramSchmidtLogged Real.sqrt zeroColumn).1
      = modifiedGramSchmidtOrtogonalization Real.sqrt zeroColumn := by
  refine ⟨zeroColumn_module, ?_, ?_⟩
  · rw [modifiedGramSchmidtLogged_eq]
    have := mem_divisorsUpTo Real.sqrt zeroColumn (MAT_XSIZE zeroColumn) 0
      (by decide) (by decide)
    rw [zeroColumn_module] at this
    exact this
  · rw [modifiedGramSchmidtLogged_eq]

theorem sqrt_dot_eq_one {m : Nat} (v : Fin m → ℝ)
    (h : Real.sqrt (Matrix.dotProduct v v) = 1) : Matrix.dotProduct v v = 1 := by
  have hnn : 0 ≤ Matrix.dotProduct v v := by
    unfold Matrix.dotProduct
    exact Finset.sum_nonneg (fun i _ => mul_self_nonneg (v i))
  have := Real.mul_self_sqrt hnn
  rw [h, mul_one] at this
  exact this.symm

/-- C16: for a real matrix whose columns are orthonormal, the columns returned by
`modifiedGramSchmidtOrtogonalization` (exact arithmetic) are the input columns up to sign;
in fact they are the input columns themselves, and a second application returns them
again. -/
theorem modifiedGramSchmidt_idempotent (matrix : Matrix2D ℝ)
    (hnorm : ∀ a, a < MAT_XSIZE matrix → (matrix.getCol a).module Real.sqrt = 1)
    (horth : ∀ a b, a < MAT_XSIZE matrix → b < MAT_XSIZE matrix → a ≠ b →
      dotProduct (matrix.getCol a) (matrix.getCol b) = 0) :
    (∀ c, c < MAT_XSIZE matrix →
      (∀ e, e < MAT_YSIZE matrix →
        MAT_ELEM (modifiedGramSchmidtOrtogonalization Real.sqrt matrix) e c
          = MAT_ELEM matrix e c) ∨
      (∀ e, e < MAT_YSIZE matrix →
        MAT_ELEM (modifiedGramSchmidtOrtogonalization Real.sqrt matrix) e c
          = - MAT_ELEM matrix e c)) ∧
    (∀ c e, c < MAT_XSIZE matrix → e < MAT_YSIZE matrix →
      MAT_ELEM (modifiedGramSchmidtOrtogonalization Real.sqrt matrix) e c
        = MAT_ELEM matrix e c) ∧
    (∀ c e, c < MAT_XSIZE matrix → e < MAT_YSIZE matrix →
      MAT_ELEM (modifiedGramSchmidtOrtogonalization Real.sqrt
          (modifiedGramSchmidtOrtogonalization Real.sqrt matrix)) e c
        = MAT_ELEM (modifiedGramSchmidtOrtogonalization Real.sqrt matrix) e c) := by
  have h1 : ∀ a, a < matrix.mdimx → Matrix.dotProduct (columnVec matrix.mdimy matrix a)
      (columnVec matrix.mdimy matrix a) = 1 := by
    intro a ha
    have := hnorm a ha
    rw [module_getCol Real.sqrt matrix.mdimy matrix rfl] at this
    exact sqrt_dot_eq_one _ this
  have h2 : ∀ a b, a < matrix.mdimx → b < matrix.mdimx → a ≠ b →
      Matrix.dotProduct (columnVec matrix.mdimy matrix a)
        (columnVec matrix.mdimy matrix b) = 0 := by
    intro a b ha hb hab
    have := horth a b ha hb hab
    rw [dotProduct_getCol matrix.mdimy matrix matrix rfl] at this
    exact this
  obtain ⟨qx, qy, qc⟩ := modifiedGramSchmidt_of_orthonormal matrix matrix.mdimx matrix.mdimy
    rfl rfl h1 h2
  obtain ⟨-, -, rc⟩ := modifiedGramSchmidt_of_orthonormal
    (modifiedGramSchmidtOrtogonalization Real.sqrt matrix) matrix.mdimx matrix.mdimy qx qy
    (fun a ha => by rw [qc a ha]; exact h1 a ha)
    (fun a b ha hb hab => by rw [qc a ha, qc b hb]; exact h2 a b ha hb hab)
  have hentry : ∀ c e, c < MAT_XSIZE matrix → e < MAT_YSIZE matrix →
      MAT_ELEM (modifiedGramSchmidtOrtogonalization Real.sqrt matrix) e c
        = MAT_ELEM matrix e c :=
    fun c e hc he => congrFun (qc c hc) ⟨e, he⟩
  exact ⟨fun c hc => Or.inl (fun e he => hentry c e hc he), hentry,
    fun c e hc he => congrFun (rc c hc) ⟨e, he⟩⟩

theorem identityMatrix_norm :
    ∀ a, a < MAT_XSIZE identityMatrix → (identityMatrix.getCol a).module Real.sqrt = 1 := by
  intro a ha
  have ha2 : a < 2 := ha
  interval_cases a <;>
    simp [Matrix1D.module, Matrix2D.getCol, forLoop, VEC_ELEM, MAT_ELEM, identityMatrix]

theorem identityMatrix_orth :
    ∀ a b, a < MAT_XSIZE identityMatrix → b < MAT_XSIZE identityMatrix → a ≠ b →
      dotProduct (identityMatrix.getCol a) (identityMatrix.getCol b) = 0 := by
  intro a b ha hb hab
  have ha2 : a < 2 := ha
  have hb2 : b < 2 := hb
  interval_cases a <;> interval_cases b <;>
    simp [dotProduct, Matrix2D.getCol, forLoop, VEC_ELEM, MAT_ELEM, identityMatrix] at hab ⊢

/-- Instance of C16: the `2×2` identity matrix, column `1`, row `0`. -/
theorem modifiedGramSchmidt_idempotent_witness :
    ((∀ a, a < MAT_XSIZE identityMatrix → (identityMatrix.getCol a).module Real.sqrt = 1) ∧
      (∀ a b, a < MAT_XSIZE identityMatrix → b < MAT_XSIZE identityMatrix → a ≠ b →
        dotProduct (identityMatrix.getCol a) (identityMatrix.getCol b) = 0)) ∧
    MAT_ELEM (modifiedGramSchmidtOrtogonalization Real.sqrt identityMatrix) 0 1
      = MAT_ELEM identityMatrix 0 1 ∧
    MAT_ELEM (modifiedGramSchmidtOrtogonalization Real.sqrt
        (modifiedGramSchmidtOrtogonalization Real.sqrt identityMatrix)) 0 1
      = MAT_ELEM (modifiedGramSchmidtOrtogonalization Real.sqrt identityMatrix) 0 1 :=
  ⟨⟨identityMatrix_norm, identityMatrix_orth⟩,
    (modifiedGramSchmidt_idempotent identityMatrix identityMatrix_norm
      identityMatrix_orth).2.1 1 0 (by decide) (by decide),
    (modifiedGramSchmidt_idempotent identityMatrix identityMatrix_norm
      identityMatrix_orth).2.2 1 0 (by decide) (by decide)⟩

/-! ## After the loop: Gram matrix, embedding, configuration -/

section FinalClaims

variable {α : Type} [LinearOrderedField α]

/-- C17: for a weight matrix `W` with `N` columns, the Gram matrix `G = WᵗW` handed to the
eigensolver is `N×N`, symmetric, and positive semi-definite: `xᵗGx ≥ 0` for every `x`. -/
theorem gram_matrix_symmetric_psd (W : Matrix2D α) (N : Nat) (hN : MAT_XSIZE W = N) :
    MAT_YSIZE (matrixOperation_AtA W) = N ∧ MAT_XSIZE (matrixOperation_AtA W) = N ∧
    (∀ a b, a < N → b < N →
      MAT_ELEM (matrixOperation_AtA W) a b = MAT_ELEM (matrixOperation_AtA W) b a) ∧
    ∀ x : Nat → α, 0 ≤ ∑ a in Finset.range N, ∑ b in Finset.range N,
      x a * MAT_ELEM (matrixOperation_AtA W) a b * x b := by
  have hN2 : W.mdimx = N := hN
  subst hN2
  refine ⟨rfl, rfl, fun a b ha hb => ?_, fun x => ?_⟩
  · rw [matrixOperation_AtA_entry W a b ha hb, matrixOperation_AtA_entry W b a hb ha]
    exact Finset.sum_congr rfl (fun r _ => mul_comm _ _)
  · rw [quadratic_form_AtA]
    exact Finset.sum_nonneg (fun r _ => sq_nonneg _)

theorem fillWeightMatrix_dims (nbm : Matrix2D Nat) (k index dp : Nat) (Pii W : Matrix2D α) :
    (fillWeightMatrix nbm k index dp Pii W).mdimx = W.mdimx ∧
    (fillWeightMatrix nbm k index dp Pii W).mdimy = W.mdimy :=
  assignLoop_dims dp
    (fun j W2 => fillWeightRow nbm k index dp j (normaliseRow (Pii.getRow j)).1 W2) W
    (fun j W2 => assignLoop_dims k
      (fun c W3 => setMAT_ELEM W3 (index * dp + j) (MAT_ELEM nbm index c)
        (VEC_ELEM (normaliseRow (Pii.getRow j)).1 c)) W2 (fun _ _ => ⟨rfl, rfl⟩))

theorem pointLoop_weightMatrix_dims (sqrt : α → α) (nbm : Matrix2D Nat) (k : Nat)
    (svdVpr : Nat → Matrix2D α) (N d t : Nat) :
    (pointLoop sqrt nbm k svdVpr N d t).weightMatrix.mdimx = N ∧
    (pointLoop sqrt nbm k svdVpr N d t).weightMatrix.mdimy = d * (d + 1) / 2 * N := by
  induction t with
  | zero => exact ⟨rfl, rfl⟩
  | succ n ih =>
    rw [pointLoop_succ, processPoint_weightMatrix]
    exact ⟨(fillWeightMatrix_dims nbm k n _ _ _).1.trans ih.1,
      (fillWeightMatrix_dims nbm k n _ _ _).2.trans ih.2⟩

/-- C19, as the code has it: `reduceDimensionality` does not test its configuration and has
no failure path; for every number of points, of neighbours and every requested dimension
it allocates the `(d(d+1)/2·N)×N` weight matrix, runs the loop over all the points and
returns a matrix `Y`, never `InvalidConfiguration`. -/
theorem reduceDimensionality_never_rejects (sqrt : α → α) (neighboursMatrix : Matrix2D Nat)
    (svdVpr : Nat → Matrix2D α) (eigsBetween : Matrix2D α → Nat → Nat → Matrix2D α)
    (N d k : Nat) :
    reduceDimensionality sqrt neighboursMatrix svdVpr eigsBetween N d k
      = Except.ok (pointLoop sqrt neighboursMatrix k svdVpr N d N,
          embedding sqrt eigsBetween N (pointLoop sqrt neighboursMatrix k svdVpr N d N)) ∧
    reduceDimensionality sqrt neighboursMatrix svdVpr eigsBetween N d k
      ≠ Except.error ErrorKind.InvalidConfiguration ∧
    MAT_YSIZE (pointLoop sqrt neighboursMatrix k svdVpr N d N).weightMatrix
      = d * (d + 1) / 2 * N ∧
    MAT_XSIZE (pointLoop sqrt neighboursMatrix k svdVpr N d N).weightMatrix = N := by
  refine ⟨rfl, ?_, (pointLoop_weightMatrix_dims sqrt neighboursMatrix k svdVpr N d N).2,
    (pointLoop_weightMatrix_dims sqrt neighboursMatrix k svdVpr N d N).1⟩
  intro h
  cases h

end FinalClaims

/-- Instance of C17: the `3×3` matrix of the example run. -/
theorem gram_matrix_symmetric_psd_witness :
    MAT_XSIZE (exampleVpr 0) = 3 ∧
    MAT_ELEM (matrixOperation_AtA (exampleVpr 0)) 0 2
      = MAT_ELEM (matrixOperation_AtA (exampleVpr 0)) 2 0 ∧
    0 ≤ ∑ a in Finset.range 3, ∑ b in Finset.range 3,
      (a : ℚ) * MAT_ELEM (matrixOperation_AtA (exampleVpr 0)) a b * (b : ℚ) :=
  ⟨rfl, (gram_matrix_symmetric_psd (exampleVpr 0) 3 rfl).2.2.1 0 2 (by decide) (by decide),
    (gram_matrix_symmetric_psd (exampleVpr 0) 3 rfl).2.2.2 (fun a => (a : ℚ))⟩

/-- C19 as stated fails: with `2` points, `2` neighbours per point (`k ≥ N`) and the
requested dimension `0` (`d ≤ 0`), `reduceDimensionality` does not fail with
`InvalidConfiguration`: it allocates the weight matrix, runs the loop over the points and
returns. -/
theorem reduceDimensionality_accepts_invalid :
    (2 ≥ 2 ∧ 0 ≤ 0) ∧
    reduceDimensionality (fun x => x) pairNeighbours pairVpr halfEigs 2 0 2
      ≠ Except.error ErrorKind.InvalidConfiguration ∧
    reduceDimensionality (fun x => x) pairNeighbours pairVpr halfEigs 2 0 2
      = Except.ok (pointLoop (fun x => x) pairNeighbours 2 pairVpr 2 0 2,
          embedding (fun x => x) halfEigs 2
            (pointLoop (fun x => x) pairNeighbours 2 pairVpr 2 0 2)) ∧
    MAT_XSIZE (pointLoop (fun x => x) pairNeighbours 2 pairVpr 2 0 2).weightMatrix = 2 := by
  refine ⟨⟨le_refl 2, le_refl 0⟩, ?_, rfl,
    (pointLoop_weightMatrix_dims (fun x => x) pairNeighbours 2 pairVpr 2 0 2).1⟩
  intro h
  cases h

/-- C18: the matrix `Y` returned for `N` points has the shape `N×d` of the matrix that
`eigsBetween` leaves for the Gram matrix and the indices `1` to `d` (`d` the dimension
after the loop), every entry is that of the eigenvector matrix times `√N`, and a column of
eigenvector entries of norm one becomes a column of squared norm `N`. -/
theorem embedding_scaled_eigenvectors (neighboursMatrix : Matrix2D Nat)
    (svdVpr : Nat → Matrix2D ℝ) (eigsBetween : Matrix2D ℝ → Nat → Nat → Matrix2D ℝ)
    (N d k : Nat) (s : LoopState ℝ) (E Y : Matrix2D ℝ)
    (hs : s = pointLoop Real.sqrt neighboursMatrix k svdVpr N d N)
    (hE : E = eigsBetween (matrixOperation_AtA s.weightMatrix) 1 s.outputDim)
    (hshape : MAT_YSIZE E = N ∧ MAT_XSIZE E = s.outputDim)
    (hY : reduceDimensionality Real.sqrt neighboursMatrix svdVpr eigsBetween N d k
      = Except.ok (s, Y)) :
    MAT_YSIZE Y = N ∧ MAT_XSIZE Y = s.outputDim ∧
    (∀ i j, i < N → j < s.outputDim → MAT_ELEM Y i j = MAT_ELEM E i j * Real.sqrt N) ∧
    (∀ j, j < s.outputDim → (E.getCol j).module Real.sqrt = 1 →
      dotProduct (Y.getCol j) (Y.getCol j) = N) := by
  have hYdef : Y = scaleEmbedding Real.sqrt N E := by
    have h1 : reduceDimensionality Real.sqrt neighboursMatrix svdVpr eigsBetween N d k
        = Except.ok (s, embedding Real.sqrt eigsBetween N s) := by
      rw [hs]; rfl
    rw [h1] at hY
    have h2 := Except.ok.inj hY
    rw [hE]
    exact (congrArg Prod.snd h2).symm
  obtain ⟨ey, ex⟩ := hshape
  have ey2 : E.mdimy = N := ey
  have ex2 : E.mdimx = s.outputDim := ex
  obtain ⟨sx, sy, sR⟩ := scaleEmbedding_spec Real.sqrt N E
  rw [← hYdef] at sx sy sR
  rw [ey2, ex2] at sR
  refine ⟨sy.trans ey2, sx.trans ex2, sR, fun j hj hunit => ?_⟩
  have hcol : columnVec N Y j = Real.sqrt N • columnVec N E j := by
    funext e
    show MAT_ELEM Y e.val j = Real.sqrt N * MAT_ELEM E e.val j
    rw [sR e.val j e.isLt hj, mul_comm]
  rw [dotProduct_getCol N Y Y (sy.trans ey2), hcol, Matrix.smul_dotProduct,
    Matrix.dotProduct_smul, smul_eq_mul, smul_eq_mul]
  rw [module_getCol Real.sqrt N E ey2] at hunit
  rw [sqrt_dot_eq_one _ hunit, mul_one]
  exact Real.mul_self_sqrt (Nat.cast_nonneg N)

theorem halfEigs_unit :
    ((halfEigs (matrixOperation_AtA
        (pointLoop Real.sqrt exampleNeighbours 3 lineVpr 4 1 4).weightMatrix) 1
        (pointLoop Real.sqrt exampleNeighbours 3 lineVpr 4 1 4).outputDim).getCol 0).module
      Real.sqrt = 1 := by
  simp [Matrix1D.module, Matrix2D.getCol, forLoop, VEC_ELEM, MAT_ELEM, halfEigs]
  norm_num

theorem lineRun_outputDim :
    (pointLoop Real.sqrt exampleNeighbours 3 lineVpr 4 1 4).outputDim = 1 :=
  (pointLoop_constant_columns Real.sqrt exampleNeighbours 3 lineVpr 4 1 1 3
    (fun _ _ => rfl)).1

/-- Instance of C18: the run of four points on a line with three neighbours each, `d = 1`,
and an eigensolver stand-in that returns the `4×1` matrix of entries `1/2`. -/
theorem embedding_scaled_eigenvectors_witness :
    (MAT_YSIZE (halfEigs (matrixOperation_AtA
        (pointLoop Real.sqrt exampleNeighbours 3 lineVpr 4 1 4).weightMatrix) 1
        (pointLoop Real.sqrt exampleNeighbours 3 lineVpr 4 1 4).outputDim) = 4 ∧
      MAT_XSIZE (halfEigs (matrixOperation_AtA
        (pointLoop Real.sqrt exampleNeighbours 3 lineVpr 4 1 4).weightMatrix) 1
        (pointLoop Real.sqrt exampleNeighbours 3 lineVpr 4 1 4).outputDim)
        = (pointLoop Real.sqrt exampleNeighbours 3 lineVpr 4 1 4).outputDim) ∧
    MAT_ELEM (embedding Real.sqrt halfEigs 4
        (pointLoop Real.sqrt exampleNeighbours 3 lineVpr 4 1 4)) 2 0
      = MAT_ELEM (halfEigs (matrixOperation_AtA
          (pointLoop Real.sqrt exampleNeighbours 3 lineVpr 4 1 4).weightMatrix) 1
          (pointLoop Real.sqrt exampleNeighbours 3 lineVpr 4 1 4).outputDim) 2 0
        * Real.sqrt (4 : Nat) ∧
    dotProduct ((embedding Real.sqrt halfEigs 4
        (pointLoop Real.sqrt exampleNeighbours 3 lineVpr 4 1 4)).getCol 0)
      ((embedding Real.sqrt halfEigs 4
        (pointLoop Real.sqrt exampleNeighbours 3 lineVpr 4 1 4)).getCol 0) = (4 : Nat) :=
  have hshape : MAT_YSIZE (halfEigs (matrixOperation_AtA
        (pointLoop Real.sqrt exampleNeighbours 3 lineVpr 4 1 4).weightMatrix) 1
        (pointLoop Real.sqrt exampleNeighbours 3 lineVpr 4 1 4).outputDim) = 4 ∧
      MAT_XSIZE (halfEigs (matrixOperation_AtA
        (pointLoop Real.sqrt exampleNeighbours 3 lineVpr 4 1 4).weightMatrix) 1
        (pointLoop Real.sqrt exampleNeighbours 3 lineVpr 4 1 4).outputDim)
        = (pointLoop Real.sqrt exampleNeighbours 3 lineVpr 4 1 4).outputDim :=
    ⟨rfl, lineRun_outputDim.symm⟩
  ⟨hshape,
    (embedding_scaled_eigenvectors exampleNeighbours lineVpr halfEigs 4 1 3 _ _ _ rfl rfl
      hshape rfl).2.2.1 2 0 (by decide) (by rw [lineRun_outputDim]; decide),
    (embedding_scaled_eigenvectors exampleNeighbours lineVpr halfEigs 4 1 3 _ _ _ rfl rfl
      hshape rfl).2.2.2 0 (by rw [lineRun_outputDim]; decide) halfEigs_unit⟩

/-! ## Sign changes of the tangent bases and the Gram matrix -/

/-- Sign changes of the tangent bases leave the Gram matrix unchanged when the row blocks
of the weight matrix are aligned.  Take two runs with the same neighbour table, whose
indices are distinct and smaller than `N`, in which the dimension is not lowered, every
factor `Vpr` has at least `k` rows and every combined basis `Yt` has independent columns.
If for every point the factor `Vpr` of the second run is that of the first with some of its
first `d` columns negated, then the two Gram matrices `G = WᵗW` are equal, the dimensions
after the loop are equal, and so are the matrices `Y` obtained from the same eigensolver. -/
theorem gram_matrix_sign_invariant (neighboursMatrix : Matrix2D Nat) (kNeighbours : Nat)
    (svdVpr svdVprB : Nat → Matrix2D ℝ)
    (eigsBetween : Matrix2D ℝ → Nat → Nat → Matrix2D ℝ) (N d : Nat)
    (hd : ∀ i, i < N → ¬ MAT_XSIZE (svdVpr i) < d)
    (hk : ∀ i, i < N → kNeighbours ≤ MAT_YSIZE (svdVpr i))
    (hlt : ∀ i, i < N → ∀ c, c < kNeighbours → MAT_ELEM neighboursMatrix i c < N)
    (hinj : ∀ i, i < N → ∀ c, c < kNeighbours → ∀ c2, c2 < kNeighbours →
      MAT_ELEM neighboursMatrix i c = MAT_ELEM neighboursMatrix i c2 → c = c2)
    (hli : ∀ i, i < N → ColumnsIndependent (localBasis (svdVpr i) d))
    (hflip : ∀ i, i < N → SignFlipped d (svdVpr i) (svdVprB i)) :
    matrixOperation_AtA
        (pointLoop Real.sqrt neighboursMatrix kNeighbours svdVprB N d N).weightMatrix
      = matrixOperation_AtA
        (pointLoop Real.sqrt neighboursMatrix kNeighbours svdVpr N d N).weightMatrix ∧
    (pointLoop Real.sqrt neighboursMatrix kNeighbours svdVprB N d N).outputDim
      = (pointLoop Real.sqrt neighboursMatrix kNeighbours svdVpr N d N).outputDim ∧
    embedding Real.sqrt eigsBetween N
        (pointLoop Real.sqrt neighboursMatrix kNeighbours svdVprB N d N)
      = embedding Real.sqrt eigsBetween N
        (pointLoop Real.sqrt neighboursMatrix kNeighbours svdVpr N d N) := by
  have hsigns : ∀ i, i < N → ∃ sg : Nat → ℝ,
      (∀ c, c < 1 + d + ctAt d d → sg c * sg c = 1) ∧
      ∀ c, c < 1 + d + ctAt d d →
        columnVec (svdVpr i).mdimy (localBasis (svdVprB i) d) c
          = sg c • columnVec (svdVpr i).mdimy (localBasis (svdVpr i) d) c :=
    fun i hi => localBasis_flipped (svdVpr i) (svdVprB i) d (hflip i hi)
  choose! sg hsg using hsigns
  have hlt2 : ∀ i c, i < N → c < kNeighbours → MAT_ELEM neighboursMatrix i c < N :=
    fun i c hi hc => hlt i hi c hc
  have hinj2 : ∀ i c c2, i < N → c < kNeighbours → c2 < kNeighbours →
      MAT_ELEM neighboursMatrix i c = MAT_ELEM neighboursMatrix i c2 → c = c2 :=
    fun i c c2 hi hc hc2 => hinj i hi c hc c2 hc2
  have hdims : ∀ i, i < N → MAT_YSIZE (svdVprB i) = MAT_YSIZE (svdVpr i) ∧
      MAT_XSIZE (svdVprB i) = MAT_XSIZE (svdVpr i) :=
    fun i hi => ⟨(hflip i hi).1, (hflip i hi).2.1⟩
  have hW := pointLoop_weights_signed neighboursMatrix kNeighbours svdVpr svdVprB N d N hd hk
    hlt2 hinj2 hli hdims sg (fun i hi => (hsg i hi).1) (fun i hi => (hsg i hi).2)
  obtain ⟨ax, ay⟩ := pointLoop_weightMatrix_dims Real.sqrt neighboursMatrix kNeighbours
    svdVpr N d N
  obtain ⟨bx, by1⟩ := pointLoop_weightMatrix_dims Real.sqrt neighboursMatrix kNeighbours
    svdVprB N d N
  have hG : matrixOperation_AtA
        (pointLoop Real.sqrt neighboursMatrix kNeighbours svdVprB N d N).weightMatrix
      = matrixOperation_AtA
        (pointLoop Real.sqrt neighboursMatrix kNeighbours svdVpr N d N).weightMatrix := by
    refine matrixOperation_AtA_congr _ _ (bx.trans ax.symm) (by1.trans ay.symm) ?_
    intro row hrow a b ha hb
    rw [ay] at hrow
    rw [ax] at ha hb
    have hDpos : 0 < d * (d + 1) / 2 := by
      rcases Nat.eq_zero_or_pos (d * (d + 1) / 2) with h | h
      · rw [h, Nat.zero_mul] at hrow; omega
      · exact h
    obtain ⟨i, r, hi, hr, rfl⟩ : ∃ i r, i < N ∧ r < d * (d + 1) / 2 ∧
        row = i * (d * (d + 1) / 2) + r :=
      ⟨row / (d * (d + 1) / 2), row % (d * (d + 1) / 2), Nat.div_lt_of_lt_mul hrow,
        Nat.mod_lt _ hDpos, (Nat.div_add_mod' row _).symm⟩
    rw [hW i r a hi hr ha, hW i r b hi hr hb]
    have hone := (hsg i hi).1 (d + 1 + r) (by rw [ctAt_self]; omega)
    generalize MAT_ELEM (pointLoop Real.sqrt neighboursMatrix kNeighbours svdVpr N d
      N).weightMatrix (i * (d * (d + 1) / 2) + r) a = wa
    generalize MAT_ELEM (pointLoop Real.sqrt neighboursMatrix kNeighbours svdVpr N d
      N).weightMatrix (i * (d * (d + 1) / 2) + r) b = wb
    generalize sg i (d + 1 + r) = t at hone
    linear_combination (wa * wb) * hone
  have hdimA := (pointLoop_weights_upTo Real.sqrt neighboursMatrix kNeighbours svdVpr N d N
    hd hlt2 hinj2).1
  have hdimB := (pointLoop_weights_upTo Real.sqrt neighboursMatrix kNeighbours svdVprB N d N
    (fun i hi => by rw [(hdims i hi).2]; exact hd i hi) hlt2 hinj2).1
  refine ⟨hG, hdimB.trans hdimA.symm, ?_⟩
  unfold embedding
  rw [hG, hdimB, hdimA]

/-- Fourteen points with six neighbours each, the requested dimension `2`, the factor
`planeTangent` for every point in the first run and `planeTangentFlipped`, its first column
negated, in the second: the Gram matrices are equal. -/
theorem gram_matrix_sign_invariant_instance :
    SignFlipped 2 planeTangent planeTangentFlipped ∧
    ColumnsIndependent (localBasis planeTangent 2) ∧
    matrixOperation_AtA
        (pointLoop Real.sqrt lateNeighbours 6 (fun _ => planeTangentFlipped) 14 2
          14).weightMatrix
      = matrixOperation_AtA
        (pointLoop Real.sqrt lateNeighbours 6 (fun _ => planeTangent) 14 2 14).weightMatrix :=
  ⟨planeTangent_flipped, planeBasis_independent,
    (gram_matrix_sign_invariant lateNeighbours 6 (fun _ => planeTangent)
      (fun _ => planeTangentFlipped) (fun G _ _ => G) 14 2
      (fun _ _ => (by decide : ¬ MAT_XSIZE planeTangent < 2))
      (fun _ _ => Nat.le_refl 6)
      (fun i hi c hc => lateNeighbours_lt i c hi hc)
      (fun i hi c hc c2 hc2 h => lateNeighbours_inj i c c2 hi hc hc2 h)
      (fun _ _ => planeBasis_independent)
      (fun _ _ => planeTangent_flipped)).1⟩

/-- Outside the hypothesis of one number of columns for all the factors the Gram matrix can
depend on the signs.  Take fourteen points with six neighbours each and the requested
dimension `2`, and let the factors of the points `0..12` have two columns and the factor of
the point `13` only one, which an SVD handed matrices of one shape does not return.  Then
the rows of the point `13` are written with the block size `1` into the row
`13 = 4*3 + 1`, which holds a row of the point `4`.  The second run has the same neighbour
table and the same factors with the first column of every two-column factor negated, and
its Gram matrix `WᵗW` is another one. -/
theorem gram_matrix_changes_after_late_reduction :
    (∀ i, i < 14 → SignFlipped (MAT_XSIZE (lateVpr i)) (lateVpr i) (lateVprFlipped i)) ∧
    matrixOperation_AtA
        (pointLoop Real.sqrt lateNeighbours 6 lateVprFlipped 14 2 14).weightMatrix
      ≠ matrixOperation_AtA
        (pointLoop Real.sqrt lateNeighbours 6 lateVpr 14 2 14).weightMatrix := by
  refine ⟨fun i hi => ?_, fun hG => ?_⟩
  · by_cases h : i < 13
    · rw [lateVpr_of_lt i h, lateVprFlipped_of_lt i h]
      refine ⟨rfl, rfl, fun x hx => ?_⟩
      have hx2 : x < 2 := hx
      interval_cases x
      · exact ⟨-1, Or.inr rfl, fun y hy => (planeTangentFlipped_entries y hy).1⟩
      · exact ⟨1, Or.inl rfl, fun y hy => (planeTangentFlipped_entries y hy).2⟩
    · have h13 : i = 13 := by omega
      subst h13
      rw [lateVpr_last, lateVprFlipped_last]
      exact ⟨rfl, rfl, fun x _ => ⟨1, Or.inl rfl, fun y _ => (one_mul _).symm⟩⟩
  · obtain ⟨-, -, ax, ay, aw, af, c2, hc2, hu⟩ :=
      lateRun_last_step lateVpr lateVpr_columns lateVpr_last
    obtain ⟨-, -, bx, by1, bw, bf, -⟩ :=
      lateRun_last_step lateVprFlipped lateVprFlipped_columns lateVprFlipped_last
    obtain ⟨e, he, hp⟩ := lateRun_first_rows.1 4 1 (by decide) (by decide)
    have ha : MAT_ELEM lateNeighbours 4 e < 14 := lateNeighbours_lt 4 e (by decide) he
    have hb : MAT_ELEM lateNeighbours 13 c2 < 14 := lateNeighbours_lt 13 c2 (by decide) hc2
    have hdis : ∀ c, c < 6 → MAT_ELEM lateNeighbours 13 c ≠ MAT_ELEM lateNeighbours 4 e :=
      fun c hc => lateNeighbours_disjoint e c he hc
    have hrow : 4 * 3 + 1 = 13 := by decide
    have hsB := lateRun_signed 4 1 (MAT_ELEM lateNeighbours 4 e) (by decide) (by decide) ha
    rw [hrow] at hp hsB
    have hsign : planeSign (3 + 1) = -1 := by simp [planeSign]
    rw [hsign] at hsB
    have gA := matrixOperation_AtA_entry
      (pointLoop Real.sqrt lateNeighbours 6 lateVpr 14 2 14).weightMatrix
      (MAT_ELEM lateNeighbours 4 e) (MAT_ELEM lateNeighbours 13 c2)
      (by rw [ax]; exact ha) (by rw [ax]; exact hb)
    have gB := matrixOperation_AtA_entry
      (pointLoop Real.sqrt lateNeighbours 6 lateVprFlipped 14 2 14).weightMatrix
      (MAT_ELEM lateNeighbours 4 e) (MAT_ELEM lateNeighbours 13 c2)
      (by rw [bx]; exact ha) (by rw [bx]; exact hb)
    rw [hG, gA, by1] at gB
    rw [ay] at gB
    have hsub : ∑ r in Finset.range 42,
        (MAT_ELEM (pointLoop Real.sqrt lateNeighbours 6 lateVprFlipped 14 2 14).weightMatrix r
            (MAT_ELEM lateNeighbours 4 e)
          * MAT_ELEM (pointLoop Real.sqrt lateNeighbours 6 lateVprFlipped 14 2 14).weightMatrix r
            (MAT_ELEM lateNeighbours 13 c2)
        - MAT_ELEM (pointLoop Real.sqrt lateNeighbours 6 lateVpr 14 2 14).weightMatrix r
            (MAT_ELEM lateNeighbours 4 e)
          * MAT_ELEM (pointLoop Real.sqrt lateNeighbours 6 lateVpr 14 2 14).weightMatrix r
            (MAT_ELEM lateNeighbours 13 c2)) = 0 := by
      rw [Finset.sum_sub_distrib, gB, sub_self]
    rw [Finset.sum_eq_single 13
      (fun r hr hne => by
        rw [lateRun_other_rows r _ _ (Finset.mem_range.mp hr) hne ha hb, sub_self])
      (fun h => absurd (Finset.mem_range.mpr (by decide)) h)] at hsub
    rw [af 13 _ ha (Or.inr hdis), bf 13 _ ha (Or.inr hdis), aw c2 hc2, bw c2 hc2,
      lateRun_last_rows c2 hc2, hsB] at hsub
    have hzero : MAT_ELEM (pointLoop Real.sqrt lateNeighbours 6 lateVpr 14 2 13).weightMatrix
        13 (MAT_ELEM lateNeighbours 4 e)
        * MAT_ELEM (pointLoop Real.sqrt lateNeighbours 6 lateVpr 14 2 14).Pii 0 c2 = 0 := by
      linarith
    exact mul_ne_zero hp hu hzero

/-! ## The row blocks of the weight matrix after a late reduction -/

/-- Outside the hypothesis of one number of columns for all the factors the row blocks are
not aligned.  Take fourteen points with six neighbours each and the requested dimension
`2`, and let the factors of the points `0..12` have two columns and the factor of the point
`13` only one, which an SVD handed matrices of one shape does not return.  The point `4` is
processed with `dp = 3` and writes its rows `12, 13, 14`.  When the loop is over, `d = 1`
and `dp = 1`, the weight matrix still has its `3 * 14 = 42` rows, the row `13` (the block of
the point `13` for the final block size) still holds a weight of the point `4` that is not
zero, in a column that is not a neighbour of the point `13`, and a weight of the point `12`
that is not zero sits in the row `36 = 12*3`, beyond the `14` rows that the final block size
accounts for. -/
theorem weights_misaligned_after_late_reduction :
    (pointLoop Real.sqrt lateNeighbours 6 lateVpr 14 2 14).outputDim = 1 ∧
    (pointLoop Real.sqrt lateNeighbours 6 lateVpr 14 2 14).dp = 1 ∧
    (pointLoop Real.sqrt lateNeighbours 6 lateVpr 14 2 14).weightMatrix.mdimy = 42 ∧
    (pointLoop Real.sqrt lateNeighbours 6 lateVpr 14 2 5).dp = 3 ∧
    (∃ e, e < 6 ∧
      (∀ c, c < 6 → MAT_ELEM lateNeighbours 13 c ≠ MAT_ELEM lateNeighbours 4 e) ∧
      MAT_ELEM (pointLoop Real.sqrt lateNeighbours 6 lateVpr 14 2 14).weightMatrix 13
          (MAT_ELEM lateNeighbours 4 e)
        = MAT_ELEM (pointLoop Real.sqrt lateNeighbours 6 lateVpr 14 2 5).weightMatrix
          (4 * 3 + 1) (MAT_ELEM lateNeighbours 4 e) ∧
      MAT_ELEM (pointLoop Real.sqrt lateNeighbours 6 lateVpr 14 2 14).weightMatrix 13
          (MAT_ELEM lateNeighbours 4 e) ≠ 0) ∧
    (∃ e, e < 6 ∧
      MAT_ELEM (pointLoop Real.sqrt lateNeighbours 6 lateVpr 14 2 14).weightMatrix 36
        (MAT_ELEM lateNeighbours 12 e) ≠ 0) := by
  have h3 : 2 * (2 + 1) / 2 = 3 := by decide
  have hnr : ∀ j, j < 13 → ¬ MAT_XSIZE (lateVpr j) < 2 :=
    fun j hj => by rw [lateVpr_columns j hj]; decide
  obtain ⟨d1, dp1, -, ay, -, af, -⟩ := lateRun_last_step lateVpr lateVpr_columns lateVpr_last
  obtain ⟨-, -, -, -, a5, -⟩ := pointLoop_weights_upTo Real.sqrt lateNeighbours 6 lateVpr
    14 2 13 hnr (fun j c hj hc => lateNeighbours_lt j c (by omega) hc)
    (fun j c c2 hj hc hc2 => lateNeighbours_inj j c c2 (by omega) hc hc2)
  obtain ⟨-, b2, -, -, b5, -⟩ := pointLoop_weights_upTo Real.sqrt lateNeighbours 6 lateVpr
    14 2 5 (fun j hj => hnr j (by omega))
    (fun j c hj hc => lateNeighbours_lt j c (by omega) hc)
    (fun j c c2 hj hc hc2 => lateNeighbours_inj j c c2 (by omega) hc hc2)
  rw [h3] at a5 b5 b2
  obtain ⟨e, he, hp⟩ := lateRun_first_rows.1 4 1 (by decide) (by decide)
  obtain ⟨e2, he2, hp2⟩ := lateRun_first_rows.1 12 0 (by decide) (by decide)
  have hdis : ∀ c, c < 6 → MAT_ELEM lateNeighbours 13 c ≠ MAT_ELEM lateNeighbours 4 e :=
    fun c hc => lateNeighbours_disjoint e c he hc
  have ha : MAT_ELEM lateNeighbours 4 e < 14 := lateNeighbours_lt 4 e (by decide) he
  have ha2 : MAT_ELEM lateNeighbours 12 e2 < 14 := lateNeighbours_lt 12 e2 (by decide) he2
  have hrow : 4 * 3 + 1 = 13 := by decide
  have hrow2 : 12 * 3 + 0 = 36 := by decide
  have hfin := af 13 _ ha (Or.inr hdis)
  have hfin2 := af 36 _ ha2 (Or.inl (by decide))
  refine ⟨d1, dp1, ay, b2, ⟨e, he, hdis, ?_, ?_⟩, ⟨e2, he2, ?_⟩⟩
  · rw [hfin, b5 4 1 e (by decide) (by decide) he, ← hrow,
      a5 4 1 e (by decide) (by decide) he]
  · rw [hfin, ← hrow]
    exact hp
  · rw [hfin2, ← hrow2]
    exact hp2

/-! ## The record of the writes into the weight matrix -/

/-- The logged loop over the neighbours writes what `fillWeightRow` writes, and records the
cells `(index*dp + j, neighbour)`. -/
theorem fillWeightRowLogged_spec {α : Type} (nbm : Matrix2D Nat) (u index dp j : Nat)
    (vector : Matrix1D α) (st : Matrix2D α × List (Nat × Nat)) :
    (fillWeightRowLogged nbm u index dp j vector st).1
      = fillWeightRow nbm u index dp j vector st.1 ∧
    ∀ w, w ∈ (fillWeightRowLogged nbm u index dp j vector st).2 ↔
      (w ∈ st.2 ∨ ∃ c, c < u ∧ w = (index * dp + j, MAT_ELEM nbm index c)) := by
  induction u with
  | zero => exact ⟨rfl, fun w => ⟨fun h => Or.inl h, fun h => h.elim id
      (fun ⟨c, hc, _⟩ => absurd hc (Nat.not_lt_zero c))⟩⟩
  | succ n ih =>
    obtain ⟨i1, i2⟩ := ih
    have hstep : fillWeightRowLogged nbm (n + 1) index dp j vector st
        = (setMAT_ELEM (fillWeightRowLogged nbm n index dp j vector st).1 (index * dp + j)
            (MAT_ELEM nbm index n) (VEC_ELEM vector n),
          (fillWeightRowLogged nbm n index dp j vector st).2
            ++ [(index * dp + j, MAT_ELEM nbm index n)]) := rfl
    rw [hstep]
    refine ⟨?_, fun w => ?_⟩
    · show setMAT_ELEM (fillWeightRowLogged nbm n index dp j vector st).1 _ _ _ = _
      rw [i1]
      rfl
    · show w ∈ (fillWeightRowLogged nbm n index dp j vector st).2
          ++ [(index * dp + j, MAT_ELEM nbm index n)] ↔ _
      rw [List.mem_append, i2 w, List.mem_singleton]
      constructor
      · rintro ((h | ⟨c, hc, h⟩) | h)
        · exact Or.inl h
        · exact Or.inr ⟨c, by omega, h⟩
        · exact Or.inr ⟨n, by omega, h⟩
      · rintro (h | ⟨c, hc, h⟩)
        · exact Or.inl (Or.inl h)
        · rcases Nat.lt_succ_iff_lt_or_eq.mp hc with hlt | heq
          · exact Or.inl (Or.inr ⟨c, hlt, h⟩)
          · subst heq
            exact Or.inr h

section WriteLemmas

variable {α : Type} [LinearOrderedField α]

/-- The logged loops of a point write what `fillWeightMatrix` writes, and record the cells
`(index*dp + j, neighbour)` for `j < dp`. -/
theorem fillWeightMatrixLogged_spec (nbm : Matrix2D Nat) (k index dp : Nat) (Pii : Matrix2D α)
    (st : Matrix2D α × List (Nat × Nat)) (t : Nat) :
    (forLoop t (fun j acc => fillWeightRowLogged nbm k index dp j
        (normaliseRow (Pii.getRow j)).1 acc) st).1
      = forLoop t (fun j W2 => fillWeightRow nbm k index dp j
        (normaliseRow (Pii.getRow j)).1 W2) st.1 ∧
    ∀ w, w ∈ (forLoop t (fun j acc => fillWeightRowLogged nbm k index dp j
        (normaliseRow (Pii.getRow j)).1 acc) st).2 ↔
      (w ∈ st.2 ∨ ∃ j c, j < t ∧ c < k ∧ w = (index * dp + j, MAT_ELEM nbm index c)) := by
  induction t with
  | zero => exact ⟨rfl, fun w => ⟨fun h => Or.inl h, fun h => h.elim id
      (fun ⟨j, _, hj, _⟩ => absurd hj (Nat.not_lt_zero j))⟩⟩
  | succ n ih =>
    obtain ⟨i1, i2⟩ := ih
    rw [forLoop_succ, forLoop_succ]
    obtain ⟨r1, r2⟩ := fillWeightRowLogged_spec nbm k index dp n
      (normaliseRow (Pii.getRow n)).1
      (forLoop n (fun j acc => fillWeightRowLogged nbm k index dp j
        (normaliseRow (Pii.getRow j)).1 acc) st)
    refine ⟨by rw [r1, i1], fun w => ?_⟩
    rw [r2 w, i2 w]
    constructor
    · rintro ((h | ⟨j, c, hj, hc, h⟩) | ⟨c, hc, h⟩)
      · exact Or.inl h
      · exact Or.inr ⟨j, c, by omega, hc, h⟩
      · exact Or.inr ⟨n, c, by omega, hc, h⟩
    · rintro (h | ⟨j, c, hj, hc, h⟩)
      · exact Or.inl (Or.inl h)
      · rcases Nat.lt_succ_iff_lt_or_eq.mp hj with hlt | heq
        · exact Or.inl (Or.inr ⟨j, c, hlt, hc, h⟩)
        · subst heq
          exact Or.inr ⟨c, hc, h⟩

/-- The dimension never exceeds the requested one, and `dp` is the number of pairs. -/
theorem pointLoop_outputDim_le (sqrt : α → α) (nbm : Matrix2D Nat) (k : Nat)
    (svdVpr : Nat → Matrix2D α) (N d t : Nat) :
    (pointLoop sqrt nbm k svdVpr N d t).outputDim ≤ d ∧
    (pointLoop sqrt nbm k svdVpr N d t).dp
      = (pointLoop sqrt nbm k svdVpr N d t).outputDim
          * ((pointLoop sqrt nbm k svdVpr N d t).outputDim + 1) / 2 ∧
    (pointLoop sqrt nbm k svdVpr N d t).dp ≤ d * (d + 1) / 2 := by
  have hle : (pointLoop sqrt nbm k svdVpr N d t).outputDim ≤ d := by
    induction t with
    | zero => exact Nat.le_refl d
    | succ n ih =>
      rw [pointLoop_succ, processPoint_outputDim, adaptRank_outputDim]
      exact le_trans (Nat.min_le_left _ _) ih
  have hdp := (pointLoop_dims sqrt nbm k svdVpr N d t).2
  refine ⟨hle, hdp, ?_⟩
  rw [hdp]
  exact Nat.div_le_div_right (Nat.mul_le_mul hle (Nat.succ_le_succ hle))

/-- The cells recorded for a run: each is a cell `(index*dp + j, neighbour)` of a point
`index`, for the value of `dp` after the rank-adaptation step of that point. -/
theorem mem_pointLoopWrites (sqrt : α → α) (nbm : Matrix2D Nat) (k : Nat)
    (svdVpr : Nat → Matrix2D α) (N d t : Nat) (w : Nat × Nat) :
    w ∈ pointLoopWrites sqrt nbm k svdVpr N d t ↔
      ∃ index j c, index < t ∧ j < (pointLoop sqrt nbm k svdVpr N d (index + 1)).dp ∧ c < k ∧
        w = (index * (pointLoop sqrt nbm k svdVpr N d (index + 1)).dp + j,
          MAT_ELEM nbm index c) := by
  induction t with
  | zero =>
    exact ⟨fun h => absurd h (List.not_mem_nil w),
      fun ⟨index, _, _, hi, _⟩ => absurd hi (Nat.not_lt_zero index)⟩
  | succ n ih =>
    have hdef : pointLoopWrites sqrt nbm k svdVpr N d (n + 1)
        = (forLoop (pointLoop sqrt nbm k svdVpr N d (n + 1)).dp
            (fun j acc => fillWeightRowLogged nbm k n
              (pointLoop sqrt nbm k svdVpr N d (n + 1)).dp j
              (normaliseRow ((pointLoop sqrt nbm k svdVpr N d (n + 1)).Pii.getRow j)).1 acc)
            ((pointLoop sqrt nbm k svdVpr N d n).weightMatrix,
              pointLoopWrites sqrt nbm k svdVpr N d n)).2 := rfl
    rw [hdef, (fillWeightMatrixLogged_spec nbm k n _ _ _ _).2 w]
    show (w ∈ pointLoopWrites sqrt nbm k svdVpr N d n ∨ _) ↔ _
    rw [ih]
    constructor
    · rintro (⟨index, j, c, hi, hj, hc, h⟩ | ⟨j, c, hj, hc, h⟩)
      · exact ⟨index, j, c, by omega, hj, hc, h⟩
      · exact ⟨n, j, c, by omega, hj, hc, h⟩
    · rintro ⟨index, j, c, hi, hj, hc, h⟩
      rcases Nat.lt_succ_iff_lt_or_eq.mp hi with hlt | heq
      · exact Or.inl ⟨index, j, c, hlt, hj, hc, h⟩
      · subst heq
        exact Or.inr ⟨j, c, hj, hc, h⟩

end WriteLemmas

/-! ## Bounds of the writes into the weight matrix -/

/-- C27: in a run with `N` points, the requested dimension `d0` and neighbour indices
smaller than `N`, the weight matrix keeps the `(d0(d0+1)/2·N) × N` cells it is allocated
with, the value of `dp` never exceeds `d0(d0+1)/2`, and every write of the run goes to a
cell `(index*dp + j, neighbour)` with `index < N` and `j < dp`, whose row is smaller than
`d0(d0+1)/2·N` and whose column is smaller than `N`: its offset lies inside the storage,
also when the dimension has been lowered.  The record of the writes is kept by the loops of
`fillWeightMatrix` themselves. -/
theorem weight_writes_in_bounds {α : Type} [LinearOrderedField α] (sqrt : α → α)
    (neighboursMatrix : Matrix2D Nat) (kNeighbours : Nat) (svdVpr : Nat → Matrix2D α)
    (N d0 : Nat)
    (hlt : ∀ i, i < N → ∀ c, c < kNeighbours → MAT_ELEM neighboursMatrix i c < N) :
    (∀ t, MAT_YSIZE (pointLoop sqrt neighboursMatrix kNeighbours svdVpr N d0 t).weightMatrix
        = d0 * (d0 + 1) / 2 * N ∧
      MAT_XSIZE (pointLoop sqrt neighboursMatrix kNeighbours svdVpr N d0 t).weightMatrix = N ∧
      (pointLoop sqrt neighboursMatrix kNeighbours svdVpr N d0 t).dp ≤ d0 * (d0 + 1) / 2) ∧
    (∀ index dp (Pii W : Matrix2D α) (log : List (Nat × Nat)),
      (fillWeightMatrixLogged neighboursMatrix kNeighbours index dp Pii (W, log)).1
        = fillWeightMatrix neighboursMatrix kNeighbours index dp Pii W) ∧
    ∀ w, w ∈ pointLoopWrites sqrt neighboursMatrix kNeighbours svdVpr N d0 N →
      (∃ index j c, index < N ∧
        j < (pointLoop sqrt neighboursMatrix kNeighbours svdVpr N d0 (index + 1)).dp ∧
        c < kNeighbours ∧
        w = (index * (pointLoop sqrt neighboursMatrix kNeighbours svdVpr N d0 (index + 1)).dp
              + j, MAT_ELEM neighboursMatrix index c)) ∧
      w.1 < d0 * (d0 + 1) / 2 * N ∧ w.2 < N ∧
      w.1 * N + w.2 < d0 * (d0 + 1) / 2 * N * N := by
  refine ⟨fun t => ⟨(pointLoop_weightMatrix_dims sqrt neighboursMatrix kNeighbours svdVpr N
      d0 t).2, (pointLoop_weightMatrix_dims sqrt neighboursMatrix kNeighbours svdVpr N d0 t).1,
      (pointLoop_outputDim_le sqrt neighboursMatrix kNeighbours svdVpr N d0 t).2.2⟩,
    fun index dp Pii W log =>
      (fillWeightMatrixLogged_spec neighboursMatrix kNeighbours index dp Pii (W, log) dp).1,
    fun w hw => ?_⟩
  obtain ⟨index, j, c, hi, hj, hc, rfl⟩ :=
    (mem_pointLoopWrites sqrt neighboursMatrix kNeighbours svdVpr N d0 N w).mp hw
  have hdp := (pointLoop_outputDim_le sqrt neighboursMatrix kNeighbours svdVpr N d0
    (index + 1)).2.2
  have hrow : index * (pointLoop sqrt neighboursMatrix kNeighbours svdVpr N d0 (index + 1)).dp
      + j < d0 * (d0 + 1) / 2 * N := by
    have h1 := row_offset_lt (show index < index + 1 by omega) hj
    have h2 : (index + 1)
        * (pointLoop sqrt neighboursMatrix kNeighbours svdVpr N d0 (index + 1)).dp
        ≤ N * (d0 * (d0 + 1) / 2) := Nat.mul_le_mul hi hdp
    rw [Nat.mul_comm (d0 * (d0 + 1) / 2) N]
    exact lt_of_lt_of_le h1 h2
  have hcol : MAT_ELEM neighboursMatrix index c < N := hlt index hi c hc
  exact ⟨⟨index, j, c, hi, hj, hc, rfl⟩, hrow, hcol, row_offset_lt hrow hcol⟩

/-- Instance of C27: the run of fourteen points in which the dimension is lowered from `2`
to `1` at the last point. -/
theorem weight_writes_in_bounds_witness :
    (∀ i, i < 14 → ∀ c, c < 6 → MAT_ELEM lateNeighbours i c < 14) ∧
    ∀ w, w ∈ pointLoopWrites Real.sqrt lateNeighbours 6 lateVpr 14 2 14 →
      w.1 < 2 * (2 + 1) / 2 * 14 ∧ w.2 < 14 :=
  ⟨fun i hi c hc => lateNeighbours_lt i c hi hc,
    fun w hw => ⟨((weight_writes_in_bounds Real.sqrt lateNeighbours 6 lateVpr 14 2
        (fun i hi c hc => lateNeighbours_lt i c hi hc)).2.2 w hw).2.1,
      ((weight_writes_in_bounds Real.sqrt lateNeighbours 6 lateVpr 14 2
        (fun i hi c hc => lateNeighbours_lt i c hi hc)).2.2 w hw).2.2.1⟩⟩

/-! ## Row sums of the weights and the constant vector -/

/-- Independence of the columns of the combined basis built at a point gives that of the
basis built from empty work matrices. -/
theorem localBasis_independent_of_pointBasis (Vpr : Matrix2D ℝ) (s : LoopState ℝ) (d : Nat)
    (hd : s.outputDim = d) (hdp : s.dp = ctAt d d)
    (h : ColumnsIndependent (pointBasis Vpr s)) : ColumnsIndependent (localBasis Vpr d) := by
  have h0d : (initialState 0 d : LoopState ℝ).outputDim = d := rfl
  have h0p : (initialState 0 d : LoopState ℝ).dp = ctAt d d := (ctAt_self d).symm
  obtain ⟨py, px, -⟩ := pointBasis_spec Vpr s d hd hdp
  obtain ⟨ly, lx, -⟩ := pointBasis_spec Vpr (initialState 0 d) d h0d h0p
  have key := columnsIndependent_dims (pointBasis Vpr s) Vpr.mdimy (1 + d + ctAt d d) py px h
  refine columnsIndependent_of_dims (localBasis Vpr d) Vpr.mdimy (1 + d + ctAt d d) ly lx ?_
  have hfam : (fun j : Fin (1 + d + ctAt d d) => columnVec Vpr.mdimy (localBasis Vpr d) j.val)
      = (fun j : Fin (1 + d + ctAt d d) => columnVec Vpr.mdimy (pointBasis Vpr s) j.val) := by
    funext j
    exact pointBasis_congr Vpr s (initialState 0 d) d hd hdp h0d h0p j.val j.isLt
  rw [hfam]
  exact key

/-- C24: at a point whose matrix `Yt = [1 | V | Yi]` (built after the rank-adaptation step)
has linearly independent columns, every row `r < dp` of `Pii` sums to `0` in exact
arithmetic, the test `sum > 0.0001` fails, the row is handed on without any division, and
the row written into the weight matrix sums to `0`. -/
theorem weight_rows_sum_zero (neighboursMatrix : Matrix2D Nat) (kNeighbours : Nat)
    (Vpr : Matrix2D ℝ) (index : Nat) (s : LoopState ℝ)
    (hdp : s.dp = s.outputDim * (s.outputDim + 1) / 2)
    (hli : ColumnsIndependent (pointBasis Vpr (adaptRank Vpr s))) (r : Nat)
    (hr : r < (processPoint Real.sqrt neighboursMatrix kNeighbours Vpr index s).dp) :
    ((processPoint Real.sqrt neighboursMatrix kNeighbours Vpr index s).Pii.getRow r).sum = 0 ∧
    ¬ ((processPoint Real.sqrt neighboursMatrix kNeighbours Vpr index s).Pii.getRow r).sum
        > 0.0001 ∧
    normaliseRow ((processPoint Real.sqrt neighboursMatrix kNeighbours Vpr index s).Pii.getRow r)
      = ((processPoint Real.sqrt neighboursMatrix kNeighbours Vpr index s).Pii.getRow r, []) ∧
    (normaliseRow
      ((processPoint Real.sqrt neighboursMatrix kNeighbours Vpr index s).Pii.getRow r)).1.sum
      = 0 := by
  have hp : (adaptRank Vpr s).dp
      = ctAt (adaptRank Vpr s).outputDim (adaptRank Vpr s).outputDim := by
    rw [adaptRank_dp Vpr s hdp, ctAt_self]
  have hr2 : r < ctAt (adaptRank Vpr s).outputDim (adaptRank Vpr s).outputDim := by
    rw [← hp]
    exact hr
  have hloc := localBasis_independent_of_pointBasis Vpr (adaptRank Vpr s) _ rfl hp hli
  obtain ⟨h1, h2, -⟩ := processPoint_Pii_rows neighboursMatrix kNeighbours Vpr index s _ rfl hp
    hloc r hr2
  refine ⟨h1, by rw [h1]; norm_num, h2, ?_⟩
  rw [h2]
  exact h1

/-- The basis of the point `0` of a run with the factor `lineTangent` and the requested
dimension `1` has independent columns. -/
theorem lineBasis_adapted_independent :
    ColumnsIndependent (pointBasis lineTangent (adaptRank lineTangent (initialState 14 1))) := by
  rw [adaptRank_of_not_lt lineTangent (initialState 14 1) (by decide)]
  exact lineBasis_independent

/-- Instance of C24: the first point of a run of fourteen points with the factor
`lineTangent` and the requested dimension `1`, row `0`. -/
theorem weight_rows_sum_zero_witness :
    ((initialState 14 1 : LoopState ℝ).dp
        = (initialState 14 1 : LoopState ℝ).outputDim
          * ((initialState 14 1 : LoopState ℝ).outputDim + 1) / 2 ∧
      ColumnsIndependent (pointBasis lineTangent (adaptRank lineTangent (initialState 14 1))) ∧
      0 < (processPoint Real.sqrt lateNeighbours 6 lineTangent 0 (initialState 14 1)).dp) ∧
    ((processPoint Real.sqrt lateNeighbours 6 lineTangent 0 (initialState 14 1)).Pii.getRow
      0).sum = 0 :=
  ⟨⟨rfl, lineBasis_adapted_independent, by decide⟩,
    (weight_rows_sum_zero lateNeighbours 6 lineTangent 0 (initialState 14 1) rfl
      lineBasis_adapted_independent 0 (by decide)).1⟩

/-- The entries of a row of the weight matrix add up to the entries written for the
neighbours, when these are distinct columns and all the other entries are zero. -/
theorem sum_row_of_neighbours (f : Nat → ℝ) (nb : Nat → Nat) (k N : Nat)
    (hlt : ∀ c, c < k → nb c < N)
    (hinj : ∀ c c2, c < k → c2 < k → nb c = nb c2 → c = c2)
    (hzero : ∀ col, col < N → (∀ c, c < k → nb c ≠ col) → f col = 0) :
    ∑ col in Finset.range N, f col = ∑ c in Finset.range k, f (nb c) := by
  have hsub : (Finset.range k).image nb ⊆ Finset.range N := by
    intro x hx
    obtain ⟨c, hc, rfl⟩ := Finset.mem_image.mp hx
    exact Finset.mem_range.mpr (hlt c (Finset.mem_range.mp hc))
  rw [← Finset.sum_subset hsub (fun col hcol hnot => hzero col (Finset.mem_range.mp hcol)
    (fun c hc h => hnot (Finset.mem_image.mpr ⟨c, Finset.mem_range.mpr hc, h⟩)))]
  exact Finset.sum_image (fun c hc c2 hc2 h =>
    hinj c c2 (Finset.mem_range.mp hc) (Finset.mem_range.mp hc2) h)

/-- C22: in a run in which the dimension is not lowered, the neighbour indices of every
point are distinct and smaller than `N`, every factor `Vpr` has one row per neighbour and
every combined basis `Yt` has linearly independent columns, every row of the weight matrix
sums to zero, `W·1 = 0`, and so does every row of the Gram matrix `G = WᵗW`, `G·1 = 0`: the
vector of ones is an eigenvector of `G` for the eigenvalue `0`. -/
theorem constant_vector_null (neighboursMatrix : Matrix2D Nat) (kNeighbours : Nat)
    (svdVpr : Nat → Matrix2D ℝ) (N d : Nat)
    (hd : ∀ i, i < N → ¬ MAT_XSIZE (svdVpr i) < d)
    (hk : ∀ i, i < N → MAT_YSIZE (svdVpr i) = kNeighbours)
    (hlt : ∀ i, i < N → ∀ c, c < kNeighbours → MAT_ELEM neighboursMatrix i c < N)
    (hinj : ∀ i, i < N → ∀ c, c < kNeighbours → ∀ c2, c2 < kNeighbours →
      MAT_ELEM neighboursMatrix i c = MAT_ELEM neighboursMatrix i c2 → c = c2)
    (hli : ∀ i, i < N → ColumnsIndependent (localBasis (svdVpr i) d)) :
    (∀ row, row < d * (d + 1) / 2 * N →
      ∑ col in Finset.range N,
        MAT_ELEM (pointLoop Real.sqrt neighboursMatrix kNeighbours svdVpr N d N).weightMatrix
          row col * 1 = 0) ∧
    (∀ a, a < N →
      ∑ b in Finset.range N,
        MAT_ELEM (matrixOperation_AtA
          (pointLoop Real.sqrt neighboursMatrix kNeighbours svdVpr N d N).weightMatrix) a b * 1
        = 0 * 1) := by
  have hlt2 : ∀ i c, i < N → c < kNeighbours → MAT_ELEM neighboursMatrix i c < N :=
    fun i c hi hc => hlt i hi c hc
  have hinj2 : ∀ i c c2, i < N → c < kNeighbours → c2 < kNeighbours →
      MAT_ELEM neighboursMatrix i c = MAT_ELEM neighboursMatrix i c2 → c = c2 :=
    fun i c c2 hi hc hc2 => hinj i hi c hc c2 hc2
  obtain ⟨-, -, wx, wy, w5, w6⟩ := pointLoop_weights_upTo Real.sqrt neighboursMatrix
    kNeighbours svdVpr N d N hd hlt2 hinj2
  have hrows : ∀ row, row < d * (d + 1) / 2 * N →
      ∑ col in Finset.range N,
        MAT_ELEM (pointLoop Real.sqrt neighboursMatrix kNeighbours svdVpr N d N).weightMatrix
          row col = 0 := by
    intro row hrow
    have hDpos : 0 < d * (d + 1) / 2 := by
      rcases Nat.eq_zero_or_pos (d * (d + 1) / 2) with h | h
      · rw [h, Nat.zero_mul] at hrow; omega
      · exact h
    obtain ⟨i, r, hi, hr, rfl⟩ : ∃ i r, i < N ∧ r < d * (d + 1) / 2 ∧
        row = i * (d * (d + 1) / 2) + r :=
      ⟨row / (d * (d + 1) / 2), row % (d * (d + 1) / 2), Nat.div_lt_of_lt_mul hrow,
        Nat.mod_lt _ hDpos, (Nat.div_add_mod' row _).symm⟩
    obtain ⟨ad, ap, -, -, -, -⟩ := pointLoop_weights_upTo Real.sqrt neighboursMatrix
      kNeighbours svdVpr N d i (fun j hj => hd j (by omega))
      (fun j c hj hc => hlt2 j c (by omega) hc)
      (fun j c c2 hj hc hc2 => hinj2 j c c2 (by omega) hc hc2)
    have hA : adaptRank (svdVpr i) (pointLoop Real.sqrt neighboursMatrix kNeighbours svdVpr N d i)
        = pointLoop Real.sqrt neighboursMatrix kNeighbours svdVpr N d i :=
      adaptRank_of_not_lt _ _ (by rw [ad]; exact hd i hi)
    obtain ⟨hS, hN, -⟩ := processPoint_Pii_rows neighboursMatrix kNeighbours (svdVpr i) i
      (pointLoop Real.sqrt neighboursMatrix kNeighbours svdVpr N d i) d
      (by rw [hA]; exact ad) (by rw [hA, ap, ctAt_self]) (hli i hi) r
      (by rw [ctAt_self]; exact hr)
    obtain ⟨px, -, -⟩ := processPoint_Pii_spec Real.sqrt neighboursMatrix kNeighbours
      (svdVpr i) i (pointLoop Real.sqrt neighboursMatrix kNeighbours svdVpr N d i) d
      (by rw [hA]; exact ad) (by rw [hA, ap, ctAt_self])
    rw [sum_row_of_neighbours _ (fun c => MAT_ELEM neighboursMatrix i c) kNeighbours N
      (hlt i hi) (fun c c2 hc hc2 h => hinj i hi c hc c2 hc2 h)
      (fun col hcol hne => w6 i r col hr hcol (Or.inr hne))]
    rw [Matrix1D.sum_eq] at hS
    have hdim : ((processPoint Real.sqrt neighboursMatrix kNeighbours (svdVpr i) i
        (pointLoop Real.sqrt neighboursMatrix kNeighbours svdVpr N d i)).Pii.getRow r).vdim
        = kNeighbours := px.trans (hk i hi)
    rw [hdim] at hS
    rw [← hS]
    refine Finset.sum_congr rfl (fun c hc => ?_)
    rw [w5 i r c hi hr (Finset.mem_range.mp hc), pointLoop_succ, congrArg Prod.fst hN]
    rfl
  refine ⟨fun row hrow => by simp only [mul_one]; exact hrows row hrow, fun a ha => ?_⟩
  simp only [mul_one, zero_mul]
  have hent : ∀ b, b < N → MAT_ELEM (matrixOperation_AtA
      (pointLoop Real.sqrt neighboursMatrix kNeighbours svdVpr N d N).weightMatrix) a b
      = ∑ r in Finset.range (d * (d + 1) / 2 * N),
        MAT_ELEM (pointLoop Real.sqrt neighboursMatrix kNeighbours svdVpr N d N).weightMatrix
            r a
          * MAT_ELEM (pointLoop Real.sqrt neighboursMatrix kNeighbours svdVpr N d
            N).weightMatrix r b := by
    intro b hb
    rw [matrixOperation_AtA_entry _ a b (by rw [wx]; exact ha) (by rw [wx]; exact hb), wy]
  rw [Finset.sum_congr rfl (fun b hb => hent b (Finset.mem_range.mp hb)), Finset.sum_comm]
  refine Finset.sum_eq_zero (fun r hr => ?_)
  rw [← Finset.mul_sum, hrows r (Finset.mem_range.mp hr), mul_zero]

/-- Instance of C22: fourteen points with six neighbours each, the requested dimension `2`
and the factor `planeTangent` for every point; the row `5` of `W` and the row `3` of `G`. -/
theorem constant_vector_null_witness :
    ((∀ i, i < 14 → MAT_YSIZE ((fun _ => planeTangent) i) = 6) ∧
      (∀ i, i < 14 → ColumnsIndependent (localBasis ((fun _ => planeTangent) i) 2))) ∧
    ∑ col in Finset.range 14,
      MAT_ELEM (pointLoop Real.sqrt lateNeighbours 6 (fun _ => planeTangent) 14 2
        14).weightMatrix 5 col * 1 = 0 ∧
    ∑ b in Finset.range 14,
      MAT_ELEM (matrixOperation_AtA (pointLoop Real.sqrt lateNeighbours 6
        (fun _ => planeTangent) 14 2 14).weightMatrix) 3 b * 1 = 0 * 1 :=
  ⟨⟨fun _ _ => rfl, fun _ _ => planeBasis_independent⟩,
    (constant_vector_null lateNeighbours 6 (fun _ => planeTangent) 14 2
      (fun _ _ => (by decide : ¬ MAT_XSIZE planeTangent < 2)) (fun _ _ => rfl)
      (fun i hi c hc => lateNeighbours_lt i c hi hc)
      (fun i hi c hc c2 hc2 h => lateNeighbours_inj i c c2 hi hc hc2 h)
      (fun _ _ => planeBasis_independent)).1 5 (by decide),
    (constant_vector_null lateNeighbours 6 (fun _ => planeTangent) 14 2
      (fun _ _ => (by decide : ¬ MAT_XSIZE planeTangent < 2)) (fun _ _ => rfl)
      (fun i hi c hc => lateNeighbours_lt i c hi hc)
      (fun i hi c hc c2 hc2 h => lateNeighbours_inj i c c2 hi hc hc2 h)
      (fun _ _ => planeBasis_independent)).2 3 (by decide)⟩

/-! ## Orthogonalisation: rescaled columns -/

section GramSchmidtScaling

variable {m : Nat}

theorem sign_quotient_mul_self (x : ℝ) (hx : x ≠ 0) : x / |x| * (x / |x|) = 1 := by
  rw [div_mul_div_comm, abs_mul_abs_self, div_self (mul_self_ne_zero.mpr hx)]

theorem sqrt_dot_smul (x : ℝ) (v : Fin m → ℝ) :
    Real.sqrt (Matrix.dotProduct (x • v) (x • v))
      = |x| * Real.sqrt (Matrix.dotProduct v v) := by
  rw [Matrix.smul_dotProduct, Matrix.dotProduct_smul, smul_eq_mul, smul_eq_mul, ← mul_assoc,
    Real.sqrt_mul (mul_self_nonneg x), Real.sqrt_mul_self_eq_abs]

/-- One iteration of the outer loop on columns that are multiples of the columns of another
matrix: the columns already normalised differ by the signs of the factors, the others by
the factors. -/
theorem GSStep_scaled (n i : Nat) (hi : i < n) (dd : Nat → ℝ) (hdd : ∀ c, c < n → dd c ≠ 0)
    (cur cur2 curB cur2B : Nat → Fin m → ℝ)
    (hrel : ∀ c, c < n → curB c = (if c < i then dd c / |dd c| else dd c) • cur c)
    (hs : GSStep n i cur cur2) (hsB : GSStep n i curB cur2B) :
    ∀ c, c < n → cur2B c = (if c < i + 1 then dd c / |dd c| else dd c) • cur2 c := by
  obtain ⟨s1, s2, s3⟩ := hs
  obtain ⟨t1, t2, t3⟩ := hsB
  have hBi : curB i = dd i • cur i := by
    rw [hrel i hi, if_neg (lt_irrefl i)]
  have hi2 : cur2B i = (dd i / |dd i|) • cur2 i := by
    rw [t1, hBi, sqrt_dot_smul, s1, smul_smul, smul_smul, mul_inv]
    congr 1
    ring
  intro c hc
  rcases Nat.lt_trichotomy c i with h | h | h
  · rw [t2 c h, s2 c h, hrel c hc, if_pos h, if_pos (by omega)]
  · subst h
    rw [if_pos (Nat.lt_succ_self c)]
    exact hi2
  · have hBc : curB c = dd c • cur c := by
      rw [hrel c hc, if_neg (by omega)]
    rw [if_neg (by omega), t3 c h hc, s3 c h hc, hi2, hBc, Matrix.smul_dotProduct,
      Matrix.dotProduct_smul, smul_eq_mul, smul_eq_mul, smul_sub, smul_smul, smul_smul]
    congr 2
    have := sign_quotient_mul_self (dd i) (hdd i hi)
    calc dd i / |dd i| * (dd c * Matrix.dotProduct (cur2 i) (cur c)) * (dd i / |dd i|)
        = (dd i / |dd i| * (dd i / |dd i|)) * (dd c * Matrix.dotProduct (cur2 i) (cur c)) := by
          ring
      _ = dd c * Matrix.dotProduct (cur2 i) (cur c) := by rw [this, one_mul]

end GramSchmidtScaling

/-- `modifiedGramSchmidtOrtogonalization` on a matrix whose columns are nonzero multiples of
the columns of another matrix: the columns returned differ by the signs of the factors. -/
theorem modifiedGramSchmidt_scaled (M MB : Matrix2D ℝ) (n m : Nat) (hx : M.mdimx = n)
    (hy : M.mdimy = m) (hxB : MB.mdimx = n) (hyB : MB.mdimy = m) (dd : Nat → ℝ)
    (hdd : ∀ c, c < n → dd c ≠ 0)
    (hrel : ∀ c, c < n → columnVec m MB c = dd c • columnVec m M c) :
    ∀ c, c < n →
      columnVec m (modifiedGramSchmidtOrtogonalization Real.sqrt MB) c
        = (dd c / |dd c|) • columnVec m (modifiedGramSchmidtOrtogonalization Real.sqrt M) c := by
  unfold modifiedGramSchmidtOrtogonalization
  simp only [MAT_XSIZE, MAT_YSIZE, hx, hy, hxB, hyB]
  have key := forLoop_invariant2
    (fun i (Q QB : Matrix2D ℝ) => (Q.mdimx = n ∧ Q.mdimy = m) ∧ (QB.mdimx = n ∧ QB.mdimy = m) ∧
      ∀ c, c < n → columnVec m QB c = (if c < i then dd c / |dd c| else dd c) • columnVec m Q c)
    n (fun i Q => gramSchmidtColumn Real.sqrt n m i Q)
    (fun i Q => gramSchmidtColumn Real.sqrt n m i Q) M MB
    ⟨⟨hx, hy⟩, ⟨hxB, hyB⟩, fun c hc => by rw [if_neg (Nat.not_lt_zero c)]; exact hrel c hc⟩
    (by
      rintro i hi Q QB ⟨⟨qx, qy⟩, ⟨bx, by2⟩, hQ⟩
      obtain ⟨sx, sy, sS⟩ := gramSchmidtColumn_step n m i Q qx qy hi
      obtain ⟨tx, ty, tS⟩ := gramSchmidtColumn_step n m i QB bx by2 hi
      exact ⟨⟨sx, sy⟩, ⟨tx, ty⟩, GSStep_scaled n i hi dd hdd _ _ _ _ hQ sS tS⟩)
  intro c hc
  have := key.2.2 c hc
  rw [if_pos hc] at this
  exact this

/-- C26: for a real matrix `A` with linearly independent columns and nonzero factors `dd`,
the matrix `B = A·D` whose column `c` is `dd c` times the column `c` of `A` is
orthogonalised into the orthogonalised `A` with the column `c` multiplied by the sign of
`dd c`: a positive factor leaves the column as it is, a negative one negates it. -/
theorem modifiedGramSchmidt_column_scaling (A B : Matrix2D ℝ) (dd : Nat → ℝ)
    (_hA : ColumnsIndependent A)
    (hx : MAT_XSIZE B = MAT_XSIZE A) (hy : MAT_YSIZE B = MAT_YSIZE A)
    (hdd : ∀ c, c < MAT_XSIZE A → dd c ≠ 0)
    (hB : ∀ e c, e < MAT_YSIZE A → c < MAT_XSIZE A →
      MAT_ELEM B e c = MAT_ELEM A e c * dd c) :
    ∀ e c, e < MAT_YSIZE A → c < MAT_XSIZE A →
      MAT_ELEM (modifiedGramSchmidtOrtogonalization Real.sqrt B) e c
        = MAT_ELEM (modifiedGramSchmidtOrtogonalization Real.sqrt A) e c * (dd c / |dd c|) ∧
      (0 < dd c → MAT_ELEM (modifiedGramSchmidtOrtogonalization Real.sqrt B) e c
        = MAT_ELEM (modifiedGramSchmidtOrtogonalization Real.sqrt A) e c) ∧
      (dd c < 0 → MAT_ELEM (modifiedGramSchmidtOrtogonalization Real.sqrt B) e c
        = - MAT_ELEM (modifiedGramSchmidtOrtogonalization Real.sqrt A) e c) := by
  intro e c he hc
  have hrel : ∀ c2, c2 < A.mdimx → columnVec A.mdimy B c2 = dd c2 • columnVec A.mdimy A c2 := by
    intro c2 hc2
    funext e2
    show MAT_ELEM B e2.val c2 = dd c2 * MAT_ELEM A e2.val c2
    rw [hB e2.val c2 e2.isLt hc2, mul_comm]
  have key := modifiedGramSchmidt_scaled A B A.mdimx A.mdimy rfl rfl hx hy dd hdd hrel c hc
  have hent : MAT_ELEM (modifiedGramSchmidtOrtogonalization Real.sqrt B) e c
      = MAT_ELEM (modifiedGramSchmidtOrtogonalization Real.sqrt A) e c * (dd c / |dd c|) := by
    have := congrFun key ⟨e, he⟩
    rw [mul_comm]
    exact this
  refine ⟨hent, fun hpos => ?_, fun hneg => ?_⟩
  · rw [hent, abs_of_pos hpos, div_self (ne_of_gt hpos), mul_one]
  · rw [hent, abs_of_neg hneg, div_neg, div_self (ne_of_lt hneg), mul_neg, mul_one]

theorem scaledMatrix_entries : ∀ e c, e < MAT_YSIZE exampleMatrix → c < MAT_XSIZE exampleMatrix →
    MAT_ELEM scaledMatrix e c = MAT_ELEM exampleMatrix e c * scaledFactors c := by
  intro e c he hc
  have he2 : e < 2 := he
  have hc2 : c < 2 := hc
  interval_cases e <;> interval_cases c <;>
    simp [MAT_ELEM, scaledMatrix, exampleMatrix, scaledFactors] <;> norm_num

theorem scaledFactors_ne_zero : ∀ c, c < MAT_XSIZE exampleMatrix → scaledFactors c ≠ 0 := by
  intro c _
  unfold scaledFactors
  split <;> norm_num

/-- Instance of C26: the matrix `[[3, 1], [4, 1]]` with its columns multiplied by `2` and by
`-1`; the entry of row `0` and column `1` changes its sign. -/
theorem modifiedGramSchmidt_column_scaling_witness :
    (ColumnsIndependent exampleMatrix ∧
      (∀ c, c < MAT_XSIZE exampleMatrix → scaledFactors c ≠ 0) ∧
      (∀ e c, e < MAT_YSIZE exampleMatrix → c < MAT_XSIZE exampleMatrix →
        MAT_ELEM scaledMatrix e c = MAT_ELEM exampleMatrix e c * scaledFactors c) ∧
      scaledFactors 1 < 0) ∧
    MAT_ELEM (modifiedGramSchmidtOrtogonalization Real.sqrt scaledMatrix) 0 1
      = - MAT_ELEM (modifiedGramSchmidtOrtogonalization Real.sqrt exampleMatrix) 0 1 :=
  ⟨⟨exampleMatrix_independent, scaledFactors_ne_zero, scaledMatrix_entries,
      by simp [scaledFactors]⟩,
    (modifiedGramSchmidt_column_scaling exampleMatrix scaledMatrix scaledFactors
      exampleMatrix_independent rfl rfl scaledFactors_ne_zero scaledMatrix_entries 0 1
      (by decide) (by decide)).2.2 (by simp [scaledFactors])⟩

/-! ## Orthogonalisation: more columns than rows -/

section GramSchmidtWide

variable {m : Nat}

theorem sum_dotProduct {ι : Type} (s : Finset ι) (f : ι → Fin m → ℝ) (v : Fin m → ℝ) :
    Matrix.dotProduct (∑ i in s, f i) v = ∑ i in s, Matrix.dotProduct (f i) v := by
  classical
  refine Finset.induction_on s ?_ ?_
  · rw [Finset.sum_empty, Finset.sum_empty, Matrix.zero_dotProduct]
  · intro a s2 ha ih
    rw [Finset.sum_insert ha, Finset.sum_insert ha, Matrix.add_dotProduct, ih]

/-- One iteration of the outer loop whose norm is not zero extends the orthonormal block of
columns by one column. -/
theorem GSStep_orth (n i : Nat) (hi : i < n) (cur cur2 : Nat → Fin m → ℝ)
    (h1 : ∀ a, a < i → Matrix.dotProduct (cur a) (cur a) = 1)
    (h2 : ∀ a b, a < i → b < n → a ≠ b → Matrix.dotProduct (cur a) (cur b) = 0)
    (hc : Real.sqrt (Matrix.dotProduct (cur i) (cur i)) ≠ 0) (hs : GSStep n i cur cur2) :
    (∀ a, a < i + 1 → Matrix.dotProduct (cur2 a) (cur2 a) = 1) ∧
    (∀ a b, a < i + 1 → b < n → a ≠ b → Matrix.dotProduct (cur2 a) (cur2 b) = 0) := by
  obtain ⟨s1, s2, s3⟩ := hs
  have hnz : cur i ≠ 0 := by
    intro hz
    apply hc
    rw [hz, Matrix.dotProduct_zero, Real.sqrt_zero]
  have hq : Matrix.dotProduct (cur2 i) (cur2 i) = 1 := by
    rw [s1]; exact normalised_dot_self (cur i) hnz
  have f1 : ∀ a, a < i → Matrix.dotProduct (cur a) (cur2 i) = 0 := by
    intro a ha
    rw [s1, Matrix.dotProduct_smul, h2 a i ha hi (by omega), smul_zero]
  have f2 : ∀ b, i < b → b < n → Matrix.dotProduct (cur2 i) (cur2 b) = 0 := by
    intro b hb hbn
    rw [s3 b hb hbn, Matrix.dotProduct_sub, Matrix.dotProduct_smul, hq, smul_eq_mul, mul_one,
      sub_self]
  refine ⟨fun a ha => ?_, fun a b ha hb hab => ?_⟩
  · rcases Nat.lt_succ_iff_lt_or_eq.mp ha with hlt | heq
    · rw [s2 a hlt]; exact h1 a hlt
    · subst heq; exact hq
  · rcases Nat.lt_succ_iff_lt_or_eq.mp ha with hlt | heq
    · rw [s2 a hlt]
      rcases Nat.lt_trichotomy b i with hbi | hbi | hbi
      · rw [s2 b hbi]; exact h2 a b hlt hb hab
      · subst hbi; exact f1 a hlt
      · rw [s3 b hbi hb, Matrix.dotProduct_sub, Matrix.dotProduct_smul, f1 a hlt,
          h2 a b hlt hb hab, smul_zero, sub_zero]
    · subst heq
      rcases Nat.lt_trichotomy b a with hbi | hbi | hbi
      · rw [s2 b hbi, Matrix.dotProduct_comm]; exact f1 b hbi
      · exact absurd hbi.symm hab
      · exact f2 b hbi hb

/-- An orthonormal family of vectors with `m` entries has at most `m` members. -/
theorem orthonormal_card_le (t : Nat) (v : Nat → Fin m → ℝ)
    (h1 : ∀ a, a < t → Matrix.dotProduct (v a) (v a) = 1)
    (h2 : ∀ a b, a < t → b < t → a ≠ b → Matrix.dotProduct (v a) (v b) = 0) : t ≤ m := by
  have hli : LinearIndependent ℝ (fun j : Fin t => v j.val) := by
    rw [Fintype.linearIndependent_iff]
    intro g hg b
    have hdot := congrArg (fun w => Matrix.dotProduct w (v b.val)) hg
    simp only [Matrix.zero_dotProduct] at hdot
    rw [sum_dotProduct, Finset.sum_eq_single b] at hdot
    · rw [Matrix.smul_dotProduct, h1 b.val b.isLt, smul_eq_mul, mul_one] at hdot
      exact hdot
    · intro a _ hab
      rw [Matrix.smul_dotProduct, h2 a.val b.val a.isLt b.isLt (fun h => hab (Fin.ext h)),
        smul_zero]
    · intro h
      exact absurd (Finset.mem_univ b) h
  have := hli.fintype_card_le_finrank
  rw [Fintype.card_fin, Module.finrank_fin_fun] at this
  exact this

end GramSchmidtWide

theorem gramSchmidtPrefix_succ {α : Type} [Field α] (sqrt : α → α) (matrix : Matrix2D α)
    (i : Nat) :
    gramSchmidtPrefix sqrt matrix (i + 1)
      = gramSchmidtColumn sqrt (MAT_XSIZE matrix) (MAT_YSIZE matrix) i
          (gramSchmidtPrefix sqrt matrix i) := rfl

/-- As long as no norm is zero, the columns already normalised are orthonormal. -/
theorem gramSchmidtPrefix_orth (M : Matrix2D ℝ) (n m : Nat) (hx : M.mdimx = n)
    (hy : M.mdimy = m) (t : Nat) (ht : t ≤ n)
    (hnz : ∀ i, i < t → columnModuleAt Real.sqrt M i ≠ 0) :
    (gramSchmidtPrefix Real.sqrt M t).mdimx = n ∧ (gramSchmidtPrefix Real.sqrt M t).mdimy = m ∧
    (∀ a, a < t → Matrix.dotProduct (columnVec m (gramSchmidtPrefix Real.sqrt M t) a)
      (columnVec m (gramSchmidtPrefix Real.sqrt M t) a) = 1) ∧
    (∀ a b, a < t → b < n → a ≠ b →
      Matrix.dotProduct (columnVec m (gramSchmidtPrefix Real.sqrt M t) a)
        (columnVec m (gramSchmidtPrefix Real.sqrt M t) b) = 0) := by
  induction t with
  | zero => exact ⟨hx, hy, fun a ha => by omega, fun a b ha => by omega⟩
  | succ k ih =>
    obtain ⟨qx, qy, q1, q2⟩ := ih (by omega) (fun i hi => hnz i (by omega))
    rw [gramSchmidtPrefix_succ]
    have hxx : MAT_XSIZE M = n := hx
    have hyy : MAT_YSIZE M = m := hy
    rw [hxx, hyy]
    obtain ⟨sx, sy, sS⟩ := gramSchmidtColumn_step n m k (gramSchmidtPrefix Real.sqrt M k) qx qy
      (by omega)
    have hk := hnz k (Nat.lt_succ_self k)
    unfold columnModuleAt at hk
    rw [module_getCol Real.sqrt m _ qy] at hk
    obtain ⟨r1, r2⟩ := GSStep_orth n k (by omega) _ _ q1 q2 hk sS
    exact ⟨sx, sy, r1, r2⟩

/-- A matrix with more columns than rows has a column of index at most the number of rows
whose norm at its normalisation step is zero. -/
theorem exists_zero_module (M : Matrix2D ℝ) (n m : Nat) (hx : M.mdimx = n) (hy : M.mdimy = m)
    (hnm : m < n) : ∃ i, i ≤ m ∧ columnModuleAt Real.sqrt M i = 0 := by
  by_contra hcon
  have hnz : ∀ i, i < m + 1 → columnModuleAt Real.sqrt M i ≠ 0 :=
    fun i hi h => hcon ⟨i, by omega, h⟩
  obtain ⟨-, -, q1, q2⟩ := gramSchmidtPrefix_orth M n m hx hy (m + 1) (by omega) hnz
  have := orthonormal_card_le (m + 1)
    (columnVec m (gramSchmidtPrefix Real.sqrt M (m + 1))) q1
    (fun a b ha hb hab => q2 a b ha (by omega) hab)
  omega

/-- C25: a real matrix with more columns than rows has a column of index at most the number
of rows whose norm at its normalisation step is `0` in exact arithmetic; when the matrix has
a row, the entries of that column are divided by this `0`.  In particular the matrix
`Yt = [1 | V | Yi]` of a point with `k` neighbours meets such a division as soon as
`k < 1 + d + d(d+1)/2`. -/
theorem wide_matrix_zero_norm :
    (∀ matrix : Matrix2D ℝ, MAT_YSIZE matrix < MAT_XSIZE matrix →
      ∃ i, i ≤ MAT_YSIZE matrix ∧ i < MAT_XSIZE matrix ∧
        columnModuleAt Real.sqrt matrix i = 0 ∧
        (0 < MAT_YSIZE matrix →
          (0 : ℝ) ∈ (modifiedGramSchmidtLogged Real.sqrt matrix).2)) ∧
    (∀ (Vpr : Matrix2D ℝ) (s : LoopState ℝ),
      s.dp = s.outputDim * (s.outputDim + 1) / 2 →
      MAT_YSIZE Vpr < 1 + s.outputDim + s.outputDim * (s.outputDim + 1) / 2 →
      ∃ i, i ≤ MAT_YSIZE Vpr ∧ columnModuleAt Real.sqrt (pointBasis Vpr s) i = 0 ∧
        (0 < MAT_YSIZE Vpr →
          (0 : ℝ) ∈ (modifiedGramSchmidtLogged Real.sqrt (pointBasis Vpr s)).2)) := by
  have hA : ∀ matrix : Matrix2D ℝ, MAT_YSIZE matrix < MAT_XSIZE matrix →
      ∃ i, i ≤ MAT_YSIZE matrix ∧ i < MAT_XSIZE matrix ∧
        columnModuleAt Real.sqrt matrix i = 0 ∧
        (0 < MAT_YSIZE matrix →
          (0 : ℝ) ∈ (modifiedGramSchmidtLogged Real.sqrt matrix).2) := by
    intro matrix hnm
    obtain ⟨i, hi, hz⟩ := exists_zero_module matrix matrix.mdimx matrix.mdimy rfl rfl hnm
    have hin : i < MAT_XSIZE matrix := lt_of_le_of_lt hi hnm
    refine ⟨i, hi, hin, hz, fun hm => ?_⟩
    rw [modifiedGramSchmidtLogged_eq, ← hz]
    exact mem_divisorsUpTo Real.sqrt matrix (MAT_XSIZE matrix) i hin hm
  refine ⟨hA, fun Vpr s hdp hk => ?_⟩
  obtain ⟨py, px, -⟩ := pointBasis_spec Vpr s s.outputDim rfl (by rw [hdp, ctAt_self])
  have hy : MAT_YSIZE (pointBasis Vpr s) = MAT_YSIZE Vpr := py
  have hx : MAT_XSIZE (pointBasis Vpr s)
      = 1 + s.outputDim + s.outputDim * (s.outputDim + 1) / 2 := by
    rw [← ctAt_self]
    exact px
  obtain ⟨i, h1, -, h3, h4⟩ := hA (pointBasis Vpr s) (by rw [hy, hx]; exact hk)
  rw [hy] at h1 h4
  exact ⟨i, h1, h3, h4⟩

/-- Instance of C25: the matrix `[[1, 1]]` with one row and two columns. -/
theorem wide_matrix_zero_norm_witness :
    MAT_YSIZE wideMatrix < MAT_XSIZE wideMatrix ∧
    ∃ i, i ≤ MAT_YSIZE wideMatrix ∧ i < MAT_XSIZE wideMatrix ∧
      columnModuleAt Real.sqrt wideMatrix i = 0 ∧
      (0 < MAT_YSIZE wideMatrix →
        (0 : ℝ) ∈ (modifiedGramSchmidtLogged Real.sqrt wideMatrix).2) :=
  ⟨by decide, wide_matrix_zero_norm.1 wideMatrix (by decide)⟩

/-! ## Orthogonalisation: classical Gram–Schmidt -/

section ClassicalLemmas

variable {m : Nat}

theorem dotProduct_sum {ι : Type} (s : Finset ι) (f : ι → Fin m → ℝ) (v : Fin m → ℝ) :
    Matrix.dotProduct v (∑ i in s, f i) = ∑ i in s, Matrix.dotProduct v (f i) := by
  rw [Matrix.dotProduct_comm, sum_dotProduct]
  exact Finset.sum_congr rfl (fun i _ => Matrix.dotProduct_comm _ _)

/-- One iteration of the outer loop keeps the relation between the current columns and the
input columns: a column already normalised is the normalised input column minus its
projections on the columns before it, and a later column is the input column minus its
projections on the columns normalised so far. -/
theorem GSStep_classical (n i : Nat) (hi : i < n) (A cur cur2 : Nat → Fin m → ℝ)
    (hA : LinearIndependent ℝ (fun j : Fin n => A j.val)) (h : GSInv n i A cur)
    (hs : GSStep n i cur cur2)
    (hb : ∀ j, j < i → cur j = normalise Real.sqrt
      (A j - ∑ t in Finset.range j, Matrix.dotProduct (cur t) (A j) • cur t))
    (hc : ∀ j, i ≤ j → j < n →
      cur j = A j - ∑ t in Finset.range i, Matrix.dotProduct (cur t) (A j) • cur t) :
    (∀ j, j < i + 1 → cur2 j = normalise Real.sqrt
      (A j - ∑ t in Finset.range j, Matrix.dotProduct (cur2 t) (A j) • cur2 t)) ∧
    (∀ j, i + 1 ≤ j → j < n →
      cur2 j = A j - ∑ t in Finset.range (i + 1), Matrix.dotProduct (cur2 t) (A j) • cur2 t) := by
  obtain ⟨-, g2, -⟩ := GSInv_step n i hi A cur cur2 hA h hs
  obtain ⟨s1, s2, s3⟩ := hs
  have hsum : ∀ j u, u ≤ i →
      ∑ t in Finset.range u, Matrix.dotProduct (cur2 t) (A j) • cur2 t
        = ∑ t in Finset.range u, Matrix.dotProduct (cur t) (A j) • cur t := by
    intro j u hu
    refine Finset.sum_congr rfl (fun t ht => ?_)
    rw [s2 t (lt_of_lt_of_le (Finset.mem_range.mp ht) hu)]
  refine ⟨fun j hj => ?_, fun j hj hjn => ?_⟩
  · rcases Nat.lt_succ_iff_lt_or_eq.mp hj with hlt | heq
    · rw [s2 j hlt, hsum j j (by omega)]
      exact hb j hlt
    · subst heq
      rw [hsum j j (le_refl j), ← hc j (le_refl j) hi]
      exact s1
  · have hij : i < j := by omega
    have horth : Matrix.dotProduct (cur2 i)
        (∑ t in Finset.range i, Matrix.dotProduct (cur2 t) (A j) • cur2 t) = 0 := by
      rw [dotProduct_sum]
      refine Finset.sum_eq_zero (fun t ht => ?_)
      have hti : t < i := Finset.mem_range.mp ht
      rw [Matrix.dotProduct_smul, g2 i t (Nat.lt_succ_self i) (by omega) (by omega), smul_zero]
    rw [s3 j hij hjn, hc j (by omega) hjn, ← hsum j i (le_refl i), Matrix.dotProduct_sub,
      horth, sub_zero, Finset.sum_range_succ]
    abel

theorem classicalColumns_succ_of_lt (a : Nat → Fin m → ℝ) (j c : Nat) (hc : c < j) :
    classicalColumns Real.sqrt a (j + 1) c = classicalColumns Real.sqrt a j c := by
  show (if c = j then _ else classicalColumns Real.sqrt a j c) = _
  rw [if_neg (by omega)]

theorem classicalColumns_stable (a : Nat → Fin m → ℝ) (c u : Nat) :
    classicalColumns Real.sqrt a (c + 1 + u) c = classicalColumns Real.sqrt a (c + 1) c := by
  induction u with
  | zero => rfl
  | succ k ih =>
    rw [← ih]
    exact classicalColumns_succ_of_lt a (c + 1 + k) c (by omega)

/-- The recurrence of classical Gram–Schmidt, read in the full table. -/
theorem classicalColumns_rec (a : Nat → Fin m → ℝ) (n c : Nat) (hc : c < n) :
    classicalColumns Real.sqrt a n c = normalise Real.sqrt
      (a c - ∑ t in Finset.range c,
        Matrix.dotProduct (classicalColumns Real.sqrt a n t) (a c)
          • classicalColumns Real.sqrt a n t) := by
  have hfull : ∀ t, t < n →
      classicalColumns Real.sqrt a n t = classicalColumns Real.sqrt a (t + 1) t := by
    intro t ht
    obtain ⟨u, rfl⟩ : ∃ u, n = t + 1 + u := ⟨n - (t + 1), by omega⟩
    exact classicalColumns_stable a t u
  have hpart : ∀ t, t < c →
      classicalColumns Real.sqrt a c t = classicalColumns Real.sqrt a (t + 1) t := by
    intro t ht
    obtain ⟨u, rfl⟩ : ∃ u, c = t + 1 + u := ⟨c - (t + 1), by omega⟩
    exact classicalColumns_stable a t u
  have hdef : classicalColumns Real.sqrt a (c + 1) c = normalise Real.sqrt
      (a c - ∑ t in Finset.range c,
        Matrix.dotProduct (classicalColumns Real.sqrt a c t) (a c)
          • classicalColumns Real.sqrt a c t) := by
    show (if c = c then _ else classicalColumns Real.sqrt a c c) = _
    rw [if_pos rfl]
  have hsums : ∑ t in Finset.range c,
        Matrix.dotProduct (classicalColumns Real.sqrt a c t) (a c)
          • classicalColumns Real.sqrt a c t
      = ∑ t in Finset.range c,
        Matrix.dotProduct (classicalColumns Real.sqrt a n t) (a c)
          • classicalColumns Real.sqrt a n t := by
    refine Finset.sum_congr rfl (fun t ht => ?_)
    have htc : t < c := Finset.mem_range.mp ht
    rw [hpart t htc, hfull t (by omega)]
  rw [hfull c hc, hdef, hsums]

/-- Columns that satisfy the recurrence of classical Gram–Schmidt are its columns. -/
theorem eq_classicalColumns (a q : Nat → Fin m → ℝ) (n : Nat)
    (hq : ∀ j, j < n → q j = normalise Real.sqrt
      (a j - ∑ t in Finset.range j, Matrix.dotProduct (q t) (a j) • q t)) :
    ∀ j, j < n → q j = classicalColumns Real.sqrt a n j := by
  intro j
  induction j using Nat.strong_induction_on with
  | _ j ih =>
    intro hj
    have hsums : ∑ t in Finset.range j, Matrix.dotProduct (q t) (a j) • q t
        = ∑ t in Finset.range j,
          Matrix.dotProduct (classicalColumns Real.sqrt a n t) (a j)
            • classicalColumns Real.sqrt a n t := by
      refine Finset.sum_congr rfl (fun t ht => ?_)
      have htj : t < j := Finset.mem_range.mp ht
      rw [ih t htj (by omega)]
    rw [hq j hj, classicalColumns_rec a n j hj, hsums]

end ClassicalLemmas

/-- When `modifiedGramSchmidtOrtogonalization` returns, every column is the normalised input
column minus its projections on the columns returned before it. -/
theorem modifiedGramSchmidt_recurrence (M : Matrix2D ℝ) (n m : Nat) (hx : M.mdimx = n)
    (hy : M.mdimy = m) (hA : LinearIndependent ℝ (fun j : Fin n => columnVec m M j.val)) :
    ∀ j, j < n →
      columnVec m (modifiedGramSchmidtOrtogonalization Real.sqrt M) j
        = normalise Real.sqrt (columnVec m M j - ∑ t in Finset.range j,
            Matrix.dotProduct (columnVec m (modifiedGramSchmidtOrtogonalization Real.sqrt M) t)
                (columnVec m M j)
              • columnVec m (modifiedGramSchmidtOrtogonalization Real.sqrt M) t) := by
  unfold modifiedGramSchmidtOrtogonalization
  simp only [MAT_XSIZE, MAT_YSIZE, hx, hy]
  have key := forLoop_invariant
    (fun t (Q : Matrix2D ℝ) => Q.mdimx = n ∧ Q.mdimy = m ∧
      GSInv n t (columnVec m M) (columnVec m Q) ∧
      (∀ j, j < t → columnVec m Q j = normalise Real.sqrt
        (columnVec m M j - ∑ u in Finset.range j,
          Matrix.dotProduct (columnVec m Q u) (columnVec m M j) • columnVec m Q u)) ∧
      (∀ j, t ≤ j → j < n → columnVec m Q j = columnVec m M j - ∑ u in Finset.range t,
          Matrix.dotProduct (columnVec m Q u) (columnVec m M j) • columnVec m Q u))
    n (fun i Q => gramSchmidtColumn Real.sqrt n m i Q) M
    ⟨hx, hy, GSInv_init n _, fun j hj => by omega,
      fun j _ _ => by rw [Finset.range_zero, Finset.sum_empty, sub_zero]⟩
    (by
      rintro i hi Q ⟨qx, qy, qI, qb, qc⟩
      obtain ⟨sx, sy, sS⟩ := gramSchmidtColumn_step n m i Q qx qy hi
      obtain ⟨r1, r2⟩ := GSStep_classical n i hi _ _ _ hA qI sS qb qc
      exact ⟨sx, sy, GSInv_step n i hi _ _ _ hA qI sS, r1, r2⟩)
  exact key.2.2.2.1

theorem vecAt_of_lt {m : Nat} (v : Fin m → ℝ) (e : Nat) (he : e < m) : vecAt v e = v ⟨e, he⟩ :=
  dif_pos he

/-- The columns of the matrix `classicalGramSchmidt A` are the columns of the table. -/
theorem classicalGramSchmidt_col (A : Matrix2D ℝ) (j : Nat) (hj : j < A.mdimx) :
    columnVec A.mdimy (classicalGramSchmidt Real.sqrt A) j
      = classicalColumns Real.sqrt (columnVec A.mdimy A) A.mdimx j := by
  funext e
  show vecAt (classicalColumns Real.sqrt (columnVec A.mdimy A) A.mdimx
      ((e.val * A.mdimx + j) % A.mdimx)) ((e.val * A.mdimx + j) / A.mdimx) = _
  have hpos : 0 < A.mdimx := by omega
  have h1 : (e.val * A.mdimx + j) / A.mdimx = e.val := by
    rw [Nat.add_comm, Nat.add_mul_div_right _ _ hpos, Nat.div_eq_of_lt hj, Nat.zero_add]
  have h2 : (e.val * A.mdimx + j) % A.mdimx = j := by
    rw [Nat.add_comm, Nat.add_mul_mod_self_right, Nat.mod_eq_of_lt hj]
  rw [h1, h2, vecAt_of_lt _ e.val e.isLt]

/-- C21: for a real matrix `A` with linearly independent columns, the matrix returned by the
in-place orthogonalisation of the code is, in exact arithmetic, that of classical
Gram–Schmidt: same shape and same entries, where the column `j` of classical Gram–Schmidt is
`normalise (a_j - Σ_(t<j) (q_t · a_j) q_t)` with `a_j` the column `j` of `A` and `q_t` the
columns found before. -/
theorem modifiedGramSchmidt_eq_classical (A : Matrix2D ℝ) (hA : ColumnsIndependent A) :
    MAT_YSIZE (modifiedGramSchmidtOrtogonalization Real.sqrt A)
      = MAT_YSIZE (classicalGramSchmidt Real.sqrt A) ∧
    MAT_XSIZE (modifiedGramSchmidtOrtogonalization Real.sqrt A)
      = MAT_XSIZE (classicalGramSchmidt Real.sqrt A) ∧
    (∀ e j, e < MAT_YSIZE A → j < MAT_XSIZE A →
      MAT_ELEM (modifiedGramSchmidtOrtogonalization Real.sqrt A) e j
        = MAT_ELEM (classicalGramSchmidt Real.sqrt A) e j) ∧
    (∀ j, j < MAT_XSIZE A →
      columnVec (MAT_YSIZE A) (classicalGramSchmidt Real.sqrt A) j
        = normalise Real.sqrt (columnVec (MAT_YSIZE A) A j - ∑ t in Finset.range j,
            Matrix.dotProduct (columnVec (MAT_YSIZE A) (classicalGramSchmidt Real.sqrt A) t)
                (columnVec (MAT_YSIZE A) A j)
              • columnVec (MAT_YSIZE A) (classicalGramSchmidt Real.sqrt A) t)) := by
  have hli : LinearIndependent ℝ (fun j : Fin A.mdimx => columnVec A.mdimy A j.val) := hA
  obtain ⟨dx, dy, -⟩ := modifiedGramSchmidt_inv A A.mdimx A.mdimy rfl rfl hli
  have hrec := modifiedGramSchmidt_recurrence A A.mdimx A.mdimy rfl rfl hli
  have hcols := eq_classicalColumns (columnVec A.mdimy A)
    (columnVec A.mdimy (modifiedGramSchmidtOrtogonalization Real.sqrt A)) A.mdimx hrec
  refine ⟨dy, dx, fun e j he hj => ?_, fun j hj => ?_⟩
  · have h1 := congrFun (hcols j hj) ⟨e, he⟩
    have h2 := congrFun (classicalGramSchmidt_col A j hj) ⟨e, he⟩
    exact h1.trans h2.symm
  · have hj2 : j < A.mdimx := hj
    show columnVec A.mdimy (classicalGramSchmidt Real.sqrt A) j
      = normalise Real.sqrt (columnVec A.mdimy A j - ∑ t in Finset.range j,
          Matrix.dotProduct (columnVec A.mdimy (classicalGramSchmidt Real.sqrt A) t)
              (columnVec A.mdimy A j)
            • columnVec A.mdimy (classicalGramSchmidt Real.sqrt A) t)
    have hsums : ∑ t in Finset.range j,
          Matrix.dotProduct (columnVec A.mdimy (classicalGramSchmidt Real.sqrt A) t)
              (columnVec A.mdimy A j)
            • columnVec A.mdimy (classicalGramSchmidt Real.sqrt A) t
        = ∑ t in Finset.range j,
          Matrix.dotProduct (classicalColumns Real.sqrt (columnVec A.mdimy A) A.mdimx t)
              (columnVec A.mdimy A j)
            • classicalColumns Real.sqrt (columnVec A.mdimy A) A.mdimx t := by
      refine Finset.sum_congr rfl (fun t ht => ?_)
      rw [classicalGramSchmidt_col A t (by have := Finset.mem_range.mp ht; omega)]
    rw [hsums, classicalGramSchmidt_col A j hj2]
    exact classicalColumns_rec (columnVec A.mdimy A) A.mdimx j hj2

/-- Instance of C21: the matrix `[[3, 1], [4, 1]]`, the entry of row `0` and column `1`. -/
theorem modifiedGramSchmidt_eq_classical_witness :
    ColumnsIndependent exampleMatrix ∧
    MAT_ELEM (modifiedGramSchmidtOrtogonalization Real.sqrt exampleMatrix) 0 1
      = MAT_ELEM (classicalGramSchmidt Real.sqrt exampleMatrix) 0 1 :=
  ⟨exampleMatrix_independent,
    (modifiedGramSchmidt_eq_classical exampleMatrix exampleMatrix_independent).2.2.1 0 1
      (by decide) (by decide)⟩

/-! ## The layout of the weight matrix after a late reduction -/

section LateReduction

variable {α : Type} [LinearOrderedField α]

/-- The writes of one point: the row `j` of its matrix `Pii`, normalised, is found in the row
`index*dp + j` at the columns of its neighbours, for the value of `dp` after its
rank-adaptation step, and the cells outside these rows or outside these columns are left as
they were. -/
theorem processPoint_writes (sqrt : α → α) (nbm : Matrix2D Nat) (k : Nat) (Vpr : Matrix2D α)
    (index : Nat) (s : LoopState α) (N : Nat) (hN : s.weightMatrix.mdimx = N)
    (hlt : ∀ c, c < k → MAT_ELEM nbm index c < N)
    (hinj : ∀ c c2, c < k → c2 < k → MAT_ELEM nbm index c = MAT_ELEM nbm index c2 → c = c2) :
    (∀ j c, j < (processPoint sqrt nbm k Vpr index s).dp → c < k →
      MAT_ELEM (processPoint sqrt nbm k Vpr index s).weightMatrix
          (index * (processPoint sqrt nbm k Vpr index s).dp + j) (MAT_ELEM nbm index c)
        = VEC_ELEM (normaliseRow ((processPoint sqrt nbm k Vpr index s).Pii.getRow j)).1 c) ∧
    (∀ e col, col < N →
      ((∀ j, j < (processPoint sqrt nbm k Vpr index s).dp →
          e ≠ index * (processPoint sqrt nbm k Vpr index s).dp + j) ∨
        ∀ c, c < k → MAT_ELEM nbm index c ≠ col) →
      MAT_ELEM (processPoint sqrt nbm k Vpr index s).weightMatrix e col
        = MAT_ELEM s.weightMatrix e col) := by
  obtain ⟨-, -, fa, fb⟩ := fillWeightMatrix_spec nbm k index
    (processPoint sqrt nbm k Vpr index s).dp (processPoint sqrt nbm k Vpr index s).Pii
    s.weightMatrix (fun c hc => by rw [hN]; exact hlt c hc) hinj
    (processPoint sqrt nbm k Vpr index s).dp
  rw [processPoint_weightMatrix]
  unfold fillWeightMatrix
  exact ⟨fa, fun e col hcol hor => fb e col (by rw [hN]; exact hcol) hor⟩

/-- The number of pairs grows strictly with the dimension. -/
theorem pairs_lt_pairs (c d : Nat) (h : c < d) : c * (c + 1) / 2 < d * (d + 1) / 2 := by
  have h1 := ctAt_closed c c (le_refl c)
  have h2 := ctAt_closed d d (le_refl d)
  rw [ctAt_self] at h1 h2
  have h3 : (c + 1) * (c + 1) ≤ d * d := Nat.mul_le_mul h h
  nlinarith

/-- After a reduction, detected at the point `t` with `c` columns, the dimension stays `c` as
long as no later point has fewer than `c` columns. -/
theorem pointLoop_outputDim_after (sqrt : α → α) (nbm : Matrix2D Nat) (k : Nat)
    (svdVpr : Nat → Matrix2D α) (N d0 t c : Nat)
    (hstart : (pointLoop sqrt nbm k svdVpr N d0 t).outputDim = d0)
    (hc : MAT_XSIZE (svdVpr t) = c) (hred : c < d0)
    (i : Nat) (hti : t ≤ i)
    (hpost : ∀ i2, t < i2 → i2 ≤ i → ¬ MAT_XSIZE (svdVpr i2) < c) :
    (pointLoop sqrt nbm k svdVpr N d0 (i + 1)).outputDim = c := by
  induction i, hti using Nat.le_induction with
  | base =>
    rw [pointLoop_outputDim_succ, hc, hstart]
    exact Nat.min_eq_right (Nat.le_of_lt hred)
  | succ n hn ih =>
    have h1 := ih (fun i2 h1 h2 => hpost i2 h1 (by omega))
    rw [pointLoop_outputDim_succ, h1]
    exact Nat.min_eq_left (Nat.le_of_not_lt (hpost (n + 1) (by omega) (le_refl _)))

/-- C23 (amended): let the first reduction be detected at a point `t ≥ 1`, whose factor has
`c` columns with `1 ≤ c < d0`, so that `dp` goes from `dp_old = d0(d0+1)/2` to
`dp_new = c(c+1)/2` with `1 ≤ dp_new < dp_old`. Then (i) before the point `t` the rows
`i*dp_old + j` of the points `i < t` hold their weights, and after the point `t` they still
do, apart from the cells that the point `t` writes; (ii) every point `i ≥ t` up to which no
further reduction is detected is written at the stride `dp_new`, in the rows `i*dp_new + j`;
(iii) the first row `t*dp_new` of the block of the point `t` is the row `i0*dp_old + j0` of
an earlier point `i0 < t`, and after the point `t` it holds the weights of the point `t` at
the neighbours of `t` and the weights of the point `i0` at those neighbours of `i0` that are
not neighbours of `t`. -/
theorem late_reduction_strides (sqrt : α → α) (nbm : Matrix2D Nat) (k : Nat)
    (svdVpr : Nat → Matrix2D α) (N d0 t c dp_old dp_new : Nat)
    (ht : 1 ≤ t) (htN : t < N)
    (hold : dp_old = d0 * (d0 + 1) / 2) (hnew : dp_new = c * (c + 1) / 2)
    (hpre : ∀ i, i < t → ¬ MAT_XSIZE (svdVpr i) < d0)
    (hc : MAT_XSIZE (svdVpr t) = c) (hred : c < d0) (hpos : 1 ≤ c)
    (hlt : ∀ i cn, i < N → cn < k → MAT_ELEM nbm i cn < N)
    (hinj : ∀ i cn c2, i < N → cn < k → c2 < k →
      MAT_ELEM nbm i cn = MAT_ELEM nbm i c2 → cn = c2) :
    ((pointLoop sqrt nbm k svdVpr N d0 t).dp = dp_old ∧
      (pointLoop sqrt nbm k svdVpr N d0 (t + 1)).dp = dp_new ∧
      1 ≤ dp_new ∧ dp_new < dp_old) ∧
    (∀ i j cn, i < t → j < dp_old → cn < k →
      MAT_ELEM (pointLoop sqrt nbm k svdVpr N d0 t).weightMatrix
          (i * dp_old + j) (MAT_ELEM nbm i cn)
        = VEC_ELEM (normaliseRow
            ((pointLoop sqrt nbm k svdVpr N d0 (i + 1)).Pii.getRow j)).1 cn ∧
      (((∀ j2, j2 < dp_new → i * dp_old + j ≠ t * dp_new + j2) ∨
          ∀ c2, c2 < k → MAT_ELEM nbm t c2 ≠ MAT_ELEM nbm i cn) →
        MAT_ELEM (pointLoop sqrt nbm k svdVpr N d0 (t + 1)).weightMatrix
            (i * dp_old + j) (MAT_ELEM nbm i cn)
          = VEC_ELEM (normaliseRow
              ((pointLoop sqrt nbm k svdVpr N d0 (i + 1)).Pii.getRow j)).1 cn)) ∧
    (∀ i, t ≤ i → i < N →
      (∀ i2, t < i2 → i2 ≤ i → ¬ MAT_XSIZE (svdVpr i2) < c) →
      (pointLoop sqrt nbm k svdVpr N d0 (i + 1)).dp = dp_new ∧
      ∀ j cn, j < dp_new → cn < k →
        MAT_ELEM (pointLoop sqrt nbm k svdVpr N d0 (i + 1)).weightMatrix
            (i * dp_new + j) (MAT_ELEM nbm i cn)
          = VEC_ELEM (normaliseRow
              ((pointLoop sqrt nbm k svdVpr N d0 (i + 1)).Pii.getRow j)).1 cn) ∧
    (∃ i0 j0, i0 < t ∧ j0 < dp_old ∧ t * dp_new = i0 * dp_old + j0 ∧
      (∀ cn, cn < k →
        MAT_ELEM (pointLoop sqrt nbm k svdVpr N d0 (t + 1)).weightMatrix
            (t * dp_new) (MAT_ELEM nbm t cn)
          = VEC_ELEM (normaliseRow
              ((pointLoop sqrt nbm k svdVpr N d0 (t + 1)).Pii.getRow 0)).1 cn) ∧
      (∀ cn, cn < k → (∀ c2, c2 < k → MAT_ELEM nbm t c2 ≠ MAT_ELEM nbm i0 cn) →
        MAT_ELEM (pointLoop sqrt nbm k svdVpr N d0 (t + 1)).weightMatrix
            (t * dp_new) (MAT_ELEM nbm i0 cn)
          = VEC_ELEM (normaliseRow
              ((pointLoop sqrt nbm k svdVpr N d0 (i0 + 1)).Pii.getRow j0)).1 cn)) := by
  obtain ⟨u1, u2, -, -, u5, -⟩ := pointLoop_weights_upTo sqrt nbm k svdVpr N d0 t hpre
    (fun i cn hi hcn => hlt i cn (by omega) hcn)
    (fun i cn c2 hi hcn hc2 => hinj i cn c2 (by omega) hcn hc2)
  -- the dimension after the points `t, ..., i`
  have hdim : ∀ i, t ≤ i →
      (∀ i2, t < i2 → i2 ≤ i → ¬ MAT_XSIZE (svdVpr i2) < c) →
      (pointLoop sqrt nbm k svdVpr N d0 (i + 1)).dp = dp_new := by
    intro i hti hpost
    rw [(pointLoop_dims sqrt nbm k svdVpr N d0 (i + 1)).2,
      pointLoop_outputDim_after sqrt nbm k svdVpr N d0 t c u1 hc hred i hti hpost, hnew]
  have hdpt : (pointLoop sqrt nbm k svdVpr N d0 (t + 1)).dp = dp_new :=
    hdim t (le_refl t) (fun i2 h1 h2 => by omega)
  have hone : 1 ≤ dp_new := by
    rw [hnew]
    have h2 : 1 * (1 + 1) ≤ c * (c + 1) := Nat.mul_le_mul hpos (by omega)
    omega
  have hless : dp_new < dp_old := by
    rw [hnew, hold]; exact pairs_lt_pairs c d0 hred
  -- the writes of the point `i`
  have hw : ∀ i, i < N →
      (∀ j cn, j < (pointLoop sqrt nbm k svdVpr N d0 (i + 1)).dp → cn < k →
        MAT_ELEM (pointLoop sqrt nbm k svdVpr N d0 (i + 1)).weightMatrix
            (i * (pointLoop sqrt nbm k svdVpr N d0 (i + 1)).dp + j) (MAT_ELEM nbm i cn)
          = VEC_ELEM (normaliseRow
              ((pointLoop sqrt nbm k svdVpr N d0 (i + 1)).Pii.getRow j)).1 cn) ∧
      (∀ e col, col < N →
        ((∀ j, j < (pointLoop sqrt nbm k svdVpr N d0 (i + 1)).dp →
            e ≠ i * (pointLoop sqrt nbm k svdVpr N d0 (i + 1)).dp + j) ∨
          ∀ cn, cn < k → MAT_ELEM nbm i cn ≠ col) →
        MAT_ELEM (pointLoop sqrt nbm k svdVpr N d0 (i + 1)).weightMatrix e col
          = MAT_ELEM (pointLoop sqrt nbm k svdVpr N d0 i).weightMatrix e col) := by
    intro i hi
    rw [pointLoop_succ]
    exact processPoint_writes sqrt nbm k (svdVpr i) i (pointLoop sqrt nbm k svdVpr N d0 i) N
      (pointLoop_weightMatrix_dims sqrt nbm k svdVpr N d0 i).1
      (fun cn hcn => hlt i cn hi hcn) (fun cn c2 hcn hc2 => hinj i cn c2 hi hcn hc2)
  obtain ⟨hwa, hwb⟩ := hw t htN
  rw [hdpt] at hwa hwb
  have hrow : t * dp_new < dp_old * t := by
    rw [Nat.mul_comm dp_old t]
    exact Nat.mul_lt_mul_of_pos_left hless (by omega)
  have hpos_old : 0 < dp_old := by omega
  refine ⟨⟨u2.trans hold.symm, hdpt, hone, hless⟩, ?_, ?_, ?_⟩
  · intro i j cn hi hj hcn
    rw [hold] at hj
    have hbefore := u5 i j cn hi hj hcn
    rw [← hold] at hbefore
    refine ⟨hbefore, fun hor => ?_⟩
    rw [hwb (i * dp_old + j) (MAT_ELEM nbm i cn) (hlt i cn (by omega) hcn) hor]
    exact hbefore
  · intro i hti hiN hpost
    have hdpi := hdim i hti hpost
    obtain ⟨ha, -⟩ := hw i hiN
    rw [hdpi] at ha
    exact ⟨hdpi, ha⟩
  · refine ⟨t * dp_new / dp_old, t * dp_new % dp_old, Nat.div_lt_of_lt_mul hrow,
      Nat.mod_lt _ hpos_old, ?_, ?_, ?_⟩
    · rw [Nat.mul_comm (t * dp_new / dp_old) dp_old]
      exact (Nat.div_add_mod (t * dp_new) dp_old).symm
    · intro cn hcn
      have := hwa 0 cn (by omega) hcn
      rw [Nat.add_zero] at this
      exact this
    · intro cn hcn hnot
      have hi0 : t * dp_new / dp_old < t := Nat.div_lt_of_lt_mul hrow
      have hj0 : t * dp_new % dp_old < dp_old := Nat.mod_lt _ hpos_old
      have hdecomp : t * dp_new = t * dp_new / dp_old * dp_old + t * dp_new % dp_old := by
        rw [Nat.mul_comm (t * dp_new / dp_old) dp_old]
        exact (Nat.div_add_mod (t * dp_new) dp_old).symm
      rw [hwb (t * dp_new) (MAT_ELEM nbm (t * dp_new / dp_old) cn)
        (hlt _ cn (by omega) hcn) (Or.inr hnot)]
      have hbefore := u5 (t * dp_new / dp_old) (t * dp_new % dp_old) cn hi0
        (by rw [← hold]; exact hj0) hcn
      rw [← hold, ← hdecomp] at hbefore
      exact hbefore

theorem sharedNeighbours_lt (i cn : Nat) (hi : i < 5) (hcn : cn < 2) :
    MAT_ELEM sharedNeighbours i cn < 5 := by
  interval_cases i <;> interval_cases cn <;> decide

theorem sharedNeighbours_inj (i cn c2 : Nat) (hi : i < 5) (hcn : cn < 2) (hc2 : c2 < 2)
    (h : MAT_ELEM sharedNeighbours i cn = MAT_ELEM sharedNeighbours i c2) : cn = c2 := by
  interval_cases i <;> interval_cases cn <;> interval_cases c2 <;>
    first | rfl | exact absurd h (by decide)

/-- Instance of the amended C23: five points with two neighbours each, the requested
dimension `3`, factors with `3, 2, 2, 2, 1` columns and the identity as square root. The
first reduction is detected at the point `1` and takes `dp` from `6` to `3`; the points
`1, 2, 3` are written at the stride `3`. -/
theorem late_reduction_strides_witness :
    ((pointLoop id sharedNeighbours 2 twiceShrinkingVpr 5 3 1).dp = 6 ∧
      (pointLoop id sharedNeighbours 2 twiceShrinkingVpr 5 3 (1 + 1)).dp = 3 ∧
      1 ≤ 3 ∧ 3 < 6) ∧
    ((pointLoop id sharedNeighbours 2 twiceShrinkingVpr 5 3 (3 + 1)).dp = 3 ∧
      ∀ j cn, j < 3 → cn < 2 →
        MAT_ELEM (pointLoop id sharedNeighbours 2 twiceShrinkingVpr 5 3 (3 + 1)).weightMatrix
            (3 * 3 + j) (MAT_ELEM sharedNeighbours 3 cn)
          = VEC_ELEM (normaliseRow
              ((pointLoop id sharedNeighbours 2 twiceShrinkingVpr 5 3 (3 + 1)).Pii.getRow
                j)).1 cn) :=
  ⟨(late_reduction_strides id sharedNeighbours 2 twiceShrinkingVpr 5 3 1 2 6 3
      (by decide) (by decide) rfl rfl
      (fun i hi => by interval_cases i; decide) rfl (by decide) (by decide)
      sharedNeighbours_lt sharedNeighbours_inj).1,
    (late_reduction_strides id sharedNeighbours 2 twiceShrinkingVpr 5 3 1 2 6 3
      (by decide) (by decide) rfl rfl
      (fun i hi => by interval_cases i; decide) rfl (by decide) (by decide)
      sharedNeighbours_lt sharedNeighbours_inj).2.2.1 3 (by decide) (by decide)
      (fun i2 h1 h2 => by interval_cases i2 <;> decide)⟩

/-- Counterexample to C23 as stated: five points with two neighbours each, the requested
dimension `3` and factors with `3, 2, 2, 2, 1` columns. The first reduction is detected at
the point `1` (`dp` goes from `6` to `3`), and a second one at the point `4` (`dp` goes
from `3` to `1`). The point `4 ≥ 1` is written in the row `4 = 4*1`, not at the stride `3`
in the rows `12, 13, 14`, which no point writes. The point `1` writes the rows `3, 4, 5` at
the columns `2, 3`, which are the cells of these rows written for the point `0`, and in the
end every row has one single owner: the point `0` for the rows `0, 1, 2`, the point `1` for
`3` and `5`, the point `4` for the row `4`, the point `2` for `6, 7, 8` and the point `3` for
`9, 10, 11`; no row holds weights of two different points. -/
theorem second_reduction_changes_stride :
    (pointLoop id sharedNeighbours 2 twiceShrinkingVpr 5 3 1).dp = 6 ∧
    (pointLoop id sharedNeighbours 2 twiceShrinkingVpr 5 3 2).dp = 3 ∧
    (pointLoop id sharedNeighbours 2 twiceShrinkingVpr 5 3 4).dp = 3 ∧
    (pointLoop id sharedNeighbours 2 twiceShrinkingVpr 5 3 5).dp = 1 ∧
    pointWrites id sharedNeighbours 2 twiceShrinkingVpr 5 3 0
      = [(0, 2), (0, 3), (1, 2), (1, 3), (2, 2), (2, 3), (3, 2), (3, 3), (4, 2), (4, 3),
          (5, 2), (5, 3)] ∧
    pointWrites id sharedNeighbours 2 twiceShrinkingVpr 5 3 1
      = [(3, 2), (3, 3), (4, 2), (4, 3), (5, 2), (5, 3)] ∧
    pointWrites id sharedNeighbours 2 twiceShrinkingVpr 5 3 4 = [(4, 2), (4, 3)] ∧
    (List.range 12).map (fun row => (List.range 5).map (fun col =>
        cellOwner id sharedNeighbours 2 twiceShrinkingVpr 5 3 5 (row, col)))
      = [[none, none, some 0, some 0, none], [none, none, some 0, some 0, none],
          [none, none, some 0, some 0, none], [none, none, some 1, some 1, none],
          [none, none, some 4, some 4, none], [none, none, some 1, some 1, none],
          [some 2, some 2, none, none, none], [some 2, some 2, none, none, none],
          [some 2, some 2, none, none, none], [some 3, some 3, none, none, none],
          [some 3, some 3, none, none, none], [some 3, some 3, none, none, none]] ∧
    (∀ row, row < 30 → ∀ col, col < 5 → 12 ≤ row →
      cellOwner id sharedNeighbours 2 twiceShrinkingVpr 5 3 5 (row, col) = none) := by
  refine ⟨by decide, by decide, by decide, by decide, by decide, by decide, by decide,
    by decide, by decide⟩

end LateReduction

/-! ## Runs in which all the factors have the same number of columns -/

section AlignedRuns

variable {α : Type} [LinearOrderedField α]

end AlignedRuns

end HessianLLE

/-! ## The index blocks of the wavelet transform -/

namespace Wavelet

theorem castToInt_intCast (z : Int) : castToInt (z : ℚ) = z := by
  unfold castToInt
  split
  · exact Int.floor_intCast z
  · exact Int.ceil_intCast z

theorem two_zpow_cast (e : Int) (he : 0 ≤ e) : (2 : ℚ) ^ e = (((2 : Int) ^ e.toNat : Int) : ℚ) := by
  obtain ⟨n, rfl⟩ := Int.eq_ofNat_of_zero_le he
  simp

/-- The two values of the macros for an exponent that is not negative. -/
theorem DWT_range (s smax : Int) (hs : s < smax) :
    DWT_Imin s smax '0' = 0 ∧
    DWT_Imax s smax '0' = 2 ^ (smax - s - 1).toNat - 1 ∧
    DWT_Imin s smax '1' = 2 ^ (smax - s - 1).toNat ∧
    DWT_Imax s smax '1' = 2 ^ (smax - s).toNat - 1 := by
  have h1 : (0 : Int) ≤ smax - s - 1 := by omega
  have h2 : (0 : Int) ≤ smax - s := by omega
  refine ⟨?_, ?_, ?_, ?_⟩
  · unfold DWT_Imin
    rw [if_pos rfl]
    exact castToInt_intCast 0
  · unfold DWT_Imax
    rw [if_pos rfl, two_zpow_cast _ h1]
    exact_mod_cast castToInt_intCast (2 ^ (smax - s - 1).toNat - 1)
  · unfold DWT_Imin
    rw [if_neg (by decide), two_zpow_cast _ h1]
    exact castToInt_intCast _
  · unfold DWT_Imax
    rw [if_neg (by decide), two_zpow_cast _ h2]
    exact_mod_cast castToInt_intCast (2 ^ (smax - s).toNat - 1)

/-- C30: for a scale `s < smax` (in particular `0 ≤ s < smax`) the macros select the
inclusive ranges `[0, 2^(smax-s-1) - 1]` for the letter `'0'` and
`[2^(smax-s-1), 2^(smax-s) - 1]` for the letter `'1'`; the two blocks are adjacent, no index
lies in both, each has `2^(smax-s-1)` indices, and together they are the block of the letter
`'0'` of the scale `s - 1`. -/
theorem DWT_blocks (s smax : Int) (hs : s < smax) :
    (DWT_Imin s smax '0' = 0 ∧
      DWT_Imax s smax '0' = 2 ^ (smax - s - 1).toNat - 1 ∧
      DWT_Imin s smax '1' = 2 ^ (smax - s - 1).toNat ∧
      DWT_Imax s smax '1' = 2 ^ (smax - s).toNat - 1) ∧
    DWT_Imax s smax '0' + 1 = DWT_Imin s smax '1' ∧
    (∀ x : Int, ¬ ((DWT_Imin s smax '0' ≤ x ∧ x ≤ DWT_Imax s smax '0') ∧
      (DWT_Imin s smax '1' ≤ x ∧ x ≤ DWT_Imax s smax '1'))) ∧
    DWT_Imax s smax '0' - DWT_Imin s smax '0' + 1 = 2 ^ (smax - s - 1).toNat ∧
    DWT_Imax s smax '1' - DWT_Imin s smax '1' + 1 = 2 ^ (smax - s - 1).toNat ∧
    (∀ x : Int, ((DWT_Imin s smax '0' ≤ x ∧ x ≤ DWT_Imax s smax '0') ∨
        (DWT_Imin s smax '1' ≤ x ∧ x ≤ DWT_Imax s smax '1')) ↔
      (DWT_Imin (s - 1) smax '0' ≤ x ∧ x ≤ DWT_Imax (s - 1) smax '0')) := by
  obtain ⟨a0, a1, a2, a3⟩ := DWT_range s smax hs
  obtain ⟨b0, b1, -, -⟩ := DWT_range (s - 1) smax (by omega)
  have hexp : (smax - s).toNat = (smax - s - 1).toNat + 1 := by omega
  have hexp2 : (smax - (s - 1) - 1).toNat = (smax - s - 1).toNat + 1 := by omega
  have hpow : (2 : Int) ^ (smax - s).toNat = 2 * 2 ^ (smax - s - 1).toNat := by
    rw [hexp, pow_succ, mul_comm]
  have hpow2 : (2 : Int) ^ (smax - (s - 1) - 1).toNat = 2 * 2 ^ (smax - s - 1).toNat := by
    rw [hexp2, pow_succ, mul_comm]
  have hpos : (0 : Int) < 2 ^ (smax - s - 1).toNat := pow_pos (by decide) _
  rw [a0, a1, a2, a3, b0, b1, hpow, hpow2]
  generalize (2 : Int) ^ (smax - s - 1).toNat = p at hpos
  refine ⟨⟨rfl, rfl, rfl, rfl⟩, by omega, fun x => by omega, by omega, by omega,
    fun x => by omega⟩

/-- Instance of C30: the maximum scale `3` and the scale `1`: the blocks are `[0, 1]` and
`[2, 3]`, and the block of the letter `'0'` of the scale `0` is `[0, 3]`. -/
theorem DWT_blocks_witness :
    (1 : Int) < 3 ∧
    (DWT_Imin 1 3 '0' = 0 ∧ DWT_Imax 1 3 '0' = 1 ∧ DWT_Imin 1 3 '1' = 2 ∧
      DWT_Imax 1 3 '1' = 3) ∧
    DWT_Imax 1 3 '0' + 1 = DWT_Imin 1 3 '1' :=
  ⟨by decide, (DWT_blocks 1 3 (by decide)).1, (DWT_blocks 1 3 (by decide)).2.1⟩

end Wavelet

/-! ## The cone weight of `wang_smoothing` -/

namespace VolumeSegment

theorem forLoop_add {M : Type} [AddCommMonoid M] (n : Nat) (c : Nat → M) (init : M) :
    HessianLLE.forLoop n (fun t a => a + c t) init = init + ∑ t in Finset.range n, c t := by
  induction n with
  | zero => simp [HessianLLE.forLoop]
  | succ k ih =>
    rw [HessianLLE.forLoop_succ, ih, Finset.sum_range_succ, add_assoc]

/-- A loop over `int` values that adds a contribution at every value adds their sum. -/
theorem forRange_add {M : Type} [AddCommMonoid M] (lo hi : Int) (c : Int → M) (init : M) :
    forRange lo hi (fun x a => a + c x) init = init + ∑ x in Finset.Ico lo hi, c x := by
  unfold forRange
  rw [forLoop_add (hi - lo).toNat (fun t => c (lo + (t : Int))) init, Int.Ico_eq_finset_map,
    Finset.sum_map]
  rfl

section WangLemmas

variable {α : Type} [LinearOrderedField α]

/-- The quotient of line 188 is `0` for the neighbours that pass the test of line 186, so
the weight is `1 - sqrt(0)`. -/
theorem wangWeight_eq_one (sqrt : α → α) (hsqrt : sqrt 0 = 0) (r2 radius2 : Int)
    (h0 : 0 ≤ r2) (h : r2 < radius2) : wangWeight sqrt r2 radius2 = 1 := by
  unfold wangWeight
  rw [Int.tdiv_eq_zero_of_lt h0 h, Int.cast_zero, hsqrt, sub_zero]

theorem sum_squares_nonneg (a b c : Int) : 0 ≤ a * a + b * b + c * c := by
  nlinarith [mul_self_nonneg a, mul_self_nonneg b, mul_self_nonneg c]

/-- The statements run for a neighbour add `(voxel, 1)` to the pair of the output voxel and
`sumw` when the neighbour passes the test of line 186, and nothing otherwise. -/
theorem wangVisit_add (sqrt : α → α) (hsqrt : sqrt 0 = 0) (V : Volume α)
    (radius2 k i j kp ip jp : Int) (acc : α × α) :
    wangVisit sqrt V radius2 k i j kp ip jp acc
      = acc + (if (kp - k) * (kp - k) + (ip - i) * (ip - i) + (jp - j) * (jp - j) < radius2 ∧
            V.elem kp ip jp > 0
          then (V.elem kp ip jp, 1) else 0) := by
  unfold wangVisit
  by_cases h : (kp - k) * (kp - k) + (ip - i) * (ip - i) + (jp - j) * (jp - j) < radius2 ∧
      V.elem kp ip jp > 0
  · simp only [if_pos h]
    rw [wangWeight_eq_one sqrt hsqrt _ _ (sum_squares_nonneg _ _ _) h.1, one_mul,
      max_eq_right (le_of_lt h.2)]
    rfl
  · simp only [if_neg h]
    rw [add_zero]

theorem ite_add_zero {M : Type} [AddCommMonoid M] (p : Prop) [Decidable p] (a s : M) :
    (if p then a + s else a) = a + (if p then s else 0) := by
  split
  · rfl
  · rw [add_zero]

/-- The three loops add up the contributions of the admitted neighbours. -/
theorem wangWindow_eq_sum (sqrt : α → α) (hsqrt : sqrt 0 = 0) (V : Volume α)
    (radius k i j : Int) :
    wangWindow sqrt V radius k i j
      = ∑ p in wangAdmitted V radius k i j, (V.elem p.1 p.2.1 p.2.2, (1 : α)) := by
  unfold wangWindow wangAdmitted
  simp only [wangVisit_add sqrt hsqrt, @ite_add_zero (α × α) _, @forRange_add (α × α) _,
    zero_add]
  simp only [Finset.sum_filter, Finset.sum_product, Prod.mk_zero_zero, zero_add]
  refine Finset.sum_congr rfl (fun kp _ => ?_)
  by_cases hz : kp > V.startZ ∧ kp < V.finishZ
  · rw [if_pos hz]
    refine Finset.sum_congr rfl (fun ip _ => ?_)
    by_cases hy : ip > V.startY ∧ ip < V.finishY
    · rw [if_pos hy]
      refine Finset.sum_congr rfl (fun jp _ => ?_)
      by_cases hx : jp > V.startX ∧ jp < V.finishX
      · rw [if_pos hx]
        by_cases hc : (kp - k) * (kp - k) + (ip - i) * (ip - i) + (jp - j) * (jp - j)
            < radius * radius ∧ V.elem kp ip jp > 0
        · rw [if_pos hc, if_pos ⟨hz, hy, hx, hc.1, hc.2⟩]
        · rw [if_neg hc, if_neg (fun h => hc ⟨h.2.2.2.1, h.2.2.2.2⟩)]
      · rw [if_neg hx, if_neg (fun h => hx h.2.2.1)]
    · rw [if_neg hy]
      exact (Finset.sum_eq_zero (fun jp _ => if_neg (fun h => hy h.2.1))).symm
  · rw [if_neg hz]
    refine (Finset.sum_eq_zero (fun ip _ => Finset.sum_eq_zero (fun jp _ => ?_))).symm
    exact if_neg (fun h => hz h.1)

end WangLemmas

/-- C29: the quotient `r2 / radius2` of line 188 is a quotient of `int` values, so for
`0 ≤ r2 < radius²` it is `0` and the weight `1 - sqrt(0)` is `1`; hence the value stored in
every output voxel is the sum of the voxels admitted by the tests of the window divided by
their number, and `0` when no voxel is admitted.  This holds for every radius, in particular
for `radius ≥ 1`. -/
theorem wang_smoothing_unweighted_mean {α : Type} [LinearOrderedField α] (sqrt : α → α)
    (hsqrt : sqrt 0 = 0) (V : Volume α) (radius : Int) :
    (∀ r2 : Int, 0 ≤ r2 → r2 < radius * radius →
      wangWeight sqrt r2 (radius * radius) = 1) ∧
    (∀ k i j : Int, wangVoxel sqrt V radius k i j
      = if (wangAdmitted V radius k i j).card = 0 then 0
        else (∑ p in wangAdmitted V radius k i j, V.elem p.1 p.2.1 p.2.2)
          / ((wangAdmitted V radius k i j).card : α)) ∧
    (∀ k i j : Int, V.startZ ≤ k → k ≤ V.finishZ → V.startY ≤ i → i ≤ V.finishY →
      V.startX ≤ j → j ≤ V.finishX →
      (wang_smoothing sqrt V radius).elem k i j
        = if (wangAdmitted V radius k i j).card = 0 then 0
          else (∑ p in wangAdmitted V radius k i j, V.elem p.1 p.2.1 p.2.2)
            / ((wangAdmitted V radius k i j).card : α)) := by
  have hvox : ∀ k i j : Int, wangVoxel sqrt V radius k i j
      = if (wangAdmitted V radius k i j).card = 0 then 0
        else (∑ p in wangAdmitted V radius k i j, V.elem p.1 p.2.1 p.2.2)
          / ((wangAdmitted V radius k i j).card : α) := by
    intro k i j
    unfold wangVoxel
    simp only [wangWindow_eq_sum sqrt hsqrt, Prod.snd_sum, Prod.fst_sum, Finset.sum_const,
      nsmul_eq_mul, mul_one]
    by_cases hc : (wangAdmitted V radius k i j).card = 0
    · rw [if_pos hc, hc, Nat.cast_zero, if_neg (lt_irrefl 0)]
    · rw [if_neg hc, if_pos (Nat.cast_pos.mpr (Nat.pos_of_ne_zero hc))]
  refine ⟨fun r2 h0 h => wangWeight_eq_one sqrt hsqrt r2 _ h0 h, hvox,
    fun k i j h1 h2 h3 h4 h5 h6 => ?_⟩
  rw [← hvox k i j]
  exact if_pos ⟨h1, h2, h3, h4, h5, h6⟩

/-- Instance of C29: the centre voxel of `exampleVolume` for the radius `2`, with the
identity in the place of `sqrt` (only `sqrt(0)` is ever computed). -/
theorem wang_smoothing_unweighted_mean_witness :
    (fun x : ℚ => x) 0 = 0 ∧
    wangWeight (fun x : ℚ => x) 3 (2 * 2) = 1 ∧
    wangVoxel (fun x : ℚ => x) exampleVolume 2 1 1 1
      = if (wangAdmitted exampleVolume 2 1 1 1).card = 0 then 0
        else (∑ p in wangAdmitted exampleVolume 2 1 1 1, exampleVolume.elem p.1 p.2.1 p.2.2)
          / ((wangAdmitted exampleVolume 2 1 1 1).card : ℚ) :=
  ⟨rfl, (wang_smoothing_unweighted_mean (fun x : ℚ => x) rfl exampleVolume 2).1 3
      (by decide) (by decide),
    (wang_smoothing_unweighted_mean (fun x : ℚ => x) rfl exampleVolume 2).2.1 1 1 1⟩

end VolumeSegment

/-! ## The bracketing search of `Prog_segment_prm::segment` -/

namespace VolumeSegment

section SearchLemmas

variable {α : Type} [LinearOrderedField α]

/-- What is recorded for a call: the bracket lies in `[val_min, val_max]` and the threshold
in the bracket. -/
theorem midpoint_between (a b : α) (h : a ≤ b) : a ≤ (a + b) * 0.5 ∧ (a + b) * 0.5 ≤ b := by
  constructor <;> norm_num <;> linarith

/-- The loop started with a bracket of width `(val_max - val_min) / 2^n` after `n` calls is
left after at most `15 - n` further calls. -/
theorem bracketingSearch_terminates (segment_threshold : α → α)
    (voxel_mass val_min val_max : α) (hv : val_min < val_max) (hm : 0 < voxel_mass)
    (fuel : Nat) :
    ∀ (n : Nat) (s : SearchState α), s.calls.length = n →
      (s.th_max - s.th_min) * 2 ^ n = val_max - val_min →
      val_min ≤ s.th_min → s.th_min ≤ s.th_max → s.th_max ≤ val_max →
      (∀ c ∈ s.calls, val_min ≤ c.1 ∧ c.1 ≤ c.2.2.1 ∧ c.2.2.1 ≤ c.2.1 ∧ c.2.1 ≤ val_max) →
      s.ok = false → n ≤ 14 → 15 ≤ n + fuel →
      ∃ s2, bracketingSearch segment_threshold voxel_mass val_min val_max fuel s = some s2 ∧
        n + 1 ≤ s2.calls.length ∧ s2.calls.length ≤ 15 ∧
        (s2.th_max - s2.th_min) * 2 ^ (s2.calls.length - 1) = val_max - val_min ∧
        val_min ≤ s2.th_min ∧ s2.th_min ≤ s2.th_max ∧ s2.th_max ≤ val_max ∧
        (∀ c ∈ s2.calls,
          val_min ≤ c.1 ∧ c.1 ≤ c.2.2.1 ∧ c.2.2.1 ≤ c.2.1 ∧ c.2.1 ≤ val_max) ∧
        (s2.ok = true → ∃ c, s2.calls.getLast? = some c ∧
          |c.2.2.2 - voxel_mass| < 0.001 * voxel_mass) := by
  induction fuel with
  | zero => intro n s _ _ _ _ _ _ _ hn hf; omega
  | succ fuel ih =>
    intro n s hlen hw h1 h2 h3 hc hok hn hf
    obtain ⟨m1, m2⟩ := midpoint_between s.th_min s.th_max h2
    have hcalls : ∀ c ∈ s.calls ++ [(s.th_min, s.th_max, (s.th_min + s.th_max) * 0.5,
        segment_threshold ((s.th_min + s.th_max) * 0.5))],
        val_min ≤ c.1 ∧ c.1 ≤ c.2.2.1 ∧ c.2.2.1 ≤ c.2.1 ∧ c.2.1 ≤ val_max := by
      intro c hcm
      rcases List.mem_append.mp hcm with h | h
      · exact hc c h
      · rw [List.mem_singleton] at h
        subst h
        exact ⟨h1, m1, m2, h3⟩
    have hlen2 : (s.calls ++ [(s.th_min, s.th_max, (s.th_min + s.th_max) * 0.5,
        segment_threshold ((s.th_min + s.th_max) * 0.5))]).length = n + 1 := by
      rw [List.length_append, hlen]
      rfl
    unfold bracketingSearch
    by_cases t1 : |segment_threshold ((s.th_min + s.th_max) * 0.5) - voxel_mass| / voxel_mass
        < 0.001
    · simp only [if_pos t1]
      refine ⟨_, rfl, by rw [hlen2], by rw [hlen2]; omega, by rw [hlen2]; exact hw, h1, h2, h3,
        hcalls, fun _ => ?_⟩
      refine ⟨_, List.getLast?_concat _, ?_⟩
      exact (div_lt_iff₀ hm).mp t1
    · simp only [if_neg t1]
      by_cases t2 : (s.th_max - s.th_min) / (val_max - val_min) < 0.0001
      · simp only [if_pos t2]
        refine ⟨_, rfl, by rw [hlen2], by rw [hlen2]; omega, by rw [hlen2]; exact hw, h1, h2,
          h3, hcalls, fun h => ?_⟩
        rw [hok] at h
        exact absurd h (by decide)
      · simp only [if_neg t2]
        have hW : 0 < val_max - val_min := sub_pos.mpr hv
        have hn13 : n ≤ 13 := by
          by_contra hcon
          have h14 : n = 14 := by omega
          subst h14
          apply t2
          rw [← hw, div_lt_iff₀ (by rw [hw]; exact hW)]
          have hwpos : 0 < s.th_max - s.th_min := by
            by_contra hnp
            have : (s.th_max - s.th_min) * 2 ^ 14 ≤ 0 :=
              mul_nonpos_of_nonpos_of_nonneg (not_lt.mp hnp) (by positivity)
            rw [hw] at this
            exact absurd hW (not_lt.mpr this)
          norm_num
          nlinarith
        by_cases t3 : segment_threshold ((s.th_min + s.th_max) * 0.5) < voxel_mass
        · simp only [if_pos t3]
          obtain ⟨s2, e, r1, r2, r3, r4, r5, r6, r7, r8⟩ := ih (n + 1)
            { s with
              calls := s.calls ++ [(s.th_min, s.th_max, (s.th_min + s.th_max) * 0.5,
                segment_threshold ((s.th_min + s.th_max) * 0.5))]
              th_max := (s.th_min + s.th_max) * 0.5
              mass_max := segment_threshold ((s.th_min + s.th_max) * 0.5) }
            hlen2
            (by
              show ((s.th_min + s.th_max) * 0.5 - s.th_min) * 2 ^ (n + 1) = val_max - val_min
              rw [← hw, pow_succ]
              norm_num
              ring)
            h1 m1 (le_trans m2 h3) hcalls hok (by omega) (by omega)
          exact ⟨s2, e, by omega, r2, r3, r4, r5, r6, r7, r8⟩
        · simp only [if_neg t3]
          obtain ⟨s2, e, r1, r2, r3, r4, r5, r6, r7, r8⟩ := ih (n + 1)
            { s with
              calls := s.calls ++ [(s.th_min, s.th_max, (s.th_min + s.th_max) * 0.5,
                segment_threshold ((s.th_min + s.th_max) * 0.5))]
              th_min := (s.th_min + s.th_max) * 0.5
              mass_min := segment_threshold ((s.th_min + s.th_max) * 0.5) }
            hlen2
            (by
              show (s.th_max - (s.th_min + s.th_max) * 0.5) * 2 ^ (n + 1) = val_max - val_min
              rw [← hw, pow_succ]
              norm_num
              ring)
            (le_trans h1 m1) m2 h3 hcalls hok (by omega) (by omega)
          exact ⟨s2, e, by omega, r2, r3, r4, r5, r6, r7, r8⟩

end SearchLemmas

/-- C28: with neither `-otsu` nor `-threshold`, for `val_max > val_min` and
`voxel_mass > 0`, the bracketing search is left after at least one and at most `15` calls of
`segment_threshold` (any bound of at least `15` iterations gives the result).  The bracket
is halved at every iteration: after `c` calls its width is `(val_max - val_min) / 2^(c-1)`.
At every call and at the end `val_min ≤ th_min ≤ th_max ≤ val_max`, and `ok` is set only
when the mass of the last call is within `0.1%` of `voxel_mass`. -/
theorem segment_search_terminates {α : Type} [LinearOrderedField α]
    (segment_threshold : α → α) (threshold voxel_mass val_min val_max size : α) (fuel : Nat)
    (hv : val_min < val_max) (hm : 0 < voxel_mass) (hf : 15 ≤ fuel) :
    ∃ s, segment segment_threshold false false threshold voxel_mass val_min val_max size fuel
        = some s ∧
      1 ≤ s.calls.length ∧ s.calls.length ≤ 15 ∧
      (s.th_max - s.th_min) * 2 ^ (s.calls.length - 1) = val_max - val_min ∧
      val_min ≤ s.th_min ∧ s.th_min ≤ s.th_max ∧ s.th_max ≤ val_max ∧
      (∀ c ∈ s.calls, val_min ≤ c.1 ∧ c.1 ≤ c.2.2.1 ∧ c.2.2.1 ≤ c.2.1 ∧ c.2.1 ≤ val_max) ∧
      (s.ok = true → ∃ c, s.calls.getLast? = some c ∧
        |c.2.2.2 - voxel_mass| < 0.001 * voxel_mass) := by
  have key := bracketingSearch_terminates segment_threshold voxel_mass val_min val_max hv hm
    fuel 0
    { th_min := val_min, th_max := val_max, mass_min := size, mass_max := 1, ok := false,
      calls := [] }
    rfl (by rw [pow_zero, mul_one]) (le_refl _) (le_of_lt hv) (le_refl _)
    (fun c hc => absurd hc (List.not_mem_nil c)) rfl (by omega) (by omega)
  exact key

/-- Instance of C28: a volume with values in `[0, 1]`, the mass `8` wanted, and a
`segment_threshold` that returns `8` for every threshold: one call, at the threshold
`1/2`. -/
theorem segment_search_terminates_witness :
    ((0 : ℚ) < 1 ∧ (0 : ℚ) < 8 ∧ 15 ≤ 15) ∧
    ∃ s, segment (fun _ : ℚ => 8) false false 0 8 0 1 27 15 = some s ∧
      1 ≤ s.calls.length ∧ s.calls.length ≤ 15 ∧
      (s.th_max - s.th_min) * 2 ^ (s.calls.length - 1) = 1 - 0 ∧
      0 ≤ s.th_min ∧ s.th_min ≤ s.th_max ∧ s.th_max ≤ 1 ∧
      (∀ c ∈ s.calls, 0 ≤ c.1 ∧ c.1 ≤ c.2.2.1 ∧ c.2.2.1 ≤ c.2.1 ∧ c.2.1 ≤ 1) ∧
      (s.ok = true → ∃ c, s.calls.getLast? = some c ∧ |c.2.2.2 - 8| < 0.001 * 8) :=
  ⟨⟨by decide, by decide, le_refl 15⟩,
    segment_search_terminates (fun _ : ℚ => 8) 0 8 0 1 27 15 (by decide) (by decide)
      (le_refl 15)⟩

end VolumeSegment
